import Mathlib

/-!
The dead-channel map, the hit-efficiency estimators and the region classifiers of hit_analyzer.

A shallow embedding of the dead-channel loader and of the efficiency estimators of
`hit_analyzer.C` and `event_info_viewer.C`, of `dead_wires.C` (wire ranges, histograms,
detection of dead wires, writer of `dead_channels.csv`, progress counter), of the row loader
of `hit_plotter.C`, of the classifiers and of `process_hits` of `hit_split_regions_mc.C`, and
of the region labels of `plot_split_regions.C`.

Conventions of the embedding.
* `unsigned short` values are natural numbers; arithmetic on an `unsigned short` variable is
  reduced modulo 65536 where the source can wrap.
* Counters of type `int` or `Long64_t` that count elements of a vector or entries of the data
  frame are natural numbers; a counter that a loop can drive past `INT_MAX` is checked against
  `INT_MAX`, and a product that can leave `Long64_t` is checked against its range.
* `std::string` is `List Char`; characters are compared through their code points. A file is
  its text, or `none` when it does not open.
* `std::set<T>` is the strictly increasing list of its elements (its iteration order), and
  `std::map<int, V>` the list of its entries in increasing key order.
* A finite `float` value is the rational it denotes, and a `float` literal stands for its
  binary32 value (`binary32`, rounding to nearest with ties to even). The coordinates given to
  the classifiers are of type `Flt`, a rational or NaN.
* The estimators `calculate_plane_efficiency`, `efficiency_values` and `process_hits` are
  embedded with exact arithmetic on these rationals. The lambda of `event_info_viewer` is also
  embedded with binary32 arithmetic, as `calculate_plane_efficiency_float`: every sum and
  quotient is rounded (`F32.round`), and a result is of type `F32`, a rational, an infinity or
  NaN.
* The text that `operator<<` writes for a `float` and the function `std::stof` are embedded as
  `ostream_float` (the conversion `%g` with precision 6) and `stof` (`strtof` of the C library
  of x86-64 Linux with the range test of the C++ library); the row writer `csvRow` and the row
  loader `plotterParseRow` take them as arguments.
* A histogram `TH1F` of the histogram library is the list of its bin contents, with the bin
  search of an axis of equal bins.
* A function that contains a counting loop takes a `fuel` argument (the number of loop tests it
  may perform) and returns `none` when the loop has not exited within the fuel or when the
  `int` counter would overflow (undefined behaviour).
* A vector read at an index is a list read at a position; where the claim is about the reads
  themselves, the read is checked against the size of the vector.
-/

namespace HitAnalyzer

/-! ## Text parsing: `std::getline` with a delimiter and `std::stoi` -/

/-- Conversion of an `int` to `unsigned short` (reduction modulo 65536). -/
def toUShort (i : Int) : Nat := (i % 65536).toNat

/-- The C-locale `isspace`: space, and the control characters 9 to 13. -/
def isspace (c : Char) : Bool := c.toNat == 32 || (9 ≤ c.toNat && c.toNat ≤ 13)

/-- The C-locale `isdigit`. -/
def isdigit (c : Char) : Bool := 48 ≤ c.toNat && c.toNat ≤ 57

/-- Value of a run of decimal digits, most significant first. -/
def digitsValue (ds : List Char) : Nat :=
  ds.foldl (fun acc c => 10 * acc + (c.toNat - 48)) 0

/-- Optional sign accepted by `strtol`: returns whether the number is negated and the rest. -/
def stripSign : List Char → Bool × List Char
  | [] => (false, [])
  | c :: r =>
    if c.toNat = 45 then (true, r)
    else if c.toNat = 43 then (false, r)
    else (false, c :: r)

/-- The function `std::stoi(str)` in base 10: leading whitespace is skipped, one optional sign is
read, then the longest run of digits; what follows the digits is ignored. `none` stands for a
thrown exception: `invalid_argument` when there is no digit, `out_of_range` when the value does
not fit an `int`. -/
def stoi (s : List Char) : Option Int :=
  let sb := stripSign (s.dropWhile isspace)
  let ds := sb.2.takeWhile isdigit
  if ds.isEmpty then none
  else
    let v : Int := if sb.1 then -(digitsValue ds : Int) else (digitsValue ds : Int)
    if -2147483648 ≤ v ∧ v ≤ 2147483647 then some v else none

/-- One call `std::getline(ss, field, delim)`: the characters before the first delimiter, and the
rest of the stream after that delimiter. At end of input the field is empty. -/
def getlineUntil (delim : Nat) (s : List Char) : List Char × List Char :=
  (s.takeWhile (fun c => c.toNat != delim), (s.dropWhile (fun c => c.toNat != delim)).drop 1)

/-! ## `std::set` as a strictly increasing list -/

/-- The call `std::set::insert` with comparator `lt`: the element is placed in order, and an
element equivalent to one already present is not inserted. -/
def setInsert {α : Type} (lt : α → α → Bool) (a : α) : List α → List α
  | [] => [a]
  | b :: r =>
    if lt a b then a :: b :: r
    else if lt b a then b :: setInsert lt a r
    else b :: r

/-- The test `s.find(a) != s.end()`: some element is equivalent to `a` under the comparator. -/
def setFind {α : Type} (lt : α → α → Bool) (a : α) (s : List α) : Bool :=
  s.any (fun b => !lt a b && !lt b a)

/-- The range constructor `std::set<T>(first, last)`: inserts the elements one by one. -/
def setOfList {α : Type} (lt : α → α → Bool) (xs : List α) : List α :=
  xs.foldl (fun s a => setInsert lt a s) []

/-- A dead-channel key `(wire, plane, tpc)`. -/
abbrev ChannelKey := Nat × Nat × Nat

/-- The lexicographic order of `std::tuple<unsigned short, unsigned short, unsigned short>`. -/
def keyLt (a b : ChannelKey) : Bool :=
  decide (a.1 < b.1) ||
    (a.1 == b.1 && (decide (a.2.1 < b.2.1) || (a.2.1 == b.2.1 && decide (a.2.2 < b.2.2))))

/-- The order of `unsigned short`. -/
def wireLt (a b : Nat) : Bool := decide (a < b)

/-! ## The dead-channel loader (identical in `hit_analyzer`, `event_info_viewer` and
`hit_split_regions_mc`) -/

/-- The body of the `try` block for one line: the three fields are split at commas, each is
converted with `std::stoi` and then to `unsigned short`. `none` when a conversion throws. -/
def parseDeadRow (line : List Char) : Option ChannelKey :=
  let f1 := getlineUntil 44 line
  let f2 := getlineUntil 44 f1.2
  let f3 := getlineUntil 44 f2.2
  match stoi f1.1, stoi f2.1, stoi f3.1 with
  | some w, some p, some t => some (toUShort w, toUShort p, toUShort t)
  | _, _, _ => none

/-- One iteration of the `while (std::getline(dead_csv, line))` loop. -/
def loadStep (dead : List ChannelKey) (line : List Char) : List ChannelKey :=
  match parseDeadRow line with
  | some k => setInsert keyLt k dead
  | none => dead

/-- The loader applied to the data lines that follow the header. -/
def load_dead_channels (rows : List (List Char)) : List ChannelKey :=
  rows.foldl loadStep []

/-- The lookup `dead_channels.find({wire, plane, tpc}) != dead_channels.end()`. -/
def isDead (dead : List ChannelKey) (wire plane tpc : Nat) : Bool :=
  setFind keyLt (wire, plane, tpc) dead

/-- Reading of "the field is an integer": an optional sign followed by one or more decimal
digits and nothing else. -/
def isIntegerText (s : List Char) : Bool :=
  let body := (stripSign s).2
  !body.isEmpty && body.all isdigit

/-! ## Quality gates shared by the estimators -/

/-- The helper `has_large_holes`: some consecutive pair of the sorted wires differs by more
than 11. The subtraction is done on `int` after integral promotion. -/
def has_large_holes : List Nat → Bool
  | [] => false
  | [_] => false
  | a :: b :: r => if (b : Int) - (a : Int) > 11 then true else has_large_holes (b :: r)

/-- The call `std::sort(v.begin(), v.end())` on `unsigned short` values. -/
def std_sort (v : List Nat) : List Nat := v.insertionSort (fun a b => a ≤ b)

/-- The loop `for (unsigned short wire = min_wire; wire <= max_wire; ++wire)` that increments the
`int` counter for every wire whose key is not in the dead-channel set. The loop variable wraps at
65536. `fuel` bounds the number of loop tests; `none` when the loop has not exited within the fuel
or when the counter would pass `INT_MAX`. -/
def countNonDead (dead : List ChannelKey) (plane tpc_id max_wire : Nat) :
    Nat → Nat → Nat → Option Nat
  | 0, _, _ => none
  | fuel + 1, wire, n =>
    if wire ≤ max_wire then
      if isDead dead wire plane tpc_id then
        countNonDead dead plane tpc_id max_wire fuel ((wire + 1) % 65536) n
      else if n < 2147483647 then
        countNonDead dead plane tpc_id max_wire fuel ((wire + 1) % 65536) (n + 1)
      else none
    else some n

/-- The accumulation of `sum_pitch` and `n_valid_pitches` over the pitches `p > 0`, in exact
arithmetic; `pitchAccum_float` rounds every sum to binary32. -/
def pitchAccum (pitches : List ℚ) : ℚ × Nat :=
  pitches.foldl (fun s p => if p > 0 then (s.1 + p, s.2 + 1) else s) (0, 0)

/-- The computation of `avg_pitch` in exact arithmetic: 0 for an empty vector or when no pitch
is positive; `averagePitch_float` rounds the sums and the quotient to binary32. -/
def averagePitch (pitches : List ℚ) : ℚ :=
  if pitches.isEmpty then 0
  else
    let acc := pitchAccum pitches
    if acc.2 > 0 then acc.1 / (acc.2 : ℚ) else 0

/-! ## `event_info_viewer`: `calculate_plane_efficiency` -/

/-- A hit kept by the validity filter: the entries pushed to `valid_wires`, `valid_pitches` and
`valid_tpcs` in the same iteration. -/
structure ValidHit where
  wire : Nat
  pitch : ℚ
  tpc : Nat
deriving DecidableEq, Repr

/-- The filter loop of `calculate_plane_efficiency`: it runs while the index is inside all four
vectors and keeps the on-trajectory hits with `pitch > 0` whose channel is not dead. -/
def validHits (dead : List ChannelKey) (plane : Int) :
    List Nat → List ℚ → List Nat → List Bool → List ValidHit
  | w :: ws, p :: ps, t :: ts, o :: os =>
    if o && decide (p > 0) && !isDead dead w (toUShort plane) t then
      ValidHit.mk w p t :: validHits dead plane ws ps ts os
    else validHits dead plane ws ps ts os
  | _, _, _, _ => []

/-- The inner loop over the valid hits for one `tpc_id`: updates `(min_wire, max_wire,
unique_hit_wires)` with every valid hit of that TPC. -/
def scanTpc (tpc_id : Nat) (valid : List ValidHit) (st : Nat × Nat × List Nat) :
    Nat × Nat × List Nat :=
  valid.foldl (fun s h =>
    if h.tpc = tpc_id then (min s.1 h.wire, max s.2.1 h.wire, setInsert wireLt h.wire s.2.2)
    else s) st

/-- One iteration of `for (unsigned short tpc_id : unique_tpcs)` on the state
`(n_non_dead_wires, unique_hit_wires)`. -/
def tpcStep (fuel : Nat) (dead : List ChannelKey) (plane : Nat) (valid : List ValidHit)
    (st : Nat × List Nat) (tpc_id : Nat) : Option (Nat × List Nat) :=
  let r := scanTpc tpc_id valid (65535, 0, st.2)
  if r.1 ≤ r.2.1 then
    (countNonDead dead plane tpc_id r.2.1 fuel r.1 st.1).map (fun n => (n, r.2.2))
  else some (st.1, r.2.2)

/-- The loop `for (unsigned short tpc_id : unique_tpcs)`. -/
def tpcLoop (fuel : Nat) (dead : List ChannelKey) (plane : Nat) (valid : List ValidHit) :
    List Nat → Nat × List Nat → Option (Nat × List Nat)
  | [], st => some st
  | t :: ts, st =>
    match tpcStep fuel dead plane valid st t with
    | none => none
    | some st2 => tpcLoop fuel dead plane valid ts st2

/-- The sentinel pair `{-1.0f, -1.0f}`. -/
def sentinel : ℚ × ℚ := (-1, -1)

/-- The lambda `calculate_plane_efficiency` of `event_info_viewer.C`, with the captured
`has_dead_channels` and `dead_channels` as arguments. `none` when a counting loop does not
return. The two quotients are exact; `calculate_plane_efficiency_float` computes them in
binary32 arithmetic behind the same gates. -/
def calculate_plane_efficiency (fuel : Nat) (has_dead_channels : Bool)
    (dead : List ChannelKey) (wires : List Nat) (pitches : List ℚ) (tpcs : List Nat)
    (ontraj : List Bool) (plane : Int) : Option (ℚ × ℚ) :=
  if !has_dead_channels || wires.isEmpty then some sentinel
  else
    let valid := validHits dead plane wires pitches tpcs ontraj
    if valid.length < 25 then some sentinel
    else
      let unique_wires := setOfList wireLt (valid.map ValidHit.wire)
      let sorted_wires := std_sort unique_wires
      if has_large_holes sorted_wires then some sentinel
      else
        let unique_tpcs := setOfList wireLt (valid.map ValidHit.tpc)
        match tpcLoop fuel dead (toUShort plane) valid unique_tpcs (0, []) with
        | none => none
        | some st =>
          if st.1 < 25 then some sentinel
          else
            let efficiency : ℚ :=
              if st.1 > 0 then min ((st.2.length : ℚ) / (st.1 : ℚ)) 1 else 0
            some (efficiency, averagePitch (valid.map ValidHit.pitch))

/-! ## `hit_analyzer`: the valid-hit columns and `calculate_efficiency` -/

/-- The column `valid_wiresN`: wires of the hits that are on trajectory, have
`pitch != -1` and whose `(wire, per-hit plane, tpc)` is not dead. -/
def valid_wires (dead : List ChannelKey) :
    List Nat → List Nat → List Nat → List Bool → List ℚ → List Nat
  | w :: ws, pl :: pls, t :: ts, o :: os, p :: ps =>
    if o && decide (p ≠ -1) && !isDead dead w pl t then
      w :: valid_wires dead ws pls ts os ps
    else valid_wires dead ws pls ts os ps
  | _, _, _, _, _ => []

/-- The column `valid_pitchesN`, with the same test as `valid_wires`. -/
def valid_pitches (dead : List ChannelKey) :
    List Nat → List Nat → List Nat → List Bool → List ℚ → List ℚ
  | w :: ws, pl :: pls, t :: ts, o :: os, p :: ps =>
    if o && decide (p ≠ -1) && !isDead dead w pl t then
      p :: valid_pitches dead ws pls ts os ps
    else valid_pitches dead ws pls ts os ps
  | _, _, _, _, _ => []

/-- The column `valid_tpcsN`, with the same test as `valid_wires`. -/
def valid_tpcs (dead : List ChannelKey) :
    List Nat → List Nat → List Nat → List Bool → List ℚ → List Nat
  | w :: ws, pl :: pls, t :: ts, o :: os, p :: ps =>
    if o && decide (p ≠ -1) && !isDead dead w pl t then
      t :: valid_tpcs dead ws pls ts os ps
    else valid_tpcs dead ws pls ts os ps
  | _, _, _, _, _ => []

/-- One row of the efficiency CSV:
`TrackID,Plane,TPC,TrackLength,ValidHits,NonDeadWires,Efficiency,AvgPitch`. -/
structure EffRow where
  trk_id : Int
  plane : Int
  tpc : Nat
  track_length : ℚ
  validHits : Nat
  nonDeadWires : Nat
  efficiency : ℚ
  avgPitch : ℚ
deriving DecidableEq, Repr

/-- The loop that fills `unique_hit_wires` with the wires not dead for `(plane, tpc_id)`. -/
def uniqueHitWires (dead : List ChannelKey) (plane tpc_id : Nat) (wires : List Nat) : List Nat :=
  wires.foldl (fun s w => if isDead dead w plane tpc_id then s else setInsert wireLt w s) []

/-- The values computed by `calculate_efficiency` of `hit_analyzer.C` before the statistics
block. Outer `none`: the counting loop does not return. Inner `none`: the lambda returned at one
of its gates. -/
def efficiency_values (fuel : Nat) (dead : List ChannelKey) (trk_id : Int) (track_length : ℚ)
    (wires : List Nat) (pitches : List ℚ) (tpcs : List Nat) (plane : Int) :
    Option (Option EffRow) :=
  if wires.isEmpty then some none
  else
    let unique_wires := setOfList wireLt wires
    if unique_wires.length < 25 then some none
    else
      let sorted_wires := std_sort unique_wires
      if has_large_holes sorted_wires then some none
      else
        let min_wire := sorted_wires.headD 0
        let max_wire := sorted_wires.getLastD 0
        let tpc_id := tpcs.headD 0
        match countNonDead dead (toUShort plane) tpc_id max_wire fuel min_wire 0 with
        | none => none
        | some n_non_dead_wires =>
          if n_non_dead_wires < 25 then some none
          else
            let n_valid_hits := (uniqueHitWires dead (toUShort plane) tpc_id wires).length
            let efficiency : ℚ :=
              if n_non_dead_wires > 0 then (n_valid_hits : ℚ) / (n_non_dead_wires : ℚ) else 0
            some (some (EffRow.mk trk_id plane tpc_id track_length n_valid_hits
              n_non_dead_wires efficiency (averagePitch pitches)))

/-- The lambda `calculate_efficiency` of `hit_analyzer.C` seen through the CSV: the row it
writes, which it does only when `avg_pitch > 0`. Outer `none`: it does not return. -/
def calculate_efficiency (fuel : Nat) (dead : List ChannelKey) (trk_id : Int) (track_length : ℚ)
    (wires : List Nat) (pitches : List ℚ) (tpcs : List Nat) (plane : Int) :
    Option (Option EffRow) :=
  match efficiency_values fuel dead trk_id track_length wires pitches tpcs plane with
  | none => none
  | some none => some none
  | some (some row) => if row.avgPitch > 0 then some (some row) else some none

/-! ## Quantities named by the specification -/

/-- The number of wires of `[lo, hi]` that are not dead for `(plane, tpc)`. -/
def liveInRange (dead : List ChannelKey) (plane tpc lo hi : Nat) : Nat :=
  ((List.range' lo (hi + 1 - lo)).filter (fun w => !isDead dead w plane tpc)).length

/-- The arithmetic mean of the strictly positive values of a list, 0 if there are none. -/
def meanOfPositive (ps : List ℚ) : ℚ :=
  if ps.filter (fun p => decide (p > 0)) = [] then 0
  else (ps.filter (fun p => decide (p > 0))).sum /
    ((ps.filter (fun p => decide (p > 0))).length : ℚ)

/-- The wire numbers of the valid hits of TPC `t`, in input order. -/
def tpcWires (valid : List ValidHit) (t : Nat) : List Nat :=
  (valid.filter (fun h => decide (h.tpc = t))).map ValidHit.wire

/-- The value of `min_wire` after the scan of the valid hits of TPC `t`. -/
def tpcMinWire (valid : List ValidHit) (t : Nat) : Nat := (tpcWires valid t).foldl min 65535

/-- The value of `max_wire` after the scan of the valid hits of TPC `t`. -/
def tpcMaxWire (valid : List ValidHit) (t : Nat) : Nat := (tpcWires valid t).foldl max 0

/-- Two consecutive entries of the sorted distinct values of `ws` differ by more than 11: two
members more than 11 apart with no member strictly between them. -/
def hasGap (ws : List Nat) : Prop :=
  ∃ a ∈ ws, ∃ b ∈ ws, a + 11 < b ∧ ∀ c ∈ ws, ¬ (a < c ∧ c < b)

/-- The arithmetic mean of all values of a list. -/
def meanOfAll (ps : List ℚ) : ℚ := ps.sum / (ps.length : ℚ)

/-! ## Text files: lines, and the loaders started from a file that may not open -/

/-- The lines that successive calls `std::getline(stream, line)` return on the text that
remains, `cur` being the part of the current line already read: a line ends at a newline, and
an unterminated last line is returned when it is not empty. -/
def getlinesAux : List Char → List Char → List (List Char)
  | [], cur => if cur.isEmpty then [] else [cur]
  | c :: r, cur => if c.toNat = 10 then cur :: getlinesAux r [] else getlinesAux r (cur ++ [c])

/-- All the lines of a text, as read by `while (std::getline(stream, line))`. -/
def getlines (text : List Char) : List (List Char) := getlinesAux text []

/-- The dead-channel set of `hit_analyzer` (and of `hit_split_regions_mc`): when
`dead_channels.csv` does not open (`none`) the set stays empty; otherwise the first line is
skipped as the header and the remaining lines are loaded. -/
def analyzer_dead_channels (file : Option (List Char)) : List ChannelKey :=
  match file with
  | none => []
  | some text => load_dead_channels ((getlines text).drop 1)

/-- The pair `(has_dead_channels, dead_channels)` of `display_event_info`. -/
def viewer_dead_channels (file : Option (List Char)) : Bool × List ChannelKey :=
  match file with
  | none => (false, [])
  | some text => (true, load_dead_channels ((getlines text).drop 1))

/-- The test `if (efficiency >= 0)` under which `display_event_info` prints the efficiency. -/
def efficiency_reported (r : ℚ × ℚ) : Bool := decide (r.1 ≥ 0)

/-- The loop `while (std::getline(fileList, line)) if (!line.empty()) push_back(line)` over the
lines of a file list. -/
def load_file_list (lines : List (List Char)) : List (List Char) :=
  lines.foldl (fun filenames line => if !line.isEmpty then filenames ++ [line] else filenames) []

/-! ## Decimal output of integers -/

/-- The decimal digits of `n`, most significant first, put in front of `acc`; `fuel` bounds the
number of digits. -/
def decDigitsAux : Nat → Nat → List Char → List Char
  | 0, _, acc => acc
  | fuel + 1, n, acc =>
    if n < 10 then Char.ofNat (48 + n) :: acc
    else decDigitsAux fuel (n / 10) (Char.ofNat (48 + n % 10) :: acc)

/-- The text that `operator<<` writes for a non-negative integer. -/
def printNat (n : Nat) : List Char := decDigitsAux (n + 1) n []

/-- The text that `operator<<` writes for an `int`. -/
def printInt (i : Int) : List Char :=
  if i < 0 then Char.ofNat 45 :: printNat i.natAbs else printNat i.toNat

/-! ## `dead_wires`: the writer of `dead_channels.csv` -/

/-- One loop `for (auto ch : dead_channels_tpcT_planeP) dead_file_tpc << ch << ",P,T\n"`,
appending to the text written so far. -/
def writeDeadEntries (out : List Char) (chs : List Int) (suffix : List Char) : List Char :=
  chs.foldl (fun o ch => o ++ printInt ch ++ suffix) out

/-- The text written to `dead_channels.csv` from the six vectors of dead wire numbers. -/
def dead_wires_csv (tpc0_plane0 tpc0_plane1 tpc0_plane2 tpc1_plane0 tpc1_plane1 tpc1_plane2 :
    List Int) : List Char :=
  let o0 := String.toList "Wire,Plane,TPC\n"
  let o1 := writeDeadEntries o0 tpc0_plane0 (String.toList ",0,0\n")
  let o2 := writeDeadEntries o1 tpc0_plane1 (String.toList ",1,0\n")
  let o3 := writeDeadEntries o2 tpc0_plane2 (String.toList ",2,0\n")
  let o4 := writeDeadEntries o3 tpc1_plane0 (String.toList ",0,1\n")
  let o5 := writeDeadEntries o4 tpc1_plane1 (String.toList ",1,1\n")
  writeDeadEntries o5 tpc1_plane2 (String.toList ",2,1\n")

/-- The triples `(wire, plane, tpc)` that `dead_wires` writes, in file order. -/
def writtenTriples (tpc0_plane0 tpc0_plane1 tpc0_plane2 tpc1_plane0 tpc1_plane1 tpc1_plane2 :
    List Int) : List ChannelKey :=
  tpc0_plane0.map (fun w => (w.toNat, 0, 0)) ++ tpc0_plane1.map (fun w => (w.toNat, 1, 0)) ++
  tpc0_plane2.map (fun w => (w.toNat, 2, 0)) ++ tpc1_plane0.map (fun w => (w.toNat, 0, 1)) ++
  tpc1_plane1.map (fun w => (w.toNat, 1, 1)) ++ tpc1_plane2.map (fun w => (w.toNat, 2, 1))

/-! ## The efficiency CSV: the row written by `hit_analyzer` and the loader of `hit_plotter` -/

/-- The line `csv_out << trk_id << "," << plane << "," << tpc_id << "," << track_length << ","
<< n_valid_hits << "," << n_non_dead_wires << "," << efficiency << "," << avg_pitch`, without
its final newline. The text that `operator<<` writes for a `float` is the argument `fmt`; its
embedding is `ostream_float` below. -/
def csvRow (fmt : ℚ → List Char) (row : EffRow) : List Char :=
  printInt row.trk_id ++ Char.ofNat 44 :: (printInt row.plane ++ Char.ofNat 44 ::
    (printNat row.tpc ++ Char.ofNat 44 :: (fmt row.track_length ++ Char.ofNat 44 ::
      (printNat row.validHits ++ Char.ofNat 44 :: (printNat row.nonDeadWires ++ Char.ofNat 44 ::
        (fmt row.efficiency ++ Char.ofNat 44 :: fmt row.avgPitch))))))

/-- The eight fields that the loader of `hit_plotter` splits from a line with
`std::getline(ss, field, (comma))`. -/
def plotterFields (line : List Char) : List (List Char) :=
  let f1 := getlineUntil 44 line
  let f2 := getlineUntil 44 f1.2
  let f3 := getlineUntil 44 f2.2
  let f4 := getlineUntil 44 f3.2
  let f5 := getlineUntil 44 f4.2
  let f6 := getlineUntil 44 f5.2
  let f7 := getlineUntil 44 f6.2
  let f8 := getlineUntil 44 f7.2
  [f1.1, f2.1, f3.1, f4.1, f5.1, f6.1, f7.1, f8.1]

/-- The `try` block of the loader of `hit_plotter` for one line: `plane` from the field
`plane_str`, `efficiency` from `eff_str`, `avg_pitch` from `pitch_str`; `none` when a conversion
throws and the warning is printed. The function `std::stof` of the standard library is the
argument `stof`, with values in `F`; its embedding is `stof` below. -/
def plotterParseRow {F : Type} (stof : List Char → Option F) (line : List Char) :
    Option (Int × F × F) :=
  let f := plotterFields line
  match stoi (f.getD 1 []), stof (f.getD 6 []), stof (f.getD 7 []) with
  | some plane, some efficiency, some avg_pitch => some (plane, efficiency, avg_pitch)
  | _, _, _ => none

/-! ## `hit_split_regions_mc`: the region classifiers -/

/-- A `float` coordinate: a rational value, or NaN, for which every comparison is false. -/
inductive Flt where
  | nan : Flt
  | val (q : ℚ) : Flt
deriving DecidableEq

/-- The comparison `x >= c` of a coordinate with a finite constant. -/
def Flt.ge (x : Flt) (c : ℚ) : Bool :=
  match x with
  | Flt.nan => false
  | Flt.val q => decide (q ≥ c)

/-- The comparison `x <= c` of a coordinate with a finite constant. -/
def Flt.le (x : Flt) (c : ℚ) : Bool :=
  match x with
  | Flt.nan => false
  | Flt.val q => decide (q ≤ c)

/-- The comparison `x < c` of a coordinate with a finite constant. -/
def Flt.lt (x : Flt) (c : ℚ) : Bool :=
  match x with
  | Flt.nan => false
  | Flt.val q => decide (q < c)

/-- The structure `TPCRegion`. -/
structure TPCRegion where
  name : String
  y_min : ℚ
  y_max : ℚ
  z_min : ℚ
  z_max : ℚ
  tpc_id : Int
deriving DecidableEq

/-- The vector `regions`: 4 boxes per TPC. The bounds are the binary32 values of the `float`
literals of the source (`float_literal_values`): `203.732f = 3337945 / 16384`,
`5.68434e-14f = 8388605 / 2^67`, `244.7f = 16036659 / 65536`, `264.7f = 4336845 / 16384` and
`500.1f = 16387277 / 32768`; `0.0f` is 0. -/
def regions : List TPCRegion :=
  [ TPCRegion.mk "TPC0_00" (-(3337945 / 16384)) 0 (-(8388605 / 2 ^ 67)) (16036659 / 65536) 0,
    TPCRegion.mk "TPC0_01" 0 (3337945 / 16384) (-(8388605 / 2 ^ 67)) (16036659 / 65536) 0,
    TPCRegion.mk "TPC0_10" (-(3337945 / 16384)) 0 (4336845 / 16384) (16387277 / 32768) 0,
    TPCRegion.mk "TPC0_11" 0 (3337945 / 16384) (4336845 / 16384) (16387277 / 32768) 0,
    TPCRegion.mk "TPC1_00" (-(3337945 / 16384)) 0 (-(8388605 / 2 ^ 67)) (16036659 / 65536) 1,
    TPCRegion.mk "TPC1_01" 0 (3337945 / 16384) (-(8388605 / 2 ^ 67)) (16036659 / 65536) 1,
    TPCRegion.mk "TPC1_10" (-(3337945 / 16384)) 0 (4336845 / 16384) (16387277 / 32768) 1,
    TPCRegion.mk "TPC1_11" 0 (3337945 / 16384) (4336845 / 16384) (16387277 / 32768) 1 ]

/-- The lambda `classify_x_region`. The bounds are the binary32 values of the `float` literals
of the source (`float_literal_values`): `202.2f = 13251379 / 65536`,
`152.2f = 9974579 / 65536`, and `50.0f = 50`. -/
def classify_x_region (x : Flt) : String :=
  if x.ge (-(13251379 / 65536)) && x.le (-(9974579 / 65536)) then "anode_tpc0"
  else if x.ge (-50) && x.le 50 then "cathode"
  else if x.ge (9974579 / 65536) && x.le (13251379 / 65536) then "anode_tpc1"
  else "other"

/-- The condition of the `if` in the loop of `get_region_index` for one region. -/
def regionMatches (region : TPCRegion) (y z : Flt) (tpc_id : Nat) : Bool :=
  decide (region.tpc_id = (tpc_id : Int)) &&
    y.ge region.y_min && y.lt region.y_max &&
    z.ge region.z_min && z.lt region.z_max

/-- The loop of `get_region_index` from index `i` on, over the regions that remain. -/
def scanRegions (y z : Flt) (tpc_id : Nat) : List TPCRegion → Nat → Int
  | [], _ => -1
  | region :: rest, i =>
    if regionMatches region y z tpc_id then (i : Int) else scanRegions y z tpc_id rest (i + 1)

/-- The lambda `get_region_index` over a captured vector of regions. -/
def get_region_index_in (rs : List TPCRegion) (_x y z : Flt) (tpc_id : Nat) : Int :=
  scanRegions y z tpc_id rs 0

/-- The lambda `get_region_index` of `hit_split_regions_mc`. -/
def get_region_index (x y z : Flt) (tpc_id : Nat) : Int :=
  get_region_index_in regions x y z tpc_id

/-- The region that an index returned by `get_region_index` designates, if any. -/
def regionAt (rs : List TPCRegion) (i : Int) : Option TPCRegion :=
  if i < 0 then none else rs[i.toNat]?

/-- The chain of range tests of `classify_x_region` with its three tests in an arbitrary
order: the first interval that contains `x` gives the name, and `other` is the default. -/
def classifyWith : List (ℚ × ℚ × String) → Flt → String
  | [], _ => "other"
  | t :: rest, x => if x.ge t.1 && x.le t.2.1 then t.2.2 else classifyWith rest x

/-- The three tests of `classify_x_region`, in source order. -/
def xTests : List (ℚ × ℚ × String) :=
  [(-(13251379 / 65536), -(9974579 / 65536), "anode_tpc0"), (-50, 50, "cathode"),
    (9974579 / 65536, 13251379 / 65536, "anode_tpc1")]

/-- A hit with its coordinates and TPC id, as read at one index of the hit vectors. -/
structure SpaceHit where
  x : Flt
  y : Flt
  z : Flt
  tpc : Nat

/-- The box of a hit: the call `get_region_index(x_coords[i], y_coords[i], z_coords[i],
tpcs[i])` of `process_hits`. -/
def hitBox (h : SpaceHit) : Int := get_region_index h.x h.y h.z h.tpc

/-- The zone of a hit: the call `classify_x_region(x_coords[idx])` of `process_hits`. -/
def hitZone (h : SpaceHit) : String := classify_x_region h.x

/-! ## Texts used to state the round trips -/

/-- The text of a list of lines, each followed by a newline. -/
def joinLines : List (List Char) → List Char
  | [] => []
  | l :: rest => l ++ Char.ofNat 10 :: joinLines rest

/-- The data lines that `dead_wires` writes after the header, without their newlines. -/
def deadDataLines (tpc0_plane0 tpc0_plane1 tpc0_plane2 tpc1_plane0 tpc1_plane1 tpc1_plane2 :
    List Int) : List (List Char) :=
  tpc0_plane0.map (fun ch => printInt ch ++ String.toList ",0,0") ++
  tpc0_plane1.map (fun ch => printInt ch ++ String.toList ",1,0") ++
  tpc0_plane2.map (fun ch => printInt ch ++ String.toList ",2,0") ++
  tpc1_plane0.map (fun ch => printInt ch ++ String.toList ",0,1") ++
  tpc1_plane1.map (fun ch => printInt ch ++ String.toList ",1,1") ++
  tpc1_plane2.map (fun ch => printInt ch ++ String.toList ",2,1")

/-! ## The batch invariant of `hit_analyzer`, as the specification words it -/

/-- The test of the three `Define` lambdas of a plane at index `j` of the input vectors:
on trajectory, `pitch != -1` and `(wire, per-hit plane, tpc)` not dead. -/
def keptAt (dead : List ChannelKey) (wires planes tpcs : List Nat) (ontraj : List Bool)
    (pitches : List ℚ) (j : Nat) : Bool :=
  ontraj.getD j false && decide (pitches.getD j 0 ≠ -1) &&
    !isDead dead (wires.getD j 0) (planes.getD j 0) (tpcs.getD j 0)

/-- The number of indices that lie inside all five input vectors. -/
def batchLength (wires planes tpcs : List Nat) (ontraj : List Bool) (pitches : List ℚ) : Nat :=
  min wires.length (min planes.length (min tpcs.length (min ontraj.length pitches.length)))

/-- The indices of the input hits that the filter keeps, in increasing order. -/
def validIndices (dead : List ChannelKey) (wires planes tpcs : List Nat) (ontraj : List Bool)
    (pitches : List ℚ) : List Nat :=
  (List.range (batchLength wires planes tpcs ontraj pitches)).filter
    (keptAt dead wires planes tpcs ontraj pitches)

/-! ## `event_info_viewer`: `calculate_plane_efficiency` with every indexed read checked -/

/-- The outcome of a run in which every read `v[i]` is checked against `v.size()`: a value,
a read at or beyond the size of its vector, or a loop that has not returned. -/
inductive Checked (α : Type) where
  | ok (a : α) : Checked α
  | badIndex : Checked α
  | noReturn : Checked α

/-- The filter loop of `calculate_plane_efficiency` from index `i` on. The reads `ontraj[i]`,
`pitches[i]`, `wires[i]` and `tpcs[i]` are checked, in the order in which the condition
evaluates them; the first argument bounds the number of iterations. -/
def filterLoopChecked (dead : List ChannelKey) (plane : Int) (wires : List Nat)
    (pitches : List ℚ) (tpcs : List Nat) (ontraj : List Bool) :
    Nat → Nat → Checked (List ValidHit)
  | 0, i =>
    if i < wires.length ∧ i < pitches.length ∧ i < tpcs.length ∧ i < ontraj.length then
      Checked.noReturn
    else Checked.ok []
  | n + 1, i =>
    if i < wires.length ∧ i < pitches.length ∧ i < tpcs.length ∧ i < ontraj.length then
      match ontraj[i]? with
      | none => Checked.badIndex
      | some o =>
        if !o then filterLoopChecked dead plane wires pitches tpcs ontraj n (i + 1)
        else
          match pitches[i]? with
          | none => Checked.badIndex
          | some p =>
            if ¬ p > 0 then filterLoopChecked dead plane wires pitches tpcs ontraj n (i + 1)
            else
              match wires[i]?, tpcs[i]? with
              | some w, some t =>
                if isDead dead w (toUShort plane) t then
                  filterLoopChecked dead plane wires pitches tpcs ontraj n (i + 1)
                else
                  match filterLoopChecked dead plane wires pitches tpcs ontraj n (i + 1) with
                  | Checked.ok valid => Checked.ok (ValidHit.mk w p t :: valid)
                  | Checked.badIndex => Checked.badIndex
                  | Checked.noReturn => Checked.noReturn
              | _, _ => Checked.badIndex
    else Checked.ok []

/-- The loop of `has_large_holes` from index `i` on, with the reads `sorted_wires[i]` and
`sorted_wires[i-1]` checked. -/
def holesLoopChecked (sorted_wires : List Nat) : Nat → Nat → Checked Bool
  | 0, i => if i < sorted_wires.length then Checked.noReturn else Checked.ok false
  | n + 1, i =>
    if i < sorted_wires.length then
      match sorted_wires[i]?, sorted_wires[i - 1]? with
      | some b, some a =>
        if (b : Int) - (a : Int) > 11 then Checked.ok true
        else holesLoopChecked sorted_wires n (i + 1)
      | _, _ => Checked.badIndex
    else Checked.ok false

/-- The helper `has_large_holes` with its reads checked. -/
def has_large_holes_checked (sorted_wires : List Nat) : Checked Bool :=
  if sorted_wires.length < 2 then Checked.ok false
  else holesLoopChecked sorted_wires sorted_wires.length 1

/-- The loop `for (size_t i = 0; i < valid_wires.size(); ++i)` for one `tpc_id`, from index
`i` on, with the reads `valid_tpcs[i]` and `valid_wires[i]` checked. -/
def scanTpcChecked (tpc_id : Nat) (valid_wires valid_tpcs : List Nat) :
    Nat → Nat → Nat × Nat × List Nat → Checked (Nat × Nat × List Nat)
  | 0, i, st => if i < valid_wires.length then Checked.noReturn else Checked.ok st
  | n + 1, i, st =>
    if i < valid_wires.length then
      match valid_tpcs[i]? with
      | none => Checked.badIndex
      | some t =>
        if t = tpc_id then
          match valid_wires[i]? with
          | none => Checked.badIndex
          | some w =>
            scanTpcChecked tpc_id valid_wires valid_tpcs n (i + 1)
              (min st.1 w, max st.2.1 w, setInsert wireLt w st.2.2)
        else scanTpcChecked tpc_id valid_wires valid_tpcs n (i + 1) st
    else Checked.ok st

/-- One iteration of `for (unsigned short tpc_id : unique_tpcs)` with checked reads. -/
def tpcStepChecked (fuel : Nat) (dead : List ChannelKey) (plane : Nat)
    (valid_wires valid_tpcs : List Nat) (st : Nat × List Nat) (tpc_id : Nat) :
    Checked (Nat × List Nat) :=
  match scanTpcChecked tpc_id valid_wires valid_tpcs valid_wires.length 0 (65535, 0, st.2) with
  | Checked.badIndex => Checked.badIndex
  | Checked.noReturn => Checked.noReturn
  | Checked.ok r =>
    if r.1 ≤ r.2.1 then
      match countNonDead dead plane tpc_id r.2.1 fuel r.1 st.1 with
      | none => Checked.noReturn
      | some n => Checked.ok (n, r.2.2)
    else Checked.ok (st.1, r.2.2)

/-- The loop `for (unsigned short tpc_id : unique_tpcs)` with checked reads. -/
def tpcLoopChecked (fuel : Nat) (dead : List ChannelKey) (plane : Nat)
    (valid_wires valid_tpcs : List Nat) :
    List Nat → Nat × List Nat → Checked (Nat × List Nat)
  | [], st => Checked.ok st
  | t :: ts, st =>
    match tpcStepChecked fuel dead plane valid_wires valid_tpcs st t with
    | Checked.badIndex => Checked.badIndex
    | Checked.noReturn => Checked.noReturn
    | Checked.ok st2 => tpcLoopChecked fuel dead plane valid_wires valid_tpcs ts st2

/-- The lambda `calculate_plane_efficiency` of `event_info_viewer.C` with every indexed read
checked; the three vectors `valid_wires`, `valid_pitches` and `valid_tpcs` are kept apart as
in the source. -/
def calculate_plane_efficiency_checked (fuel : Nat) (has_dead_channels : Bool)
    (dead : List ChannelKey) (wires : List Nat) (pitches : List ℚ) (tpcs : List Nat)
    (ontraj : List Bool) (plane : Int) : Checked (ℚ × ℚ) :=
  if !has_dead_channels || wires.isEmpty then Checked.ok sentinel
  else
    match filterLoopChecked dead plane wires pitches tpcs ontraj wires.length 0 with
    | Checked.badIndex => Checked.badIndex
    | Checked.noReturn => Checked.noReturn
    | Checked.ok valid =>
      let valid_wires := valid.map ValidHit.wire
      let valid_pitches := valid.map ValidHit.pitch
      let valid_tpcs := valid.map ValidHit.tpc
      if valid_wires.length < 25 then Checked.ok sentinel
      else
        let unique_wires := setOfList wireLt valid_wires
        let sorted_wires := std_sort unique_wires
        match has_large_holes_checked sorted_wires with
        | Checked.badIndex => Checked.badIndex
        | Checked.noReturn => Checked.noReturn
        | Checked.ok true => Checked.ok sentinel
        | Checked.ok false =>
          let unique_tpcs := setOfList wireLt valid_tpcs
          match tpcLoopChecked fuel dead (toUShort plane) valid_wires valid_tpcs unique_tpcs
              (0, []) with
          | Checked.badIndex => Checked.badIndex
          | Checked.noReturn => Checked.noReturn
          | Checked.ok st =>
            if st.1 < 25 then Checked.ok sentinel
            else
              let efficiency : ℚ :=
                if st.1 > 0 then min ((st.2.length : ℚ) / (st.1 : ℚ)) 1 else 0
              Checked.ok (efficiency, averagePitch valid_pitches)

/-- The outcome of the checked run that corresponds to a result of the unchecked embedding. -/
def Checked.ofOption {α : Type} : Option α → Checked α
  | some a => Checked.ok a
  | none => Checked.noReturn

/-! ## `hit_split_regions_mc`: the counting loop of `process_hits` -/

/-- The loop `for (unsigned short w = min_wire; w <= max_wire; ++w)` of `process_hits` that
increments the `int` counter `num_dead` for every wire whose key is in the dead-channel set
(`dead_channels.count` is 0 or 1). The loop variable wraps at 65536. `fuel` bounds the number
of loop tests; `none` when the loop has not exited within the fuel or when the counter would
pass `INT_MAX`. -/
def countDead (dead : List ChannelKey) (plane tpc max_wire : Nat) :
    Nat → Nat → Nat → Option Nat
  | 0, _, _ => none
  | fuel + 1, w, num_dead =>
    if w ≤ max_wire then
      if isDead dead w plane tpc then
        if num_dead < 2147483647 then
          countDead dead plane tpc max_wire fuel ((w + 1) % 65536) (num_dead + 1)
        else none
      else countDead dead plane tpc max_wire fuel ((w + 1) % 65536) num_dead
    else some num_dead

/-- The number of wires of `[lo, hi]` that are dead for `(plane, tpc)`. -/
def deadInRange (dead : List ChannelKey) (plane tpc lo hi : Nat) : Nat :=
  ((List.range' lo (hi + 1 - lo)).filter (fun w => isDead dead w plane tpc)).length

/-! ## `dead_wires`: the progress counter -/

/-- An operation with a divisor that the progress update evaluates: `a % b` or `a / b`. -/
inductive DivOp where
  | modulo (a b : Nat) : DivOp
  | divide (a b : Nat) : DivOp
deriving DecidableEq

/-- The divisor of an evaluated operation. -/
def DivOp.divisor : DivOp → Nat
  | DivOp.modulo _ b => b
  | DivOp.divide _ b => b

/-- A line "Processed P% of entries (processed/total)" printed inside the loop. The percentage
is `none` when the product `processed_entries * 100` does not fit `Long64_t`. -/
structure ProgressLine where
  percent : Option Nat
  processed : Nat
  total : Nat
deriving DecidableEq

/-- The counter `processed_entries`, the operations with a divisor evaluated so far and the
lines printed so far. The `Long64_t` counters are never negative and are natural numbers. -/
structure ProgressState where
  processed_entries : Nat
  ops : List DivOp
  lines : List ProgressLine

/-- The progress update at the end of one call of the `Foreach` lambda. The test
`progress_step > 0 && processed_entries % progress_step == 0` evaluates the modulo only when
its left operand holds. -/
def progressUpdate (total_entries progress_step : Nat) (st : ProgressState) : ProgressState :=
  let processed_entries := st.processed_entries + 1
  if progress_step > 0 then
    let ops := st.ops ++ [DivOp.modulo processed_entries progress_step]
    if processed_entries % progress_step = 0 then
      ProgressState.mk processed_entries
        (ops ++ [DivOp.divide (processed_entries * 100) total_entries])
        (st.lines ++ [ProgressLine.mk
          (if processed_entries * 100 ≤ 9223372036854775807 then
            some (processed_entries * 100 / total_entries) else none)
          processed_entries total_entries])
    else ProgressState.mk processed_entries ops st.lines
  else ProgressState.mk processed_entries st.ops st.lines

/-- The state after the first `k` calls of the `Foreach` lambda. -/
def progressLoop (total_entries progress_step : Nat) : Nat → ProgressState
  | 0 => ProgressState.mk 0 [] []
  | k + 1 => progressUpdate total_entries progress_step (progressLoop total_entries progress_step k)

/-- The value `progress_step = total_entries / 10`. -/
def progress_step (total_entries : Nat) : Nat := total_entries / 10

/-- The progress state of `dead_wires` after the loop over `N` selected entries:
`total_entries` is `N` and the lambda is called `N` times. -/
def dead_wires_progress (N : Nat) : ProgressState :=
  progressLoop N (progress_step N) N

/-! ## `plot_split_regions`: the labels of the regions -/

/-- The structure `RegionInfo` of `plot_split_regions`. -/
structure RegionInfo where
  name : String
  display_name : String
  coord_range : String
  tpc_id : Int
deriving DecidableEq

/-- The vector `regions` of `plot_split_regions`. -/
def PlotSplitRegions.regions : List RegionInfo :=
  [ RegionInfo.mk "TPC0_00" "TPC 0 Region (0,0)" "y:[-203.7, 0], z:[0, 250.1]" 0,
    RegionInfo.mk "TPC0_01" "TPC 0 Region (0,1)" "y:[0, 203.7], z:[0, 250.1]" 0,
    RegionInfo.mk "TPC0_10" "TPC 0 Region (1,0)" "y:[-203.7, 0], z:[250.1, 500.1]" 0,
    RegionInfo.mk "TPC0_11" "TPC 0 Region (1,1)" "y:[0, 203.7], z:[250.1, 500.1]" 0,
    RegionInfo.mk "TPC1_00" "TPC 1 Region (0,0)" "y:[-203.7, 0], z:[0, 250.1]" 1,
    RegionInfo.mk "TPC1_01" "TPC 1 Region (0,1)" "y:[0, 203.7], z:[0, 250.1]" 1,
    RegionInfo.mk "TPC1_10" "TPC 1 Region (1,0)" "y:[-203.7, 0], z:[250.1, 500.1]" 1,
    RegionInfo.mk "TPC1_11" "TPC 1 Region (1,1)" "y:[0, 203.7], z:[250.1, 500.1]" 1 ]

/-- The four numbers displayed in a text `coord_range`, as `(y_lo, y_hi, z_lo, z_hi)`, for
the four texts that occur in the vector `regions` of `plot_split_regions`. -/
def displayedRange (coord_range : String) : Option (ℚ × ℚ × ℚ × ℚ) :=
  if coord_range = "y:[-203.7, 0], z:[0, 250.1]" then some (-203.7, 0, 0, 250.1)
  else if coord_range = "y:[0, 203.7], z:[0, 250.1]" then some (0, 203.7, 0, 250.1)
  else if coord_range = "y:[-203.7, 0], z:[250.1, 500.1]" then some (-203.7, 0, 250.1, 500.1)
  else if coord_range = "y:[0, 203.7], z:[250.1, 500.1]" then some (0, 203.7, 250.1, 500.1)
  else none

/-- The point `(tpc, y, z)` lies inside the coordinate range displayed for a region, the
range being read half-open: `y_lo <= y < y_hi` and `z_lo <= z < z_hi`. -/
def inDisplayedRange (info : RegionInfo) (tpc : Nat) (y z : ℚ) : Bool :=
  match displayedRange info.coord_range with
  | none => false
  | some r =>
    decide (info.tpc_id = (tpc : Int)) && decide (r.1 ≤ y) && decide (y < r.2.1) &&
      decide (r.2.2.1 ≤ z) && decide (z < r.2.2.2)

/-! ## `dead_wires`: wire ranges, histograms and the detection of dead wires -/

/-- One selected entry of the data frame: the nine hit vectors that the `Foreach` lambda of
`dead_wires` reads. -/
structure WireEntry where
  wires0 : List Nat
  tpcs0 : List Nat
  planes0 : List Nat
  wires1 : List Nat
  tpcs1 : List Nat
  planes1 : List Nat
  wires2 : List Nat
  tpcs2 : List Nat
  planes2 : List Nat
deriving DecidableEq

/-- The action `Min<ROOT::RVec<unsigned short>>` on a wire column: the least element of all
the vectors of the column, starting from `numeric_limits<unsigned short>::max()`. -/
def columnMin (column : List (List Nat)) : Nat :=
  column.foldl (fun m v => v.foldl min m) 65535

/-- The action `Max<ROOT::RVec<unsigned short>>` on a wire column: the greatest element of
all the vectors of the column, starting from `numeric_limits<unsigned short>::lowest()`. -/
def columnMax (column : List (List Nat)) : Nat :=
  column.foldl (fun m v => v.foldl max m) 0

/-- A histogram `TH1F` with equal bins: `cells` holds the content of the underflow bin 0, of
the bins `1..nbins` and of the overflow bin `nbins + 1`. The contents are counts of fills;
the program only tests them against 0. -/
structure TH1F where
  nbins : Nat
  xlow : Int
  xup : Int
  cells : List Nat
deriving DecidableEq

/-- The constructor `TH1F(name, title, nbins, xlow, xup)` of the histogram library: an empty
histogram; a number of bins `nbins <= 0` is replaced by 1. -/
def TH1F.create (nbins xlow xup : Int) : TH1F :=
  TH1F.mk (if nbins ≤ 0 then 1 else nbins.toNat) xlow xup
    (List.replicate ((if nbins ≤ 0 then 1 else nbins.toNat) + 2) 0)

/-- The bin of the value `x` (`TAxis::FindBin`): 0 below `xlow`, `nbins + 1` from `xup` on,
and `1 + floor(nbins * (x - xlow) / (xup - xlow))` in between. -/
def TH1F.FindBin (h : TH1F) (x : Int) : Nat :=
  if x < h.xlow then 0
  else if ¬ (x < h.xup) then h.nbins + 1
  else 1 + (h.nbins * (x - h.xlow).toNat) / (h.xup - h.xlow).toNat

/-- The list `cells` with the entry of index `i` incremented. -/
def addAt : Nat → List Nat → List Nat
  | _, [] => []
  | 0, c :: r => (c + 1) :: r
  | i + 1, c :: r => c :: addAt i r

/-- The call `h->Fill(x)`. -/
def TH1F.Fill (h : TH1F) (x : Int) : TH1F :=
  TH1F.mk h.nbins h.xlow h.xup (addAt (h.FindBin x) h.cells)

/-- The call `h->GetNbinsX()`. -/
def TH1F.GetNbinsX (h : TH1F) : Nat := h.nbins

/-- The call `h->GetBinContent(bin)`: a bin number below 0 reads the underflow bin, a bin
number above `nbins + 1` reads the overflow bin. -/
def TH1F.GetBinContent (h : TH1F) (bin : Int) : Nat :=
  if bin < 0 then h.cells.getD 0 0
  else if bin.toNat ≥ h.nbins + 2 then h.cells.getD (h.nbins + 1) 0
  else h.cells.getD bin.toNat 0

/-- The loop "Process plane P" of the `Foreach` lambda on one entry, on the pair of the
histograms of TPC 0 and of TPC 1 of that plane: the index runs while it is inside the three
vectors. The combined histogram of the plane is filled too but never read afterwards. -/
def fillPlane (plane : Nat) (min_wires max_wires : Int) :
    List Nat → List Nat → List Nat → TH1F × TH1F → TH1F × TH1F
  | w :: ws, t :: ts, pl :: pls, hs =>
    fillPlane plane min_wires max_wires ws ts pls
      (if pl = plane ∧ (w : Int) ≥ min_wires ∧ (w : Int) < max_wires then
        (if t = 0 then (hs.1.Fill (w : Int), hs.2)
         else if t = 1 then (hs.1, hs.2.Fill (w : Int))
         else hs)
       else hs)
  | _, _, _, hs => hs

/-- The six histograms per TPC and plane. -/
structure WireHists where
  tpc0_plane0 : TH1F
  tpc0_plane1 : TH1F
  tpc0_plane2 : TH1F
  tpc1_plane0 : TH1F
  tpc1_plane1 : TH1F
  tpc1_plane2 : TH1F

/-- The six vectors `dead_channels_tpcT_planeP`. -/
structure DeadVectors where
  tpc0_plane0 : List Int
  tpc0_plane1 : List Int
  tpc0_plane2 : List Int
  tpc1_plane0 : List Int
  tpc1_plane1 : List Int
  tpc1_plane2 : List Int
deriving DecidableEq

/-- The limits `min_wiresP` and `max_wiresP` (the greatest wire plus 1) of the three planes. -/
structure WireLimits where
  min_wires0 : Int
  max_wires0 : Int
  min_wires1 : Int
  max_wires1 : Int
  min_wires2 : Int
  max_wires2 : Int
deriving DecidableEq

/-- The limits computed from the wire columns of the selected entries. -/
def wireLimits (entries : List WireEntry) : WireLimits :=
  WireLimits.mk
    (columnMin (entries.map WireEntry.wires0) : Int)
    ((columnMax (entries.map WireEntry.wires0) : Int) + 1)
    (columnMin (entries.map WireEntry.wires1) : Int)
    ((columnMax (entries.map WireEntry.wires1) : Int) + 1)
    (columnMin (entries.map WireEntry.wires2) : Int)
    ((columnMax (entries.map WireEntry.wires2) : Int) + 1)

/-- The six empty histograms, each plane with its own range. -/
def emptyHists (l : WireLimits) : WireHists :=
  WireHists.mk
    (TH1F.create (l.max_wires0 - l.min_wires0) l.min_wires0 l.max_wires0)
    (TH1F.create (l.max_wires1 - l.min_wires1) l.min_wires1 l.max_wires1)
    (TH1F.create (l.max_wires2 - l.min_wires2) l.min_wires2 l.max_wires2)
    (TH1F.create (l.max_wires0 - l.min_wires0) l.min_wires0 l.max_wires0)
    (TH1F.create (l.max_wires1 - l.min_wires1) l.min_wires1 l.max_wires1)
    (TH1F.create (l.max_wires2 - l.min_wires2) l.min_wires2 l.max_wires2)

/-- One call of the `Foreach` lambda, without its progress update. -/
def fillEntry (l : WireLimits) (hs : WireHists) (e : WireEntry) : WireHists :=
  let p0 := fillPlane 0 l.min_wires0 l.max_wires0 e.wires0 e.tpcs0 e.planes0
    (hs.tpc0_plane0, hs.tpc1_plane0)
  let p1 := fillPlane 1 l.min_wires1 l.max_wires1 e.wires1 e.tpcs1 e.planes1
    (hs.tpc0_plane1, hs.tpc1_plane1)
  let p2 := fillPlane 2 l.min_wires2 l.max_wires2 e.wires2 e.tpcs2 e.planes2
    (hs.tpc0_plane2, hs.tpc1_plane2)
  WireHists.mk p0.1 p1.1 p2.1 p0.2 p1.2 p2.2

/-- One iteration of the loop `for (int i = 1; i <= h_wires_tpc0_plane0->GetNbinsX(); ++i)`:
`wire_num = min_wires0 + (i - 1)` is pushed to each of the six vectors whose histogram has
content 0 in bin `i` and whose plane limits contain `wire_num`. -/
def deadStep (l : WireLimits) (hs : WireHists) (d : DeadVectors) (i : Int) : DeadVectors :=
  let wire_num := l.min_wires0 + (i - 1)
  DeadVectors.mk
    (if hs.tpc0_plane0.GetBinContent i = 0 ∧ wire_num ≥ l.min_wires0 ∧ wire_num < l.max_wires0
      then d.tpc0_plane0 ++ [wire_num] else d.tpc0_plane0)
    (if hs.tpc0_plane1.GetBinContent i = 0 ∧ wire_num ≥ l.min_wires1 ∧ wire_num < l.max_wires1
      then d.tpc0_plane1 ++ [wire_num] else d.tpc0_plane1)
    (if hs.tpc0_plane2.GetBinContent i = 0 ∧ wire_num ≥ l.min_wires2 ∧ wire_num < l.max_wires2
      then d.tpc0_plane2 ++ [wire_num] else d.tpc0_plane2)
    (if hs.tpc1_plane0.GetBinContent i = 0 ∧ wire_num ≥ l.min_wires0 ∧ wire_num < l.max_wires0
      then d.tpc1_plane0 ++ [wire_num] else d.tpc1_plane0)
    (if hs.tpc1_plane1.GetBinContent i = 0 ∧ wire_num ≥ l.min_wires1 ∧ wire_num < l.max_wires1
      then d.tpc1_plane1 ++ [wire_num] else d.tpc1_plane1)
    (if hs.tpc1_plane2.GetBinContent i = 0 ∧ wire_num ≥ l.min_wires2 ∧ wire_num < l.max_wires2
      then d.tpc1_plane2 ++ [wire_num] else d.tpc1_plane2)

/-- The six vectors of dead wire numbers that `dead_wires` computes from the selected entries:
limits, histograms, fill, and the scan of the bins `1..GetNbinsX()` of the histogram of TPC 0
and plane 0. -/
def dead_wires_vectors (entries : List WireEntry) : DeadVectors :=
  let l := wireLimits entries
  let hs := entries.foldl (fillEntry l) (emptyHists l)
  ((List.range' 1 hs.tpc0_plane0.GetNbinsX).map (fun i : Nat => (i : Int))).foldl
    (deadStep l hs) (DeadVectors.mk [] [] [] [] [] [])

/-- The vector of `dead_wires_vectors` for plane `p` and TPC `t`. -/
def DeadVectors.select (d : DeadVectors) (p t : Nat) : List Int :=
  if t = 0 then (if p = 0 then d.tpc0_plane0 else if p = 1 then d.tpc0_plane1 else d.tpc0_plane2)
  else (if p = 0 then d.tpc1_plane0 else if p = 1 then d.tpc1_plane1 else d.tpc1_plane2)

/-- The text of `dead_channels.csv` written by `dead_wires` for the selected entries. -/
def dead_wires_file (entries : List WireEntry) : List Char :=
  let d := dead_wires_vectors entries
  dead_wires_csv d.tpc0_plane0 d.tpc0_plane1 d.tpc0_plane2 d.tpc1_plane0 d.tpc1_plane1
    d.tpc1_plane2

/-- The hit vectors `(wires, tpcs, planes)` of plane `p` in an entry. -/
def WireEntry.column (e : WireEntry) (p : Nat) : List Nat × List Nat × List Nat :=
  if p = 0 then (e.wires0, e.tpcs0, e.planes0)
  else if p = 1 then (e.wires1, e.tpcs1, e.planes1)
  else (e.wires2, e.tpcs2, e.planes2)

/-- The hits `(wire, tpc, plane)` of three vectors: the indices inside all three. -/
def hitTriples : List Nat → List Nat → List Nat → List (Nat × Nat × Nat)
  | w :: ws, t :: ts, pl :: pls => (w, t, pl) :: hitTriples ws ts pls
  | _, _, _ => []

/-- The wire `w` received a hit with plane `p` and TPC `t` among the selected entries. -/
def receivedHit (entries : List WireEntry) (p t w : Nat) : Bool :=
  entries.any (fun e =>
    (hitTriples (e.column p).1 (e.column p).2.1 (e.column p).2.2).any
      (fun h => h.1 == w && h.2.1 == t && h.2.2 == p))

/-- The rows that the specification asks for plane `p` and TPC `t`: the wires of the observed
range `min_p <= w <= max_p` of the plane that received no hit with plane `p` and TPC `t`, in
ascending order. -/
def specDeadWires (entries : List WireEntry) (p t : Nat) : List Int :=
  ((List.range' (columnMin (entries.map (fun e => (e.column p).1)))
      (columnMax (entries.map (fun e => (e.column p).1)) + 1 -
        columnMin (entries.map (fun e => (e.column p).1)))).filter
    (fun w => !receivedHit entries p t w)).map (fun w : Nat => (w : Int))

/-! ## `hit_split_regions_mc`: `process_hits` -/

/-- A hit that the grouping loop of `process_hits` keeps: `hit_indices` holds its index, and
the embedding keeps the values read at that index (the vectors are not modified). The
coordinates of a kept hit are not NaN. -/
structure RegionHit where
  wire : Nat
  pitch : ℚ
  tpc : Nat
  x : ℚ
  y : ℚ
  z : ℚ
deriving DecidableEq

/-- The statement `region_hits[region_idx].push_back(i)` on the `std::map` from region index
to hits, kept as the list of its entries in increasing key order. -/
def mapPush (k : Int) (v : RegionHit) :
    List (Int × List RegionHit) → List (Int × List RegionHit)
  | [] => [(k, [v])]
  | e :: r =>
    if k < e.1 then (k, [v]) :: e :: r
    else if e.1 < k then e :: mapPush k v r
    else (e.1, e.2 ++ [v]) :: r

/-- The grouping loop of `process_hits`: the index runs while it is inside all seven vectors;
a hit is skipped when it is off trajectory or has pitch -1, when a coordinate is NaN, when its
channel `(wire, plane, tpc)` is dead, or when `get_region_index` returns a negative index. -/
def groupHits (dead : List ChannelKey) (plane : Int) :
    List Nat → List ℚ → List Nat → List Flt → List Flt → List Flt → List Bool →
    List (Int × List RegionHit) → List (Int × List RegionHit)
  | w :: ws, p :: ps, t :: ts, x :: xs, y :: ys, z :: zs, o :: os, m =>
    if !o || decide (p = -1) then groupHits dead plane ws ps ts xs ys zs os m
    else
      match x, y, z with
      | Flt.val qx, Flt.val qy, Flt.val qz =>
        if isDead dead w (toUShort plane) t then groupHits dead plane ws ps ts xs ys zs os m
        else if get_region_index (Flt.val qx) (Flt.val qy) (Flt.val qz) t ≥ 0 then
          groupHits dead plane ws ps ts xs ys zs os
            (mapPush (get_region_index (Flt.val qx) (Flt.val qy) (Flt.val qz) t)
              (RegionHit.mk w p t qx qy qz) m)
        else groupHits dead plane ws ps ts xs ys zs os m
      | _, _, _ => groupHits dead plane ws ps ts xs ys zs os m
  | _, _, _, _, _, _, _, m => m

/-- The value `std::numeric_limits<float>::max()`. -/
def FLT_MAX : ℚ := 340282346638528859811704183484516925440

/-- The variables of the statistics loop of a region. The `int` counters count hits of the
region and are natural numbers. -/
structure RegionStats where
  min_x : ℚ
  max_x : ℚ
  min_y : ℚ
  max_y : ℚ
  min_z : ℚ
  max_z : ℚ
  sum_pitch : ℚ
  valid_pitches : Nat
  anode_tpc0_hits : Nat
  cathode_hits : Nat
  anode_tpc1_hits : Nat
  other_hits : Nat

/-- The initial values of the statistics loop. -/
def initStats : RegionStats :=
  RegionStats.mk FLT_MAX (-FLT_MAX) FLT_MAX (-FLT_MAX) FLT_MAX (-FLT_MAX) 0 0 0 0 0 0

/-- One iteration of `for (size_t idx : hit_indices)` in the statistics loop. -/
def statsStep (s : RegionStats) (h : RegionHit) : RegionStats :=
  RegionStats.mk (min s.min_x h.x) (max s.max_x h.x) (min s.min_y h.y) (max s.max_y h.y)
    (min s.min_z h.z) (max s.max_z h.z)
    (if h.pitch > 0 then s.sum_pitch + h.pitch else s.sum_pitch)
    (if h.pitch > 0 then s.valid_pitches + 1 else s.valid_pitches)
    (if classify_x_region (Flt.val h.x) = "anode_tpc0" then s.anode_tpc0_hits + 1
      else s.anode_tpc0_hits)
    (if classify_x_region (Flt.val h.x) = "anode_tpc0" then s.cathode_hits
      else if classify_x_region (Flt.val h.x) = "cathode" then s.cathode_hits + 1
      else s.cathode_hits)
    (if classify_x_region (Flt.val h.x) = "anode_tpc0" then s.anode_tpc1_hits
      else if classify_x_region (Flt.val h.x) = "cathode" then s.anode_tpc1_hits
      else if classify_x_region (Flt.val h.x) = "anode_tpc1" then s.anode_tpc1_hits + 1
      else s.anode_tpc1_hits)
    (if classify_x_region (Flt.val h.x) = "anode_tpc0" then s.other_hits
      else if classify_x_region (Flt.val h.x) = "cathode" then s.other_hits
      else if classify_x_region (Flt.val h.x) = "anode_tpc1" then s.other_hits
      else s.other_hits + 1)

/-- The computation of `hit_eff` for a region: 0 for no wire, otherwise the number of
distinct wires over `num_live = num_expected - num_dead` when `num_live > 0`, and 0 when not.
`none` when the counting loop does not return. -/
def hitEfficiency (fuel : Nat) (dead : List ChannelKey) (plane : Int) (region : TPCRegion)
    (unique_wires sorted_wires : List Nat) : Option ℚ :=
  if sorted_wires.isEmpty then some 0
  else
    let min_wire := sorted_wires.headD 0
    let max_wire := sorted_wires.getLastD 0
    let num_expected : Int := (max_wire : Int) - (min_wire : Int) + 1
    let tpc := toUShort region.tpc_id
    let pl := toUShort plane
    match countDead dead pl tpc max_wire fuel min_wire 0 with
    | none => none
    | some num_dead =>
      let num_live : Int := num_expected - (num_dead : Int)
      if num_live > 0 then some ((unique_wires.length : ℚ) / ((num_live : Int) : ℚ))
      else some 0

/-- One row of a region CSV: `TrackID,Plane,TPC,TrackLength,ValidHits,MinX,MaxX,MinY,MaxY,
MinZ,MaxZ,AvgPitch,HitEfficiency,AnodeTPC0_Hits,Cathode_Hits,AnodeTPC1_Hits,Other_Hits`. -/
structure RegionRow where
  trk_id : Int
  plane : Int
  tpc : Int
  track_length : ℚ
  validHits : Nat
  min_x : ℚ
  max_x : ℚ
  min_y : ℚ
  max_y : ℚ
  min_z : ℚ
  max_z : ℚ
  avgPitch : ℚ
  hitEfficiency : ℚ
  anode_tpc0_hits : Nat
  cathode_hits : Nat
  anode_tpc1_hits : Nat
  other_hits : Nat
deriving DecidableEq

/-- The body of `for (const auto& [region_idx, hit_indices] : region_hits)` for one region.
Outer `none`: the body does not return (the counting loop, or a region index outside the
vector `regions`). Inner `none`: the region is skipped at one of the gates. -/
def process_region (fuel : Nat) (dead : List ChannelKey) (trk_id : Int) (track_length : ℚ)
    (plane : Int) (region_idx : Int) (hit_indices : List RegionHit) :
    Option (Option RegionRow) :=
  if hit_indices.length < 10 then some none
  else
    let unique_wires := setOfList wireLt (hit_indices.map RegionHit.wire)
    if unique_wires.length < 25 then some none
    else
      let sorted_wires := std_sort unique_wires
      if has_large_holes sorted_wires then some none
      else
        let s := hit_indices.foldl statsStep initStats
        let avg_pitch : ℚ :=
          if s.valid_pitches > 0 then s.sum_pitch / (s.valid_pitches : ℚ) else 0
        match regionAt regions region_idx with
        | none => none
        | some region =>
          match hitEfficiency fuel dead plane region unique_wires sorted_wires with
          | none => none
          | some hit_eff =>
            some (some (RegionRow.mk trk_id plane region.tpc_id track_length
              hit_indices.length s.min_x s.max_x s.min_y s.max_y s.min_z s.max_z avg_pitch
              hit_eff s.anode_tpc0_hits s.cathode_hits s.anode_tpc1_hits s.other_hits))

/-- The loop over the entries of `region_hits`, in key order: the rows written so far, each
with the index of its region file, and whether the loop has returned. -/
def processRegions (fuel : Nat) (dead : List ChannelKey) (trk_id : Int) (track_length : ℚ)
    (plane : Int) :
    List (Int × List RegionHit) → List (Int × RegionRow) → List (Int × RegionRow) × Bool
  | [], rows => (rows, true)
  | e :: rest, rows =>
    match process_region fuel dead trk_id track_length plane e.1 e.2 with
    | none => (rows, false)
    | some none => processRegions fuel dead trk_id track_length plane rest rows
    | some (some row) =>
      processRegions fuel dead trk_id track_length plane rest (rows ++ [(e.1, row)])

/-- The lambda `process_hits` of `hit_split_regions_mc.C`, with the captured `dead_channels`
as an argument: the rows it writes, each with the index of its region file, and whether it
returns. -/
def process_hits (fuel : Nat) (dead : List ChannelKey) (trk_id : Int) (track_length : ℚ)
    (wires : List Nat) (pitches : List ℚ) (tpcs : List Nat)
    (x_coords y_coords z_coords : List Flt) (ontraj : List Bool) (plane : Int) :
    List (Int × RegionRow) × Bool :=
  if wires.isEmpty then ([], true)
  else
    processRegions fuel dead trk_id track_length plane
      (groupHits dead plane wires pitches tpcs x_coords y_coords z_coords ontraj []) []

/-- A hit that belongs to the group of region `k`: its channel is not dead for
`(plane, tpc)`, and `get_region_index` gives `k >= 0` for it. -/
def keptInRegion (dead : List ChannelKey) (plane : Int) (k : Int) (h : RegionHit) : Prop :=
  isDead dead h.wire (toUShort plane) h.tpc = false ∧
    get_region_index (Flt.val h.x) (Flt.val h.y) (Flt.val h.z) h.tpc = k ∧ 0 ≤ k

/-! ## `hit_analyzer`: the valid-hit columns followed by `calculate_efficiency` -/

/-- The work of `hit_analyzer` on one plane of one track: the three columns `valid_wiresN`,
`valid_pitchesN` and `valid_tpcsN` of the batch are given to `calculate_efficiency` with the
plane index. -/
def analyzer_plane (fuel : Nat) (dead : List ChannelKey) (trk_id : Int) (track_length : ℚ)
    (wires planes tpcs : List Nat) (ontraj : List Bool) (pitches : List ℚ) (plane : Int) :
    Option (Option EffRow) :=
  calculate_efficiency fuel dead trk_id track_length
    (valid_wires dead wires planes tpcs ontraj pitches)
    (valid_pitches dead wires planes tpcs ontraj pitches)
    (valid_tpcs dead wires planes tpcs ontraj pitches) plane

/-- The histogram `h` has the bins of the wire range `[m, M]`: one bin per wire, from `m` to
`M + 1`. -/
def histFor (h : TH1F) (m M : Nat) : Prop :=
  h.nbins = M + 1 - m ∧ h.xlow = (m : Int) ∧ h.xup = (M : Int) + 1 ∧
    h.cells.length = h.nbins + 2

/-! ## Binary32 arithmetic: rounding to nearest -/

/-- The integer nearest to `num / den`, a tie going to the even neighbour. -/
def roundHalfEven (num den : Nat) : Nat :=
  let m := num / den
  let r := num % den
  if 2 * r < den then m else if den < 2 * r then m + 1 else if m % 2 = 0 then m else m + 1

/-- The number of halvings that bring `q` below `2^24`; `fuel` bounds the halvings. -/
def ulpExpAux : Nat → Nat → Nat
  | 0, _ => 0
  | fuel + 1, q => if q < 16777216 then 0 else ulpExpAux fuel (q / 2) + 1

/-- The exponent `e` of the spacing `2^e` of the binary32 grid at an integer part `q`, the unit
being `2^-149`: 0 below `2^24`, and otherwise such that `2^23 ≤ q / 2^e < 2^24`. -/
def ulpExp (q : Nat) : Nat := ulpExpAux q q

/-- Rounding to nearest, ties to even, of the non-negative rational `num / den` to the binary32
grid, both counted in units of `2^-149`, with no bound on the exponent. -/
def roundUnits (num den : Nat) : Nat :=
  let e := ulpExp (num / den)
  roundHalfEven num (den * 2 ^ e) * 2 ^ e

/-- The binary32 value nearest to a rational (ties to even), without the overflow test: the
value of a `float` literal written with that decimal. -/
def binary32 (q : ℚ) : ℚ :=
  let k := roundUnits (q.num.natAbs * 2 ^ 149) q.den
  if q < 0 then -((k : ℚ) / 2 ^ 149) else (k : ℚ) / 2 ^ 149

/-- A binary32 value: a finite rational, an infinity, or NaN. The sign of zero is not
represented. -/
inductive F32 where
  | fin (q : ℚ) : F32
  | pinf : F32
  | ninf : F32
  | nan : F32
deriving DecidableEq

/-- The binary32 result of an operation whose exact result is `q`: the nearest binary32 value,
or an infinity when the rounded magnitude reaches `2^128`. -/
def F32.round (q : ℚ) : F32 :=
  if 2 ^ 277 ≤ roundUnits (q.num.natAbs * 2 ^ 149) q.den then
    (if q < 0 then F32.ninf else F32.pinf)
  else F32.fin (binary32 q)

/-- The sum of two binary32 values. -/
def F32.add : F32 → F32 → F32
  | F32.fin a, F32.fin b => F32.round (a + b)
  | F32.nan, _ => F32.nan
  | _, F32.nan => F32.nan
  | F32.pinf, F32.ninf => F32.nan
  | F32.ninf, F32.pinf => F32.nan
  | F32.pinf, _ => F32.pinf
  | _, F32.pinf => F32.pinf
  | F32.ninf, _ => F32.ninf
  | _, F32.ninf => F32.ninf

/-- The quotient of two binary32 values; a zero divisor counts as `+0`. -/
def F32.div : F32 → F32 → F32
  | F32.fin a, F32.fin b =>
    if b = 0 then (if a = 0 then F32.nan else if a < 0 then F32.ninf else F32.pinf)
    else F32.round (a / b)
  | F32.nan, _ => F32.nan
  | _, F32.nan => F32.nan
  | F32.fin _, _ => F32.fin 0
  | F32.pinf, F32.fin b => if b < 0 then F32.ninf else F32.pinf
  | F32.ninf, F32.fin b => if b < 0 then F32.pinf else F32.ninf
  | _, _ => F32.nan

/-- The comparison `a < b` of two binary32 values. -/
def F32.lt : F32 → F32 → Bool
  | F32.nan, _ => false
  | _, F32.nan => false
  | F32.fin a, F32.fin b => decide (a < b)
  | F32.fin _, F32.pinf => true
  | F32.ninf, F32.fin _ => true
  | F32.ninf, F32.pinf => true
  | _, _ => false

/-- The function `std::min(a, b)`: `b` when `b < a`, otherwise `a`. -/
def F32.min (a b : F32) : F32 := if F32.lt b a then b else a

/-- The conversion of a non-negative integer to `float`. -/
def F32.ofNat (n : Nat) : F32 := F32.round (n : ℚ)

/-- The sentinel pair `{-1.0f, -1.0f}` as binary32 values. -/
def sentinel_float : F32 × F32 := (F32.fin (-1), F32.fin (-1))

/-- The accumulation of `sum_pitch` and `n_valid_pitches` in binary32: every `sum_pitch += p` is
rounded. -/
def pitchAccum_float (pitches : List ℚ) : F32 × Nat :=
  pitches.foldl (fun s p => if p > 0 then (F32.add s.1 (F32.fin p), s.2 + 1) else s)
    (F32.fin 0, 0)

/-- The computation of `avg_pitch` in binary32: `sum_pitch / n_valid_pitches` converts the
counter to `float` and rounds the quotient. -/
def averagePitch_float (pitches : List ℚ) : F32 :=
  if pitches.isEmpty then F32.fin 0
  else
    let acc := pitchAccum_float pitches
    if acc.2 > 0 then F32.div acc.1 (F32.ofNat acc.2) else F32.fin 0

/-- The lambda `calculate_plane_efficiency` of `event_info_viewer.C` with its two results
computed in binary32 arithmetic. The pitches are finite `float` values. -/
def calculate_plane_efficiency_float (fuel : Nat) (has_dead_channels : Bool)
    (dead : List ChannelKey) (wires : List Nat) (pitches : List ℚ) (tpcs : List Nat)
    (ontraj : List Bool) (plane : Int) : Option (F32 × F32) :=
  if !has_dead_channels || wires.isEmpty then some sentinel_float
  else
    let valid := validHits dead plane wires pitches tpcs ontraj
    if valid.length < 25 then some sentinel_float
    else
      let unique_wires := setOfList wireLt (valid.map ValidHit.wire)
      let sorted_wires := std_sort unique_wires
      if has_large_holes sorted_wires then some sentinel_float
      else
        let unique_tpcs := setOfList wireLt (valid.map ValidHit.tpc)
        match tpcLoop fuel dead (toUShort plane) valid unique_tpcs (0, []) with
        | none => none
        | some st =>
          if st.1 < 25 then some sentinel_float
          else
            let efficiency : F32 :=
              if st.1 > 0 then
                F32.min (F32.div (F32.ofNat st.2.length) (F32.ofNat st.1)) (F32.fin 1)
              else F32.fin 0
            some (efficiency, averagePitch_float (valid.map ValidHit.pitch))

/-- A rational is a binary32 value: rounding leaves it unchanged. -/
abbrev isBinary32 (q : ℚ) : Prop := F32.round q = F32.fin q

/-- The test `a > 0` on a binary32 value. -/
def F32.isPos : F32 → Bool
  | F32.fin q => decide (0 < q)
  | F32.pinf => true
  | _ => false

/-- A binary32 value is `+inf` or a finite value not below `c`. -/
def F32.atLeast (s : F32) (c : ℚ) : Prop := s = F32.pinf ∨ ∃ r, s = F32.fin r ∧ c ≤ r

/-- The running sum `sum_pitch` after the additions `sum_pitch += p` for the values of a list,
started from `s`. -/
def sum_float (s : F32) (ps : List ℚ) : F32 := ps.foldl (fun s p => F32.add s (F32.fin p)) s

/-! ## The text of a `float`: `operator<<` and `std::stof` -/

/-- The decimal exponent `X` of a positive `num / den` between `10^-45` and `10^44`, the range
of the positive binary32 values: `10^X ≤ num / den < 10^(X+1)`. -/
def decExponent (num den : Nat) : Int :=
  (((List.range 90).filter (fun i => decide (den * 10 ^ i ≤ num * 10 ^ 45))).length : Int) - 46

/-- The integer nearest to `num / den / 10^(X-5)` (ties to even): the six significant digits of
`num / den` when `X` is its decimal exponent. -/
def sixDigits (num den : Nat) (X : Int) : Nat :=
  if X ≤ 5 then roundHalfEven (num * 10 ^ (5 - X).toNat) den
  else roundHalfEven num (den * 10 ^ (X - 5).toNat)

/-- Removal of the trailing zeros of a run of digits. -/
def stripZeros (ds : List Char) : List Char :=
  (ds.reverse.dropWhile (fun c => c.toNat == 48)).reverse

/-- The decimal digits of `n` on at least `width` places, padded with zeros on the left. -/
def padDigits (width n : Nat) : List Char :=
  List.replicate (width - (printNat n).length) (Char.ofNat 48) ++ printNat n

/-- A fractional part after its trailing zeros are removed, with the decimal point, or nothing
when no digit remains. -/
def fractionText (ds : List Char) : List Char :=
  if (stripZeros ds).isEmpty then [] else Char.ofNat 46 :: stripZeros ds

/-- The conversion `%g` with precision 6 of a positive `num / den`: six significant digits;
fixed notation when the decimal exponent `X` of the rounded value satisfies `-4 ≤ X < 6`, and
otherwise scientific notation with an exponent of at least two digits; trailing zeros of the
fraction, and a decimal point with no fraction, are removed. -/
def printPositive (num den : Nat) : List Char :=
  let X0 := decExponent num den
  let X := if 1000000 ≤ sixDigits num den X0 then X0 + 1 else X0
  let ds := padDigits 6 (sixDigits num den X)
  if -4 ≤ X ∧ X < 6 then
    if 0 ≤ X then ds.take (X.toNat + 1) ++ fractionText (ds.drop (X.toNat + 1))
    else Char.ofNat 48 :: fractionText (List.replicate ((-X).toNat - 1) (Char.ofNat 48) ++ ds)
  else
    ds.take 1 ++ fractionText (ds.drop 1) ++
      (Char.ofNat 101 :: (if X < 0 then Char.ofNat 45 else Char.ofNat 43) ::
        padDigits 2 X.natAbs)

/-- The text that `operator<<` writes for a finite `float` on a stream with the default format
flags and precision 6: the conversion `%g` of the value. -/
def ostream_float (q : ℚ) : List Char :=
  if q = 0 then [Char.ofNat 48]
  else if q < 0 then Char.ofNat 45 :: printPositive q.num.natAbs q.den
  else printPositive q.num.natAbs q.den

/-- The code point of a letter in lower case. -/
def lowerCode (c : Char) : Nat := if 65 ≤ c.toNat ∧ c.toNat ≤ 90 then c.toNat + 32 else c.toNat

/-- The C-locale `isxdigit`. -/
def isxdigit (c : Char) : Bool := isdigit c || (97 ≤ lowerCode c && lowerCode c ≤ 102)

/-- Value of a run of hexadecimal digits, most significant first. -/
def hexValue (ds : List Char) : Nat :=
  ds.foldl (fun acc c => 16 * acc + (if isdigit c then c.toNat - 48 else lowerCode c - 87)) 0

/-- The optional exponent part of a floating constant: the marker (`e` or `p`, in either case),
an optional sign and a run of digits. It counts as 0 when it is absent or has no digit. -/
def exponentPart (marker : Nat) : List Char → Int
  | [] => 0
  | c :: r =>
    if lowerCode c = marker then
      let sb := stripSign r
      let ds := sb.2.takeWhile isdigit
      if ds.isEmpty then 0
      else if sb.1 then -(digitsValue ds : Int) else (digitsValue ds : Int)
    else 0

/-- The digits of the fraction that follow a decimal point at the head of the text. -/
def fractionDigits (digit : Char → Bool) : List Char → List Char
  | [] => []
  | c :: r => if c.toNat = 46 then r.takeWhile digit else []

/-- The text that follows the fraction. -/
def afterFraction (digit : Char → Bool) : List Char → List Char
  | [] => []
  | c :: r => if c.toNat = 46 then r.dropWhile digit else c :: r

/-- The result of `strtof` followed by the range test of `std::stof`, for the exact value
`num / den` of the constant read: the nearest binary32 value, and `none` (the exception
`out_of_range`) when `strtof` reports `ERANGE`, which it does when the rounded value overflows
and when the value is tiny (it rounds, with 24 bits and any exponent, to less than `2^-126`) and
not a binary32 value. -/
def stofValue (negative : Bool) (num den : Nat) : Option F32 :=
  let k := roundUnits (num * 2 ^ 149) den
  if 2 ^ 277 ≤ k then none
  else if roundHalfEven (2 * (num * 2 ^ 149)) den < 16777216 ∧ (num * 2 ^ 149) % den ≠ 0 then none
  else some (F32.fin (if negative then -((k : ℚ) / 2 ^ 149) else (k : ℚ) / 2 ^ 149))

/-- A scaling by `base ^ e` as a fraction of natural numbers. -/
def scaled (m base : Nat) (e : Int) : Nat × Nat :=
  if 0 ≤ e then (m * base ^ e.toNat, 1) else (m, base ^ (-e).toNat)

/-- A hexadecimal floating constant `0x h.h p±d`, when the text starts with one: its value. -/
def stofHex (negative : Bool) (s : List Char) : Option (Option F32) :=
  match s with
  | z :: x :: rest =>
    if z.toNat = 48 ∧ lowerCode x = 120 then
      let ip := rest.takeWhile isxdigit
      let r1 := rest.dropWhile isxdigit
      let fp := fractionDigits isxdigit r1
      if ip.isEmpty && fp.isEmpty then none
      else
        let e := exponentPart 112 (afterFraction isxdigit r1) - 4 * (fp.length : Int)
        let v := scaled (hexValue (ip ++ fp)) 2 e
        some (stofValue negative v.1 v.2)
    else none
  | _ => none

/-- A decimal floating constant `d.d e±d`: `none` (the exception `invalid_argument`) when the
text has no digit. -/
def stofDecimal (negative : Bool) (s : List Char) : Option F32 :=
  let ip := s.takeWhile isdigit
  let r1 := s.dropWhile isdigit
  let fp := fractionDigits isdigit r1
  if ip.isEmpty && fp.isEmpty then none
  else
    let e := exponentPart 101 (afterFraction isdigit r1) - (fp.length : Int)
    let v := scaled (digitsValue (ip ++ fp)) 10 e
    stofValue negative v.1 v.2

/-- The function `std::stof(str)` (`strtof` of the C library and the range test of the C++
library): leading whitespace is skipped, one optional sign is read, then `inf`, `nan`, a
hexadecimal or a decimal floating constant; what follows is ignored. `none` stands for a thrown
exception: `invalid_argument` when nothing is read, `out_of_range` when `strtof` reports
`ERANGE`. -/
def stof (s : List Char) : Option F32 :=
  let sb := stripSign (s.dropWhile isspace)
  if (sb.2.take 3).map lowerCode = [105, 110, 102] then
    some (if sb.1 then F32.ninf else F32.pinf)
  else if (sb.2.take 3).map lowerCode = [110, 97, 110] then some F32.nan
  else
    match stofHex sb.1 sb.2 with
    | some r => r
    | none => stofDecimal sb.1 sb.2

/-- The decimal exponent of the text written for a positive `num / den`: the exponent of the
value once it is rounded to six significant digits. -/
def writtenExponent (num den : Nat) : Int :=
  if 1000000 ≤ sixDigits num den (decExponent num den) then decExponent num den + 1
  else decExponent num den

/-- The decimal with six significant digits that `operator<<` writes for a finite `float`:
the value that the written text denotes. -/
def writtenDecimal (q : ℚ) : ℚ :=
  if q = 0 then 0
  else
    let d : ℚ := (sixDigits q.num.natAbs q.den (writtenExponent q.num.natAbs q.den) : ℚ) *
      10 ^ (writtenExponent q.num.natAbs q.den - 5)
    if q < 0 then -d else d

/-! ## Lemmas on the set model -/

theorem keyLt_irrefl (a : ChannelKey) : keyLt a a = false := by
  simp [keyLt]

theorem keyLt_total (a b : ChannelKey) (h1 : keyLt a b = false) (h2 : keyLt b a = false) :
    a = b := by
  obtain ⟨a1, a2, a3⟩ := a
  obtain ⟨b1, b2, b3⟩ := b
  simp only [keyLt, Bool.or_eq_false_iff, Bool.and_eq_false_iff, decide_eq_false_iff_not,
    beq_eq_false_iff_ne, ne_eq] at h1 h2
  have e1 : a1 = b1 := by omega
  subst e1
  have e2 : a2 = b2 := by
    rcases h1 with ⟨_, h | h⟩ <;> rcases h2 with ⟨_, g | g⟩ <;> omega
  subst e2
  have e3 : a3 = b3 := by
    rcases h1 with ⟨_, h | h⟩ <;> rcases h2 with ⟨_, g | g⟩ <;> omega
  subst e3
  rfl

theorem wireLt_irrefl (a : Nat) : wireLt a a = false := by
  simp [wireLt]

theorem wireLt_total (a b : Nat) (h1 : wireLt a b = false) (h2 : wireLt b a = false) :
    a = b := by
  simp only [wireLt, decide_eq_false_iff_not] at h1 h2
  omega

/-- Membership after `setInsert`, for a comparator whose equivalence is equality. -/
theorem mem_setInsert {α : Type} (lt : α → α → Bool)
    (htot : ∀ a b, lt a b = false → lt b a = false → a = b)
    (a x : α) (s : List α) : x ∈ setInsert lt a s ↔ x = a ∨ x ∈ s := by
  induction s with
  | nil => simp [setInsert]
  | cons b r ih =>
    unfold setInsert
    by_cases h1 : lt a b = true
    · simp [h1]
    · by_cases h2 : lt b a = true
      · simp only [h1, h2, if_true, if_false, List.mem_cons, ih, Bool.false_eq_true]
        tauto
      · have hab : a = b := htot a b (by simpa using h1) (by simpa using h2)
        subst hab
        simp [h1]

/-- The lookup `setFind` is list membership, for a comparator whose equivalence is equality. -/
theorem setFind_iff_mem {α : Type} (lt : α → α → Bool)
    (hirr : ∀ a, lt a a = false)
    (htot : ∀ a b, lt a b = false → lt b a = false → a = b)
    (a : α) (s : List α) : setFind lt a s = true ↔ a ∈ s := by
  unfold setFind
  rw [List.any_eq_true]
  constructor
  · rintro ⟨b, hb, h⟩
    simp only [Bool.and_eq_true, Bool.not_eq_true'] at h
    rw [htot a b h.1 h.2]
    exact hb
  · intro h
    exact ⟨a, h, by simp [hirr]⟩

theorem mem_setOfList {α : Type} (lt : α → α → Bool)
    (htot : ∀ a b, lt a b = false → lt b a = false → a = b)
    (x : α) (xs : List α) : x ∈ setOfList lt xs ↔ x ∈ xs := by
  have key : ∀ (ys acc : List α),
      x ∈ ys.foldl (fun s a => setInsert lt a s) acc ↔ x ∈ acc ∨ x ∈ ys := by
    intro ys
    induction ys with
    | nil => intro acc; simp
    | cons y r ih =>
      intro acc
      rw [List.foldl_cons, ih, mem_setInsert lt htot, List.mem_cons]
      tauto
  simpa [setOfList] using key xs []

/-- Membership in the set built by the loader started from `acc`. -/
theorem mem_foldl_loadStep (k : ChannelKey) (rows : List (List Char)) (acc : List ChannelKey) :
    k ∈ rows.foldl loadStep acc ↔ k ∈ acc ∨ ∃ row ∈ rows, parseDeadRow row = some k := by
  induction rows generalizing acc with
  | nil => simp
  | cons r rs ih =>
    rw [List.foldl_cons, ih]
    unfold loadStep
    cases hp : parseDeadRow r with
    | none =>
      simp [hp]
    | some k2 =>
      simp only [mem_setInsert keyLt keyLt_total, List.mem_cons, exists_eq_or_imp, hp,
        Option.some.injEq]
      constructor
      · rintro ((h | h) | h)
        · exact Or.inr (Or.inl h.symm)
        · exact Or.inl h
        · exact Or.inr (Or.inr h)
      · rintro (h | h | h)
        · exact Or.inl (Or.inr h)
        · exact Or.inl (Or.inl h.symm)
        · exact Or.inr h

/-! ## Lemmas on the counting loop -/

theorem liveInRange_step (dead : List ChannelKey) (plane tpc lo hi : Nat) (h : lo ≤ hi) :
    liveInRange dead plane tpc lo hi =
      (if isDead dead lo plane tpc then 0 else 1) + liveInRange dead plane tpc (lo + 1) hi := by
  unfold liveInRange
  have e : hi + 1 - lo = (hi + 1 - (lo + 1)) + 1 := by omega
  rw [e, List.range'_succ, List.filter_cons]
  by_cases hd : isDead dead lo plane tpc = true
  · simp [hd]
  · simp [hd]; omega

theorem liveInRange_empty (dead : List ChannelKey) (plane tpc lo hi : Nat) (h : hi < lo) :
    liveInRange dead plane tpc lo hi = 0 := by
  unfold liveInRange
  have e : hi + 1 - lo = 0 := by omega
  simp [e]

theorem liveInRange_le (dead : List ChannelKey) (plane tpc lo hi : Nat) :
    liveInRange dead plane tpc lo hi ≤ hi + 1 - lo := by
  unfold liveInRange
  calc ((List.range' lo (hi + 1 - lo)).filter (fun w => !isDead dead w plane tpc)).length
      ≤ (List.range' lo (hi + 1 - lo)).length := List.length_filter_le _ _
    _ = hi + 1 - lo := List.length_range' _ _ _

/-- More fuel does not change a returned count. -/
theorem countNonDead_mono (dead : List ChannelKey) (plane tpc_id max_wire : Nat) (fuel : Nat) :
    ∀ wire n r, countNonDead dead plane tpc_id max_wire fuel wire n = some r →
      countNonDead dead plane tpc_id max_wire (fuel + 1) wire n = some r := by
  induction fuel with
  | zero => intro wire n r h; simp [countNonDead] at h
  | succ k ih =>
    intro wire n r h
    rw [countNonDead] at h
    rw [countNonDead]
    by_cases hle : wire ≤ max_wire
    · rw [if_pos hle] at h ⊢
      by_cases hd : isDead dead wire plane tpc_id = true
      · rw [if_pos hd] at h ⊢
        exact ih _ _ _ h
      · rw [if_neg hd] at h ⊢
        by_cases hn : n < 2147483647
        · rw [if_pos hn] at h ⊢
          exact ih _ _ _ h
        · rw [if_neg hn] at h
          simp at h
    · rw [if_neg hle] at h ⊢
      exact h

/-- With `max_wire = 65535` the loop test `wire <= max_wire` never fails: the loop does not
exit, whatever the fuel. -/
theorem countNonDead_diverges (dead : List ChannelKey) (plane tpc_id max_wire : Nat)
    (hmax : 65535 ≤ max_wire) (fuel : Nat) :
    ∀ wire n, wire ≤ max_wire → countNonDead dead plane tpc_id max_wire fuel wire n = none := by
  induction fuel with
  | zero => intro wire n _; rfl
  | succ k ih =>
    intro wire n hw
    have hnext : (wire + 1) % 65536 ≤ max_wire := by omega
    unfold countNonDead
    rw [if_pos hw]
    split
    · exact ih _ _ hnext
    · split
      · exact ih _ _ hnext
      · rfl

/-- Whenever the loop returns, its result is the start value plus the number of non-dead wires
of `[wire, max_wire]`. -/
theorem countNonDead_eq (dead : List ChannelKey) (plane tpc_id max_wire : Nat)
    (hmax : max_wire < 65535) (fuel : Nat) :
    ∀ wire n r, wire ≤ max_wire + 1 →
      countNonDead dead plane tpc_id max_wire fuel wire n = some r →
      r = n + liveInRange dead plane tpc_id wire max_wire := by
  induction fuel with
  | zero => intro wire n r _ h; simp [countNonDead] at h
  | succ k ih =>
    intro wire n r hw h
    unfold countNonDead at h
    by_cases hle : wire ≤ max_wire
    · rw [if_pos hle] at h
      have hmod : (wire + 1) % 65536 = wire + 1 := by omega
      rw [hmod] at h
      rw [liveInRange_step dead plane tpc_id wire max_wire hle]
      by_cases hd : isDead dead wire plane tpc_id = true
      · rw [if_pos hd] at h
        have := ih _ _ _ (by omega) h
        simp [hd]; omega
      · rw [if_neg hd] at h
        by_cases hn : n < 2147483647
        · rw [if_pos hn] at h
          have := ih _ _ _ (by omega) h
          simp [hd]; omega
        · rw [if_neg hn] at h
          simp at h
    · rw [if_neg hle] at h
      rw [liveInRange_empty dead plane tpc_id wire max_wire (by omega)]
      simp at h
      omega

/-- The loop returns when `max_wire < 65535`, the fuel covers the range and the counter stays
within `int`. -/
theorem countNonDead_total (dead : List ChannelKey) (plane tpc_id max_wire : Nat)
    (hmax : max_wire < 65535) (fuel : Nat) :
    ∀ wire n, wire ≤ max_wire + 1 → max_wire + 2 - wire ≤ fuel →
      n + liveInRange dead plane tpc_id wire max_wire ≤ 2147483647 →
      countNonDead dead plane tpc_id max_wire fuel wire n =
        some (n + liveInRange dead plane tpc_id wire max_wire) := by
  induction fuel with
  | zero => intro wire n hw hf _; omega
  | succ k ih =>
    intro wire n hw hf hb
    unfold countNonDead
    by_cases hle : wire ≤ max_wire
    · rw [if_pos hle]
      have hmod : (wire + 1) % 65536 = wire + 1 := by omega
      rw [hmod]
      rw [liveInRange_step dead plane tpc_id wire max_wire hle] at hb ⊢
      by_cases hd : isDead dead wire plane tpc_id = true
      · rw [if_pos hd]
        simp only [hd, if_true] at hb ⊢
        rw [ih _ _ (by omega) (by omega) (by omega)]
        congr 1
        omega
      · rw [if_neg hd]
        simp only [hd, if_false, Bool.false_eq_true] at hb ⊢
        rw [if_pos (by omega)]
        rw [ih _ _ (by omega) (by omega) (by omega)]
        congr 1
        omega
    · rw [if_neg hle, liveInRange_empty dead plane tpc_id wire max_wire (by omega)]
      rfl

/-- From a start inside the range, a returned count is the number of non-dead wires of the
range, and the range ends below 65535. -/
theorem countNonDead_some (dead : List ChannelKey) (plane tpc_id max_wire fuel wire n r : Nat)
    (hw : wire ≤ max_wire)
    (h : countNonDead dead plane tpc_id max_wire fuel wire n = some r) :
    max_wire < 65535 ∧ r = n + liveInRange dead plane tpc_id wire max_wire := by
  by_cases hmax : max_wire < 65535
  · exact ⟨hmax, countNonDead_eq dead plane tpc_id max_wire hmax fuel wire n r (by omega) h⟩
  · rw [countNonDead_diverges dead plane tpc_id max_wire (by omega) fuel wire n hw] at h
    simp at h

/-! ## Lemmas on sorted wire lists -/

theorem setInsert_sorted (a : Nat) (s : List Nat) (hs : s.Pairwise (fun x y => x < y)) :
    (setInsert wireLt a s).Pairwise (fun x y => x < y) := by
  induction s with
  | nil => simp [setInsert]
  | cons b r ih =>
    rw [List.pairwise_cons] at hs
    unfold setInsert
    by_cases h1 : wireLt a b = true
    · rw [if_pos h1]
      have hab : a < b := by simpa [wireLt] using h1
      refine List.pairwise_cons.2 ⟨?_, List.pairwise_cons.2 hs⟩
      intro x hx
      rcases List.mem_cons.1 hx with hx | hx
      · omega
      · have := hs.1 x hx
        omega
    · rw [if_neg h1]
      by_cases h2 : wireLt b a = true
      · rw [if_pos h2]
        have hba : b < a := by simpa [wireLt] using h2
        refine List.pairwise_cons.2 ⟨?_, ih hs.2⟩
        intro x hx
        rcases (mem_setInsert wireLt wireLt_total a x r).1 hx with hx | hx
        · omega
        · exact hs.1 x hx
      · rw [if_neg h2]
        exact List.pairwise_cons.2 hs

theorem setOfList_sorted (xs : List Nat) :
    (setOfList wireLt xs).Pairwise (fun x y => x < y) := by
  have key : ∀ (ys acc : List Nat), acc.Pairwise (fun x y => x < y) →
      (ys.foldl (fun s a => setInsert wireLt a s) acc).Pairwise (fun x y => x < y) := by
    intro ys
    induction ys with
    | nil => intro acc h; simpa using h
    | cons y r ih =>
      intro acc h
      rw [List.foldl_cons]
      exact ih _ (setInsert_sorted y acc h)
  exact key xs [] List.Pairwise.nil

/-- The sort leaves the iteration order of a `std::set` unchanged. -/
theorem std_sort_setOfList (xs : List Nat) :
    std_sort (setOfList wireLt xs) = setOfList wireLt xs := by
  unfold std_sort
  apply List.Sorted.insertionSort_eq
  exact (setOfList_sorted xs).imp (fun h => Nat.le_of_lt h)

/-- In a strictly increasing list, two members more than 11 apart with no member strictly
between them are found by `has_large_holes`. -/
theorem has_large_holes_of_gap (l : List Nat) (hs : l.Pairwise (fun x y => x < y))
    (a b : Nat) (ha : a ∈ l) (hb : b ∈ l) (hgap : a + 11 < b)
    (hbetween : ∀ c ∈ l, ¬ (a < c ∧ c < b)) : has_large_holes l = true := by
  induction l with
  | nil => simp at ha
  | cons x rest ih =>
    rw [List.pairwise_cons] at hs
    have hbx : b ≠ x := by
      intro hbx
      rcases List.mem_cons.1 ha with h | h
      · omega
      · have := hs.1 a h
        omega
    have hbr : b ∈ rest := by
      rcases List.mem_cons.1 hb with h | h
      · exact absurd h hbx
      · exact h
    cases rest with
    | nil => simp at hbr
    | cons y r =>
      unfold has_large_holes
      by_cases hg : (y : Int) - (x : Int) > 11
      · rw [if_pos hg]
      · rw [if_neg hg]
        have har : a ∈ y :: r := by
          rcases List.mem_cons.1 ha with h | h
          · exfalso
            subst h
            have hy := hbetween y (by simp)
            have hxy := hs.1 y (by simp)
            have hyb : y ≤ b := by
              rcases List.mem_cons.1 hbr with h | h
              · omega
              · have := (List.pairwise_cons.1 hs.2).1 b h
                omega
            omega
          · exact h
        exact ih hs.2 har hbr (fun c hc => hbetween c (List.mem_cons_of_mem _ hc))

/-- Conversely, when `has_large_holes` fires there are two members more than 11 apart. -/
theorem gap_of_has_large_holes (l : List Nat) (h : has_large_holes l = true) :
    ∃ a b, a ∈ l ∧ b ∈ l ∧ a + 11 < b := by
  induction l with
  | nil => simp [has_large_holes] at h
  | cons x rest ih =>
    cases rest with
    | nil => simp [has_large_holes] at h
    | cons y r =>
      unfold has_large_holes at h
      by_cases hg : (y : Int) - (x : Int) > 11
      · exact ⟨x, y, by simp, by simp, by omega⟩
      · rw [if_neg hg] at h
        obtain ⟨a, b, ha, hb, hab⟩ := ih h
        exact ⟨a, b, List.mem_cons_of_mem _ ha, List.mem_cons_of_mem _ hb, hab⟩

/-! ## Lemmas on the validity filter and the pitch average -/

theorem validHits_pitch_pos (dead : List ChannelKey) (plane : Int) (wires : List Nat) :
    ∀ (pitches : List ℚ) (tpcs : List Nat) (ontraj : List Bool),
      ∀ h ∈ validHits dead plane wires pitches tpcs ontraj, 0 < h.pitch := by
  induction wires with
  | nil => intro pitches tpcs ontraj h hh; simp [validHits] at hh
  | cons w ws ih =>
    intro pitches tpcs ontraj h hh
    cases pitches with
    | nil => simp [validHits] at hh
    | cons p ps =>
      cases tpcs with
      | nil => simp [validHits] at hh
      | cons t ts =>
        cases ontraj with
        | nil => simp [validHits] at hh
        | cons o os =>
          unfold validHits at hh
          split at hh
          · rename_i hc
            rcases List.mem_cons.1 hh with h1 | h1
            · subst h1
              simp only [Bool.and_eq_true, decide_eq_true_eq] at hc
              exact hc.1.2
            · exact ih ps ts os h h1
          · exact ih ps ts os h hh

theorem validHits_not_dead (dead : List ChannelKey) (plane : Int) (wires : List Nat) :
    ∀ (pitches : List ℚ) (tpcs : List Nat) (ontraj : List Bool),
      ∀ h ∈ validHits dead plane wires pitches tpcs ontraj,
        isDead dead h.wire (toUShort plane) h.tpc = false := by
  induction wires with
  | nil => intro pitches tpcs ontraj h hh; simp [validHits] at hh
  | cons w ws ih =>
    intro pitches tpcs ontraj h hh
    cases pitches with
    | nil => simp [validHits] at hh
    | cons p ps =>
      cases tpcs with
      | nil => simp [validHits] at hh
      | cons t ts =>
        cases ontraj with
        | nil => simp [validHits] at hh
        | cons o os =>
          unfold validHits at hh
          split at hh
          · rename_i hc
            rcases List.mem_cons.1 hh with h1 | h1
            · subst h1
              simp only [Bool.and_eq_true, Bool.not_eq_true'] at hc
              exact hc.2
            · exact ih ps ts os h h1
          · exact ih ps ts os h hh

/-- The valid hits are the hits at an index present in all four vectors that are on
trajectory, have `pitch > 0` and whose channel `(wire, plane, tpc)` is not dead. -/
theorem mem_validHits_iff (dead : List ChannelKey) (plane : Int) (wires : List Nat) :
    ∀ (pitches : List ℚ) (tpcs : List Nat) (ontraj : List Bool) (h : ValidHit),
      h ∈ validHits dead plane wires pitches tpcs ontraj ↔
        ∃ i : Nat, wires[i]? = some h.wire ∧ pitches[i]? = some h.pitch ∧
          tpcs[i]? = some h.tpc ∧ ontraj[i]? = some true ∧ 0 < h.pitch ∧
          isDead dead h.wire (toUShort plane) h.tpc = false := by
  induction wires with
  | nil => intro pitches tpcs ontraj h; simp [validHits]
  | cons w ws ih =>
    intro pitches tpcs ontraj h
    cases pitches with
    | nil => simp [validHits]
    | cons p ps =>
      cases tpcs with
      | nil => simp [validHits]
      | cons t ts =>
        cases ontraj with
        | nil => simp [validHits]
        | cons o os =>
          have hrec := ih ps ts os h
          have hsplit : (∃ i : Nat, (w :: ws)[i]? = some h.wire ∧ (p :: ps)[i]? = some h.pitch ∧
              (t :: ts)[i]? = some h.tpc ∧ (o :: os)[i]? = some true ∧ 0 < h.pitch ∧
              isDead dead h.wire (toUShort plane) h.tpc = false) ↔
              ((w = h.wire ∧ p = h.pitch ∧ t = h.tpc ∧ o = true ∧ 0 < h.pitch ∧
                isDead dead h.wire (toUShort plane) h.tpc = false) ∨
              ∃ i : Nat, ws[i]? = some h.wire ∧ ps[i]? = some h.pitch ∧ ts[i]? = some h.tpc ∧
                os[i]? = some true ∧ 0 < h.pitch ∧
                isDead dead h.wire (toUShort plane) h.tpc = false) := by
            constructor
            · rintro ⟨i, hi⟩
              cases i with
              | zero =>
                left
                simpa using hi
              | succ j =>
                right
                exact ⟨j, by simpa using hi⟩
            · rintro (h0 | ⟨j, hj⟩)
              · exact ⟨0, by simpa using h0⟩
              · exact ⟨j + 1, by simpa using hj⟩
          have hL : validHits dead plane (w :: ws) (p :: ps) (t :: ts) (o :: os) =
              if (o && decide (p > 0) && !isDead dead w (toUShort plane) t) = true then
                ValidHit.mk w p t :: validHits dead plane ws ps ts os
              else validHits dead plane ws ps ts os := by
            rw [validHits]
          rw [hsplit, ← hrec, hL]
          by_cases hc : (o && decide (p > 0) && !isDead dead w (toUShort plane) t) = true
          · rw [if_pos hc, List.mem_cons]
            simp only [Bool.and_eq_true, decide_eq_true_eq, Bool.not_eq_true'] at hc
            constructor
            · rintro (e | e)
              · left
                subst e
                exact ⟨rfl, rfl, rfl, hc.1.1, hc.1.2, hc.2⟩
              · right; exact e
            · rintro (⟨e1, e2, e3, _⟩ | e)
              · left
                cases h
                simp only at e1 e2 e3
                subst e1 e2 e3
                rfl
              · right; exact e
          · rw [if_neg hc]
            constructor
            · intro e; right; exact e
            · rintro (⟨e1, e2, e3, e4, e5, e6⟩ | e)
              · exfalso
                apply hc
                subst e1 e2 e3 e4
                simp [e5, e6]
              · exact e

theorem pitchAccum_foldl (ps : List ℚ) (s : ℚ × Nat) :
    ps.foldl (fun s p => if p > 0 then (s.1 + p, s.2 + 1) else s) s =
      (s.1 + (ps.filter (fun p => decide (p > 0))).sum,
        s.2 + (ps.filter (fun p => decide (p > 0))).length) := by
  induction ps generalizing s with
  | nil => simp
  | cons p r ih =>
    rw [List.foldl_cons, ih]
    by_cases hp : p > 0
    · simp [hp, add_assoc, add_comm 1]
    · simp [hp]

theorem pitchAccum_eq (ps : List ℚ) :
    pitchAccum ps = ((ps.filter (fun p => decide (p > 0))).sum,
      (ps.filter (fun p => decide (p > 0))).length) := by
  unfold pitchAccum
  rw [pitchAccum_foldl]
  simp

theorem averagePitch_eq (ps : List ℚ) :
    averagePitch ps =
      if (ps.filter (fun p => decide (p > 0))).length = 0 then 0
      else (ps.filter (fun p => decide (p > 0))).sum /
        ((ps.filter (fun p => decide (p > 0))).length : ℚ) := by
  unfold averagePitch
  rw [pitchAccum_eq]
  cases ps with
  | nil => simp
  | cons p r =>
    simp only [List.isEmpty_cons, Bool.false_eq_true, if_false]
    by_cases h : (List.filter (fun p => decide (p > 0)) (p :: r)).length = 0
    · simp [h]
    · have h2 : (List.filter (fun p => decide (p > 0)) (p :: r)).length > 0 := by omega
      simp only [h2, if_true, h, if_false]

theorem averagePitch_nonneg (ps : List ℚ) : 0 ≤ averagePitch ps := by
  rw [averagePitch_eq]
  split
  · exact le_refl 0
  · apply div_nonneg
    · apply List.sum_nonneg
      intro x hx
      have := (List.mem_filter.1 hx).2
      simp only [decide_eq_true_eq] at this
      exact le_of_lt this
    · exact Nat.cast_nonneg _

theorem list_sum_pos (ps : List ℚ) (hne : ps ≠ []) (hpos : ∀ p ∈ ps, 0 < p) : 0 < ps.sum := by
  induction ps with
  | nil => exact absurd rfl hne
  | cons p r ih =>
    rw [List.sum_cons]
    have hp := hpos p (by simp)
    by_cases hr : r = []
    · subst hr; simpa using hp
    · have := ih hr (fun q hq => hpos q (List.mem_cons_of_mem _ hq))
      linarith

/-! ## Lemmas for `calculate_efficiency` of `hit_analyzer` -/

theorem getLastD_eq_or_mem (l : List Nat) : ∀ d, l.getLastD d = d ∨ l.getLastD d ∈ l := by
  induction l with
  | nil => intro d; simp
  | cons a r ih =>
    intro d
    rw [List.getLastD_cons]
    rcases ih a with h | h
    · right; rw [h]; simp
    · right; exact List.mem_cons_of_mem _ h

theorem le_getLastD (l : List Nat) (hs : l.Pairwise (fun x y => x < y)) :
    ∀ d, ∀ x ∈ l, x ≤ l.getLastD d := by
  induction l with
  | nil => intro d x hx; simp at hx
  | cons a r ih =>
    intro d x hx
    rw [List.pairwise_cons] at hs
    rw [List.getLastD_cons]
    rcases List.mem_cons.1 hx with h | h
    · subst h
      rcases getLastD_eq_or_mem r x with h2 | h2
      · omega
      · exact Nat.le_of_lt (hs.1 _ h2)
    · exact ih hs.2 a x h

theorem headD_le (l : List Nat) (hs : l.Pairwise (fun x y => x < y)) (d : Nat) :
    ∀ x ∈ l, l.headD d ≤ x := by
  cases l with
  | nil => intro x hx; simp at hx
  | cons a r =>
    intro x hx
    rw [List.pairwise_cons] at hs
    simp only [List.headD_cons]
    rcases List.mem_cons.1 hx with h | h
    · omega
    · exact Nat.le_of_lt (hs.1 _ h)

theorem headD_mem (l : List Nat) (hne : l ≠ []) (d : Nat) : l.headD d ∈ l := by
  cases l with
  | nil => exact absurd rfl hne
  | cons a r => simp

theorem getLastD_mem (l : List Nat) (hne : l ≠ []) (d : Nat) : l.getLastD d ∈ l := by
  cases l with
  | nil => exact absurd rfl hne
  | cons a r =>
    rw [List.getLastD_cons]
    rcases getLastD_eq_or_mem r a with h | h
    · rw [h]; simp
    · exact List.mem_cons_of_mem _ h

theorem uniqueHitWires_foldl_mem (dead : List ChannelKey) (plane tpc_id x : Nat)
    (ws : List Nat) : ∀ acc : List Nat,
      x ∈ ws.foldl (fun s w => if isDead dead w plane tpc_id then s else setInsert wireLt w s)
        acc ↔ x ∈ acc ∨ (x ∈ ws ∧ isDead dead x plane tpc_id = false) := by
  induction ws with
  | nil => intro acc; simp
  | cons w r ih =>
    intro acc
    rw [List.foldl_cons, ih]
    by_cases hd : isDead dead w plane tpc_id = true
    · rw [if_pos hd]
      constructor
      · rintro (h | h)
        · exact Or.inl h
        · exact Or.inr ⟨List.mem_cons_of_mem _ h.1, h.2⟩
      · rintro (h | ⟨h1, h2⟩)
        · exact Or.inl h
        · rcases List.mem_cons.1 h1 with e | e
          · subst e; rw [hd] at h2; exact absurd h2 (by simp)
          · exact Or.inr ⟨e, h2⟩
    · rw [if_neg hd, mem_setInsert wireLt wireLt_total]
      constructor
      · rintro ((h | h) | h)
        · subst h
          exact Or.inr ⟨by simp, by simpa using hd⟩
        · exact Or.inl h
        · exact Or.inr ⟨List.mem_cons_of_mem _ h.1, h.2⟩
      · rintro (h | ⟨h1, h2⟩)
        · exact Or.inl (Or.inr h)
        · rcases List.mem_cons.1 h1 with e | e
          · exact Or.inl (Or.inl e)
          · exact Or.inr ⟨e, h2⟩

theorem uniqueHitWires_foldl_sorted (dead : List ChannelKey) (plane tpc_id : Nat)
    (ws : List Nat) : ∀ acc : List Nat, acc.Pairwise (fun x y => x < y) →
      (ws.foldl (fun s w => if isDead dead w plane tpc_id then s else setInsert wireLt w s)
        acc).Pairwise (fun x y => x < y) := by
  induction ws with
  | nil => intro acc h; simpa using h
  | cons w r ih =>
    intro acc h
    rw [List.foldl_cons]
    apply ih
    split
    · exact h
    · exact setInsert_sorted w acc h

theorem mem_uniqueHitWires (dead : List ChannelKey) (plane tpc_id x : Nat) (ws : List Nat) :
    x ∈ uniqueHitWires dead plane tpc_id ws ↔ x ∈ ws ∧ isDead dead x plane tpc_id = false := by
  unfold uniqueHitWires
  rw [uniqueHitWires_foldl_mem]
  simp

theorem uniqueHitWires_nodup (dead : List ChannelKey) (plane tpc_id : Nat) (ws : List Nat) :
    (uniqueHitWires dead plane tpc_id ws).Nodup := by
  have h := uniqueHitWires_foldl_sorted dead plane tpc_id ws [] List.Pairwise.nil
  exact h.imp (fun hxy => Nat.ne_of_lt hxy)

/-- The distinct wires that are not dead and lie in `[lo, hi]` are at most the non-dead wires of
`[lo, hi]`. -/
theorem uniqueHitWires_length_le (dead : List ChannelKey) (plane tpc_id lo hi : Nat)
    (ws : List Nat) (hrange : ∀ w ∈ ws, lo ≤ w ∧ w ≤ hi) :
    (uniqueHitWires dead plane tpc_id ws).length ≤ liveInRange dead plane tpc_id lo hi := by
  unfold liveInRange
  apply List.Subperm.length_le
  apply List.subperm_of_subset (uniqueHitWires_nodup dead plane tpc_id ws)
  intro x hx
  have hm := (mem_uniqueHitWires dead plane tpc_id x ws).1 hx
  have hr := hrange x hm.1
  rw [List.mem_filter, List.mem_range'_1]
  refine ⟨⟨hr.1, by omega⟩, ?_⟩
  simp [hm.2]

theorem uniqueHitWires_length_eq_card (dead : List ChannelKey) (plane tpc_id : Nat)
    (ws : List Nat) :
    (uniqueHitWires dead plane tpc_id ws).length =
      ((ws.filter (fun w => !isDead dead w plane tpc_id)).toFinset).card := by
  rw [← List.toFinset_card_of_nodup (uniqueHitWires_nodup dead plane tpc_id ws)]
  congr 1
  ext x
  simp only [List.mem_toFinset, mem_uniqueHitWires, List.mem_filter, Bool.not_eq_true']

/-- What `efficiency_values` has computed when it passes all its gates. -/
theorem efficiency_values_some (fuel : Nat) (dead : List ChannelKey) (trk_id : Int)
    (track_length : ℚ) (wires : List Nat) (pitches : List ℚ) (tpcs : List Nat) (plane : Int)
    (row : EffRow)
    (h : efficiency_values fuel dead trk_id track_length wires pitches tpcs plane =
      some (some row)) :
    ∃ lo hi, lo ∈ wires ∧ hi ∈ wires ∧ (∀ w ∈ wires, lo ≤ w ∧ w ≤ hi) ∧ hi < 65535 ∧
      25 ≤ (setOfList wireLt wires).length ∧
      has_large_holes (setOfList wireLt wires) = false ∧
      25 ≤ liveInRange dead (toUShort plane) (tpcs.headD 0) lo hi ∧
      row = EffRow.mk trk_id plane (tpcs.headD 0) track_length
        (uniqueHitWires dead (toUShort plane) (tpcs.headD 0) wires).length
        (liveInRange dead (toUShort plane) (tpcs.headD 0) lo hi)
        (((uniqueHitWires dead (toUShort plane) (tpcs.headD 0) wires).length : ℚ) /
          (liveInRange dead (toUShort plane) (tpcs.headD 0) lo hi : ℚ))
        (averagePitch pitches) := by
  unfold efficiency_values at h
  by_cases h1 : wires.isEmpty = true
  · simp [h1] at h
  · simp only [h1, if_false, Bool.false_eq_true] at h
    by_cases h2 : (setOfList wireLt wires).length < 25
    · simp [h2] at h
    · simp only [h2, if_false] at h
      rw [std_sort_setOfList] at h
      by_cases h3 : has_large_holes (setOfList wireLt wires) = true
      · simp [h3] at h
      · simp only [h3, if_false, Bool.false_eq_true] at h
        have hne : setOfList wireLt wires ≠ [] := by
          intro he
          rw [he] at h2
          simp at h2
        have hsorted := setOfList_sorted wires
        have hlo := headD_mem (setOfList wireLt wires) hne 0
        have hhi := getLastD_mem (setOfList wireLt wires) hne 0
        have hlohi : (setOfList wireLt wires).headD 0 ≤ (setOfList wireLt wires).getLastD 0 :=
          headD_le _ hsorted 0 _ hhi
        cases hc : countNonDead dead (toUShort plane) (tpcs.headD 0)
            ((setOfList wireLt wires).getLastD 0) fuel ((setOfList wireLt wires).headD 0) 0 with
        | none =>
          rw [hc] at h
          simp at h
        | some n =>
          simp only [hc] at h
          obtain ⟨hmax, hn⟩ := countNonDead_some _ _ _ _ _ _ _ _ hlohi hc
          rw [Nat.zero_add] at hn
          by_cases h4 : n < 25
          · simp [h4] at h
          · simp only [h4, if_false] at h
            have hpos : n > 0 := by omega
            simp only [hpos, if_true] at h
            refine ⟨(setOfList wireLt wires).headD 0, (setOfList wireLt wires).getLastD 0,
              (mem_setOfList wireLt wireLt_total _ _).1 hlo,
              (mem_setOfList wireLt wireLt_total _ _).1 hhi, ?_, hmax, by omega,
              by simpa using h3, by omega, ?_⟩
            · intro w hw
              have hw2 := (mem_setOfList wireLt wireLt_total w wires).2 hw
              exact ⟨headD_le _ hsorted 0 w hw2, le_getLastD _ hsorted 0 w hw2⟩
            · rw [← hn]
              exact (Option.some.inj (Option.some.inj h)).symm

/-- A row is written exactly when the values are computed and `avg_pitch > 0`. -/
theorem calculate_efficiency_some (fuel : Nat) (dead : List ChannelKey) (trk_id : Int)
    (track_length : ℚ) (wires : List Nat) (pitches : List ℚ) (tpcs : List Nat) (plane : Int)
    (row : EffRow) :
    calculate_efficiency fuel dead trk_id track_length wires pitches tpcs plane =
        some (some row) ↔
      efficiency_values fuel dead trk_id track_length wires pitches tpcs plane =
        some (some row) ∧ row.avgPitch > 0 := by
  unfold calculate_efficiency
  cases hv : efficiency_values fuel dead trk_id track_length wires pitches tpcs plane with
  | none => simp
  | some o =>
    cases o with
    | none => simp
    | some r =>
      by_cases hp : r.avgPitch > 0
      · simp only [hp, if_true, Option.some.injEq]
        constructor
        · intro e; subst e; exact ⟨rfl, hp⟩
        · intro e; exact e.1
      · simp only [hp, if_false, Option.some.injEq]
        constructor
        · intro e; simp at e
        · rintro ⟨e, hr⟩; subst e; exact absurd hr hp

/-! ## When `calculate_efficiency` writes a row (inputs without wire 65535) -/

/-- In a strictly increasing list, `has_large_holes` fires only on two members more than 11
apart with no member strictly between them. -/
theorem hasGap_of_has_large_holes (l : List Nat) (hs : l.Pairwise (fun x y => x < y))
    (h : has_large_holes l = true) : hasGap l := by
  induction l with
  | nil => simp [has_large_holes] at h
  | cons x rest ih =>
    cases rest with
    | nil => simp [has_large_holes] at h
    | cons y r =>
      rw [List.pairwise_cons] at hs
      have hxy : x < y := hs.1 y (by simp)
      have hs2 := List.pairwise_cons.1 hs.2
      unfold has_large_holes at h
      by_cases hg : (y : Int) - (x : Int) > 11
      · refine ⟨x, by simp, y, by simp, by omega, ?_⟩
        intro c hc
        rcases List.mem_cons.1 hc with e | e
        · omega
        · rcases List.mem_cons.1 e with e2 | e2
          · omega
          · have := hs2.1 c e2
            omega
      · rw [if_neg hg] at h
        obtain ⟨a, ha, b, hb, hab, hbt⟩ := ih hs.2 h
        refine ⟨a, List.mem_cons_of_mem _ ha, b, List.mem_cons_of_mem _ hb, hab, ?_⟩
        intro c hc
        rcases List.mem_cons.1 hc with e | e
        · have hxa : x < a := hs.1 a ha
          omega
        · exact hbt c e

/-- The hole test on the sorted distinct wires is the gap condition on the wires. -/
theorem has_large_holes_iff_hasGap (ws : List Nat) :
    has_large_holes (setOfList wireLt ws) = true ↔ hasGap ws := by
  constructor
  · intro h
    obtain ⟨a, ha, b, hb, hab, hbt⟩ :=
      hasGap_of_has_large_holes _ (setOfList_sorted ws) h
    exact ⟨a, (mem_setOfList wireLt wireLt_total a ws).1 ha, b,
      (mem_setOfList wireLt wireLt_total b ws).1 hb, hab,
      fun c hc => hbt c ((mem_setOfList wireLt wireLt_total c ws).2 hc)⟩
  · rintro ⟨a, ha, b, hb, hab, hbt⟩
    exact has_large_holes_of_gap _ (setOfList_sorted ws) a b
      ((mem_setOfList wireLt wireLt_total a ws).2 ha)
      ((mem_setOfList wireLt wireLt_total b ws).2 hb) hab
      (fun c hc => hbt c ((mem_setOfList wireLt wireLt_total c ws).1 hc))

/-- The size of `unique_wires` is the number of distinct wires. -/
theorem setOfList_length (ws : List Nat) : (setOfList wireLt ws).length = ws.toFinset.card := by
  have hnd : (setOfList wireLt ws).Nodup :=
    (setOfList_sorted ws).imp (fun hxy => Nat.ne_of_lt hxy)
  rw [← List.toFinset_card_of_nodup hnd]
  congr 1
  ext x
  simp only [List.mem_toFinset, mem_setOfList wireLt wireLt_total]

theorem averagePitch_eq_meanOfPositive (ps : List ℚ) : averagePitch ps = meanOfPositive ps := by
  rw [averagePitch_eq]
  unfold meanOfPositive
  by_cases h : ps.filter (fun p => decide (p > 0)) = []
  · simp [h]
  · have h2 : (ps.filter (fun p => decide (p > 0))).length ≠ 0 := by
      intro he
      exact h (List.length_eq_zero.1 he)
    rw [if_neg h, if_neg h2]

/-- On valid wires below 65535 and with fuel for the whole 16-bit range, `efficiency_values`
always returns, and it computes a row exactly when the three wire gates pass. -/
theorem efficiency_values_total (fuel : Nat) (dead : List ChannelKey) (trk_id : Int)
    (track_length : ℚ) (wires : List Nat) (pitches : List ℚ) (tpcs : List Nat) (plane : Int)
    (hfuel : 65537 ≤ fuel) (hw : ∀ w ∈ wires, w < 65535)
    (h25 : 25 ≤ wires.toFinset.card) (hgap : ¬ hasGap wires) (lo hi : Nat)
    (hlo : lo ∈ wires) (hhi : hi ∈ wires) (hrange : ∀ w ∈ wires, lo ≤ w ∧ w ≤ hi)
    (hlive : 25 ≤ liveInRange dead (toUShort plane) (tpcs.headD 0) lo hi) :
    efficiency_values fuel dead trk_id track_length wires pitches tpcs plane =
      some (some (EffRow.mk trk_id plane (tpcs.headD 0) track_length
        (uniqueHitWires dead (toUShort plane) (tpcs.headD 0) wires).length
        (liveInRange dead (toUShort plane) (tpcs.headD 0) lo hi)
        (((uniqueHitWires dead (toUShort plane) (tpcs.headD 0) wires).length : ℚ) /
          (liveInRange dead (toUShort plane) (tpcs.headD 0) lo hi : ℚ))
        (averagePitch pitches))) := by
  have hne : setOfList wireLt wires ≠ [] := by
    intro he
    have := (mem_setOfList wireLt wireLt_total lo wires).2 hlo
    rw [he] at this
    simp at this
  have hsorted := setOfList_sorted wires
  have hmin : (setOfList wireLt wires).headD 0 = lo := by
    have h1 := headD_le _ hsorted 0 lo ((mem_setOfList wireLt wireLt_total lo wires).2 hlo)
    have h2 := (hrange _ ((mem_setOfList wireLt wireLt_total _ wires).1
      (headD_mem _ hne 0))).1
    omega
  have hmax : (setOfList wireLt wires).getLastD 0 = hi := by
    have h1 := le_getLastD _ hsorted 0 hi ((mem_setOfList wireLt wireLt_total hi wires).2 hhi)
    have h2 := (hrange _ ((mem_setOfList wireLt wireLt_total _ wires).1
      (getLastD_mem _ hne 0))).2
    omega
  have hhi2 := hw hi hhi
  have hlohi := (hrange hi hhi).1
  have hle := liveInRange_le dead (toUShort plane) (tpcs.headD 0) lo hi
  have hcount : countNonDead dead (toUShort plane) (tpcs.headD 0) hi fuel lo 0 =
      some (liveInRange dead (toUShort plane) (tpcs.headD 0) lo hi) := by
    have := countNonDead_total dead (toUShort plane) (tpcs.headD 0) hi hhi2 fuel lo 0
      (by omega) (by omega) (by omega)
    rw [Nat.zero_add] at this
    exact this
  have h1 : wires.isEmpty = false := by
    cases wires with
    | nil => simp at hlo
    | cons a r => rfl
  have h2 : ¬ (setOfList wireLt wires).length < 25 := by
    rw [setOfList_length]
    omega
  have h3 : has_large_holes (setOfList wireLt wires) = false := by
    cases hh : has_large_holes (setOfList wireLt wires) with
    | false => rfl
    | true => exact absurd ((has_large_holes_iff_hasGap wires).1 hh) hgap
  have h4 : ¬ liveInRange dead (toUShort plane) (tpcs.headD 0) lo hi < 25 := by omega
  have h5 : liveInRange dead (toUShort plane) (tpcs.headD 0) lo hi > 0 := by omega
  unfold efficiency_values
  simp only [std_sort_setOfList, hmin, hmax, h1, h2, h3, hcount, h4, h5, if_true, if_false,
    Bool.false_eq_true]

/-- For valid wires below 65535 (and fuel for the whole 16-bit range), `calculate_efficiency`
writes a row exactly when: the valid wires have at least 25 distinct values, no consecutive gap
of the sorted distinct wires exceeds 11, at least 25 wires of `[min_wire, max_wire]` are not
dead for `(plane, tpcs[0])`, and the mean of the strictly positive valid pitches is positive. -/
theorem calculate_efficiency_writes_iff (fuel : Nat) (dead : List ChannelKey) (trk_id : Int)
    (track_length : ℚ) (wires : List Nat) (pitches : List ℚ) (tpcs : List Nat) (plane : Int)
    (hfuel : 65537 ≤ fuel) (hw : ∀ w ∈ wires, w < 65535) :
    (∃ row, calculate_efficiency fuel dead trk_id track_length wires pitches tpcs plane =
        some (some row)) ↔
      (25 ≤ wires.toFinset.card ∧ ¬ hasGap wires ∧
        (∃ lo hi, lo ∈ wires ∧ hi ∈ wires ∧ (∀ w ∈ wires, lo ≤ w ∧ w ≤ hi) ∧
          25 ≤ liveInRange dead (toUShort plane) (tpcs.headD 0) lo hi) ∧
        0 < meanOfPositive pitches) := by
  constructor
  · rintro ⟨row, hrow⟩
    obtain ⟨hv, hp⟩ := (calculate_efficiency_some _ _ _ _ _ _ _ _ _).1 hrow
    obtain ⟨lo, hi, hlo, hhi, hrange, _, h25, hholes, hlive, hr⟩ :=
      efficiency_values_some _ _ _ _ _ _ _ _ _ hv
    refine ⟨by rw [← setOfList_length]; exact h25, ?_, ⟨lo, hi, hlo, hhi, hrange, hlive⟩, ?_⟩
    · intro hg
      rw [(has_large_holes_iff_hasGap wires).2 hg] at hholes
      simp at hholes
    · rw [hr] at hp
      rw [← averagePitch_eq_meanOfPositive]
      exact hp
  · rintro ⟨h25, hgap, ⟨lo, hi, hlo, hhi, hrange, hlive⟩, hp⟩
    have hv := efficiency_values_total fuel dead trk_id track_length wires pitches tpcs plane
      hfuel hw h25 hgap lo hi hlo hhi hrange hlive
    refine ⟨_, (calculate_efficiency_some _ _ _ _ _ _ _ _ _).2 ⟨hv, ?_⟩⟩
    show averagePitch pitches > 0
    rw [averagePitch_eq_meanOfPositive]
    exact hp

/-! ## The per-TPC counting step of `calculate_plane_efficiency` -/

theorem foldl_min_le_init (ws : List Nat) : ∀ m, ws.foldl min m ≤ m := by
  induction ws with
  | nil => intro m; simp
  | cons w r ih =>
    intro m
    rw [List.foldl_cons]
    exact le_trans (ih _) (min_le_left _ _)

theorem foldl_min_le_mem (ws : List Nat) : ∀ m, ∀ w ∈ ws, ws.foldl min m ≤ w := by
  induction ws with
  | nil => intro m w hw; simp at hw
  | cons x r ih =>
    intro m w hw
    rw [List.foldl_cons]
    rcases List.mem_cons.1 hw with h | h
    · subst h
      exact le_trans (foldl_min_le_init r _) (min_le_right _ _)
    · exact ih _ w h

theorem foldl_min_eq_or_mem (ws : List Nat) : ∀ m, ws.foldl min m = m ∨ ws.foldl min m ∈ ws := by
  induction ws with
  | nil => intro m; simp
  | cons x r ih =>
    intro m
    rw [List.foldl_cons]
    rcases ih (min m x) with h | h
    · rw [h]
      rcases min_choice m x with e | e
      · left; exact e
      · right; rw [e]; simp
    · right; exact List.mem_cons_of_mem _ h

theorem foldl_max_ge_init (ws : List Nat) : ∀ m, m ≤ ws.foldl max m := by
  induction ws with
  | nil => intro m; simp
  | cons w r ih =>
    intro m
    rw [List.foldl_cons]
    exact le_trans (le_max_left _ _) (ih _)

theorem foldl_max_ge_mem (ws : List Nat) : ∀ m, ∀ w ∈ ws, w ≤ ws.foldl max m := by
  induction ws with
  | nil => intro m w hw; simp at hw
  | cons x r ih =>
    intro m w hw
    rw [List.foldl_cons]
    rcases List.mem_cons.1 hw with h | h
    · subst h
      exact le_trans (le_max_right _ _) (foldl_max_ge_init r _)
    · exact ih _ w h

theorem foldl_max_eq_or_mem (ws : List Nat) : ∀ m, ws.foldl max m = m ∨ ws.foldl max m ∈ ws := by
  induction ws with
  | nil => intro m; simp
  | cons x r ih =>
    intro m
    rw [List.foldl_cons]
    rcases ih (max m x) with h | h
    · rw [h]
      rcases max_choice m x with e | e
      · left; exact e
      · right; rw [e]; simp
    · right; exact List.mem_cons_of_mem _ h

/-- The scan of the valid hits of one TPC, component by component. -/
theorem scanTpc_eq (t : Nat) (valid : List ValidHit) : ∀ st : Nat × Nat × List Nat,
    scanTpc t valid st = ((tpcWires valid t).foldl min st.1, (tpcWires valid t).foldl max st.2.1,
      (tpcWires valid t).foldl (fun s w => setInsert wireLt w s) st.2.2) := by
  unfold scanTpc tpcWires
  induction valid with
  | nil => intro st; rfl
  | cons h r ih =>
    intro st
    rw [List.foldl_cons]
    by_cases ht : h.tpc = t
    · rw [if_pos ht, ih]
      simp [List.filter_cons, ht]
    · rw [if_neg ht, ih]
      simp [List.filter_cons, ht]

theorem mem_foldl_setInsert (x : Nat) (ws : List Nat) : ∀ acc : List Nat,
    x ∈ ws.foldl (fun s w => setInsert wireLt w s) acc ↔ x ∈ acc ∨ x ∈ ws := by
  induction ws with
  | nil => intro acc; simp
  | cons w r ih =>
    intro acc
    rw [List.foldl_cons, ih, mem_setInsert wireLt wireLt_total, List.mem_cons]
    tauto

theorem foldl_setInsert_sorted (ws : List Nat) : ∀ acc : List Nat,
    acc.Pairwise (fun x y => x < y) →
    (ws.foldl (fun s w => setInsert wireLt w s) acc).Pairwise (fun x y => x < y) := by
  induction ws with
  | nil => intro acc h; simpa using h
  | cons w r ih =>
    intro acc h
    rw [List.foldl_cons]
    exact ih _ (setInsert_sorted w acc h)

/-- The smallest and largest wire of a TPC that has a valid hit, for 16-bit wire numbers. -/
theorem tpcMinMax_spec (valid : List ValidHit) (t : Nat)
    (hw : ∀ h ∈ valid, h.wire ≤ 65535) (ht : t ∈ valid.map ValidHit.tpc) :
    tpcMinWire valid t ∈ tpcWires valid t ∧ tpcMaxWire valid t ∈ tpcWires valid t ∧
      ∀ w ∈ tpcWires valid t, tpcMinWire valid t ≤ w ∧ w ≤ tpcMaxWire valid t := by
  obtain ⟨h0, hh0, ht0⟩ := List.mem_map.1 ht
  have hmem : h0.wire ∈ tpcWires valid t := by
    unfold tpcWires
    exact List.mem_map.2 ⟨h0, List.mem_filter.2 ⟨hh0, by simpa using ht0⟩, rfl⟩
  have hbound : ∀ w ∈ tpcWires valid t, w ≤ 65535 := by
    intro w hwm
    unfold tpcWires at hwm
    obtain ⟨h1, hh1, rfl⟩ := List.mem_map.1 hwm
    exact hw h1 (List.mem_filter.1 hh1).1
  refine ⟨?_, ?_, fun w hwm => ⟨foldl_min_le_mem _ _ w hwm, foldl_max_ge_mem _ _ w hwm⟩⟩
  · unfold tpcMinWire
    rcases foldl_min_eq_or_mem (tpcWires valid t) 65535 with h | h
    · have h1 := foldl_min_le_mem (tpcWires valid t) 65535 h0.wire hmem
      have h2 := hbound _ hmem
      have h3 : h0.wire = 65535 := by omega
      rw [h, ← h3]
      exact hmem
    · exact h
  · unfold tpcMaxWire
    rcases foldl_max_eq_or_mem (tpcWires valid t) 0 with h | h
    · have h1 := foldl_max_ge_mem (tpcWires valid t) 0 h0.wire hmem
      have h3 : h0.wire = 0 := by omega
      rw [h, ← h3]
      exact hmem
    · exact h

/-- Whenever the loop over the TPC ids returns, `n_non_dead_wires` has grown by the number of
non-dead wires of `[min_wire, max_wire]` of every TPC id, and `unique_hit_wires` has received
the wires of the valid hits of these TPCs. -/
theorem tpcLoop_some (fuel : Nat) (dead : List ChannelKey) (plane : Nat)
    (valid : List ValidHit) (ts : List Nat) : ∀ st st' : Nat × List Nat,
    tpcLoop fuel dead plane valid ts st = some st' →
      st'.1 = st.1 + (ts.map (fun t =>
        liveInRange dead plane t (tpcMinWire valid t) (tpcMaxWire valid t))).sum ∧
      (∀ x, x ∈ st'.2 ↔ x ∈ st.2 ∨ ∃ t ∈ ts, x ∈ tpcWires valid t) ∧
      (st.2.Pairwise (fun x y => x < y) → st'.2.Pairwise (fun x y => x < y)) := by
  induction ts with
  | nil =>
    intro st st' h
    simp only [tpcLoop, Option.some.injEq] at h
    subst h
    simp
  | cons t r ih =>
    intro st st' h
    unfold tpcLoop at h
    cases hstep : tpcStep fuel dead plane valid st t with
    | none => rw [hstep] at h; simp at h
    | some st2 =>
      rw [hstep] at h
      simp only [] at h
      obtain ⟨ih1, ih2, ih3⟩ := ih st2 st' h
      have hst2 : st2.1 = st.1 +
          liveInRange dead plane t (tpcMinWire valid t) (tpcMaxWire valid t) ∧
          st2.2 = (tpcWires valid t).foldl (fun s w => setInsert wireLt w s) st.2 := by
        unfold tpcStep at hstep
        rw [scanTpc_eq] at hstep
        simp only [] at hstep
        by_cases hle : (tpcWires valid t).foldl min 65535 ≤ (tpcWires valid t).foldl max 0
        · rw [if_pos hle] at hstep
          cases hc : countNonDead dead plane t ((tpcWires valid t).foldl max 0) fuel
              ((tpcWires valid t).foldl min 65535) st.1 with
          | none => rw [hc] at hstep; simp at hstep
          | some n =>
            rw [hc] at hstep
            simp only [Option.map_some', Option.some.injEq] at hstep
            obtain ⟨_, hn⟩ := countNonDead_some _ _ _ _ _ _ _ _ hle hc
            subst hstep
            exact ⟨hn, rfl⟩
        · rw [if_neg hle] at hstep
          simp only [Option.some.injEq] at hstep
          subst hstep
          refine ⟨?_, rfl⟩
          unfold tpcMinWire tpcMaxWire
          rw [liveInRange_empty _ _ _ _ _ (by omega)]
          rfl
      refine ⟨?_, ?_, ?_⟩
      · rw [ih1, hst2.1, List.map_cons, List.sum_cons]
        omega
      · intro x
        rw [ih2, hst2.2, mem_foldl_setInsert]
        simp only [List.mem_cons, exists_eq_or_imp]
        tauto
      · intro hs
        apply ih3
        rw [hst2.2]
        exact foldl_setInsert_sorted _ _ hs

/-- The value of `n_non_dead_wires` after the counting step, whenever the step returns: the
sum, over the distinct TPC ids of the valid hits, of the number of wires of
`[min_wire, max_wire]` of that TPC that are not dead. -/
theorem non_dead_count_eq_sum (fuel : Nat) (dead : List ChannelKey) (plane : Nat)
    (valid : List ValidHit) (st : Nat × List Nat)
    (h : tpcLoop fuel dead plane valid (setOfList wireLt (valid.map ValidHit.tpc)) (0, []) =
      some st) :
    st.1 = Finset.sum (valid.map ValidHit.tpc).toFinset (fun t =>
      liveInRange dead plane t (tpcMinWire valid t) (tpcMaxWire valid t)) ∧
    st.2.length = (valid.map ValidHit.wire).toFinset.card := by
  obtain ⟨h1, h2, h3⟩ := tpcLoop_some fuel dead plane valid _ _ _ h
  have hnd : (setOfList wireLt (valid.map ValidHit.tpc)).Nodup :=
    (setOfList_sorted _).imp (fun hxy => Nat.ne_of_lt hxy)
  have hfin : (setOfList wireLt (valid.map ValidHit.tpc)).toFinset =
      (valid.map ValidHit.tpc).toFinset := by
    ext x
    simp only [List.mem_toFinset, mem_setOfList wireLt wireLt_total]
  constructor
  · rw [h1, Nat.zero_add, ← hfin, List.sum_toFinset _ hnd]
  · have hnd2 : st.2.Nodup := (h3 List.Pairwise.nil).imp (fun hxy => Nat.ne_of_lt hxy)
    rw [← List.toFinset_card_of_nodup hnd2]
    congr 1
    ext x
    simp only [List.mem_toFinset, h2, List.not_mem_nil, false_or,
      mem_setOfList wireLt wireLt_total, List.mem_map]
    constructor
    · rintro ⟨t, _, hx⟩
      unfold tpcWires at hx
      obtain ⟨hit, hhit, rfl⟩ := List.mem_map.1 hx
      exact ⟨hit, (List.mem_filter.1 hhit).1, rfl⟩
    · rintro ⟨hit, hhit, rfl⟩
      refine ⟨hit.tpc, ⟨hit, hhit, rfl⟩, ?_⟩
      unfold tpcWires
      exact List.mem_map.2 ⟨hit, List.mem_filter.2 ⟨hhit, by simp⟩, rfl⟩

/-- The loop over the TPC ids returns when every valid wire is below 65535, the fuel covers
the 16-bit range and the total stays within `int`. -/
theorem tpcLoop_total (fuel : Nat) (dead : List ChannelKey) (plane : Nat)
    (valid : List ValidHit) (hfuel : 65537 ≤ fuel) (hw : ∀ h ∈ valid, h.wire < 65535)
    (ts : List Nat) : ∀ st : Nat × List Nat,
    st.1 + (ts.map (fun t =>
      liveInRange dead plane t (tpcMinWire valid t) (tpcMaxWire valid t))).sum ≤ 2147483647 →
    ∃ st', tpcLoop fuel dead plane valid ts st = some st' := by
  induction ts with
  | nil => intro st _; exact ⟨st, rfl⟩
  | cons t r ih =>
    intro st hb
    rw [List.map_cons, List.sum_cons] at hb
    have hbound : ∀ w ∈ tpcWires valid t, w < 65535 := by
      intro w hwm
      unfold tpcWires at hwm
      obtain ⟨h1, hh1, rfl⟩ := List.mem_map.1 hwm
      exact hw h1 (List.mem_filter.1 hh1).1
    have hmax : tpcMaxWire valid t < 65535 := by
      unfold tpcMaxWire
      rcases foldl_max_eq_or_mem (tpcWires valid t) 0 with h | h
      · omega
      · exact hbound _ h
    have hstep : ∃ st2, tpcStep fuel dead plane valid st t = some st2 ∧
        st2.1 = st.1 + liveInRange dead plane t (tpcMinWire valid t) (tpcMaxWire valid t) := by
      unfold tpcStep
      rw [scanTpc_eq]
      simp only []
      by_cases hle : (tpcWires valid t).foldl min 65535 ≤ (tpcWires valid t).foldl max 0
      · rw [if_pos hle]
        have hc := countNonDead_total dead plane t (tpcMaxWire valid t) hmax fuel
          (tpcMinWire valid t) st.1 (by unfold tpcMinWire tpcMaxWire; omega)
          (by omega) (by omega)
        unfold tpcMinWire tpcMaxWire at hc
        rw [hc]
        exact ⟨_, rfl, rfl⟩
      · rw [if_neg hle]
        refine ⟨_, rfl, ?_⟩
        unfold tpcMinWire tpcMaxWire
        rw [liveInRange_empty _ _ _ _ _ (by omega)]
        rfl
    obtain ⟨st2, hs2, hn2⟩ := hstep
    unfold tpcLoop
    rw [hs2]
    apply ih st2
    rw [hn2]
    omega

/-- Every run of `calculate_plane_efficiency` returns when every valid wire is below 65535,
the fuel covers the 16-bit range and the total of the per-TPC counts stays within `int`. -/
theorem plane_efficiency_total (fuel : Nat) (has_dead_channels : Bool)
    (dead : List ChannelKey) (wires : List Nat) (pitches : List ℚ) (tpcs : List Nat)
    (ontraj : List Bool) (plane : Int) (hfuel : 65537 ≤ fuel)
    (hw : ∀ h ∈ validHits dead plane wires pitches tpcs ontraj, h.wire < 65535)
    (hsum : Finset.sum ((validHits dead plane wires pitches tpcs ontraj).map
        ValidHit.tpc).toFinset (fun t => liveInRange dead (toUShort plane) t
          (tpcMinWire (validHits dead plane wires pitches tpcs ontraj) t)
          (tpcMaxWire (validHits dead plane wires pitches tpcs ontraj) t)) ≤ 2147483647) :
    ∃ r, calculate_plane_efficiency fuel has_dead_channels dead wires pitches tpcs ontraj
      plane = some r := by
  have hnd : (setOfList wireLt ((validHits dead plane wires pitches tpcs ontraj).map
      ValidHit.tpc)).Nodup := (setOfList_sorted _).imp (fun hxy => Nat.ne_of_lt hxy)
  have hfin : (setOfList wireLt ((validHits dead plane wires pitches tpcs ontraj).map
      ValidHit.tpc)).toFinset =
      ((validHits dead plane wires pitches tpcs ontraj).map ValidHit.tpc).toFinset := by
    ext x
    simp only [List.mem_toFinset, mem_setOfList wireLt wireLt_total]
  rw [← hfin, List.sum_toFinset _ hnd] at hsum
  obtain ⟨st, hst⟩ := tpcLoop_total fuel dead (toUShort plane)
    (validHits dead plane wires pitches tpcs ontraj) hfuel hw
    (setOfList wireLt ((validHits dead plane wires pitches tpcs ontraj).map ValidHit.tpc))
    (0, []) (by simpa using hsum)
  unfold calculate_plane_efficiency
  by_cases h1 : (!has_dead_channels || wires.isEmpty) = true
  · rw [if_pos h1]; exact ⟨_, rfl⟩
  · rw [if_neg h1]
    by_cases h2 : (validHits dead plane wires pitches tpcs ontraj).length < 25
    · simp only [h2, if_true]; exact ⟨_, rfl⟩
    · simp only [h2, if_false]
      by_cases h3 : has_large_holes (std_sort (setOfList wireLt
          ((validHits dead plane wires pitches tpcs ontraj).map ValidHit.wire))) = true
      · simp only [h3, if_true]; exact ⟨_, rfl⟩
      · simp only [h3, if_false, hst]
        by_cases h4 : st.1 < 25
        · simp only [h4, if_true]; exact ⟨_, rfl⟩
        · simp only [h4, if_false]; exact ⟨_, rfl⟩

/-! ## Full coverage of a single TPC (inputs without wire 65535) -/

/-- When the wires `ws` are exactly the non-dead wires of `[lo, hi]`, the number of non-dead
wires of the range is the number of distinct wires, and it is the width of the range minus the
number of dead wires in it. -/
theorem liveInRange_of_cover (dead : List ChannelKey) (plane tpc lo hi : Nat) (ws : List Nat)
    (hin : ∀ w ∈ ws, lo ≤ w ∧ w ≤ hi ∧ isDead dead w plane tpc = false)
    (hcover : ∀ w, lo ≤ w → w ≤ hi → isDead dead w plane tpc = false → w ∈ ws) :
    liveInRange dead plane tpc lo hi = ws.toFinset.card ∧
    liveInRange dead plane tpc lo hi = (hi + 1 - lo) -
      ((List.range' lo (hi + 1 - lo)).filter (fun w => isDead dead w plane tpc)).length := by
  constructor
  · unfold liveInRange
    have hnd : ((List.range' lo (hi + 1 - lo)).filter
        (fun w => !isDead dead w plane tpc)).Nodup :=
      (List.nodup_range' lo (hi + 1 - lo)).filter _
    rw [← List.toFinset_card_of_nodup hnd]
    congr 1
    ext x
    simp only [List.mem_toFinset, List.mem_filter, List.mem_range'_1, Bool.not_eq_true']
    constructor
    · rintro ⟨⟨h1, h2⟩, h3⟩
      exact hcover x h1 (by omega) h3
    · intro hx
      obtain ⟨h1, h2, h3⟩ := hin x hx
      exact ⟨⟨h1, by omega⟩, h3⟩
  · unfold liveInRange
    have h := List.length_eq_length_filter_add (l := List.range' lo (hi + 1 - lo))
      (fun w => isDead dead w plane tpc)
    rw [List.length_range'] at h
    omega

/-- A strictly increasing non-empty list whose members all equal `t` is `[t]`. -/
theorem sorted_const_eq_singleton (l : List Nat) (t : Nat)
    (hs : l.Pairwise (fun x y => x < y)) (hne : l ≠ []) (hall : ∀ x ∈ l, x = t) : l = [t] := by
  cases l with
  | nil => exact absurd rfl hne
  | cons a r =>
    cases r with
    | nil => rw [hall a (by simp)]
    | cons b r2 =>
      exfalso
      have h1 := hall a (by simp)
      have h2 := hall b (by simp)
      have h3 := (List.pairwise_cons.1 hs).1 b (by simp)
      omega

/-- The positive content of the full-coverage property on `hit_analyzer`: when the valid wires
are below 65535, number at least 25 distinct values without a gap above 11, are not dead for
`(plane, tpcs[0])` and cover every non-dead wire of `[lo, hi]`, the computed efficiency is
exactly 1 and NonDeadWires is the width of the range minus the dead wires in it. -/
theorem full_coverage_analyzer (fuel : Nat) (dead : List ChannelKey) (trk_id : Int)
    (track_length : ℚ) (wires : List Nat) (pitches : List ℚ) (tpcs : List Nat) (plane : Int)
    (hfuel : 65537 ≤ fuel) (hw : ∀ w ∈ wires, w < 65535)
    (h25 : 25 ≤ wires.toFinset.card) (hgap : ¬ hasGap wires) (lo hi : Nat)
    (hlo : lo ∈ wires) (hhi : hi ∈ wires) (hrange : ∀ w ∈ wires, lo ≤ w ∧ w ≤ hi)
    (hlive : ∀ w ∈ wires, isDead dead w (toUShort plane) (tpcs.headD 0) = false)
    (hcover : ∀ w, lo ≤ w → w ≤ hi →
      isDead dead w (toUShort plane) (tpcs.headD 0) = false → w ∈ wires) :
    ∃ row, efficiency_values fuel dead trk_id track_length wires pitches tpcs plane =
        some (some row) ∧ row.efficiency = 1 ∧
      row.nonDeadWires = (hi + 1 - lo) - ((List.range' lo (hi + 1 - lo)).filter
        (fun w => isDead dead w (toUShort plane) (tpcs.headD 0))).length := by
  obtain ⟨hc1, hc2⟩ := liveInRange_of_cover dead (toUShort plane) (tpcs.headD 0) lo hi wires
    (fun w hwm => ⟨(hrange w hwm).1, (hrange w hwm).2, hlive w hwm⟩) hcover
  have hv := efficiency_values_total fuel dead trk_id track_length wires pitches tpcs plane
    hfuel hw h25 hgap lo hi hlo hhi hrange (by omega)
  refine ⟨_, hv, ?_, hc2⟩
  have hu : (uniqueHitWires dead (toUShort plane) (tpcs.headD 0) wires).length =
      wires.toFinset.card := by
    rw [uniqueHitWires_length_eq_card]
    congr 2
    rw [List.filter_eq_self]
    intro w hwm
    rw [hlive w hwm]
    rfl
  show ((uniqueHitWires dead (toUShort plane) (tpcs.headD 0) wires).length : ℚ) /
    (liveInRange dead (toUShort plane) (tpcs.headD 0) lo hi : ℚ) = 1
  rw [hu, hc1]
  apply div_self
  have : (0 : ℚ) < (wires.toFinset.card : ℚ) := by exact_mod_cast (by omega : 0 < wires.toFinset.card)
  exact ne_of_gt this

/-- The positive content of the full-coverage property on `event_info_viewer`: when the valid
hits lie in one TPC, are below wire 65535, number at least 25 distinct wires without a gap
above 11 and cover every non-dead wire of `[lo, hi]`, the result is efficiency exactly 1, and
`n_non_dead_wires` is the width of the range minus the dead wires in it. -/
theorem full_coverage_viewer (fuel : Nat) (dead : List ChannelKey) (wires : List Nat)
    (pitches : List ℚ) (tpcs : List Nat) (ontraj : List Bool) (plane : Int) (t0 lo hi : Nat)
    (hfuel : 65537 ≤ fuel)
    (hsingle : ∀ h ∈ validHits dead plane wires pitches tpcs ontraj, h.tpc = t0)
    (hw : ∀ h ∈ validHits dead plane wires pitches tpcs ontraj, h.wire < 65535)
    (h25 : 25 ≤ ((validHits dead plane wires pitches tpcs ontraj).map
      ValidHit.wire).toFinset.card)
    (hgap : ¬ hasGap ((validHits dead plane wires pitches tpcs ontraj).map ValidHit.wire))
    (hlo : lo ∈ (validHits dead plane wires pitches tpcs ontraj).map ValidHit.wire)
    (hhi : hi ∈ (validHits dead plane wires pitches tpcs ontraj).map ValidHit.wire)
    (hrange : ∀ w ∈ (validHits dead plane wires pitches tpcs ontraj).map ValidHit.wire,
      lo ≤ w ∧ w ≤ hi)
    (hcover : ∀ w, lo ≤ w → w ≤ hi → isDead dead w (toUShort plane) t0 = false →
      w ∈ (validHits dead plane wires pitches tpcs ontraj).map ValidHit.wire) :
    ∃ st, tpcLoop fuel dead (toUShort plane) (validHits dead plane wires pitches tpcs ontraj)
        (setOfList wireLt ((validHits dead plane wires pitches tpcs ontraj).map ValidHit.tpc))
        (0, []) = some st ∧
      st.1 = (hi + 1 - lo) - ((List.range' lo (hi + 1 - lo)).filter
        (fun w => isDead dead w (toUShort plane) t0)).length ∧
      calculate_plane_efficiency fuel true dead wires pitches tpcs ontraj plane =
        some (1, averagePitch ((validHits dead plane wires pitches tpcs ontraj).map
          ValidHit.pitch)) := by
  generalize hV : validHits dead plane wires pitches tpcs ontraj = V at *
  have hwne : wires.isEmpty = false := by
    cases wires with
    | nil =>
      rw [← hV] at hlo
      simp [validHits] at hlo
    | cons a r => rfl
  have hlen : ¬ V.length < 25 := by
    have := List.toFinset_card_le (l := V.map ValidHit.wire)
    rw [List.length_map] at this
    omega
  have hh : has_large_holes (std_sort (setOfList wireLt (V.map ValidHit.wire))) = false := by
    rw [std_sort_setOfList]
    cases hc : has_large_holes (setOfList wireLt (V.map ValidHit.wire)) with
    | false => rfl
    | true => exact absurd ((has_large_holes_iff_hasGap _).1 hc) hgap
  have htpcs : setOfList wireLt (V.map ValidHit.tpc) = [t0] := by
    apply sorted_const_eq_singleton _ _ (setOfList_sorted _)
    · intro he
      obtain ⟨h0, hh0, _⟩ := List.mem_map.1 hlo
      have : h0.tpc ∈ setOfList wireLt (V.map ValidHit.tpc) :=
        (mem_setOfList wireLt wireLt_total _ _).2 (List.mem_map.2 ⟨h0, hh0, rfl⟩)
      rw [he] at this
      simp at this
    · intro x hx
      obtain ⟨h0, hh0, rfl⟩ := List.mem_map.1 ((mem_setOfList wireLt wireLt_total _ _).1 hx)
      exact hsingle h0 hh0
  have hws : tpcWires V t0 = V.map ValidHit.wire := by
    unfold tpcWires
    congr 1
    rw [List.filter_eq_self]
    intro h0 hh0
    simpa using hsingle h0 hh0
  have ht0 : t0 ∈ V.map ValidHit.tpc := by
    obtain ⟨h0, hh0, _⟩ := List.mem_map.1 hlo
    exact List.mem_map.2 ⟨h0, hh0, hsingle h0 hh0⟩
  obtain ⟨hmn, hmx, hbd⟩ := tpcMinMax_spec V t0 (fun h0 hh0 => Nat.le_of_lt (hw h0 hh0)) ht0
  rw [hws] at hmn hmx hbd
  have hmin : tpcMinWire V t0 = lo := by
    have h1 := (hbd lo hlo).1
    have h2 := (hrange _ hmn).1
    omega
  have hmax : tpcMaxWire V t0 = hi := by
    have h1 := (hbd hi hhi).2
    have h2 := (hrange _ hmx).2
    omega
  obtain ⟨hc1, hc2⟩ := liveInRange_of_cover dead (toUShort plane) t0 lo hi (V.map ValidHit.wire)
    (fun w hwm => by
      obtain ⟨h0, hh0, rfl⟩ := List.mem_map.1 hwm
      have hd := validHits_not_dead dead plane wires pitches tpcs ontraj h0 (by rw [hV]; exact hh0)
      rw [hsingle h0 hh0] at hd
      exact ⟨(hrange _ hwm).1, (hrange _ hwm).2, hd⟩) hcover
  have hhi2 : hi < 65535 := by
    obtain ⟨h0, hh0, he⟩ := List.mem_map.1 hhi
    have := hw h0 hh0
    omega
  have hle := liveInRange_le dead (toUShort plane) t0 lo hi
  obtain ⟨st, hst⟩ := tpcLoop_total fuel dead (toUShort plane) V hfuel hw [t0] (0, [])
    (by simp only [List.map_cons, List.map_nil, List.sum_cons, List.sum_nil, hmin, hmax]
        omega)
  have hst' := hst
  rw [← htpcs] at hst'
  obtain ⟨hn, hu⟩ := non_dead_count_eq_sum fuel dead (toUShort plane) V st hst'
  obtain ⟨hn2, _, _⟩ := tpcLoop_some fuel dead (toUShort plane) V [t0] (0, []) st hst
  simp only [List.map_cons, List.map_nil, List.sum_cons, List.sum_nil, hmin, hmax,
    Nat.zero_add, Nat.add_zero] at hn2
  refine ⟨st, hst', by rw [hn2]; exact hc2, ?_⟩
  have h4 : ¬ st.1 < 25 := by omega
  have h5 : st.1 > 0 := by omega
  have heq : ((st.2.length : ℚ) / (st.1 : ℚ)) = 1 := by
    rw [hu, hn2, hc1]
    apply div_self
    have : (0 : ℚ) < ((V.map ValidHit.wire).toFinset.card : ℚ) := by
      exact_mod_cast (by omega : 0 < (V.map ValidHit.wire).toFinset.card)
    exact ne_of_gt this
  unfold calculate_plane_efficiency
  simp only [hV, hwne, hlen, hh, hst', h4, h5, heq, if_true, if_false, Bool.not_true,
    Bool.or_self, Bool.false_eq_true, min_self]

/-! ## When `std::stoi` throws -/

/-- The call `std::stoi` throws exactly when, after the leading whitespace and one optional
sign, the field does not start with a digit, or when the value of its leading digits is outside
the range of `int`. -/
theorem stoi_eq_none_iff (s : List Char) :
    stoi s = none ↔
      ((stripSign (s.dropWhile isspace)).2.takeWhile isdigit = [] ∨
        ¬ (-2147483648 ≤ (if (stripSign (s.dropWhile isspace)).1
            then -(digitsValue ((stripSign (s.dropWhile isspace)).2.takeWhile isdigit) : Int)
            else (digitsValue ((stripSign (s.dropWhile isspace)).2.takeWhile isdigit) : Int)) ∧
          (if (stripSign (s.dropWhile isspace)).1
            then -(digitsValue ((stripSign (s.dropWhile isspace)).2.takeWhile isdigit) : Int)
            else (digitsValue ((stripSign (s.dropWhile isspace)).2.takeWhile isdigit) : Int)) ≤
            2147483647)) := by
  unfold stoi
  simp only []
  by_cases h1 : (stripSign (s.dropWhile isspace)).2.takeWhile isdigit = []
  · simp [h1]
  · have h2 : ((stripSign (s.dropWhile isspace)).2.takeWhile isdigit).isEmpty = false := by
      cases hl : (stripSign (s.dropWhile isspace)).2.takeWhile isdigit with
      | nil => exact absurd hl h1
      | cons a r => rfl
    rw [h2]
    simp only [Bool.false_eq_true, if_false, h1, false_or]
    split
    · rename_i hr
      simp [hr]
    · rename_i hr
      simp [hr]

/-! ## The dead-channel loader -/

/-- C1: a lookup of `(wire, plane, tpc)` in the set loaded from any list of data rows succeeds
exactly when some row's three comma-separated fields parse to that triple; on the rows
`5,0,0` and `6,0,0` the lookup of `(5,0,0)` succeeds and the lookup of `(5,1,0)` fails. -/
theorem dead_channel_lookup_iff_row :
    (∀ (rows : List (List Char)) (wire plane tpc : Nat),
      isDead (load_dead_channels rows) wire plane tpc = true ↔
        ∃ row ∈ rows, parseDeadRow row = some (wire, plane, tpc)) ∧
    isDead (load_dead_channels [String.toList "5,0,0", String.toList "6,0,0"]) 5 0 0 = true ∧
    isDead (load_dead_channels [String.toList "5,0,0", String.toList "6,0,0"]) 5 1 0 = false := by
  refine ⟨?_, by decide, by decide⟩
  intro rows wire plane tpc
  unfold isDead load_dead_channels
  rw [setFind_iff_mem keyLt keyLt_irrefl keyLt_total, mem_foldl_loadStep]
  simp

/-- C2, as stated, fails: in the row `5.5,0,0` the first field is not an integer, yet the row
is not skipped; the loaded set contains `(5,0,0)` and differs from the set loaded without the
row. -/
theorem non_integer_row_not_skipped :
    isIntegerText (getlineUntil 44 (String.toList "5.5,0,0")).1 = false ∧
    isDead (load_dead_channels [String.toList "5.5,0,0"]) 5 0 0 = true ∧
    load_dead_channels ([] ++ String.toList "5.5,0,0" :: []) ≠ load_dead_channels ([] ++ []) := by
  decide

/-- C2, amended: a row on which `std::stoi` throws for one of the three fields is skipped and
does not abort the load: the loaded set equals the set loaded from the same list with that row
removed, so all rows after it are still loaded. -/
theorem stoi_failure_row_skipped (before after : List (List Char)) (row : List Char)
    (h : stoi (getlineUntil 44 row).1 = none ∨
      stoi (getlineUntil 44 (getlineUntil 44 row).2).1 = none ∨
      stoi (getlineUntil 44 (getlineUntil 44 (getlineUntil 44 row).2).2).1 = none) :
    load_dead_channels (before ++ row :: after) = load_dead_channels (before ++ after) := by
  have hrow : parseDeadRow row = none := by
    unfold parseDeadRow
    rcases h with h | h | h
    · simp only [h]
    · simp only [h]
      split <;> simp_all
    · simp only [h]
      split <;> simp_all
  unfold load_dead_channels
  rw [List.foldl_append, List.foldl_append, List.foldl_cons]
  congr 1
  simp [loadStep, hrow]

/-- Witness of `stoi_failure_row_skipped`: the row `a,1,2` between `1,1,1` and `2,2,2`. -/
theorem stoi_failure_row_skipped_witness :
    (stoi (getlineUntil 44 (String.toList "a,1,2")).1 = none ∨
      stoi (getlineUntil 44 (getlineUntil 44 (String.toList "a,1,2")).2).1 = none ∨
      stoi (getlineUntil 44
        (getlineUntil 44 (getlineUntil 44 (String.toList "a,1,2")).2).2).1 = none) ∧
    load_dead_channels ([String.toList "1,1,1"] ++ String.toList "a,1,2" ::
        [String.toList "2,2,2"]) =
      load_dead_channels ([String.toList "1,1,1"] ++ [String.toList "2,2,2"]) :=
  ⟨by decide, stoi_failure_row_skipped [String.toList "1,1,1"] [String.toList "2,2,2"]
    (String.toList "a,1,2") (by decide)⟩

/-! ## `event_info_viewer`: the gates of `calculate_plane_efficiency` -/

set_option maxRecDepth 100000 in
/-- C3, evaluated on the code: 26 valid hits on the 13 distinct wires 1, 11, ..., 121 (each wire
hit twice, all on trajectory, pitch 1, TPC 0, no dead channel). Fewer than 25 distinct wires are
valid, yet with any fuel of at least 122 the result is not the sentinel but the pair
`(13/121, 1)`: the floor is tested on the number of valid hits, not on the number of distinct
wires. On the same valid wires `calculate_efficiency` of `hit_analyzer` returns at its floor. -/
theorem few_distinct_wires_not_sentinel (k : Nat) :
    ((validHits [] 0 ((List.range 26).map (fun i => 1 + 10 * (i % 13)))
        (List.replicate 26 1) (List.replicate 26 0) (List.replicate 26 true)).map
          ValidHit.wire).toFinset.card = 13 ∧
    calculate_plane_efficiency (k + 122) true []
        ((List.range 26).map (fun i => 1 + 10 * (i % 13)))
        (List.replicate 26 1) (List.replicate 26 0) (List.replicate 26 true) 0 =
      some (13 / 121, 1) ∧
    ((13 : ℚ) / 121, (1 : ℚ)) ≠ sentinel ∧
    efficiency_values (k + 122) [] 7 60 ((List.range 26).map (fun i => 1 + 10 * (i % 13)))
      (List.replicate 26 1) (List.replicate 26 0) 0 = some none := by
  have hv : validHits [] 0 ((List.range 26).map (fun i => 1 + 10 * (i % 13)))
      (List.replicate 26 1) (List.replicate 26 0) (List.replicate 26 true) =
      (List.range 26).map (fun i => ValidHit.mk (1 + 10 * (i % 13)) 1 0) := by decide
  refine ⟨by rw [hv]; decide, ?_, ?_, ?_⟩
  · have hh : has_large_holes (std_sort (setOfList wireLt
        (((List.range 26).map (fun i => ValidHit.mk (1 + 10 * (i % 13)) 1 0)).map
          ValidHit.wire))) = false := by decide
    have hu : setOfList wireLt (((List.range 26).map
        (fun i => ValidHit.mk (1 + 10 * (i % 13)) 1 0)).map ValidHit.tpc) = [0] := by decide
    have hs : scanTpc 0 ((List.range 26).map (fun i => ValidHit.mk (1 + 10 * (i % 13)) 1 0))
        (65535, 0, []) = (1, 121, (List.range 13).map (fun i => 1 + 10 * i)) := by decide
    have hc : countNonDead [] 0 0 121 (k + 122) 1 0 = some 121 := by
      rw [countNonDead_total [] 0 0 121 (by decide) (k + 122) 1 0 (by decide) (by omega)
        (by decide)]
      decide
    have ht : tpcLoop (k + 122) [] (toUShort 0)
        ((List.range 26).map (fun i => ValidHit.mk (1 + 10 * (i % 13)) 1 0)) [0] (0, []) =
        some (121, (List.range 13).map (fun i => 1 + 10 * i)) := by
      have h0 : toUShort 0 = 0 := by decide
      rw [h0]
      unfold tpcLoop tpcStep
      simp only [hs]
      rw [if_pos (by decide), hc]
      rfl
    have hp : averagePitch (((List.range 26).map
        (fun i => ValidHit.mk (1 + 10 * (i % 13)) 1 0)).map ValidHit.pitch) = 1 := by
      rw [averagePitch_eq]
      norm_num [List.range, List.range.loop]
    unfold calculate_plane_efficiency
    rw [hv]
    simp only [hh, hu, ht, hp]
    norm_num
  · unfold sentinel
    norm_num
  · have h1 : ((List.range 26).map (fun i => 1 + 10 * (i % 13))).isEmpty = false := by decide
    have h2 : (setOfList wireLt ((List.range 26).map (fun i => 1 + 10 * (i % 13)))).length <
        25 := by decide
    unfold efficiency_values
    simp only [h1, h2, if_true, if_false, Bool.false_eq_true]

/-- C4: `calculate_plane_efficiency` returns the sentinel whenever two of the valid wire numbers
differ by more than 11 and no valid wire number lies strictly between them, that is, whenever two
consecutive entries of the sorted distinct valid wires differ by more than 11. -/
theorem large_hole_gives_sentinel (fuel : Nat) (has_dead_channels : Bool)
    (dead : List ChannelKey) (wires : List Nat) (pitches : List ℚ) (tpcs : List Nat)
    (ontraj : List Bool) (plane : Int) (a b : Nat)
    (ha : a ∈ (validHits dead plane wires pitches tpcs ontraj).map ValidHit.wire)
    (hb : b ∈ (validHits dead plane wires pitches tpcs ontraj).map ValidHit.wire)
    (hgap : a + 11 < b)
    (hbetween : ∀ c ∈ (validHits dead plane wires pitches tpcs ontraj).map ValidHit.wire,
      ¬ (a < c ∧ c < b)) :
    calculate_plane_efficiency fuel has_dead_channels dead wires pitches tpcs ontraj plane =
      some sentinel := by
  have hholes : has_large_holes (std_sort (setOfList wireLt
      ((validHits dead plane wires pitches tpcs ontraj).map ValidHit.wire))) = true := by
    rw [std_sort_setOfList]
    apply has_large_holes_of_gap _ (setOfList_sorted _) a b
    · exact (mem_setOfList wireLt wireLt_total a _).2 ha
    · exact (mem_setOfList wireLt wireLt_total b _).2 hb
    · exact hgap
    · intro c hc
      exact hbetween c ((mem_setOfList wireLt wireLt_total c _).1 hc)
  unfold calculate_plane_efficiency
  by_cases h1 : (!has_dead_channels || wires.isEmpty) = true
  · rw [if_pos h1]
  · rw [if_neg h1]
    by_cases h2 : (validHits dead plane wires pitches tpcs ontraj).length < 25
    · simp only [h2, if_true]
    · simp only [h2, if_false, hholes, if_true]

set_option maxRecDepth 100000 in
/-- Witness of `large_hole_gives_sentinel`: valid wires 1..20 and 35..39 (25 hits, no dead
channel), with the hole between 20 and 35. -/
theorem large_hole_gives_sentinel_witness :
    calculate_plane_efficiency 65537 true [] (List.range' 1 20 ++ List.range' 35 5)
      (List.replicate 25 1) (List.replicate 25 0) (List.replicate 25 true) 0 = some sentinel :=
  large_hole_gives_sentinel 65537 true [] (List.range' 1 20 ++ List.range' 35 5)
    (List.replicate 25 1) (List.replicate 25 0) (List.replicate 25 true) 0 20 35
    (by decide) (by decide) (by decide) (by decide)

/-- Every result that `calculate_plane_efficiency` returns is the sentinel or a pair
`(efficiency, average_pitch)` with `0 ≤ efficiency ≤ 1` and `average_pitch ≥ 0`. -/
theorem plane_efficiency_result_range (fuel : Nat) (has_dead_channels : Bool)
    (dead : List ChannelKey) (wires : List Nat) (pitches : List ℚ) (tpcs : List Nat)
    (ontraj : List Bool) (plane : Int) (r : ℚ × ℚ)
    (h : calculate_plane_efficiency fuel has_dead_channels dead wires pitches tpcs ontraj plane =
      some r) :
    r = sentinel ∨ (0 ≤ r.1 ∧ r.1 ≤ 1 ∧ 0 ≤ r.2) := by
  unfold calculate_plane_efficiency at h
  by_cases h1 : (!has_dead_channels || wires.isEmpty) = true
  · rw [if_pos h1] at h
    exact Or.inl (Option.some.inj h).symm
  · rw [if_neg h1] at h
    by_cases h2 : (validHits dead plane wires pitches tpcs ontraj).length < 25
    · simp only [h2, if_true] at h
      exact Or.inl (Option.some.inj h).symm
    · simp only [h2, if_false] at h
      by_cases h3 : has_large_holes (std_sort (setOfList wireLt
          ((validHits dead plane wires pitches tpcs ontraj).map ValidHit.wire))) = true
      · simp only [h3, if_true] at h
        exact Or.inl (Option.some.inj h).symm
      · simp only [h3, if_false] at h
        cases hl : tpcLoop fuel dead (toUShort plane)
            (validHits dead plane wires pitches tpcs ontraj)
            (setOfList wireLt ((validHits dead plane wires pitches tpcs ontraj).map
              ValidHit.tpc)) (0, []) with
        | none => simp [hl] at h
        | some st =>
          simp only [hl] at h
          by_cases h4 : st.1 < 25
          · simp only [h4, if_true] at h
            exact Or.inl (Option.some.inj h).symm
          · simp only [h4, if_false] at h
            have hpos : st.1 > 0 := by omega
            simp only [hpos, if_true] at h
            have hr := (Option.some.inj h).symm
            subst hr
            refine Or.inr ⟨?_, min_le_right _ _, averagePitch_nonneg _⟩
            apply le_min
            · exact div_nonneg (Nat.cast_nonneg _) (Nat.cast_nonneg _)
            · exact zero_le_one

/-- The 25 valid hits on the wires 65511..65535 of TPC 0 reach the counting loop with
`max_wire = 65535`; the loop over the TPC ids then gives no result, whatever the fuel. -/
theorem tpcLoop_wire_65535 (fuel : Nat) :
    tpcLoop fuel [] 0 ((List.range' 65511 25).map (fun w => ValidHit.mk w 1 0)) [0] (0, []) =
      none := by
  have hs : scanTpc 0 ((List.range' 65511 25).map (fun w => ValidHit.mk w 1 0)) (65535, 0, []) =
      (65511, 65535, List.range' 65511 25) := by decide
  unfold tpcLoop tpcStep
  simp only [hs]
  rw [if_pos (by decide), countNonDead_diverges [] 0 0 65535 (le_refl _) fuel 65511 0 (by decide)]
  rfl

/-- C5, evaluated on the code: 25 valid hits on the wires 65511..65535 (TPC 0, pitch 1, on
trajectory, no dead channel). The 16-bit loop variable cannot pass `max_wire = 65535`, so
`calculate_plane_efficiency` returns neither the sentinel nor a pair, whatever the fuel. -/
theorem plane_efficiency_no_result_at_65535 (fuel : Nat) :
    calculate_plane_efficiency fuel true [] (List.range' 65511 25) (List.replicate 25 1)
      (List.replicate 25 0) (List.replicate 25 true) 0 = none := by
  have hv : validHits [] 0 (List.range' 65511 25) (List.replicate 25 1)
      (List.replicate 25 0) (List.replicate 25 true) =
      (List.range' 65511 25).map (fun w => ValidHit.mk w 1 0) := by decide
  have hh : has_large_holes (std_sort (setOfList wireLt
      (((List.range' 65511 25).map (fun w => ValidHit.mk w 1 0)).map ValidHit.wire))) = false := by
    decide
  have ht : setOfList wireLt (((List.range' 65511 25).map
      (fun w => ValidHit.mk w 1 0)).map ValidHit.tpc) = [0] := by decide
  have hp : toUShort 0 = 0 := by decide
  have hl : ¬ ((List.range' 65511 25).map (fun w => ValidHit.mk w 1 0)).length < 25 := by decide
  unfold calculate_plane_efficiency
  rw [hv]
  simp only [hh, ht, hp, hl, tpcLoop_wire_65535]
  rfl

/-! ## `hit_analyzer`: `calculate_efficiency` -/

/-- C6: for every input that passes the gates of `calculate_efficiency`, ValidHits is the number
of distinct hit wires not dead for `(plane, tpcs[0])`, NonDeadWires is the number of non-dead
wires of `[min_wire, max_wire]`, ValidHits never exceeds NonDeadWires, and the Efficiency equals
`min(ValidHits / NonDeadWires, 1)`, so it is at most 1 although no clamp is applied; the row
that is written, if any, is this one. -/
theorem recorded_efficiency_eq_clamped (fuel : Nat) (dead : List ChannelKey) (trk_id : Int)
    (track_length : ℚ) (wires : List Nat) (pitches : List ℚ) (tpcs : List Nat) (plane : Int)
    (row : EffRow)
    (h : efficiency_values fuel dead trk_id track_length wires pitches tpcs plane =
      some (some row)) :
    row.validHits = ((wires.filter
      (fun w => !isDead dead w (toUShort plane) (tpcs.headD 0))).toFinset).card ∧
    (∃ lo hi, lo ∈ wires ∧ hi ∈ wires ∧ (∀ w ∈ wires, lo ≤ w ∧ w ≤ hi) ∧
      row.nonDeadWires = liveInRange dead (toUShort plane) (tpcs.headD 0) lo hi) ∧
    row.validHits ≤ row.nonDeadWires ∧
    row.efficiency = min ((row.validHits : ℚ) / (row.nonDeadWires : ℚ)) 1 ∧
    row.efficiency ≤ 1 ∧
    (∀ written, calculate_efficiency fuel dead trk_id track_length wires pitches tpcs plane =
      some (some written) → written = row) := by
  obtain ⟨lo, hi, hlo, hhi, hrange, _, _, _, hlive, hrow⟩ :=
    efficiency_values_some fuel dead trk_id track_length wires pitches tpcs plane row h
  have hle := uniqueHitWires_length_le dead (toUShort plane) (tpcs.headD 0) lo hi wires hrange
  have hq : ((uniqueHitWires dead (toUShort plane) (tpcs.headD 0) wires).length : ℚ) /
      (liveInRange dead (toUShort plane) (tpcs.headD 0) lo hi : ℚ) ≤ 1 := by
    have hpos : (0 : ℚ) < (liveInRange dead (toUShort plane) (tpcs.headD 0) lo hi : ℚ) := by
      exact_mod_cast (by omega : 0 < liveInRange dead (toUShort plane) (tpcs.headD 0) lo hi)
    rw [div_le_one hpos]
    exact_mod_cast hle
  subst hrow
  refine ⟨uniqueHitWires_length_eq_card _ _ _ _, ⟨lo, hi, hlo, hhi, hrange, rfl⟩, hle,
    (min_eq_left hq).symm, hq, ?_⟩
  intro written hw
  have := ((calculate_efficiency_some _ _ _ _ _ _ _ _ _).1 hw).1
  rw [h] at this
  exact (Option.some.inj (Option.some.inj this)).symm

set_option maxRecDepth 100000 in
/-- The end-to-end scenario on `hit_analyzer`: dead channel `(10,0,0)`, valid wires 1..9 and
11..35 of TPC 0 on plane 0, pitch 1: 34 non-dead wires, 34 distinct hit wires, efficiency 1. -/
theorem efficiency_values_scenario :
    efficiency_values 65537 [(10, 0, 0)] 7 60 (List.range' 1 9 ++ List.range' 11 25)
      (List.replicate 34 1) (List.replicate 34 0) 0 =
      some (some (EffRow.mk 7 0 0 60 34 34 1 1)) := by
  have h1 : setOfList wireLt (List.range' 1 9 ++ List.range' 11 25) =
      List.range' 1 9 ++ List.range' 11 25 := by decide
  have h2 : has_large_holes (std_sort (List.range' 1 9 ++ List.range' 11 25)) = false := by
    decide
  have h3 : countNonDead [(10, 0, 0)] (toUShort 0) 0
      ((std_sort (List.range' 1 9 ++ List.range' 11 25)).getLastD 0) 65537
      ((std_sort (List.range' 1 9 ++ List.range' 11 25)).headD 0) 0 = some 34 := by decide
  have h4 : (uniqueHitWires [(10, 0, 0)] (toUShort 0) 0
      (List.range' 1 9 ++ List.range' 11 25)).length = 34 := by decide
  have h5 : averagePitch (List.replicate 34 1) = 1 := by
    rw [averagePitch_eq]
    norm_num [List.replicate]
  have h6 : (List.replicate 34 0).headD 0 = 0 := by decide
  have h7 : (List.range' 1 9 ++ List.range' 11 25).isEmpty = false := by decide
  unfold efficiency_values
  rw [h1, h6]
  simp only [h2, h3, h4, h5, h7]
  norm_num

/-- Witness of `recorded_efficiency_eq_clamped`: the end-to-end scenario. -/
theorem recorded_efficiency_eq_clamped_witness :
    efficiency_values 65537 [(10, 0, 0)] 7 60 (List.range' 1 9 ++ List.range' 11 25)
      (List.replicate 34 1) (List.replicate 34 0) 0 =
      some (some (EffRow.mk 7 0 0 60 34 34 1 1)) ∧
    (EffRow.mk 7 0 0 60 34 34 1 1).validHits ≤ (EffRow.mk 7 0 0 60 34 34 1 1).nonDeadWires ∧
    (EffRow.mk 7 0 0 60 34 34 1 1).efficiency =
      min (((EffRow.mk 7 0 0 60 34 34 1 1).validHits : ℚ) /
        ((EffRow.mk 7 0 0 60 34 34 1 1).nonDeadWires : ℚ)) 1 :=
  ⟨efficiency_values_scenario,
    (recorded_efficiency_eq_clamped 65537 [(10, 0, 0)] 7 60
      (List.range' 1 9 ++ List.range' 11 25) (List.replicate 34 1) (List.replicate 34 0) 0
      (EffRow.mk 7 0 0 60 34 34 1 1) efficiency_values_scenario).2.2.1,
    (recorded_efficiency_eq_clamped 65537 [(10, 0, 0)] 7 60
      (List.range' 1 9 ++ List.range' 11 25) (List.replicate 34 1) (List.replicate 34 0) 0
      (EffRow.mk 7 0 0 60 34 34 1 1) efficiency_values_scenario).2.2.2.1⟩

/-- With the valid wires 65511..65535 the counting loop of `hit_analyzer` runs with
`max_wire = 65535` and gives no result, whatever the fuel. -/
theorem efficiency_values_wire_65535 (fuel : Nat) :
    efficiency_values fuel [] 7 60 (List.range' 65511 25) (List.replicate 25 1)
      (List.replicate 25 0) 0 = none := by
  have h1 : setOfList wireLt (List.range' 65511 25) = List.range' 65511 25 := by decide
  have h2 : has_large_holes (std_sort (List.range' 65511 25)) = false := by decide
  have h3 : countNonDead [] (toUShort 0) 0
      ((std_sort (List.range' 65511 25)).getLastD 0) fuel
      ((std_sort (List.range' 65511 25)).headD 0) 0 = none := by
    have e1 : (std_sort (List.range' 65511 25)).getLastD 0 = 65535 := by decide
    have e2 : (std_sort (List.range' 65511 25)).headD 0 = 65511 := by decide
    rw [e1, e2]
    exact countNonDead_diverges [] _ _ 65535 (le_refl _) fuel 65511 0 (by decide)
  have h6 : (List.replicate 25 0).headD 0 = 0 := by decide
  have h7 : (List.range' 65511 25).isEmpty = false := by decide
  have h8 : ¬ (List.range' 65511 25).length < 25 := by decide
  unfold efficiency_values
  rw [h1, h6]
  simp only [h2, h3, h7, h8]
  rfl

/-! ## `event_info_viewer`: the returned pair -/

set_option maxRecDepth 100000 in
/-- The end-to-end scenario on `event_info_viewer`: dead channel `(10,0,0)`, hits on the wires
1..35 of TPC 0 on plane 0 (wire 10 is filtered out as dead), pitch 1: the result is `(1, 1)`. -/
theorem plane_efficiency_scenario :
    calculate_plane_efficiency 65537 true [(10, 0, 0)] (List.range' 1 35) (List.replicate 35 1)
      (List.replicate 35 0) (List.replicate 35 true) 0 = some (1, 1) := by
  have hv : validHits [(10, 0, 0)] 0 (List.range' 1 35) (List.replicate 35 1)
      (List.replicate 35 0) (List.replicate 35 true) =
      (List.range' 1 9 ++ List.range' 11 25).map (fun w => ValidHit.mk w 1 0) := by decide
  have hh : has_large_holes (std_sort (setOfList wireLt
      (((List.range' 1 9 ++ List.range' 11 25).map (fun w => ValidHit.mk w 1 0)).map
        ValidHit.wire))) = false := by decide
  have ht : tpcLoop 65537 [(10, 0, 0)] (toUShort 0)
      ((List.range' 1 9 ++ List.range' 11 25).map (fun w => ValidHit.mk w 1 0))
      (setOfList wireLt (((List.range' 1 9 ++ List.range' 11 25).map
        (fun w => ValidHit.mk w 1 0)).map ValidHit.tpc)) (0, []) =
      some (34, List.range' 1 9 ++ List.range' 11 25) := by decide
  have hp : averagePitch (((List.range' 1 9 ++ List.range' 11 25).map
      (fun w => ValidHit.mk w 1 0)).map ValidHit.pitch) = 1 := by
    rw [averagePitch_eq]
    norm_num [List.range']
  unfold calculate_plane_efficiency
  rw [hv]
  simp only [hh, ht, hp]
  norm_num

/-- In exact arithmetic: whenever `calculate_plane_efficiency` returns a non-sentinel pair, its
second component is the arithmetic mean of the strictly positive pitches of the valid hits;
every valid hit has `pitch > 0` and there are at least 25 of them, so it is also the mean over
all valid hits and it is strictly positive. The binary32 computation of the source is
`calculate_plane_efficiency_float`. -/
theorem average_pitch_is_mean (fuel : Nat) (has_dead_channels : Bool)
    (dead : List ChannelKey) (wires : List Nat) (pitches : List ℚ) (tpcs : List Nat)
    (ontraj : List Bool) (plane : Int) (r : ℚ × ℚ)
    (h : calculate_plane_efficiency fuel has_dead_channels dead wires pitches tpcs ontraj plane =
      some r)
    (hns : r ≠ sentinel) :
    r.2 = meanOfPositive ((validHits dead plane wires pitches tpcs ontraj).map ValidHit.pitch) ∧
    r.2 = meanOfAll ((validHits dead plane wires pitches tpcs ontraj).map ValidHit.pitch) ∧
    (∀ hit ∈ validHits dead plane wires pitches tpcs ontraj, 0 < hit.pitch) ∧
    0 < r.2 := by
  have hall : ∀ p ∈ (validHits dead plane wires pitches tpcs ontraj).map ValidHit.pitch,
      0 < p := by
    intro p hp
    obtain ⟨hit, hhit, rfl⟩ := List.mem_map.1 hp
    exact validHits_pitch_pos dead plane wires pitches tpcs ontraj hit hhit
  have hfilter : ((validHits dead plane wires pitches tpcs ontraj).map ValidHit.pitch).filter
      (fun p => decide (p > 0)) =
      (validHits dead plane wires pitches tpcs ontraj).map ValidHit.pitch := by
    rw [List.filter_eq_self]
    intro p hp
    simpa using hall p hp
  unfold calculate_plane_efficiency at h
  by_cases h1 : (!has_dead_channels || wires.isEmpty) = true
  · rw [if_pos h1] at h
    exact absurd (Option.some.inj h).symm hns
  · rw [if_neg h1] at h
    by_cases h2 : (validHits dead plane wires pitches tpcs ontraj).length < 25
    · simp only [h2, if_true] at h
      exact absurd (Option.some.inj h).symm hns
    · simp only [h2, if_false] at h
      by_cases h3 : has_large_holes (std_sort (setOfList wireLt
          ((validHits dead plane wires pitches tpcs ontraj).map ValidHit.wire))) = true
      · simp only [h3, if_true] at h
        exact absurd (Option.some.inj h).symm hns
      · simp only [h3, if_false] at h
        cases hl : tpcLoop fuel dead (toUShort plane)
            (validHits dead plane wires pitches tpcs ontraj)
            (setOfList wireLt ((validHits dead plane wires pitches tpcs ontraj).map
              ValidHit.tpc)) (0, []) with
        | none =>
          rw [hl] at h
          simp at h
        | some st =>
          simp only [hl] at h
          by_cases h4 : st.1 < 25
          · simp only [h4, if_true] at h
            exact absurd (Option.some.inj h).symm hns
          · simp only [h4, if_false] at h
            have hr := (Option.some.inj h).symm
            have hne : (validHits dead plane wires pitches tpcs ontraj).map ValidHit.pitch ≠
                [] := by
              intro he
              have hlen := congrArg List.length he
              simp only [List.length_map, List.length_nil] at hlen
              omega
            have hlen : ((validHits dead plane wires pitches tpcs ontraj).map
                ValidHit.pitch).length ≠ 0 := by
              intro he
              exact hne (List.length_eq_zero.1 he)
            have hr2 : r.2 = averagePitch
                ((validHits dead plane wires pitches tpcs ontraj).map ValidHit.pitch) := by
              rw [hr]
            rw [averagePitch_eq, hfilter, if_neg hlen] at hr2
            refine ⟨?_, ?_, ?_, ?_⟩
            · unfold meanOfPositive
              rw [hfilter, if_neg hne]
              exact hr2
            · exact hr2
            · exact validHits_pitch_pos dead plane wires pitches tpcs ontraj
            · rw [hr2]
              apply div_pos (list_sum_pos _ hne hall)
              exact_mod_cast Nat.pos_of_ne_zero hlen

theorem one_one_ne_sentinel : ((1 : ℚ), (1 : ℚ)) ≠ sentinel := by
  intro h
  have h1 := congrArg Prod.fst h
  simp only [sentinel] at h1
  norm_num at h1

/-! ## The counting loop at wire 65535 -/

/-- C7, evaluated on the code: 25 valid hits on the wires 65511..65535, all in TPC 0, no dead
channel. The hits lie in one TPC, number 25 distinct wires without a gap above 11 and cover
every wire of `[65511, 65535]`, so the claimed result is efficiency 1 with 25 non-dead wires;
both estimators instead give no result, whatever the fuel, because the 16-bit loop variable
cannot pass `max_wire = 65535`. -/
theorem full_coverage_no_result_at_65535 (fuel : Nat) :
    (∀ hit ∈ validHits [] 0 (List.range' 65511 25) (List.replicate 25 1) (List.replicate 25 0)
      (List.replicate 25 true), hit.tpc = 0) ∧
    ((List.range' 65511 25).toFinset).card = 25 ∧
    (∀ a ∈ List.range' 65511 25, ∀ b ∈ List.range' 65511 25, a + 11 < b →
      ∃ c ∈ List.range' 65511 25, a < c ∧ c < b) ∧
    (∀ w ∈ List.range' 65511 (65535 - 65511 + 1), isDead [] w 0 0 = false →
      w ∈ (validHits [] 0 (List.range' 65511 25) (List.replicate 25 1) (List.replicate 25 0)
        (List.replicate 25 true)).map ValidHit.wire) ∧
    (65535 - 65511 + 1) - ((List.range' 65511 (65535 - 65511 + 1)).filter
      (fun w => isDead [] w 0 0)).length = 25 ∧
    calculate_plane_efficiency fuel true [] (List.range' 65511 25) (List.replicate 25 1)
      (List.replicate 25 0) (List.replicate 25 true) 0 = none ∧
    efficiency_values fuel [] 7 60 (valid_wires [] (List.range' 65511 25) (List.replicate 25 0)
        (List.replicate 25 0) (List.replicate 25 true) (List.replicate 25 1))
      (valid_pitches [] (List.range' 65511 25) (List.replicate 25 0)
        (List.replicate 25 0) (List.replicate 25 true) (List.replicate 25 1))
      (valid_tpcs [] (List.range' 65511 25) (List.replicate 25 0)
        (List.replicate 25 0) (List.replicate 25 true) (List.replicate 25 1)) 0 = none := by
  have hw : valid_wires [] (List.range' 65511 25) (List.replicate 25 0)
      (List.replicate 25 0) (List.replicate 25 true) (List.replicate 25 1) =
      List.range' 65511 25 := by decide
  have hp : valid_pitches [] (List.range' 65511 25) (List.replicate 25 0)
      (List.replicate 25 0) (List.replicate 25 true) (List.replicate 25 1) =
      List.replicate 25 1 := by decide
  have ht : valid_tpcs [] (List.range' 65511 25) (List.replicate 25 0)
      (List.replicate 25 0) (List.replicate 25 true) (List.replicate 25 1) =
      List.replicate 25 0 := by decide
  refine ⟨by decide, by decide, by decide, by decide, by decide, ?_, ?_⟩
  · have hv : validHits [] 0 (List.range' 65511 25) (List.replicate 25 1)
        (List.replicate 25 0) (List.replicate 25 true) =
        (List.range' 65511 25).map (fun w => ValidHit.mk w 1 0) := by decide
    have hh : has_large_holes (std_sort (setOfList wireLt
        (((List.range' 65511 25).map (fun w => ValidHit.mk w 1 0)).map ValidHit.wire))) =
        false := by decide
    have hu : setOfList wireLt (((List.range' 65511 25).map
        (fun w => ValidHit.mk w 1 0)).map ValidHit.tpc) = [0] := by decide
    have h0 : toUShort 0 = 0 := by decide
    have hl : ¬ ((List.range' 65511 25).map (fun w => ValidHit.mk w 1 0)).length < 25 := by
      decide
    unfold calculate_plane_efficiency
    rw [hv]
    simp only [hh, hu, h0, hl, tpcLoop_wire_65535]
    rfl
  · rw [hw, hp, ht]
    exact efficiency_values_wire_65535 fuel

/-- C8, evaluated on the code: with 25 valid hits on the wires 65511..65535 of TPC 0 and no dead
channel the input passes the hit floor and the hole test and reaches the counting step, and the
sum named by the claim is 25 (one TPC, range `[65511, 65535]`, nothing dead); the counting step
gives no value of `n_non_dead_wires`, whatever the fuel. -/
theorem non_dead_count_no_value_at_65535 (fuel : Nat) :
    (validHits [] 0 (List.range' 65511 25) (List.replicate 25 1) (List.replicate 25 0)
      (List.replicate 25 true)).length = 25 ∧
    has_large_holes (std_sort (setOfList wireLt ((validHits [] 0 (List.range' 65511 25)
      (List.replicate 25 1) (List.replicate 25 0) (List.replicate 25 true)).map
        ValidHit.wire))) = false ∧
    (((validHits [] 0 (List.range' 65511 25) (List.replicate 25 1) (List.replicate 25 0)
      (List.replicate 25 true)).map ValidHit.tpc).dedup.map
        (fun t => liveInRange [] (toUShort 0) t 65511 65535)).sum = 25 ∧
    tpcLoop fuel [] (toUShort 0)
      (validHits [] 0 (List.range' 65511 25) (List.replicate 25 1) (List.replicate 25 0)
        (List.replicate 25 true))
      (setOfList wireLt ((validHits [] 0 (List.range' 65511 25) (List.replicate 25 1)
        (List.replicate 25 0) (List.replicate 25 true)).map ValidHit.tpc)) (0, []) = none := by
  have hv : validHits [] 0 (List.range' 65511 25) (List.replicate 25 1)
      (List.replicate 25 0) (List.replicate 25 true) =
      (List.range' 65511 25).map (fun w => ValidHit.mk w 1 0) := by decide
  have hu : setOfList wireLt (((List.range' 65511 25).map
      (fun w => ValidHit.mk w 1 0)).map ValidHit.tpc) = [0] := by decide
  have h0 : toUShort 0 = 0 := by decide
  rw [hv, hu, h0]
  exact ⟨by decide, by decide, by decide, tpcLoop_wire_65535 fuel⟩

/-- C10, evaluated on the code: for the valid wires 65511..65535 (pitch 1, TPC 0, no dead
channel) all four conditions of the claim hold (25 distinct wires, no gap above 11, 25 non-dead
wires in `[65511, 65535]`, and a positive mean pitch), yet `calculate_efficiency` writes no row:
it gives no result, whatever the fuel. -/
theorem no_row_written_at_65535 (fuel : Nat) :
    ((List.range' 65511 25).toFinset).card = 25 ∧
    (∀ a ∈ List.range' 65511 25, ∀ b ∈ List.range' 65511 25, a + 11 < b →
      ∃ c ∈ List.range' 65511 25, a < c ∧ c < b) ∧
    25 ≤ liveInRange [] (toUShort 0) ((List.replicate 25 0).headD 0) 65511 65535 ∧
    0 < meanOfPositive (List.replicate 25 1) ∧
    calculate_efficiency fuel [] 7 60 (List.range' 65511 25) (List.replicate 25 1)
      (List.replicate 25 0) 0 = none := by
  refine ⟨by decide, by decide, by decide, ?_, ?_⟩
  · unfold meanOfPositive
    norm_num [List.replicate]
    simp
  · unfold calculate_efficiency
    rw [efficiency_values_wire_65535]

/-! ## Files that do not open, and file lists -/

/-- C11: when `dead_channels.csv` cannot be opened, `has_dead_channels` is false and
`calculate_plane_efficiency` returns the sentinel for every input (and every fuel); the caller
prints an efficiency only if it is `>= 0`, so none is reported. -/
theorem no_dead_file_gives_sentinel :
    viewer_dead_channels none = (false, []) ∧
    (∀ (fuel : Nat) (dead : List ChannelKey) (wires : List Nat) (pitches : List ℚ)
      (tpcs : List Nat) (ontraj : List Bool) (plane : Int),
      calculate_plane_efficiency fuel false dead wires pitches tpcs ontraj plane =
        some sentinel) ∧
    (∀ (fuel : Nat) (wires : List Nat) (pitches : List ℚ) (tpcs : List Nat)
      (ontraj : List Bool) (plane : Int),
      calculate_plane_efficiency fuel (viewer_dead_channels none).1
        (viewer_dead_channels none).2 wires pitches tpcs ontraj plane = some sentinel) ∧
    efficiency_reported sentinel = false := by
  refine ⟨rfl, ?_, ?_, ?_⟩
  · intro fuel dead wires pitches tpcs ontraj plane
    simp [calculate_plane_efficiency]
  · intro fuel wires pitches tpcs ontraj plane
    simp [calculate_plane_efficiency, viewer_dead_channels]
  · simp [efficiency_reported, sentinel]

theorem load_file_list_foldl (lines : List (List Char)) : ∀ acc : List (List Char),
    lines.foldl (fun filenames line => if !line.isEmpty then filenames ++ [line] else filenames)
      acc = acc ++ lines.filter (fun l => !l.isEmpty) := by
  induction lines with
  | nil => intro acc; simp
  | cons l r ih =>
    intro acc
    rw [List.foldl_cons, ih]
    by_cases h : l.isEmpty = true
    · simp [h]
    · simp [h]

/-- C20: for every sequence of lines, the loaded file names are exactly the non-empty lines, in
their original order and with duplicates kept (the list obtained by filtering out the empty
lines, a sublist of the lines). -/
theorem load_file_list_eq_filter :
    (∀ lines : List (List Char),
      load_file_list lines = lines.filter (fun l => !l.isEmpty)) ∧
    (∀ lines : List (List Char), (load_file_list lines).Sublist lines) ∧
    (∀ (lines : List (List Char)) (l : List Char), l ≠ [] →
      (load_file_list lines).count l = lines.count l) ∧
    load_file_list (getlines (String.toList "a.root\n\nb.root\na.root\n")) =
      [String.toList "a.root", String.toList "b.root", String.toList "a.root"] := by
  have h1 : ∀ lines : List (List Char),
      load_file_list lines = lines.filter (fun l => !l.isEmpty) := by
    intro lines
    unfold load_file_list
    rw [load_file_list_foldl]
    simp
  refine ⟨h1, ?_, ?_, by decide⟩
  · intro lines
    rw [h1]
    exact List.filter_sublist lines
  · intro lines l hl
    rw [h1, List.count_filter]
    cases l with
    | nil => exact absurd rfl hl
    | cons a r => rfl


/-! ## `hit_split_regions_mc`: the longitudinal zones -/

theorem classify_x_region_eq_classifyWith (x : Flt) :
    classify_x_region x = classifyWith xTests x := by
  simp only [classify_x_region, classifyWith, xTests]

theorem classify_x_region_val (q : ℚ) :
    classify_x_region (Flt.val q) =
      if -(13251379 / 65536) ≤ q ∧ q ≤ -(9974579 / 65536) then "anode_tpc0"
      else if -50 ≤ q ∧ q ≤ 50 then "cathode"
      else if 9974579 / 65536 ≤ q ∧ q ≤ 13251379 / 65536 then "anode_tpc1"
      else "other" := by
  simp only [classify_x_region, Flt.ge, Flt.le, Bool.and_eq_true, decide_eq_true_eq, ge_iff_le]

theorem classify_x_region_nan : classify_x_region Flt.nan = "other" := by
  simp [classify_x_region, Flt.ge, Flt.le]

/-- A first-match chain over pairwise disjoint intervals returns the name of the interval that
contains the point. -/
theorem classifyWith_of_mem (ts : List (ℚ × ℚ × String)) (x : Flt)
    (huniq : ∀ t1 ∈ ts, ∀ t2 ∈ ts, (x.ge t1.1 && x.le t1.2.1) = true →
      (x.ge t2.1 && x.le t2.2.1) = true → t1 = t2)
    (t : ℚ × ℚ × String) (ht : t ∈ ts) (hin : (x.ge t.1 && x.le t.2.1) = true) :
    classifyWith ts x = t.2.2 := by
  induction ts with
  | nil => simp at ht
  | cons a r ih =>
    unfold classifyWith
    by_cases ha : (x.ge a.1 && x.le a.2.1) = true
    · rw [if_pos ha]
      rw [huniq a (by simp) t ht ha hin]
    · rw [if_neg ha]
      rcases List.mem_cons.1 ht with e | e
      · subst e; exact absurd hin ha
      · exact ih (fun t1 h1 t2 h2 => huniq t1 (List.mem_cons_of_mem _ h1) t2
          (List.mem_cons_of_mem _ h2)) e

theorem classifyWith_of_none (ts : List (ℚ × ℚ × String)) (x : Flt)
    (hnone : ∀ t ∈ ts, (x.ge t.1 && x.le t.2.1) = false) : classifyWith ts x = "other" := by
  induction ts with
  | nil => rfl
  | cons a r ih =>
    unfold classifyWith
    rw [hnone a (by simp)]
    simp only [Bool.false_eq_true, if_false]
    exact ih (fun t h => hnone t (List.mem_cons_of_mem _ h))

/-- The three intervals of `classify_x_region` are pairwise disjoint: a coordinate lies in at
most one of them. -/
theorem xTests_disjoint (x : Flt) :
    ∀ t1 ∈ xTests, ∀ t2 ∈ xTests, (x.ge t1.1 && x.le t1.2.1) = true →
      (x.ge t2.1 && x.le t2.2.1) = true → t1 = t2 := by
  intro t1 h1 t2 h2 a1 a2
  cases x with
  | nan => simp [Flt.ge] at a1
  | val q =>
    simp only [Flt.ge, Flt.le, Bool.and_eq_true, decide_eq_true_eq, ge_iff_le] at a1 a2
    simp only [xTests, List.mem_cons, List.mem_singleton, List.not_mem_nil, or_false] at h1 h2
    rcases h1 with rfl | rfl | rfl <;> rcases h2 with rfl | rfl | rfl <;>
      first
      | rfl
      | (exfalso; norm_num at a1 a2; linarith [a1.1, a1.2, a2.1, a2.2])

/-- C13, as stated, fails: the bounds of the tests are the `float` literals `152.2f` and
`202.2f`, whose binary32 values lie below the decimals. The coordinate `x = 152.2f =
9974579 / 65536` is classified `anode_tpc1` although `152.2 ≤ x` does not hold, and `x = -152.2f`
is classified `anode_tpc0` although `x ≤ -152.2` does not hold. -/
theorem float_bound_in_anode_zone :
    binary32 152.2 = 9974579 / 65536 ∧
    classify_x_region (Flt.val (9974579 / 65536)) = "anode_tpc1" ∧
    ¬ ((152.2 : ℚ) ≤ 9974579 / 65536 ∧ (9974579 / 65536 : ℚ) ≤ 202.2) ∧
    classify_x_region (Flt.val (-(9974579 / 65536))) = "anode_tpc0" ∧
    ¬ ((-202.2 : ℚ) ≤ -(9974579 / 65536) ∧ (-(9974579 / 65536) : ℚ) ≤ -152.2) := by
  refine ⟨by decide!, ?_, by norm_num, ?_, by norm_num⟩
  · rw [classify_x_region_val]; norm_num
  · rw [classify_x_region_val]; norm_num

/-- C13, amended: `classify_x_region` returns `anode_tpc0` exactly for
`-202.2f ≤ x ≤ -152.2f`, `cathode` exactly for `-50 ≤ x ≤ 50`, `anode_tpc1` exactly for
`152.2f ≤ x ≤ 202.2f` and `other` otherwise (NaN included), where `202.2f = 13251379 / 65536`
and `152.2f = 9974579 / 65536` are the binary32 values of the literals; the three intervals are
pairwise disjoint, so the chain gives the same zone with its tests in any order; and -180, 0,
180, 1000 go to `anode_tpc0`, `cathode`, `anode_tpc1`, `other`. -/
theorem classify_x_region_spec :
    (∀ x, classify_x_region x = "anode_tpc0" ↔
      ∃ q, x = Flt.val q ∧ -(13251379 / 65536) ≤ q ∧ q ≤ -(9974579 / 65536)) ∧
    (∀ x, classify_x_region x = "cathode" ↔ ∃ q, x = Flt.val q ∧ -50 ≤ q ∧ q ≤ 50) ∧
    (∀ x, classify_x_region x = "anode_tpc1" ↔
      ∃ q, x = Flt.val q ∧ 9974579 / 65536 ≤ q ∧ q ≤ 13251379 / 65536) ∧
    (∀ x, classify_x_region x = "other" ↔
      ¬ ∃ q, x = Flt.val q ∧ ((-(13251379 / 65536) ≤ q ∧ q ≤ -(9974579 / 65536)) ∨
        (-50 ≤ q ∧ q ≤ 50) ∨ (9974579 / 65536 ≤ q ∧ q ≤ 13251379 / 65536))) ∧
    (∀ q : ℚ,
      ¬ ((-(13251379 / 65536) ≤ q ∧ q ≤ -(9974579 / 65536)) ∧ (-50 ≤ q ∧ q ≤ 50)) ∧
      ¬ ((-(13251379 / 65536) ≤ q ∧ q ≤ -(9974579 / 65536)) ∧
        (9974579 / 65536 ≤ q ∧ q ≤ 13251379 / 65536)) ∧
      ¬ ((-50 ≤ q ∧ q ≤ 50) ∧ (9974579 / 65536 ≤ q ∧ q ≤ 13251379 / 65536))) ∧
    (∀ (tests : List (ℚ × ℚ × String)) (x : Flt), tests.Perm xTests →
      classifyWith tests x = classify_x_region x) ∧
    classify_x_region (Flt.val (-180)) = "anode_tpc0" ∧
    classify_x_region (Flt.val 0) = "cathode" ∧
    classify_x_region (Flt.val 180) = "anode_tpc1" ∧
    classify_x_region (Flt.val 1000) = "other" ∧
    binary32 202.2 = 13251379 / 65536 ∧ binary32 152.2 = 9974579 / 65536 ∧
    binary32 50.0 = 50 := by
  refine ⟨?_, ?_, ?_, ?_, ?_, ?_, ?_, ?_, ?_, ?_, by decide!, by decide!, by decide!⟩
  · intro x
    cases x with
    | nan => simp [classify_x_region_nan]
    | val q =>
      rw [classify_x_region_val]
      simp only [Flt.val.injEq, exists_eq_left']
      split_ifs with h1 h2 h3
      · simp [h1]
      · constructor
        · intro h; exact absurd h (by decide)
        · intro h; exact absurd h h1
      · constructor
        · intro h; exact absurd h (by decide)
        · intro h; exact absurd h h1
      · constructor
        · intro h; exact absurd h (by decide)
        · intro h; exact absurd h h1
  · intro x
    cases x with
    | nan => simp [classify_x_region_nan]
    | val q =>
      rw [classify_x_region_val]
      simp only [Flt.val.injEq, exists_eq_left']
      split_ifs with h1 h2 h3
      · constructor
        · intro h; exact absurd h (by decide)
        · intro h; exfalso; norm_num at h1; linarith [h1.1, h1.2, h.1, h.2]
      · simp [h2]
      · constructor
        · intro h; exact absurd h (by decide)
        · intro h; exact absurd h h2
      · constructor
        · intro h; exact absurd h (by decide)
        · intro h; exact absurd h h2
  · intro x
    cases x with
    | nan => simp [classify_x_region_nan]
    | val q =>
      rw [classify_x_region_val]
      simp only [Flt.val.injEq, exists_eq_left']
      split_ifs with h1 h2 h3
      · constructor
        · intro h; exact absurd h (by decide)
        · intro h; exfalso; norm_num at h1; linarith [h1.1, h1.2, h.1, h.2]
      · constructor
        · intro h; exact absurd h (by decide)
        · intro h; exfalso; linarith [h2.1, h2.2, h.1, h.2]
      · simp [h3]
      · constructor
        · intro h; exact absurd h (by decide)
        · intro h; exact absurd h h3
  · intro x
    cases x with
    | nan => simp [classify_x_region_nan]
    | val q =>
      rw [classify_x_region_val]
      simp only [Flt.val.injEq, exists_eq_left']
      split_ifs with h1 h2 h3
      · constructor
        · intro h; exact absurd h (by decide)
        · intro h; exact absurd (Or.inl h1) h
      · constructor
        · intro h; exact absurd h (by decide)
        · intro h; exact absurd (Or.inr (Or.inl h2)) h
      · constructor
        · intro h; exact absurd h (by decide)
        · intro h; exact absurd (Or.inr (Or.inr h3)) h
      · constructor
        · intro _ h
          rcases h with h | h | h
          · exact h1 h
          · exact h2 h
          · exact h3 h
        · intro _; rfl
  · intro q
    refine ⟨?_, ?_, ?_⟩
    · rintro ⟨⟨a, b⟩, c, d⟩; norm_num at a b c d; linarith
    · rintro ⟨⟨a, b⟩, c, d⟩; norm_num at a b c d; linarith
    · rintro ⟨⟨a, b⟩, c, d⟩; norm_num at a b c d; linarith
  · intro tests x hperm
    rw [classify_x_region_eq_classifyWith]
    have huniq : ∀ t1 ∈ tests, ∀ t2 ∈ tests, (x.ge t1.1 && x.le t1.2.1) = true →
        (x.ge t2.1 && x.le t2.2.1) = true → t1 = t2 :=
      fun t1 h1 t2 h2 => xTests_disjoint x t1 (hperm.mem_iff.1 h1) t2 (hperm.mem_iff.1 h2)
    by_cases hex : ∃ t ∈ xTests, (x.ge t.1 && x.le t.2.1) = true
    · obtain ⟨t, ht, hin⟩ := hex
      rw [classifyWith_of_mem tests x huniq t (hperm.mem_iff.2 ht) hin,
        classifyWith_of_mem xTests x (xTests_disjoint x) t ht hin]
    · have hnone : ∀ t ∈ xTests, (x.ge t.1 && x.le t.2.1) = false := by
        intro t ht
        cases hc : (x.ge t.1 && x.le t.2.1) with
        | false => rfl
        | true => exact absurd ⟨t, ht, hc⟩ hex
      rw [classifyWith_of_none xTests x hnone,
        classifyWith_of_none tests x (fun t ht => hnone t (hperm.mem_iff.1 ht))]
  · rw [classify_x_region_val]; norm_num
  · rw [classify_x_region_val]; norm_num
  · rw [classify_x_region_val]; norm_num
  · rw [classify_x_region_val]; norm_num


/-! ## `hit_split_regions_mc`: the boxes -/

theorem regionMatches_val (r : TPCRegion) (y z : ℚ) (tpc_id : Nat) :
    regionMatches r (Flt.val y) (Flt.val z) tpc_id = true ↔
      r.tpc_id = (tpc_id : Int) ∧ r.y_min ≤ y ∧ y < r.y_max ∧ r.z_min ≤ z ∧ z < r.z_max := by
  simp only [regionMatches, Flt.ge, Flt.lt, Bool.and_eq_true, decide_eq_true_eq, ge_iff_le]
  tauto

theorem regionMatches_nan_y (r : TPCRegion) (z : Flt) (tpc_id : Nat) :
    regionMatches r Flt.nan z tpc_id = false := by
  simp [regionMatches, Flt.ge, Flt.lt]

theorem regionMatches_nan_z (r : TPCRegion) (y : Flt) (tpc_id : Nat) :
    regionMatches r y Flt.nan tpc_id = false := by
  simp [regionMatches, Flt.ge, Flt.lt]

/-- A match needs two numbers as coordinates. -/
theorem regionMatches_true (r : TPCRegion) (y z : Flt) (tpc_id : Nat)
    (h : regionMatches r y z tpc_id = true) :
    ∃ qy qz, y = Flt.val qy ∧ z = Flt.val qz ∧ r.tpc_id = (tpc_id : Int) ∧
      r.y_min ≤ qy ∧ qy < r.y_max ∧ r.z_min ≤ qz ∧ qz < r.z_max := by
  cases y with
  | nan => rw [regionMatches_nan_y] at h; exact absurd h (by simp)
  | val qy =>
    cases z with
    | nan => rw [regionMatches_nan_z] at h; exact absurd h (by simp)
    | val qz => exact ⟨qy, qz, rfl, rfl, (regionMatches_val r qy qz tpc_id).1 h⟩

/-- The scan returns -1 exactly when no region that remains matches. -/
theorem scanRegions_eq_neg_one (y z : Flt) (tpc_id : Nat) (rs : List TPCRegion) :
    ∀ i : Nat, scanRegions y z tpc_id rs i = -1 ↔ ∀ r ∈ rs, regionMatches r y z tpc_id = false := by
  induction rs with
  | nil => intro i; simp [scanRegions]
  | cons a rest ih =>
    intro i
    unfold scanRegions
    by_cases ha : regionMatches a y z tpc_id = true
    · rw [if_pos ha]
      constructor
      · intro h; omega
      · intro h
        rw [h a (by simp)] at ha
        exact absurd ha (by simp)
    · rw [if_neg ha, ih]
      constructor
      · intro h r hr
        rcases List.mem_cons.1 hr with e | e
        · subst e; simpa using ha
        · exact h r e
      · intro h r hr
        exact h r (List.mem_cons_of_mem _ hr)

/-- When some region matches, the scan returns the position of the first matching region. -/
theorem scanRegions_found (y z : Flt) (tpc_id : Nat) (rs : List TPCRegion) :
    ∀ i : Nat, (∃ r ∈ rs, regionMatches r y z tpc_id = true) →
      ∃ k : Nat, k < rs.length ∧ scanRegions y z tpc_id rs i = ((i + k : Nat) : Int) ∧
        ∃ b, rs[k]? = some b ∧ regionMatches b y z tpc_id = true ∧
          ∀ j : Nat, j < k → ∀ c, rs[j]? = some c → regionMatches c y z tpc_id = false := by
  induction rs with
  | nil => intro i h; obtain ⟨r, hr, _⟩ := h; simp at hr
  | cons a rest ih =>
    intro i h
    unfold scanRegions
    by_cases ha : regionMatches a y z tpc_id = true
    · rw [if_pos ha]
      refine ⟨0, by simp, by simp, a, by simp, ha, ?_⟩
      intro j hj
      omega
    · rw [if_neg ha]
      have hrest : ∃ r ∈ rest, regionMatches r y z tpc_id = true := by
        obtain ⟨r, hr, hm⟩ := h
        rcases List.mem_cons.1 hr with e | e
        · subst e; exact absurd hm ha
        · exact ⟨r, e, hm⟩
      obtain ⟨k, hk, hres, b, hb, hbm, hfirst⟩ := ih (i + 1) hrest
      refine ⟨k + 1, by simp; omega, ?_, b, by simpa using hb, hbm, ?_⟩
      · rw [hres]
        congr 1
        omega
      · intro j hj c hc
        cases j with
        | zero =>
          simp only [List.getElem?_cons_zero, Option.some.injEq] at hc
          subst hc
          simpa using ha
        | succ j2 =>
          simp only [List.getElem?_cons_succ] at hc
          exact hfirst j2 (by omega) c hc

theorem regionAt_natCast (rs : List TPCRegion) (k : Nat) : regionAt rs ((k : Nat) : Int) = rs[k]? := by
  unfold regionAt
  rw [if_neg (by omega)]
  simp

/-- Over a list in which at most one region matches, the scan designates the matching region. -/
theorem regionAt_scan_of_mem (y z : Flt) (tpc_id : Nat) (rs : List TPCRegion)
    (huniq : ∀ a ∈ rs, ∀ b ∈ rs, regionMatches a y z tpc_id = true →
      regionMatches b y z tpc_id = true → a = b)
    (r : TPCRegion) (hr : r ∈ rs) (hm : regionMatches r y z tpc_id = true) :
    regionAt rs (scanRegions y z tpc_id rs 0) = some r := by
  obtain ⟨k, _, hres, b, hb, hbm, _⟩ := scanRegions_found y z tpc_id rs 0 ⟨r, hr, hm⟩
  rw [hres, Nat.zero_add, regionAt_natCast, hb]
  rw [huniq b (List.getElem?_mem hb) r hr hbm hm]

theorem regionAt_scan_of_none (y z : Flt) (tpc_id : Nat) (rs : List TPCRegion)
    (hnone : ∀ r ∈ rs, regionMatches r y z tpc_id = false) :
    regionAt rs (scanRegions y z tpc_id rs 0) = none := by
  rw [(scanRegions_eq_neg_one y z tpc_id rs 0).2 hnone]
  rfl

/-- At most one of the eight boxes matches a point: boxes with the same TPC id are pairwise
disjoint. -/
theorem regions_disjoint (y z : Flt) (tpc_id : Nat) :
    ∀ a ∈ regions, ∀ b ∈ regions, regionMatches a y z tpc_id = true →
      regionMatches b y z tpc_id = true → a = b := by
  intro a ha b hb hma hmb
  obtain ⟨qy, qz, rfl, rfl, _⟩ := regionMatches_true a y z tpc_id hma
  rw [regionMatches_val] at hma hmb
  simp only [regions, List.mem_cons, List.mem_singleton, List.not_mem_nil, or_false] at ha hb
  rcases ha with rfl | rfl | rfl | rfl | rfl | rfl | rfl | rfl <;>
    rcases hb with rfl | rfl | rfl | rfl | rfl | rfl | rfl | rfl <;>
    first
    | rfl
    | (exfalso
       obtain ⟨a1, a2, a3, a4, a5⟩ := hma
       obtain ⟨b1, b2, b3, b4, b5⟩ := hmb
       simp only at a1 a2 a3 a4 a5 b1 b2 b3 b4 b5
       first
       | omega
       | (norm_num at a2 a3 a4 a5 b2 b3 b4 b5; linarith))


/-- The result of `get_region_index` is -1 or the position of a box that matches. -/
theorem get_region_index_cases (x y z : Flt) (tpc_id : Nat) :
    (get_region_index x y z tpc_id = -1 ∧ ∀ r ∈ regions, regionMatches r y z tpc_id = false) ∨
    ∃ k : Nat, k < 8 ∧ get_region_index x y z tpc_id = (k : Int) ∧
      ∃ b, regions[k]? = some b ∧ regionMatches b y z tpc_id = true := by
  by_cases h : ∃ r ∈ regions, regionMatches r y z tpc_id = true
  · right
    obtain ⟨k, hk, hres, b, hb, hbm, _⟩ := scanRegions_found y z tpc_id regions 0 h
    rw [Nat.zero_add] at hres
    exact ⟨k, hk, hres, b, hb, hbm⟩
  · left
    have hnone : ∀ r ∈ regions, regionMatches r y z tpc_id = false := by
      intro r hr
      cases hc : regionMatches r y z tpc_id with
      | false => rfl
      | true => exact absurd ⟨r, hr, hc⟩ h
    exact ⟨(scanRegions_eq_neg_one y z tpc_id regions 0).2 hnone, hnone⟩

/-- C14, as stated, fails: for TPC 0 the point `y = -100`, `z = -2^-47` is classified into box
`TPC0_00` (index 0) although `0 ≤ z` does not hold; the lower z bound of the box is the literal
`-5.68434e-14f`, not 0. And the point `y = -100`, `z = 244.7f = 16036659 / 65536` is in no box
although `0 ≤ z < 244.7` holds: the upper z bound is the binary32 value of the literal, which
lies below the decimal. -/
theorem box_zero_accepts_negative_z :
    get_region_index (Flt.val 0) (Flt.val (-100)) (Flt.val (-(1 / 140737488355328))) 0 = 0 ∧
    ¬ ((-203.732 : ℚ) ≤ -100 ∧ (-100 : ℚ) < 0 ∧ (0 : ℚ) ≤ -(1 / 140737488355328) ∧
      (-(1 / 140737488355328) : ℚ) < 244.7) ∧
    binary32 244.7 = 16036659 / 65536 ∧
    get_region_index (Flt.val 0) (Flt.val (-100)) (Flt.val (16036659 / 65536)) 0 = -1 ∧
    ((-203.732 : ℚ) ≤ -100 ∧ (-100 : ℚ) < 0 ∧ (0 : ℚ) ≤ 16036659 / 65536 ∧
      (16036659 / 65536 : ℚ) < 244.7) := by
  refine ⟨?_, by norm_num, by decide!, ?_, by norm_num⟩
  · norm_num [get_region_index, get_region_index_in, regions, scanRegions, regionMatches,
      Flt.ge, Flt.lt]
  · norm_num [get_region_index, get_region_index_in, regions, scanRegions, regionMatches,
      Flt.ge, Flt.lt]

/-- C14, amended: `get_region_index` returns the index of the box whose TPC id equals the given
one and whose half-open bounds contain the point, or -1 if there is none; the result is -1 or in
0..7; for TPC 0 it returns box `TPC0_00` (index 0) exactly when `-203.732f ≤ y < 0` and
`-5.68434e-14f ≤ z < 244.7f`, where `203.732f = 3337945 / 16384`,
`5.68434e-14f = 8388605 / 2^67` and `244.7f = 16036659 / 65536` are the binary32 values of the
literals; and `(tpc 0, y = -100, z = 100)` maps to index 0. -/
theorem get_region_index_spec :
    (∀ (x y z : Flt) (tpc_id : Nat),
      get_region_index x y z tpc_id = -1 ↔ ∀ r ∈ regions, regionMatches r y z tpc_id = false) ∧
    (∀ (x y z : Flt) (tpc_id : Nat) (i : Int), 0 ≤ i →
      (get_region_index x y z tpc_id = i ↔
        ∃ b, regionAt regions i = some b ∧ regionMatches b y z tpc_id = true)) ∧
    (∀ (b : TPCRegion) (y z : Flt) (tpc_id : Nat), regionMatches b y z tpc_id = true ↔
      ∃ qy qz, y = Flt.val qy ∧ z = Flt.val qz ∧ b.tpc_id = (tpc_id : Int) ∧
        b.y_min ≤ qy ∧ qy < b.y_max ∧ b.z_min ≤ qz ∧ qz < b.z_max) ∧
    (∀ (x y z : Flt) (tpc_id : Nat), get_region_index x y z tpc_id = -1 ∨
      (0 ≤ get_region_index x y z tpc_id ∧ get_region_index x y z tpc_id ≤ 7)) ∧
    (∀ (x y z : Flt), get_region_index x y z 0 = 0 ↔
      ∃ qy qz, y = Flt.val qy ∧ z = Flt.val qz ∧ -(3337945 / 16384) ≤ qy ∧ qy < 0 ∧
        -(8388605 / 2 ^ 67) ≤ qz ∧ qz < 16036659 / 65536) ∧
    get_region_index (Flt.val 0) (Flt.val (-100)) (Flt.val 100) 0 = 0 ∧
    binary32 203.732 = 3337945 / 16384 ∧ binary32 5.68434e-14 = 8388605 / 2 ^ 67 ∧
    binary32 244.7 = 16036659 / 65536 := by
  have hmatch : ∀ (b : TPCRegion) (y z : Flt) (tpc_id : Nat),
      regionMatches b y z tpc_id = true ↔
      ∃ qy qz, y = Flt.val qy ∧ z = Flt.val qz ∧ b.tpc_id = (tpc_id : Int) ∧
        b.y_min ≤ qy ∧ qy < b.y_max ∧ b.z_min ≤ qz ∧ qz < b.z_max := by
    intro b y z tpc_id
    constructor
    · exact regionMatches_true b y z tpc_id
    · rintro ⟨qy, qz, rfl, rfl, h⟩
      exact (regionMatches_val b qy qz tpc_id).2 h
  have hidx : ∀ (x y z : Flt) (tpc_id : Nat) (i : Int), 0 ≤ i →
      (get_region_index x y z tpc_id = i ↔
        ∃ b, regionAt regions i = some b ∧ regionMatches b y z tpc_id = true) := by
    intro x y z tpc_id i hi
    constructor
    · intro h
      rcases get_region_index_cases x y z tpc_id with ⟨hneg, _⟩ | ⟨k, _, hk, b, hb, hbm⟩
      · omega
      · refine ⟨b, ?_, hbm⟩
        rw [← h, hk, regionAt_natCast]
        exact hb
    · rintro ⟨b, hb, hbm⟩
      have hmem : b ∈ regions := by
        unfold regionAt at hb
        rw [if_neg (by omega)] at hb
        exact List.getElem?_mem hb
      have hfound := regionAt_scan_of_mem y z tpc_id regions (regions_disjoint y z tpc_id)
        b hmem hbm
      rcases get_region_index_cases x y z tpc_id with ⟨_, hnone⟩ | ⟨k, hk8, hk, b2, hb2, hbm2⟩
      · rw [hnone b hmem] at hbm
        exact absurd hbm (by simp)
      · have hbb : b2 = b := regions_disjoint y z tpc_id b2 (List.getElem?_mem hb2) b hmem hbm2 hbm
        subst hbb
        rw [hk]
        unfold regionAt at hb
        rw [if_neg (by omega)] at hb
        have hnd : ∀ j : Nat, j < 8 → regions[j]? = regions[k]? → j = k := by
          intro j hj he
          have hk' : k < 8 := hk8
          simp only [regions] at he
          interval_cases j <;> interval_cases k <;>
            first
            | rfl
            | (exfalso; simp at he)
        have hlt : i.toNat < 8 := by
          have := (List.getElem?_eq_some.1 hb).1
          simpa [regions] using this
        have := hnd i.toNat hlt (by rw [hb, hb2])
        omega
  refine ⟨?_, hidx, hmatch, ?_, ?_, ?_, by decide!, by decide!, by decide!⟩
  · intro x y z tpc_id
    exact scanRegions_eq_neg_one y z tpc_id regions 0
  · intro x y z tpc_id
    rcases get_region_index_cases x y z tpc_id with ⟨hneg, _⟩ | ⟨k, hk8, hk, _⟩
    · exact Or.inl hneg
    · right
      rw [hk]
      omega
  · intro x y z
    rw [hidx x y z 0 0 (le_refl _)]
    have h0 : regionAt regions 0 = some (TPCRegion.mk "TPC0_00" (-(3337945 / 16384)) 0
        (-(8388605 / 2 ^ 67)) (16036659 / 65536) 0) := by
      rfl
    rw [h0]
    simp only [Option.some.injEq, exists_eq_left', hmatch]
    constructor
    · rintro ⟨qy, qz, hy, hz, _, h⟩
      exact ⟨qy, qz, hy, hz, h⟩
    · rintro ⟨qy, qz, hy, hz, h⟩
      exact ⟨qy, qz, hy, hz, by simp, h⟩
  · norm_num [get_region_index, get_region_index_in, regions, scanRegions, regionMatches,
      Flt.ge, Flt.lt]

/-- C15: for every TPC id and every point at most one of the eight boxes matches, so the box
that `get_region_index` returns is the only matching box, and scanning the boxes in any other
order designates the same box (or none). -/
theorem region_match_unique :
    (∀ (y z : Flt) (tpc_id : Nat), ∀ a ∈ regions, ∀ b ∈ regions,
      regionMatches a y z tpc_id = true → regionMatches b y z tpc_id = true → a = b) ∧
    (∀ (x y z : Flt) (tpc_id : Nat) (a : TPCRegion),
      regionAt regions (get_region_index x y z tpc_id) = some a →
      ∀ b ∈ regions, regionMatches b y z tpc_id = true → b = a) ∧
    (∀ (rs : List TPCRegion) (x y z : Flt) (tpc_id : Nat), rs.Perm regions →
      regionAt rs (get_region_index_in rs x y z tpc_id) =
        regionAt regions (get_region_index x y z tpc_id)) := by
  refine ⟨regions_disjoint, ?_, ?_⟩
  · intro x y z tpc_id a ha b hb hbm
    have := regionAt_scan_of_mem y z tpc_id regions (regions_disjoint y z tpc_id) b hb hbm
    unfold get_region_index get_region_index_in at ha
    rw [this] at ha
    exact Option.some.inj ha
  · intro rs x y z tpc_id hperm
    unfold get_region_index get_region_index_in
    have huniq : ∀ a ∈ rs, ∀ b ∈ rs, regionMatches a y z tpc_id = true →
        regionMatches b y z tpc_id = true → a = b :=
      fun a ha b hb => regions_disjoint y z tpc_id a (hperm.mem_iff.1 ha) b (hperm.mem_iff.1 hb)
    by_cases h : ∃ r ∈ regions, regionMatches r y z tpc_id = true
    · obtain ⟨r, hr, hm⟩ := h
      rw [regionAt_scan_of_mem y z tpc_id rs huniq r (hperm.mem_iff.2 hr) hm,
        regionAt_scan_of_mem y z tpc_id regions (regions_disjoint y z tpc_id) r hr hm]
    · have hnone : ∀ r ∈ regions, regionMatches r y z tpc_id = false := by
        intro r hr
        cases hc : regionMatches r y z tpc_id with
        | false => rfl
        | true => exact absurd ⟨r, hr, hc⟩ h
      rw [regionAt_scan_of_none y z tpc_id regions hnone,
        regionAt_scan_of_none y z tpc_id rs (fun r hr => hnone r (hperm.mem_iff.1 hr))]

/-- C16: with NaN as a value for which every comparison is false, `get_region_index` returns
-1 whenever y or z is NaN, for every TPC id, and `classify_x_region` returns `other` for a NaN
x; both are total functions. -/
theorem nan_classifies_to_none :
    (∀ (x z : Flt) (tpc_id : Nat), get_region_index x Flt.nan z tpc_id = -1) ∧
    (∀ (x y : Flt) (tpc_id : Nat), get_region_index x y Flt.nan tpc_id = -1) ∧
    classify_x_region Flt.nan = "other" := by
  refine ⟨?_, ?_, classify_x_region_nan⟩
  · intro x z tpc_id
    exact (scanRegions_eq_neg_one Flt.nan z tpc_id regions 0).2
      (fun r _ => regionMatches_nan_y r z tpc_id)
  · intro x y tpc_id
    exact (scanRegions_eq_neg_one y Flt.nan tpc_id regions 0).2
      (fun r _ => regionMatches_nan_z r y tpc_id)

theorem every_box_reached (i : Nat) (hi : i < 8) :
    ∃ (qy qz : ℚ) (tpc_id : Nat), ∀ x, get_region_index x (Flt.val qy) (Flt.val qz) tpc_id = i := by
  interval_cases i
  · exact ⟨-100, 100, 0, fun x => by
      norm_num [get_region_index, get_region_index_in, regions, scanRegions, regionMatches,
        Flt.ge, Flt.lt]⟩
  · exact ⟨100, 100, 0, fun x => by
      norm_num [get_region_index, get_region_index_in, regions, scanRegions, regionMatches,
        Flt.ge, Flt.lt]⟩
  · exact ⟨-100, 300, 0, fun x => by
      norm_num [get_region_index, get_region_index_in, regions, scanRegions, regionMatches,
        Flt.ge, Flt.lt]⟩
  · exact ⟨100, 300, 0, fun x => by
      norm_num [get_region_index, get_region_index_in, regions, scanRegions, regionMatches,
        Flt.ge, Flt.lt]⟩
  · exact ⟨-100, 100, 1, fun x => by
      norm_num [get_region_index, get_region_index_in, regions, scanRegions, regionMatches,
        Flt.ge, Flt.lt]⟩
  · exact ⟨100, 100, 1, fun x => by
      norm_num [get_region_index, get_region_index_in, regions, scanRegions, regionMatches,
        Flt.ge, Flt.lt]⟩
  · exact ⟨-100, 300, 1, fun x => by
      norm_num [get_region_index, get_region_index_in, regions, scanRegions, regionMatches,
        Flt.ge, Flt.lt]⟩
  · exact ⟨100, 300, 1, fun x => by
      norm_num [get_region_index, get_region_index_in, regions, scanRegions, regionMatches,
        Flt.ge, Flt.lt]⟩

theorem every_zone_reached (zone : String)
    (hz : zone ∈ ["anode_tpc0", "cathode", "anode_tpc1", "other"]) :
    ∃ q : ℚ, classify_x_region (Flt.val q) = zone := by
  simp only [List.mem_cons, List.mem_singleton, List.not_mem_nil, or_false] at hz
  rcases hz with rfl | rfl | rfl | rfl
  · exact ⟨-180, by rw [classify_x_region_val]; norm_num⟩
  · exact ⟨0, by rw [classify_x_region_val]; norm_num⟩
  · exact ⟨180, by rw [classify_x_region_val]; norm_num⟩
  · exact ⟨1000, by rw [classify_x_region_val]; norm_num⟩

/-- C17: the box of a hit does not depend on its x coordinate (two hits that agree on y, z
and the TPC id get the same box) and its zone depends on nothing but x (two hits that agree on x
get the same zone); and every one of the 8 boxes occurs together with every one of the 4 zones,
on a hit without NaN coordinates. -/
theorem box_and_zone_independent :
    (∀ (x x2 y z : Flt) (tpc_id : Nat),
      get_region_index x y z tpc_id = get_region_index x2 y z tpc_id) ∧
    (∀ h1 h2 : SpaceHit, h1.y = h2.y → h1.z = h2.z → h1.tpc = h2.tpc →
      hitBox h1 = hitBox h2) ∧
    (∀ h1 h2 : SpaceHit, h1.x = h2.x → hitZone h1 = hitZone h2) ∧
    (∀ i : Nat, i < 8 → ∀ zone ∈ ["anode_tpc0", "cathode", "anode_tpc1", "other"],
      ∃ (qx qy qz : ℚ) (tpc_id : Nat),
        hitBox (SpaceHit.mk (Flt.val qx) (Flt.val qy) (Flt.val qz) tpc_id) = i ∧
        hitZone (SpaceHit.mk (Flt.val qx) (Flt.val qy) (Flt.val qz) tpc_id) = zone) := by
  refine ⟨fun _ _ _ _ _ => rfl, ?_, ?_, ?_⟩
  · intro h1 h2 hy hz ht
    unfold hitBox get_region_index get_region_index_in
    rw [hy, hz, ht]
  · intro h1 h2 hx
    unfold hitZone
    rw [hx]
  · intro i hi zone hz
    obtain ⟨qy, qz, tpc_id, hbox⟩ := every_box_reached i hi
    obtain ⟨qx, hzone⟩ := every_zone_reached zone hz
    exact ⟨qx, qy, qz, tpc_id, hbox _, hzone⟩


/-! ## `hit_analyzer` without a dead-channel file -/

theorem isDead_nil (wire plane tpc : Nat) : isDead [] wire plane tpc = false := by
  simp [isDead, setFind]

theorem liveInRange_nil (plane tpc lo hi : Nat) : liveInRange [] plane tpc lo hi = hi + 1 - lo := by
  unfold liveInRange
  rw [List.filter_eq_self.2 (fun w _ => by simp [isDead_nil])]
  exact List.length_range' _ _ _

theorem uniqueHitWires_nil_length (plane tpc_id : Nat) (wires : List Nat) :
    (uniqueHitWires [] plane tpc_id wires).length = wires.toFinset.card := by
  rw [uniqueHitWires_length_eq_card]
  congr 2
  rw [List.filter_eq_self]
  intro w _
  simp [isDead_nil]

/-- A non-empty list of wires has a smallest and a largest member. -/
theorem exists_min_max (wires : List Nat) (hne : wires ≠ []) :
    ∃ lo hi, lo ∈ wires ∧ hi ∈ wires ∧ ∀ w ∈ wires, lo ≤ w ∧ w ≤ hi := by
  have hne2 : setOfList wireLt wires ≠ [] := by
    intro he
    cases wires with
    | nil => exact hne rfl
    | cons a r =>
      have := (mem_setOfList wireLt wireLt_total a (a :: r)).2 (by simp)
      rw [he] at this
      simp at this
  have hs := setOfList_sorted wires
  refine ⟨(setOfList wireLt wires).headD 0, (setOfList wireLt wires).getLastD 0,
    (mem_setOfList wireLt wireLt_total _ _).1 (headD_mem _ hne2 0),
    (mem_setOfList wireLt wireLt_total _ _).1 (getLastD_mem _ hne2 0), ?_⟩
  intro w hw
  have hw2 := (mem_setOfList wireLt wireLt_total w wires).2 hw
  exact ⟨headD_le _ hs 0 w hw2, le_getLastD _ hs 0 w hw2⟩

set_option maxRecDepth 100000 in
/-- C12, as stated, fails: with `dead_channels.csv` not opened, the 25 on-trajectory hits on the
wires 1..25 (plane 0, TPC 0, pitch 1) pass the valid-hit filter and `calculate_efficiency`
writes the row `7,0,0,60,25,25,1,1`: the computation is not skipped. -/
theorem row_written_without_dead_file :
    calculate_efficiency 65537 (analyzer_dead_channels none) 7 60
      (valid_wires (analyzer_dead_channels none) (List.range' 1 25) (List.replicate 25 0)
        (List.replicate 25 0) (List.replicate 25 true) (List.replicate 25 1))
      (valid_pitches (analyzer_dead_channels none) (List.range' 1 25) (List.replicate 25 0)
        (List.replicate 25 0) (List.replicate 25 true) (List.replicate 25 1))
      (valid_tpcs (analyzer_dead_channels none) (List.range' 1 25) (List.replicate 25 0)
        (List.replicate 25 0) (List.replicate 25 true) (List.replicate 25 1)) 0 =
      some (some (EffRow.mk 7 0 0 60 25 25 1 1)) := by
  have hd : analyzer_dead_channels none = [] := rfl
  have hw : valid_wires [] (List.range' 1 25) (List.replicate 25 0)
      (List.replicate 25 0) (List.replicate 25 true) (List.replicate 25 1) =
      List.range' 1 25 := by decide
  have hp : valid_pitches [] (List.range' 1 25) (List.replicate 25 0)
      (List.replicate 25 0) (List.replicate 25 true) (List.replicate 25 1) =
      List.replicate 25 1 := by decide
  have ht : valid_tpcs [] (List.range' 1 25) (List.replicate 25 0)
      (List.replicate 25 0) (List.replicate 25 true) (List.replicate 25 1) =
      List.replicate 25 0 := by decide
  rw [hd, hw, hp, ht]
  have h1 : setOfList wireLt (List.range' 1 25) = List.range' 1 25 := by decide
  have h2 : has_large_holes (std_sort (List.range' 1 25)) = false := by decide
  have h3 : countNonDead [] (toUShort 0) 0 ((std_sort (List.range' 1 25)).getLastD 0) 65537
      ((std_sort (List.range' 1 25)).headD 0) 0 = some 25 := by decide
  have h4 : (uniqueHitWires [] (toUShort 0) 0 (List.range' 1 25)).length = 25 := by decide
  have h5 : averagePitch (List.replicate 25 1) = 1 := by
    rw [averagePitch_eq]
    norm_num [List.replicate]
  have h6 : (List.replicate 25 0).headD 0 = 0 := by decide
  have h7 : (List.range' 1 25).isEmpty = false := by decide
  have hv : efficiency_values 65537 [] 7 60 (List.range' 1 25) (List.replicate 25 1)
      (List.replicate 25 0) 0 = some (some (EffRow.mk 7 0 0 60 25 25 1 1)) := by
    unfold efficiency_values
    rw [h1, h6]
    simp only [h2, h3, h4, h5, h7]
    norm_num
  exact (calculate_efficiency_some _ _ _ _ _ _ _ _ _).2 ⟨hv, by norm_num⟩

/-- C12, amended: when `dead_channels.csv` cannot be opened the dead-channel set of
`hit_analyzer` is empty, no channel is treated as dead and the efficiency computation runs
unfiltered: for valid wires below 65535, a row is written exactly when the valid wires have at
least 25 distinct values, no consecutive gap of the sorted distinct wires exceeds 11 and the
mean of the strictly positive valid pitches is positive; its ValidHits is the number of distinct
wires and its NonDeadWires is the full width `max_wire - min_wire + 1`. -/
theorem missing_dead_file_runs_unfiltered (fuel : Nat) (trk_id : Int) (track_length : ℚ)
    (wires : List Nat) (pitches : List ℚ) (tpcs : List Nat) (plane : Int)
    (hfuel : 65537 ≤ fuel) (hw : ∀ w ∈ wires, w < 65535) :
    analyzer_dead_channels none = [] ∧
    (∀ w p t, isDead (analyzer_dead_channels none) w p t = false) ∧
    ((∃ row, calculate_efficiency fuel (analyzer_dead_channels none) trk_id track_length wires
        pitches tpcs plane = some (some row)) ↔
      (25 ≤ wires.toFinset.card ∧ ¬ hasGap wires ∧ 0 < meanOfPositive pitches)) ∧
    (∀ row, calculate_efficiency fuel (analyzer_dead_channels none) trk_id track_length wires
        pitches tpcs plane = some (some row) →
      row.validHits = wires.toFinset.card ∧
      ∃ lo hi, lo ∈ wires ∧ hi ∈ wires ∧ (∀ w ∈ wires, lo ≤ w ∧ w ≤ hi) ∧
        row.nonDeadWires = hi + 1 - lo) := by
  have hd : analyzer_dead_channels none = [] := rfl
  rw [hd]
  refine ⟨rfl, isDead_nil, ?_, ?_⟩
  · rw [calculate_efficiency_writes_iff fuel [] trk_id track_length wires pitches tpcs plane
      hfuel hw]
    constructor
    · rintro ⟨h25, hgap, _, hp⟩
      exact ⟨h25, hgap, hp⟩
    · rintro ⟨h25, hgap, hp⟩
      have hne : wires ≠ [] := by
        intro he
        rw [he] at h25
        simp at h25
      obtain ⟨lo, hi, hlo, hhi, hrange⟩ := exists_min_max wires hne
      refine ⟨h25, hgap, ⟨lo, hi, hlo, hhi, hrange, ?_⟩, hp⟩
      have hle := uniqueHitWires_length_le [] (toUShort plane) (tpcs.headD 0) lo hi wires hrange
      rw [uniqueHitWires_nil_length] at hle
      omega
  · intro row hrow
    obtain ⟨hv, _⟩ := (calculate_efficiency_some _ _ _ _ _ _ _ _ _).1 hrow
    obtain ⟨lo, hi, hlo, hhi, hrange, _, _, _, _, hr⟩ :=
      efficiency_values_some _ _ _ _ _ _ _ _ _ hv
    rw [hr]
    refine ⟨uniqueHitWires_nil_length _ _ _, lo, hi, hlo, hhi, hrange, ?_⟩
    exact liveInRange_nil _ _ _ _

/-- Witness of `missing_dead_file_runs_unfiltered`: the valid wires 1..25 with pitch 1. -/
theorem missing_dead_file_runs_unfiltered_witness :
    (65537 ≤ 65537 ∧ ∀ w ∈ List.range' 1 25, w < 65535) ∧
    ((∃ row, calculate_efficiency 65537 (analyzer_dead_channels none) 7 60 (List.range' 1 25)
        (List.replicate 25 1) (List.replicate 25 0) 0 = some (some row)) ↔
      (25 ≤ (List.range' 1 25).toFinset.card ∧ ¬ hasGap (List.range' 1 25) ∧
        0 < meanOfPositive (List.replicate 25 1))) :=
  ⟨⟨le_refl _, by decide⟩,
    (missing_dead_file_runs_unfiltered 65537 7 60 (List.range' 1 25) (List.replicate 25 1)
      (List.replicate 25 0) 0 (le_refl _) (by decide)).2.2.1⟩

/-! ## Decimal output read back by `std::stoi` -/

theorem digitChar_toNat : ∀ d : Nat, d < 10 → (Char.ofNat (48 + d)).toNat = 48 + d := by
  decide

theorem isdigit_digitChar (d : Nat) (hd : d < 10) : isdigit (Char.ofNat (48 + d)) = true := by
  unfold isdigit
  rw [digitChar_toNat d hd]
  simp
  omega

/-- The digits written for `n`: a non-empty run of digit characters whose value is `n`. -/
theorem decDigitsAux_spec (fuel : Nat) : ∀ (n : Nat) (acc : List Char), n < fuel →
    ∃ ds : List Char, ds ≠ [] ∧ (∀ c ∈ ds, isdigit c = true) ∧ digitsValue ds = n ∧
      decDigitsAux fuel n acc = ds ++ acc := by
  induction fuel with
  | zero => intro n acc h; omega
  | succ k ih =>
    intro n acc h
    unfold decDigitsAux
    by_cases h10 : n < 10
    · rw [if_pos h10]
      refine ⟨[Char.ofNat (48 + n)], by simp, ?_, ?_, by simp⟩
      · intro c hc
        rw [List.mem_singleton.1 hc]
        exact isdigit_digitChar n h10
      · simp [digitsValue, digitChar_toNat n h10]
    · rw [if_neg h10]
      obtain ⟨ds, hne, hall, hval, heq⟩ := ih (n / 10) (Char.ofNat (48 + n % 10) :: acc)
        (by omega)
      have hmod : n % 10 < 10 := Nat.mod_lt _ (by omega)
      refine ⟨ds ++ [Char.ofNat (48 + n % 10)], by simp, ?_, ?_, by simp [heq]⟩
      · intro c hc
        rcases List.mem_append.1 hc with h1 | h1
        · exact hall c h1
        · rw [List.mem_singleton.1 h1]
          exact isdigit_digitChar _ hmod
      · unfold digitsValue at hval ⊢
        rw [List.foldl_append, hval]
        simp only [List.foldl_cons, List.foldl_nil, digitChar_toNat _ hmod]
        omega

theorem printNat_spec (n : Nat) :
    printNat n ≠ [] ∧ (∀ c ∈ printNat n, isdigit c = true) ∧ digitsValue (printNat n) = n := by
  obtain ⟨ds, hne, hall, hval, heq⟩ := decDigitsAux_spec (n + 1) n [] (by omega)
  unfold printNat
  rw [heq, List.append_nil]
  exact ⟨hne, hall, hval⟩

theorem takeWhile_eq_self_of_all {α : Type} (p : α → Bool) (l : List α)
    (h : ∀ a ∈ l, p a = true) : l.takeWhile p = l := by
  induction l with
  | nil => rfl
  | cons a r ih =>
    rw [List.takeWhile_cons, h a (by simp)]
    simp only [if_true]
    rw [ih (fun b hb => h b (List.mem_cons_of_mem _ hb))]

theorem isdigit_not_space (c : Char) (h : isdigit c = true) : isspace c = false := by
  unfold isdigit at h
  unfold isspace
  simp only [Bool.and_eq_true, decide_eq_true_eq] at h
  simp
  omega

/-- The call `std::stoi` on a non-empty run of digits returns its value, if it fits an `int`. -/
theorem stoi_digits (ds : List Char) (hne : ds ≠ []) (hall : ∀ c ∈ ds, isdigit c = true)
    (hfit : digitsValue ds ≤ 2147483647) : stoi ds = some (digitsValue ds : Int) := by
  cases ds with
  | nil => exact absurd rfl hne
  | cons d r =>
    have hd := hall d (by simp)
    have hsp := isdigit_not_space d hd
    have hd2 := hd
    unfold isdigit at hd2
    simp only [Bool.and_eq_true, decide_eq_true_eq] at hd2
    have hdrop : (d :: r).dropWhile isspace = d :: r := by
      rw [List.dropWhile_cons, hsp]
      simp
    have hsign : stripSign (d :: r) = (false, d :: r) := by
      have h45 : ¬ d.toNat = 45 := by omega
      have h43 : ¬ d.toNat = 43 := by omega
      simp only [stripSign, h45, h43, if_false]
    unfold stoi
    simp only [hdrop, hsign, takeWhile_eq_self_of_all isdigit (d :: r) hall]
    simp only [List.isEmpty_cons, Bool.false_eq_true, if_false]
    rw [if_pos]
    constructor
    · have : (0 : Int) ≤ (digitsValue (d :: r) : Int) := Int.ofNat_nonneg _
      omega
    · exact_mod_cast hfit

/-- The text written for an `int` is read back by `std::stoi` as the same `int`. -/
theorem stoi_printInt (i : Int) (hlo : -2147483648 ≤ i) (hhi : i ≤ 2147483647) :
    stoi (printInt i) = some i := by
  unfold printInt
  by_cases hneg : i < 0
  · rw [if_pos hneg]
    obtain ⟨hne, hall, hval⟩ := printNat_spec i.natAbs
    have h45 : (Char.ofNat 45).toNat = 45 := by decide
    have hsp : isspace (Char.ofNat 45) = false := by decide
    have hdrop : (Char.ofNat 45 :: printNat i.natAbs).dropWhile isspace =
        Char.ofNat 45 :: printNat i.natAbs := by
      rw [List.dropWhile_cons, hsp]
      simp
    have hsign : stripSign (Char.ofNat 45 :: printNat i.natAbs) = (true, printNat i.natAbs) := by
      simp only [stripSign, h45, if_true]
    unfold stoi
    simp only [hdrop, hsign, takeWhile_eq_self_of_all isdigit _ hall, hval]
    have hie : (printNat i.natAbs).isEmpty = false := by
      cases hp : printNat i.natAbs with
      | nil => exact absurd hp hne
      | cons a r => rfl
    rw [hie]
    simp only [Bool.false_eq_true, if_false, if_true]
    have habs : ((i.natAbs : Nat) : Int) = -i := by omega
    rw [habs, if_pos (by omega)]
    simp
  · rw [if_neg hneg]
    obtain ⟨hne, hall, hval⟩ := printNat_spec i.toNat
    have hfit : digitsValue (printNat i.toNat) ≤ 2147483647 := by
      rw [hval]
      omega
    rw [stoi_digits _ hne hall hfit, hval]
    congr 1
    omega

theorem stoi_printNat (n : Nat) (hhi : n ≤ 2147483647) : stoi (printNat n) = some (n : Int) := by
  obtain ⟨hne, hall, hval⟩ := printNat_spec n
  rw [stoi_digits _ hne hall (by rw [hval]; exact hhi), hval]

/-- The characters written for an integer: digits and the minus sign, so neither a comma nor a
newline. -/
theorem printNat_chars (n : Nat) : ∀ c ∈ printNat n, c.toNat ≠ 44 ∧ c.toNat ≠ 10 := by
  intro c hc
  have h := (printNat_spec n).2.1 c hc
  unfold isdigit at h
  simp only [Bool.and_eq_true, decide_eq_true_eq] at h
  omega

theorem printInt_chars (i : Int) : ∀ c ∈ printInt i, c.toNat ≠ 44 ∧ c.toNat ≠ 10 := by
  intro c hc
  unfold printInt at hc
  by_cases hneg : i < 0
  · rw [if_pos hneg] at hc
    rcases List.mem_cons.1 hc with e | e
    · rw [e]; decide
    · exact printNat_chars _ c e
  · rw [if_neg hneg] at hc
    exact printNat_chars _ c hc

/-! ## Splitting at commas and at newlines -/

/-- A field without a comma, followed by a comma, is split off by one `std::getline`. -/
theorem getlineUntil_field (f rest : List Char) (hf : ∀ c ∈ f, c.toNat ≠ 44) :
    getlineUntil 44 (f ++ Char.ofNat 44 :: rest) = (f, rest) := by
  unfold getlineUntil
  induction f with
  | nil =>
    have h44 : (Char.ofNat 44).toNat = 44 := by decide
    simp [List.takeWhile_cons, List.dropWhile_cons, h44]
  | cons a r ih =>
    have ha : a.toNat ≠ 44 := hf a (by simp)
    have ih2 := ih (fun c hc => hf c (List.mem_cons_of_mem _ hc))
    simp only [Prod.mk.injEq] at ih2
    simp only [List.cons_append, List.takeWhile_cons, List.dropWhile_cons, bne_iff_ne, ne_eq,
      ha, not_false_eq_true, if_true, Prod.mk.injEq, List.cons.injEq, true_and]
    exact ih2

/-- A last field without a comma is read whole. -/
theorem getlineUntil_last (f : List Char) (hf : ∀ c ∈ f, c.toNat ≠ 44) :
    getlineUntil 44 f = (f, []) := by
  unfold getlineUntil
  induction f with
  | nil => simp
  | cons a r ih =>
    have ha : a.toNat ≠ 44 := hf a (by simp)
    have ih2 := ih (fun c hc => hf c (List.mem_cons_of_mem _ hc))
    simp only [Prod.mk.injEq] at ih2
    simp only [List.takeWhile_cons, List.dropWhile_cons, bne_iff_ne, ne_eq,
      ha, not_false_eq_true, if_true, Prod.mk.injEq, List.cons.injEq, true_and]
    exact ih2

/-- Reading a line that ends with a newline. -/
theorem getlinesAux_line (l rest : List Char) (hl : ∀ c ∈ l, c.toNat ≠ 10) :
    ∀ cur : List Char, getlinesAux (l ++ Char.ofNat 10 :: rest) cur =
      (cur ++ l) :: getlinesAux rest [] := by
  induction l with
  | nil =>
    intro cur
    have h10 : (Char.ofNat 10).toNat = 10 := by decide
    simp [getlinesAux, h10]
  | cons a r ih =>
    intro cur
    have ha : a.toNat ≠ 10 := hl a (by simp)
    rw [List.cons_append, getlinesAux, if_neg ha, ih (fun c hc => hl c (List.mem_cons_of_mem _ hc))]
    simp

/-- Newline-terminated lines are read back one by one. -/
theorem getlines_joinLines (ls : List (List Char)) (hls : ∀ l ∈ ls, ∀ c ∈ l, c.toNat ≠ 10) :
    getlines (joinLines ls) = ls := by
  unfold getlines
  induction ls with
  | nil => simp [joinLines, getlinesAux]
  | cons l r ih =>
    rw [joinLines, getlinesAux_line l _ (hls l (by simp)), List.nil_append,
      ih (fun l2 h2 => hls l2 (List.mem_cons_of_mem _ h2))]

theorem joinLines_append (a b : List (List Char)) :
    joinLines (a ++ b) = joinLines a ++ joinLines b := by
  induction a with
  | nil => rfl
  | cons l r ih => simp [joinLines, ih]

/-- One writer loop appends the lines of its entries. -/
theorem writeDeadEntries_eq (chs : List Int) (body : List Char) : ∀ out : List Char,
    writeDeadEntries out chs (body ++ [Char.ofNat 10]) =
      out ++ joinLines (chs.map (fun ch => printInt ch ++ body)) := by
  unfold writeDeadEntries
  induction chs with
  | nil => intro out; simp [joinLines]
  | cons ch r ih =>
    intro out
    rw [List.foldl_cons, ih]
    simp [joinLines]


/-! ## Round trip of `dead_channels.csv` -/

/-- A written line `wire,P,T` with `0 ≤ wire ≤ 65535` is parsed by the loader to its triple. -/
theorem parseDeadRow_entry (w : Int) (hw : 0 ≤ w ∧ w ≤ 65535) (rest : List Char) (k2 k3 : Int)
    (h2 : stoi (getlineUntil 44 rest).1 = some k2)
    (h3 : stoi (getlineUntil 44 (getlineUntil 44 rest).2).1 = some k3) :
    parseDeadRow (printInt w ++ Char.ofNat 44 :: rest) =
      some (w.toNat, toUShort k2, toUShort k3) := by
  unfold parseDeadRow
  simp only [getlineUntil_field (printInt w) rest (fun c hc => (printInt_chars w c hc).1),
    stoi_printInt w (by omega) (by omega), h2, h3]
  congr 2
  unfold toUShort
  omega

theorem filterMap_parse_entries (chs : List Int) (hw : ∀ w ∈ chs, 0 ≤ w ∧ w ≤ 65535)
    (rest : List Char) (k2 k3 : Int)
    (h2 : stoi (getlineUntil 44 rest).1 = some k2)
    (h3 : stoi (getlineUntil 44 (getlineUntil 44 rest).2).1 = some k3) :
    (chs.map (fun ch => printInt ch ++ Char.ofNat 44 :: rest)).filterMap parseDeadRow =
      chs.map (fun w => (w.toNat, toUShort k2, toUShort k3)) := by
  induction chs with
  | nil => rfl
  | cons a r ih =>
    rw [List.map_cons, List.filterMap_cons,
      parseDeadRow_entry a (hw a (by simp)) rest k2 k3 h2 h3, List.map_cons,
      ih (fun w h => hw w (List.mem_cons_of_mem _ h))]

/-- The text of `dead_channels.csv` is the header line followed by the data lines. -/
theorem dead_wires_csv_eq (l00 l01 l02 l10 l11 l12 : List Int) :
    dead_wires_csv l00 l01 l02 l10 l11 l12 =
      joinLines (String.toList "Wire,Plane,TPC" :: deadDataLines l00 l01 l02 l10 l11 l12) := by
  have hh : String.toList "Wire,Plane,TPC\n" =
      String.toList "Wire,Plane,TPC" ++ [Char.ofNat 10] := by decide
  have s00 : String.toList ",0,0\n" = String.toList ",0,0" ++ [Char.ofNat 10] := by decide
  have s10 : String.toList ",1,0\n" = String.toList ",1,0" ++ [Char.ofNat 10] := by decide
  have s20 : String.toList ",2,0\n" = String.toList ",2,0" ++ [Char.ofNat 10] := by decide
  have s01 : String.toList ",0,1\n" = String.toList ",0,1" ++ [Char.ofNat 10] := by decide
  have s11 : String.toList ",1,1\n" = String.toList ",1,1" ++ [Char.ofNat 10] := by decide
  have s21 : String.toList ",2,1\n" = String.toList ",2,1" ++ [Char.ofNat 10] := by decide
  unfold dead_wires_csv deadDataLines
  simp only [hh, s00, s10, s20, s01, s11, s21, writeDeadEntries_eq, joinLines, joinLines_append,
    List.append_assoc, List.singleton_append, List.cons_append, List.nil_append]

/-- The lines that the loader reads after the header are the data lines that were written. -/
theorem getlines_dead_wires_csv (l00 l01 l02 l10 l11 l12 : List Int) :
    (getlines (dead_wires_csv l00 l01 l02 l10 l11 l12)).drop 1 =
      deadDataLines l00 l01 l02 l10 l11 l12 := by
  rw [dead_wires_csv_eq, getlines_joinLines]
  · rfl
  · intro l hl c hc
    rcases List.mem_cons.1 hl with e | e
    · subst e
      revert c
      decide
    · unfold deadDataLines at e
      simp only [List.mem_append, List.mem_map] at e
      rcases e with ((((⟨w, _, rfl⟩ | ⟨w, _, rfl⟩) | ⟨w, _, rfl⟩) | ⟨w, _, rfl⟩) |
        ⟨w, _, rfl⟩) | ⟨w, _, rfl⟩ <;>
      · rcases List.mem_append.1 hc with h1 | h1
        · exact (printInt_chars w c h1).2
        · clear hc
          revert h1
          revert c
          decide

theorem filterMap_deadDataLines (l00 l01 l02 l10 l11 l12 : List Int)
    (h00 : ∀ w ∈ l00, 0 ≤ w ∧ w ≤ 65535) (h01 : ∀ w ∈ l01, 0 ≤ w ∧ w ≤ 65535)
    (h02 : ∀ w ∈ l02, 0 ≤ w ∧ w ≤ 65535) (h10 : ∀ w ∈ l10, 0 ≤ w ∧ w ≤ 65535)
    (h11 : ∀ w ∈ l11, 0 ≤ w ∧ w ≤ 65535) (h12 : ∀ w ∈ l12, 0 ≤ w ∧ w ≤ 65535) :
    (deadDataLines l00 l01 l02 l10 l11 l12).filterMap parseDeadRow =
      writtenTriples l00 l01 l02 l10 l11 l12 := by
  have e00 := filterMap_parse_entries l00 h00 (String.toList "0,0") 0 0 (by decide) (by decide)
  have e01 := filterMap_parse_entries l01 h01 (String.toList "1,0") 1 0 (by decide) (by decide)
  have e02 := filterMap_parse_entries l02 h02 (String.toList "2,0") 2 0 (by decide) (by decide)
  have e10 := filterMap_parse_entries l10 h10 (String.toList "0,1") 0 1 (by decide) (by decide)
  have e11 := filterMap_parse_entries l11 h11 (String.toList "1,1") 1 1 (by decide) (by decide)
  have e12 := filterMap_parse_entries l12 h12 (String.toList "2,1") 2 1 (by decide) (by decide)
  unfold deadDataLines writtenTriples
  simp only [List.filterMap_append]
  have c00 : String.toList ",0,0" = Char.ofNat 44 :: String.toList "0,0" := by decide
  have c10 : String.toList ",1,0" = Char.ofNat 44 :: String.toList "1,0" := by decide
  have c20 : String.toList ",2,0" = Char.ofNat 44 :: String.toList "2,0" := by decide
  have c01 : String.toList ",0,1" = Char.ofNat 44 :: String.toList "0,1" := by decide
  have c11 : String.toList ",1,1" = Char.ofNat 44 :: String.toList "1,1" := by decide
  have c21 : String.toList ",2,1" = Char.ofNat 44 :: String.toList "2,1" := by decide
  rw [c00, c10, c20, c01, c11, c21, e00, e01, e02, e10, e11, e12]
  rfl

/-- C19: for any six lists of dead wire numbers in 0..65535, the text that `dead_wires` writes
is loaded by the loader of `hit_analyzer` into exactly the set of the written triples: a lookup
succeeds exactly for a written triple, the data lines read back are the lines written, and
none of them is rejected. -/
theorem dead_csv_round_trip (l00 l01 l02 l10 l11 l12 : List Int)
    (h00 : ∀ w ∈ l00, 0 ≤ w ∧ w ≤ 65535) (h01 : ∀ w ∈ l01, 0 ≤ w ∧ w ≤ 65535)
    (h02 : ∀ w ∈ l02, 0 ≤ w ∧ w ≤ 65535) (h10 : ∀ w ∈ l10, 0 ≤ w ∧ w ≤ 65535)
    (h11 : ∀ w ∈ l11, 0 ≤ w ∧ w ≤ 65535) (h12 : ∀ w ∈ l12, 0 ≤ w ∧ w ≤ 65535) :
    (∀ wire plane tpc : Nat,
      isDead (analyzer_dead_channels (some (dead_wires_csv l00 l01 l02 l10 l11 l12)))
        wire plane tpc = true ↔
      (wire, plane, tpc) ∈ writtenTriples l00 l01 l02 l10 l11 l12) ∧
    (∀ line ∈ (getlines (dead_wires_csv l00 l01 l02 l10 l11 l12)).drop 1,
      parseDeadRow line ≠ none) ∧
    ((getlines (dead_wires_csv l00 l01 l02 l10 l11 l12)).drop 1).length =
      (writtenTriples l00 l01 l02 l10 l11 l12).length := by
  have hfm := filterMap_deadDataLines l00 l01 l02 l10 l11 l12 h00 h01 h02 h10 h11 h12
  rw [getlines_dead_wires_csv]
  refine ⟨?_, ?_, ?_⟩
  · intro wire plane tpc
    unfold isDead analyzer_dead_channels
    simp only [getlines_dead_wires_csv]
    unfold load_dead_channels
    rw [setFind_iff_mem keyLt keyLt_irrefl keyLt_total, mem_foldl_loadStep, ← hfm,
      List.mem_filterMap]
    simp
  · intro line hline hnone
    have hlen := congrArg List.length hfm
    have hsub : ((deadDataLines l00 l01 l02 l10 l11 l12).filterMap parseDeadRow).length =
        (deadDataLines l00 l01 l02 l10 l11 l12).length := by
      rw [hfm]
      unfold deadDataLines writtenTriples
      simp only [List.length_append, List.length_map]
    have hall : ∀ l ∈ deadDataLines l00 l01 l02 l10 l11 l12, (parseDeadRow l).isSome = true := by
      have hfilter : ∀ ls : List (List Char),
          (ls.filterMap parseDeadRow).length = ls.length →
          ∀ l ∈ ls, (parseDeadRow l).isSome = true := by
        intro ls
        induction ls with
        | nil => intro _ l hl; simp at hl
        | cons a r ih =>
          intro hlen l hl
          have hle := List.length_filterMap_le parseDeadRow r
          cases hp : parseDeadRow a with
          | none =>
            rw [List.filterMap_cons, hp] at hlen
            simp only [List.length_cons] at hlen
            omega
          | some k =>
            rw [List.filterMap_cons, hp] at hlen
            simp only [List.length_cons] at hlen
            rcases List.mem_cons.1 hl with e | e
            · rw [e, hp]; rfl
            · exact ih (by omega) l e
      exact hfilter _ hsub
    have := hall line hline
    rw [hnone] at this
    simp at this
  · unfold deadDataLines writtenTriples
    simp only [List.length_append, List.length_map]

set_option maxRecDepth 100000 in
/-- Witness of `dead_csv_round_trip`: the lists `[5, 6]`, `[7]`, `[]`, `[]`, `[65535]`, `[0]`. -/
theorem dead_csv_round_trip_witness :
    (∀ w ∈ [(5 : Int), 6], 0 ≤ w ∧ w ≤ 65535) ∧
    (isDead (analyzer_dead_channels (some (dead_wires_csv [5, 6] [7] [] [] [65535] [0])))
        65535 1 1 = true ↔
      ((65535 : Nat), (1 : Nat), (1 : Nat)) ∈ writtenTriples [5, 6] [7] [] [] [65535] [0]) :=
  ⟨by decide,
    (dead_csv_round_trip [5, 6] [7] [] [] [65535] [0] (by decide) (by decide) (by decide)
      (by decide) (by decide) (by decide)).1 65535 1 1⟩


/-! ## Round trip of the efficiency CSV -/

/-- The loader of `hit_plotter` splits a written row into the eight texts that were written. -/
theorem plotterFields_csvRow (fmt : ℚ → List Char) (row : EffRow)
    (hfmt : ∀ v, ∀ c ∈ fmt v, c.toNat ≠ 44) :
    plotterFields (csvRow fmt row) =
      [printInt row.trk_id, printInt row.plane, printNat row.tpc, fmt row.track_length,
        printNat row.validHits, printNat row.nonDeadWires, fmt row.efficiency,
        fmt row.avgPitch] := by
  unfold plotterFields csvRow
  simp only [getlineUntil_field _ _ (fun c hc => (printInt_chars _ c hc).1),
    getlineUntil_field _ _ (fun c hc => (printNat_chars _ c hc).1),
    getlineUntil_field _ _ (hfmt _), getlineUntil_last _ (hfmt _)]

/-! ## `hit_analyzer`: the three valid-hit columns select the same hits -/

theorem validIndices_nil_of_short (dead : List ChannelKey) (wires planes tpcs : List Nat)
    (ontraj : List Bool) (pitches : List ℚ)
    (h : batchLength wires planes tpcs ontraj pitches = 0) :
    validIndices dead wires planes tpcs ontraj pitches = [] := by
  unfold validIndices
  rw [h]
  rfl

theorem validIndices_cons (dead : List ChannelKey) (w pl t : Nat) (o : Bool) (p : ℚ)
    (ws pls ts : List Nat) (os : List Bool) (ps : List ℚ) :
    validIndices dead (w :: ws) (pl :: pls) (t :: ts) (o :: os) (p :: ps) =
      if o && decide (p ≠ -1) && !isDead dead w pl t then
        0 :: (validIndices dead ws pls ts os ps).map Nat.succ
      else (validIndices dead ws pls ts os ps).map Nat.succ := by
  have hlen : batchLength (w :: ws) (pl :: pls) (t :: ts) (o :: os) (p :: ps) =
      batchLength ws pls ts os ps + 1 := by
    simp only [batchLength, List.length_cons]
    omega
  have hk0 : keptAt dead (w :: ws) (pl :: pls) (t :: ts) (o :: os) (p :: ps) 0 =
      (o && decide (p ≠ -1) && !isDead dead w pl t) := by
    simp [keptAt]
  have hks : (keptAt dead (w :: ws) (pl :: pls) (t :: ts) (o :: os) (p :: ps)) ∘ Nat.succ =
      keptAt dead ws pls ts os ps := by
    funext j
    simp [keptAt, Function.comp]
  unfold validIndices
  rw [hlen, List.range_succ_eq_map, List.filter_cons, hk0, List.filter_map, hks]

theorem valid_columns_eq_map (dead : List ChannelKey) :
    ∀ (wires planes tpcs : List Nat) (ontraj : List Bool) (pitches : List ℚ),
      valid_wires dead wires planes tpcs ontraj pitches =
        (validIndices dead wires planes tpcs ontraj pitches).map (fun j => wires.getD j 0) ∧
      valid_pitches dead wires planes tpcs ontraj pitches =
        (validIndices dead wires planes tpcs ontraj pitches).map (fun j => pitches.getD j 0) ∧
      valid_tpcs dead wires planes tpcs ontraj pitches =
        (validIndices dead wires planes tpcs ontraj pitches).map (fun j => tpcs.getD j 0) := by
  intro wires
  induction wires with
  | nil =>
    intro planes tpcs ontraj pitches
    rw [validIndices_nil_of_short dead [] planes tpcs ontraj pitches (by simp [batchLength])]
    simp [valid_wires, valid_pitches, valid_tpcs]
  | cons w ws ih =>
    intro planes tpcs ontraj pitches
    cases planes with
    | nil =>
      rw [validIndices_nil_of_short dead _ [] tpcs ontraj pitches (by simp [batchLength])]
      simp [valid_wires, valid_pitches, valid_tpcs]
    | cons pl pls =>
    cases tpcs with
    | nil =>
      rw [validIndices_nil_of_short dead _ _ [] ontraj pitches (by simp [batchLength])]
      simp [valid_wires, valid_pitches, valid_tpcs]
    | cons t ts =>
    cases ontraj with
    | nil =>
      rw [validIndices_nil_of_short dead _ _ _ [] pitches (by simp [batchLength])]
      simp [valid_wires, valid_pitches, valid_tpcs]
    | cons o os =>
    cases pitches with
    | nil =>
      rw [validIndices_nil_of_short dead _ _ _ _ [] (by simp [batchLength])]
      simp [valid_wires, valid_pitches, valid_tpcs]
    | cons p ps =>
      obtain ⟨h1, h2, h3⟩ := ih pls ts os ps
      rw [validIndices_cons]
      simp only [valid_wires, valid_pitches, valid_tpcs]
      by_cases hk : (o && decide (p ≠ -1) && !isDead dead w pl t) = true
      · simp only [hk, if_true, List.map_cons, List.map_map, h1, h2, h3]
        refine ⟨?_, ?_, ?_⟩ <;> simp [Function.comp]
      · simp only [hk, if_false, List.map_map, h1, h2, h3]
        refine ⟨?_, ?_, ?_⟩ <;> simp [Function.comp]

/-- C29: the three derived columns of a plane are the wires, the pitches and the TPC ids read
at one and the same list of input indices: the increasing list of the indices that lie inside
all five input vectors and pass the test (on trajectory, `pitch != -1`, channel not dead). So
the columns have equal length, keep the input order, and their `i`-th entries come from the
same input hit. -/
theorem valid_columns_same_hits (dead : List ChannelKey) (wires planes tpcs : List Nat)
    (ontraj : List Bool) (pitches : List ℚ) :
    valid_wires dead wires planes tpcs ontraj pitches =
      (validIndices dead wires planes tpcs ontraj pitches).map (fun j => wires.getD j 0) ∧
    valid_pitches dead wires planes tpcs ontraj pitches =
      (validIndices dead wires planes tpcs ontraj pitches).map (fun j => pitches.getD j 0) ∧
    valid_tpcs dead wires planes tpcs ontraj pitches =
      (validIndices dead wires planes tpcs ontraj pitches).map (fun j => tpcs.getD j 0) ∧
    (validIndices dead wires planes tpcs ontraj pitches).Pairwise (fun i j => i < j) ∧
    (∀ j, j ∈ validIndices dead wires planes tpcs ontraj pitches ↔
      (j < wires.length ∧ j < planes.length ∧ j < tpcs.length ∧ j < ontraj.length ∧
        j < pitches.length) ∧ ontraj.getD j false = true ∧ pitches.getD j 0 ≠ -1 ∧
        isDead dead (wires.getD j 0) (planes.getD j 0) (tpcs.getD j 0) = false) ∧
    (valid_wires dead wires planes tpcs ontraj pitches).length =
      (valid_pitches dead wires planes tpcs ontraj pitches).length ∧
    (valid_pitches dead wires planes tpcs ontraj pitches).length =
      (valid_tpcs dead wires planes tpcs ontraj pitches).length ∧
    (valid_wires dead wires planes tpcs ontraj pitches).length ≤
      batchLength wires planes tpcs ontraj pitches := by
  obtain ⟨h1, h2, h3⟩ := valid_columns_eq_map dead wires planes tpcs ontraj pitches
  refine ⟨h1, h2, h3, ?_, ?_, ?_, ?_, ?_⟩
  · unfold validIndices
    exact List.Pairwise.filter _ (List.pairwise_lt_range _)
  · intro j
    unfold validIndices
    rw [List.mem_filter, List.mem_range]
    simp only [batchLength, keptAt, lt_min_iff, Bool.and_eq_true, decide_eq_true_eq,
      Bool.not_eq_true', and_assoc]
  · rw [h1, h2, List.length_map, List.length_map]
  · rw [h2, h3, List.length_map, List.length_map]
  · rw [h1, List.length_map]
    unfold validIndices
    calc ((List.range (batchLength wires planes tpcs ontraj pitches)).filter _).length
        ≤ (List.range (batchLength wires planes tpcs ontraj pitches)).length :=
          List.length_filter_le _ _
      _ = _ := List.length_range _

/-! ## `event_info_viewer`: all indexed reads of `calculate_plane_efficiency` are in range -/

theorem filterLoopChecked_shift (dead : List ChannelKey) (plane : Int) (w : Nat) (p : ℚ)
    (t : Nat) (o : Bool) (ws : List Nat) (ps : List ℚ) (ts : List Nat) (os : List Bool)
    (n : Nat) : ∀ i,
    filterLoopChecked dead plane (w :: ws) (p :: ps) (t :: ts) (o :: os) n (i + 1) =
      filterLoopChecked dead plane ws ps ts os n i := by
  induction n with
  | zero =>
    intro i
    simp only [filterLoopChecked, List.length_cons, Nat.add_lt_add_iff_right]
  | succ n ih =>
    intro i
    simp only [filterLoopChecked, List.length_cons, Nat.add_lt_add_iff_right,
      List.getElem?_cons_succ, ih]

theorem filterLoopChecked_eq (dead : List ChannelKey) (plane : Int) :
    ∀ (wires : List Nat) (pitches : List ℚ) (tpcs : List Nat) (ontraj : List Bool) (n : Nat),
      wires.length ≤ n →
      filterLoopChecked dead plane wires pitches tpcs ontraj n 0 =
        Checked.ok (validHits dead plane wires pitches tpcs ontraj) := by
  intro wires
  induction wires with
  | nil =>
    intro pitches tpcs ontraj n _
    cases n <;> simp [filterLoopChecked, validHits]
  | cons w ws ih =>
    intro pitches tpcs ontraj n hn
    cases pitches with
    | nil => cases n <;> simp [filterLoopChecked, validHits]
    | cons p ps =>
    cases tpcs with
    | nil => cases n <;> simp [filterLoopChecked, validHits]
    | cons t ts =>
    cases ontraj with
    | nil => cases n <;> simp [filterLoopChecked, validHits]
    | cons o os =>
    cases n with
    | zero => simp at hn
    | succ n =>
      have hn2 : ws.length ≤ n := by simpa using hn
      have hrec := ih ps ts os n hn2
      simp only [filterLoopChecked, List.length_cons, Nat.zero_lt_succ, and_self, if_true,
        List.getElem?_cons_zero, filterLoopChecked_shift, hrec, validHits]
      cases o with
      | false => simp
      | true =>
        by_cases hp : p > 0
        · by_cases hd : isDead dead w (toUShort plane) t = true
          · simp [hp, hd]
          · simp [hp, hd]
        · simp [hp]

theorem holesLoopChecked_shift (a : Nat) (l : List Nat) (n : Nat) : ∀ i, 1 ≤ i →
    holesLoopChecked (a :: l) n (i + 1) = holesLoopChecked l n i := by
  induction n with
  | zero =>
    intro i _
    simp only [holesLoopChecked, List.length_cons, Nat.add_lt_add_iff_right]
  | succ n ih =>
    intro i hi
    obtain ⟨j, rfl⟩ : ∃ j, i = j + 1 := ⟨i - 1, by omega⟩
    simp only [holesLoopChecked, List.length_cons, Nat.add_lt_add_iff_right,
      List.getElem?_cons_succ, Nat.add_sub_cancel, ih (j + 1 + 1) (by omega)]

theorem holesLoopChecked_eq : ∀ (l : List Nat) (a : Nat) (n : Nat), l.length + 1 ≤ n →
    holesLoopChecked (a :: l) n 1 = Checked.ok (has_large_holes (a :: l)) := by
  intro l
  induction l with
  | nil =>
    intro a n _
    cases n <;> simp [holesLoopChecked, has_large_holes]
  | cons b r ih =>
    intro a n hn
    cases n with
    | zero => simp at hn
    | succ n =>
      have hn2 : r.length + 1 ≤ n := by simpa using hn
      have hrec := ih b n hn2
      have hshift := holesLoopChecked_shift a (b :: r) n 1 (le_refl 1)
      simp only [holesLoopChecked, List.length_cons, has_large_holes]
      simp only [Nat.lt_add_left_iff_pos, Nat.zero_lt_succ, if_true, List.getElem?_cons_succ,
        List.getElem?_cons_zero, Nat.sub_self, hshift, hrec]
      by_cases hgap : (b : Int) - (a : Int) > 11
      · simp [hgap]
      · simp [hgap]

theorem has_large_holes_checked_eq (l : List Nat) :
    has_large_holes_checked l = Checked.ok (has_large_holes l) := by
  unfold has_large_holes_checked
  cases l with
  | nil => simp [has_large_holes]
  | cons a r =>
    cases r with
    | nil => simp [has_large_holes]
    | cons b r2 =>
      have h := holesLoopChecked_eq (b :: r2) a (a :: b :: r2).length (by simp)
      simp only [List.length_cons] at h ⊢
      rw [if_neg (by omega), h]

theorem scanTpcChecked_shift (tpc_id w t : Nat) (ws ts : List Nat) (n : Nat) : ∀ i st,
    scanTpcChecked tpc_id (w :: ws) (t :: ts) n (i + 1) st =
      scanTpcChecked tpc_id ws ts n i st := by
  induction n with
  | zero =>
    intro i st
    simp only [scanTpcChecked, List.length_cons, Nat.add_lt_add_iff_right]
  | succ n ih =>
    intro i st
    simp only [scanTpcChecked, List.length_cons, Nat.add_lt_add_iff_right,
      List.getElem?_cons_succ, ih]

theorem scanTpcChecked_eq (tpc_id : Nat) : ∀ (valid : List ValidHit) (n : Nat)
    (st : Nat × Nat × List Nat), valid.length ≤ n →
    scanTpcChecked tpc_id (valid.map ValidHit.wire) (valid.map ValidHit.tpc) n 0 st =
      Checked.ok (scanTpc tpc_id valid st) := by
  intro valid
  induction valid with
  | nil =>
    intro n st _
    cases n <;> simp [scanTpcChecked, scanTpc]
  | cons h r ih =>
    intro n st hn
    cases n with
    | zero => simp at hn
    | succ n =>
      have hn2 : r.length ≤ n := by simpa using hn
      simp only [List.map_cons, scanTpcChecked, List.length_cons, Nat.zero_lt_succ, if_true,
        List.getElem?_cons_zero, scanTpcChecked_shift]
      by_cases ht : h.tpc = tpc_id
      · simp only [ht, if_true]
        rw [ih n _ hn2]
        simp [scanTpc, ht]
      · simp only [ht, if_false]
        rw [ih n _ hn2]
        simp [scanTpc, ht]

theorem tpcStepChecked_eq (fuel : Nat) (dead : List ChannelKey) (plane : Nat)
    (valid : List ValidHit) (st : Nat × List Nat) (tpc_id : Nat) :
    tpcStepChecked fuel dead plane (valid.map ValidHit.wire) (valid.map ValidHit.tpc) st
      tpc_id = Checked.ofOption (tpcStep fuel dead plane valid st tpc_id) := by
  unfold tpcStepChecked tpcStep
  rw [List.length_map, scanTpcChecked_eq tpc_id valid valid.length _ (le_refl _)]
  simp only
  by_cases hle : (scanTpc tpc_id valid (65535, 0, st.2)).1 ≤
      (scanTpc tpc_id valid (65535, 0, st.2)).2.1
  · simp only [hle, if_true]
    cases countNonDead dead plane tpc_id (scanTpc tpc_id valid (65535, 0, st.2)).2.1 fuel
      (scanTpc tpc_id valid (65535, 0, st.2)).1 st.1 <;> rfl
  · simp only [hle, if_false]
    rfl

theorem tpcLoopChecked_eq (fuel : Nat) (dead : List ChannelKey) (plane : Nat)
    (valid : List ValidHit) : ∀ (ts : List Nat) (st : Nat × List Nat),
    tpcLoopChecked fuel dead plane (valid.map ValidHit.wire) (valid.map ValidHit.tpc) ts st =
      Checked.ofOption (tpcLoop fuel dead plane valid ts st) := by
  intro ts
  induction ts with
  | nil =>
    intro st
    rfl
  | cons t r ih =>
    intro st
    simp only [tpcLoopChecked, tpcLoop, tpcStepChecked_eq]
    cases tpcStep fuel dead plane valid st t with
    | none => rfl
    | some st2 =>
      simp only [Checked.ofOption]
      exact ih st2

theorem plane_efficiency_checked_eq (fuel : Nat) (has_dead_channels : Bool)
    (dead : List ChannelKey) (wires : List Nat) (pitches : List ℚ) (tpcs : List Nat)
    (ontraj : List Bool) (plane : Int) :
    calculate_plane_efficiency_checked fuel has_dead_channels dead wires pitches tpcs ontraj
        plane =
      Checked.ofOption (calculate_plane_efficiency fuel has_dead_channels dead wires pitches
        tpcs ontraj plane) := by
  unfold calculate_plane_efficiency_checked calculate_plane_efficiency
  by_cases h0 : (!has_dead_channels || wires.isEmpty) = true
  · simp only [h0, if_true]
    rfl
  · simp only [h0, if_false]
    rw [filterLoopChecked_eq dead plane wires pitches tpcs ontraj wires.length (le_refl _)]
    simp only [List.length_map]
    by_cases h25 : (validHits dead plane wires pitches tpcs ontraj).length < 25
    · simp only [h25, if_true]
      rfl
    · simp only [h25, if_false, has_large_holes_checked_eq, tpcLoopChecked_eq]
      cases hh : has_large_holes (std_sort (setOfList wireLt
          ((validHits dead plane wires pitches tpcs ontraj).map ValidHit.wire))) with
      | true =>
        simp only [if_true]
        rfl
      | false =>
        simp only [Bool.false_eq_true, if_false]
        cases tpcLoop fuel dead (toUShort plane) (validHits dead plane wires pitches tpcs ontraj)
            (setOfList wireLt ((validHits dead plane wires pitches tpcs ontraj).map
              ValidHit.tpc)) (0, []) with
        | none => rfl
        | some st =>
          simp only [Checked.ofOption]
          by_cases hst : st.1 < 25
          · simp only [hst, if_true]
          · simp only [hst, if_false]

/-- C22: for input sequences of any lengths, the run of `calculate_plane_efficiency` in which
every read `v[i]` is checked against the size of `v` never meets a read out of range: its
outcome is the result of the unchecked function, or no return when the counting loop does not
return. The only outcomes are thus a returned pair or no return, no error; and with an empty
`wires` the function returns the sentinel, whatever the other sequences and the fuel. -/
theorem plane_efficiency_reads_in_range (fuel : Nat) (has_dead_channels : Bool)
    (dead : List ChannelKey) (wires : List Nat) (pitches : List ℚ) (tpcs : List Nat)
    (ontraj : List Bool) (plane : Int) :
    calculate_plane_efficiency_checked fuel has_dead_channels dead wires pitches tpcs ontraj
        plane ≠ Checked.badIndex ∧
    calculate_plane_efficiency_checked fuel has_dead_channels dead wires pitches tpcs ontraj
        plane =
      Checked.ofOption (calculate_plane_efficiency fuel has_dead_channels dead wires pitches
        tpcs ontraj plane) ∧
    filterLoopChecked dead plane wires pitches tpcs ontraj wires.length 0 =
      Checked.ok (validHits dead plane wires pitches tpcs ontraj) ∧
    calculate_plane_efficiency_checked fuel has_dead_channels dead [] pitches tpcs ontraj
        plane = Checked.ok sentinel ∧
    calculate_plane_efficiency fuel has_dead_channels dead [] pitches tpcs ontraj plane =
      some sentinel := by
  have heq := plane_efficiency_checked_eq fuel has_dead_channels dead wires pitches tpcs
    ontraj plane
  refine ⟨?_, heq, filterLoopChecked_eq dead plane wires pitches tpcs ontraj wires.length
    (le_refl _), ?_, ?_⟩
  · rw [heq]
    cases calculate_plane_efficiency fuel has_dead_channels dead wires pitches tpcs ontraj
      plane <;> simp [Checked.ofOption]
  · simp [calculate_plane_efficiency_checked]
  · simp [calculate_plane_efficiency]

/-! ## `hit_analyzer`: the representative TPC of `calculate_efficiency` -/

theorem liveInRange_eq_card (dead : List ChannelKey) (plane tpc lo hi : Nat) :
    liveInRange dead plane tpc lo hi =
      ((Finset.Icc lo hi).filter (fun w => isDead dead w plane tpc = false)).card := by
  unfold liveInRange
  have hnd : (List.range' lo (hi + 1 - lo)).Nodup := List.nodup_range' lo (hi + 1 - lo)
  rw [← List.toFinset_card_of_nodup (hnd.filter _), List.toFinset_filter]
  congr 1
  ext w
  simp only [Finset.mem_filter, List.mem_toFinset, List.mem_range'_1, Finset.mem_Icc,
    Bool.not_eq_true', decide_eq_true_eq]
  constructor
  · rintro ⟨⟨h1, h2⟩, h3⟩
    exact ⟨⟨h1, by omega⟩, h3⟩
  · rintro ⟨⟨h1, h2⟩, h3⟩
    exact ⟨⟨h1, by omega⟩, h3⟩

theorem efficiency_values_congr_tpcs (fuel : Nat) (dead : List ChannelKey) (trk_id : Int)
    (track_length : ℚ) (wires : List Nat) (pitches : List ℚ) (tpcs tpcs2 : List Nat)
    (plane : Int) (h : tpcs2.headD 0 = tpcs.headD 0) :
    efficiency_values fuel dead trk_id track_length wires pitches tpcs2 plane =
      efficiency_values fuel dead trk_id track_length wires pitches tpcs plane := by
  unfold efficiency_values
  rw [h]

theorem efficiency_values_two_tpcs :
    efficiency_values 65537 [(10, 0, 1)] 7 60 (List.range' 1 35)
      (List.replicate 35 1) (1 :: List.replicate 34 0) 0 =
      some (some (EffRow.mk 7 0 1 60 34 34 1 1)) := by
  have h1 : setOfList wireLt (List.range' 1 35) = List.range' 1 35 := by decide
  have h2 : has_large_holes (std_sort (List.range' 1 35)) = false := by decide
  have h3 : countNonDead [(10, 0, 1)] (toUShort 0) 1
      ((std_sort (List.range' 1 35)).getLastD 0) 65537
      ((std_sort (List.range' 1 35)).headD 0) 0 = some 34 := by decide
  have h4 : (uniqueHitWires [(10, 0, 1)] (toUShort 0) 1 (List.range' 1 35)).length = 34 := by
    decide
  have h5 : averagePitch (List.replicate 35 1) = 1 := by
    rw [averagePitch_eq]
    norm_num [List.replicate]
  have h6 : (1 :: List.replicate 34 0).headD 0 = 1 := by decide
  have h7 : (List.range' 1 35).isEmpty = false := by decide
  unfold efficiency_values
  rw [h1, h6]
  simp only [h2, h3, h4, h5, h7]
  norm_num

/-- C23: in every row that `calculate_efficiency` computes, the TPC column is `tpcs[0]` (0 for
an empty `tpcs`), and NonDeadWires is the number of integers `w` with
`min_wire <= w <= max_wire` such that `(w, plane, tpcs[0])` is not dead, where `min_wire` and
`max_wire` are the smallest and the largest of all the valid wires, whatever their TPC. The TPC
ids after the first do not enter the result: a batch with the same wires and pitches and the
same first TPC id gives the same row. On the valid-hit columns of a batch, `tpcs[0]` is the
TPC id of the first hit that the filter keeps. -/
theorem single_tpc_non_dead_wires (fuel : Nat) (dead : List ChannelKey) (trk_id : Int)
    (track_length : ℚ) (wires : List Nat) (pitches : List ℚ) (tpcs : List Nat) (plane : Int)
    (row : EffRow)
    (h : efficiency_values fuel dead trk_id track_length wires pitches tpcs plane =
      some (some row)) :
    row.tpc = tpcs.headD 0 ∧
    (∃ min_wire max_wire, min_wire ∈ wires ∧ max_wire ∈ wires ∧
      (∀ w ∈ wires, min_wire ≤ w ∧ w ≤ max_wire) ∧
      row.nonDeadWires = ((Finset.Icc min_wire max_wire).filter
        (fun w => isDead dead w (toUShort plane) (tpcs.headD 0) = false)).card) ∧
    (∀ tpcs2 : List Nat, tpcs2.headD 0 = tpcs.headD 0 →
      efficiency_values fuel dead trk_id track_length wires pitches tpcs2 plane =
        some (some row)) ∧
    (∀ (ws pls ts : List Nat) (os : List Bool) (ps : List ℚ),
      (valid_tpcs dead ws pls ts os ps).headD 0 =
        ((validIndices dead ws pls ts os ps).map (fun j => ts.getD j 0)).headD 0) := by
  obtain ⟨lo, hi, hlo, hhi, hrange, _, _, _, _, hrow⟩ :=
    efficiency_values_some fuel dead trk_id track_length wires pitches tpcs plane row h
  refine ⟨?_, ⟨lo, hi, hlo, hhi, hrange, ?_⟩, ?_, ?_⟩
  · rw [hrow]
  · rw [hrow, ← liveInRange_eq_card]
  · intro tpcs2 h2
    rw [efficiency_values_congr_tpcs fuel dead trk_id track_length wires pitches tpcs tpcs2
      plane h2]
    exact h
  · intro ws pls ts os ps
    rw [(valid_columns_eq_map dead ws pls ts os ps).2.2]

/-- Witness of `single_tpc_non_dead_wires`: wires 1..35, the first hit in TPC 1 and the others
in TPC 0, wire 10 dead for TPC 1 only: the row carries TPC 1 and 34 non-dead wires. -/
theorem single_tpc_non_dead_wires_witness :
    efficiency_values 65537 [(10, 0, 1)] 7 60 (List.range' 1 35)
      (List.replicate 35 1) (1 :: List.replicate 34 0) 0 =
      some (some (EffRow.mk 7 0 1 60 34 34 1 1)) ∧
    (EffRow.mk 7 0 1 60 34 34 1 1).tpc = (1 :: List.replicate 34 0).headD 0 ∧
    efficiency_values 65537 [(10, 0, 1)] 7 60 (List.range' 1 35)
      (List.replicate 35 1) (List.replicate 35 1) 0 =
      some (some (EffRow.mk 7 0 1 60 34 34 1 1)) :=
  ⟨efficiency_values_two_tpcs,
    (single_tpc_non_dead_wires 65537 [(10, 0, 1)] 7 60 (List.range' 1 35)
      (List.replicate 35 1) (1 :: List.replicate 34 0) 0 (EffRow.mk 7 0 1 60 34 34 1 1)
      efficiency_values_two_tpcs).1,
    (single_tpc_non_dead_wires 65537 [(10, 0, 1)] 7 60 (List.range' 1 35)
      (List.replicate 35 1) (1 :: List.replicate 34 0) 0 (EffRow.mk 7 0 1 60 34 34 1 1)
      efficiency_values_two_tpcs).2.2.1 (List.replicate 35 1) (by decide)⟩

/-! ## The counting loops and their 16-bit loop variable -/

theorem deadInRange_step (dead : List ChannelKey) (plane tpc lo hi : Nat) (h : lo ≤ hi) :
    deadInRange dead plane tpc lo hi =
      (if isDead dead lo plane tpc then 1 else 0) + deadInRange dead plane tpc (lo + 1) hi := by
  unfold deadInRange
  have e : hi + 1 - lo = (hi + 1 - (lo + 1)) + 1 := by omega
  rw [e, List.range'_succ, List.filter_cons]
  by_cases hd : isDead dead lo plane tpc = true
  · simp [hd]; omega
  · simp [hd]

theorem deadInRange_empty (dead : List ChannelKey) (plane tpc lo hi : Nat) (h : hi < lo) :
    deadInRange dead plane tpc lo hi = 0 := by
  unfold deadInRange
  have e : hi + 1 - lo = 0 := by omega
  simp [e]

theorem deadInRange_add_live (dead : List ChannelKey) (plane tpc : Nat) (hi : Nat) :
    ∀ k lo, hi + 1 - lo = k →
      deadInRange dead plane tpc lo hi + liveInRange dead plane tpc lo hi = hi + 1 - lo := by
  intro k
  induction k with
  | zero =>
    intro lo hk
    rw [deadInRange_empty dead plane tpc lo hi (by omega),
      liveInRange_empty dead plane tpc lo hi (by omega)]
    omega
  | succ k ih =>
    intro lo hk
    have hle : lo ≤ hi := by omega
    have hrec := ih (lo + 1) (by omega)
    rw [deadInRange_step dead plane tpc lo hi hle, liveInRange_step dead plane tpc lo hi hle]
    by_cases hd : isDead dead lo plane tpc = true
    · simp only [hd, if_true]
      omega
    · simp only [hd, if_false, Bool.false_eq_true]
      omega

/-- With `max_wire = 65535` the loop of `process_hits` does not exit, whatever the fuel. -/
theorem countDead_diverges (dead : List ChannelKey) (plane tpc max_wire : Nat)
    (hmax : 65535 ≤ max_wire) (fuel : Nat) :
    ∀ w n, w ≤ max_wire → countDead dead plane tpc max_wire fuel w n = none := by
  induction fuel with
  | zero => intro w n _; rfl
  | succ k ih =>
    intro w n hw
    have hnext : (w + 1) % 65536 ≤ max_wire := by omega
    unfold countDead
    rw [if_pos hw]
    split
    · split
      · exact ih _ _ hnext
      · rfl
    · exact ih _ _ hnext

/-- Whenever the loop of `process_hits` returns, its result is the start value plus the number
of dead wires of `[w, max_wire]`. -/
theorem countDead_eq (dead : List ChannelKey) (plane tpc max_wire : Nat)
    (hmax : max_wire < 65535) (fuel : Nat) :
    ∀ w n r, w ≤ max_wire + 1 → countDead dead plane tpc max_wire fuel w n = some r →
      r = n + deadInRange dead plane tpc w max_wire := by
  induction fuel with
  | zero => intro w n r _ h; simp [countDead] at h
  | succ k ih =>
    intro w n r hw h
    unfold countDead at h
    by_cases hle : w ≤ max_wire
    · rw [if_pos hle] at h
      have hmod : (w + 1) % 65536 = w + 1 := by omega
      rw [hmod] at h
      rw [deadInRange_step dead plane tpc w max_wire hle]
      by_cases hd : isDead dead w plane tpc = true
      · rw [if_pos hd] at h
        by_cases hn : n < 2147483647
        · rw [if_pos hn] at h
          have := ih _ _ _ (by omega) h
          simp [hd]; omega
        · rw [if_neg hn] at h
          simp at h
      · rw [if_neg hd] at h
        have := ih _ _ _ (by omega) h
        simp [hd]; omega
    · rw [if_neg hle] at h
      rw [deadInRange_empty dead plane tpc w max_wire (by omega)]
      simp at h
      omega

/-- The loop of `process_hits` returns when `max_wire < 65535`, the fuel covers the range and
the counter stays within `int`. -/
theorem countDead_total (dead : List ChannelKey) (plane tpc max_wire : Nat)
    (hmax : max_wire < 65535) (fuel : Nat) :
    ∀ w n, w ≤ max_wire + 1 → max_wire + 2 - w ≤ fuel →
      n + deadInRange dead plane tpc w max_wire ≤ 2147483647 →
      countDead dead plane tpc max_wire fuel w n =
        some (n + deadInRange dead plane tpc w max_wire) := by
  induction fuel with
  | zero => intro w n hw hf _; omega
  | succ k ih =>
    intro w n hw hf hb
    unfold countDead
    by_cases hle : w ≤ max_wire
    · rw [if_pos hle]
      have hmod : (w + 1) % 65536 = w + 1 := by omega
      rw [hmod]
      rw [deadInRange_step dead plane tpc w max_wire hle] at hb ⊢
      by_cases hd : isDead dead w plane tpc = true
      · rw [if_pos hd]
        simp only [hd, if_true] at hb ⊢
        rw [if_pos (by omega)]
        rw [ih _ _ (by omega) (by omega) (by omega)]
        congr 1
        omega
      · rw [if_neg hd]
        simp only [hd, if_false, Bool.false_eq_true] at hb ⊢
        rw [ih _ _ (by omega) (by omega) (by omega)]
        congr 1
        omega
    · rw [if_neg hle, deadInRange_empty dead plane tpc w max_wire (by omega)]
      rfl

/-- From a start inside the range, a returned count of `process_hits` is the number of dead
wires of the range, and the range ends below 65535. -/
theorem countDead_some (dead : List ChannelKey) (plane tpc max_wire fuel w n r : Nat)
    (hw : w ≤ max_wire) (h : countDead dead plane tpc max_wire fuel w n = some r) :
    max_wire < 65535 ∧ r = n + deadInRange dead plane tpc w max_wire := by
  by_cases hmax : max_wire < 65535
  · exact ⟨hmax, countDead_eq dead plane tpc max_wire hmax fuel w n r (by omega) h⟩
  · rw [countDead_diverges dead plane tpc max_wire (by omega) fuel w n hw] at h
    simp at h

/-- Below 65535 the loop of `event_info_viewer` and `hit_analyzer` does not return before its
last test: with fewer loop tests than `max_wire - wire + 2` there is no result. -/
theorem countNonDead_short (dead : List ChannelKey) (plane tpc_id max_wire : Nat) (fuel : Nat) :
    ∀ wire n, wire ≤ max_wire + 1 → max_wire < 65535 → fuel < max_wire + 2 - wire →
      countNonDead dead plane tpc_id max_wire fuel wire n = none := by
  induction fuel with
  | zero => intro wire n _ _ _; rfl
  | succ k ih =>
    intro wire n hw hmax hf
    have hle : wire ≤ max_wire := by omega
    have hmod : (wire + 1) % 65536 = wire + 1 := by omega
    unfold countNonDead
    rw [if_pos hle, hmod]
    split
    · exact ih _ _ (by omega) hmax (by omega)
    · split
      · exact ih _ _ (by omega) hmax (by omega)
      · rfl

/-- Below 65535 the loop of `process_hits` does not return before its last test. -/
theorem countDead_short (dead : List ChannelKey) (plane tpc max_wire : Nat) (fuel : Nat) :
    ∀ w n, w ≤ max_wire + 1 → max_wire < 65535 → fuel < max_wire + 2 - w →
      countDead dead plane tpc max_wire fuel w n = none := by
  induction fuel with
  | zero => intro w n _ _ _; rfl
  | succ k ih =>
    intro w n hw hmax hf
    have hle : w ≤ max_wire := by omega
    have hmod : (w + 1) % 65536 = w + 1 := by omega
    unfold countDead
    rw [if_pos hle, hmod]
    split
    · split
      · exact ih _ _ (by omega) hmax (by omega)
      · rfl
    · exact ih _ _ (by omega) hmax (by omega)

/-- When `max_wire < 65535` and the counter stays within `int`, the counting loops return
after exactly `max_wire - min_wire + 1` iterations: they return on the loop test number
`max_wire - min_wire + 2` and not before. -/
theorem counting_loops_iterations (dead : List ChannelKey) (plane tpc min_wire max_wire : Nat)
    (fuel : Nat) (hmin : min_wire ≤ max_wire) (hmax : max_wire < 65535) :
    ((countNonDead dead plane tpc max_wire fuel min_wire 0).isSome = true ↔
      max_wire - min_wire + 2 ≤ fuel) ∧
    ((countDead dead plane tpc max_wire fuel min_wire 0).isSome = true ↔
      max_wire - min_wire + 2 ≤ fuel) := by
  have hl := liveInRange_le dead plane tpc min_wire max_wire
  have hd := deadInRange_add_live dead plane tpc max_wire _ min_wire rfl
  constructor
  · constructor
    · intro h
      by_contra hf
      rw [countNonDead_short dead plane tpc max_wire fuel min_wire 0 (by omega) hmax
        (by omega)] at h
      simp at h
    · intro hf
      rw [countNonDead_total dead plane tpc max_wire hmax fuel min_wire 0 (by omega) (by omega)
        (by omega)]
      rfl
  · constructor
    · intro h
      by_contra hf
      rw [countDead_short dead plane tpc max_wire fuel min_wire 0 (by omega) hmax
        (by omega)] at h
      simp at h
    · intro hf
      rw [countDead_total dead plane tpc max_wire hmax fuel min_wire 0 (by omega) (by omega)
        (by omega)]
      rfl

/-- C27 (the claim fails): when the largest valid wire number is 65535 the loop test
`wire <= max_wire` holds for every value of the 16-bit loop variable, so the counting loop of
`event_info_viewer` and `hit_analyzer` and the counting loop of `hit_split_regions_mc` give no
result, whatever the number of loop tests allowed, the dead-channel set, the first wire of the
range and the start value of the counter. -/
theorem counting_loops_no_exit_at_65535 (fuel : Nat) (dead : List ChannelKey)
    (plane tpc min_wire n : Nat) :
    countNonDead dead plane tpc 65535 fuel (min_wire % 65536) n = none ∧
    countDead dead plane tpc 65535 fuel (min_wire % 65536) n = none := by
  have hw : min_wire % 65536 ≤ 65535 := by omega
  exact ⟨countNonDead_diverges dead plane tpc 65535 (le_refl _) fuel _ n hw,
    countDead_diverges dead plane tpc 65535 (le_refl _) fuel _ n hw⟩

/-! ## `dead_wires`: the progress lines -/

theorem progressLoop_zero_step (N : Nat) : ∀ k,
    (progressLoop N 0 k).processed_entries = k ∧ (progressLoop N 0 k).ops = [] ∧
      (progressLoop N 0 k).lines = [] := by
  intro k
  induction k with
  | zero => exact ⟨rfl, rfl, rfl⟩
  | succ k ih =>
    obtain ⟨h1, h2, h3⟩ := ih
    simp only [progressLoop, progressUpdate, gt_iff_lt, lt_self_iff_false, if_false]
    exact ⟨by rw [h1], h2, h3⟩

theorem progressLoop_invariant (N s : Nat) (hN : 0 < N) (hs : 0 < s) : ∀ k,
    (progressLoop N s k).processed_entries = k ∧
    (progressLoop N s k).lines.map ProgressLine.processed =
      (List.range' 1 k).filter (fun p => decide (p % s = 0)) ∧
    (∀ op ∈ (progressLoop N s k).ops, 0 < op.divisor) ∧
    (∀ l ∈ (progressLoop N s k).lines, l.total = N ∧
      l.percent = if l.processed * 100 ≤ 9223372036854775807 then
        some (l.processed * 100 / N) else none) := by
  intro k
  induction k with
  | zero =>
    refine ⟨rfl, rfl, ?_, ?_⟩
    · intro op hop
      simp [progressLoop] at hop
    · intro l hl
      simp [progressLoop] at hl
  | succ k ih =>
    obtain ⟨h1, h2, h3, h4⟩ := ih
    have hr : List.range' 1 (k + 1) = List.range' 1 k ++ [k + 1] := by
      rw [List.range'_1_concat, Nat.add_comm 1 k]
    simp only [progressLoop, progressUpdate, gt_iff_lt, hs, if_true, h1]
    by_cases hm : (k + 1) % s = 0
    · simp only [hm, if_true]
      refine ⟨trivial, ?_, ?_, ?_⟩
      · rw [List.map_append, h2, hr, List.filter_append]
        simp [hm]
      · intro op hop
        rw [List.mem_append, List.mem_append] at hop
        rcases hop with (hop | hop) | hop
        · exact h3 op hop
        · rw [List.mem_singleton] at hop
          rw [hop]
          exact hs
        · rw [List.mem_singleton] at hop
          rw [hop]
          exact hN
      · intro l hl
        rw [List.mem_append] at hl
        rcases hl with hl | hl
        · exact h4 l hl
        · rw [List.mem_singleton] at hl
          rw [hl]
          exact ⟨rfl, rfl⟩
    · simp only [hm, if_false]
      refine ⟨trivial, ?_, ?_, h4⟩
      · rw [h2, hr, List.filter_append]
        simp [hm]
      · intro op hop
        rw [List.mem_append] at hop
        rcases hop with hop | hop
        · exact h3 op hop
        · rw [List.mem_singleton] at hop
          rw [hop]
          exact hs

theorem count_multiples (s : Nat) : ∀ n,
    ((List.range' 1 n).filter (fun p => decide (p % s = 0))).length = n / s := by
  intro n
  induction n with
  | zero => simp
  | succ n ih =>
    have hr : List.range' 1 (n + 1) = List.range' 1 n ++ [n + 1] := by
      rw [List.range'_1_concat, Nat.add_comm 1 n]
    rw [hr, List.filter_append, List.length_append, ih, Nat.succ_div]
    by_cases hd : s ∣ n + 1
    · have hm : (n + 1) % s = 0 := Nat.mod_eq_zero_of_dvd hd
      simp [hd, hm]
    · have hm : ¬ (n + 1) % s = 0 := fun h => hd (Nat.dvd_of_mod_eq_zero h)
      simp [hd, hm]

theorem progress_line_count (N : Nat) (hN : 10 ≤ N) :
    10 ≤ N / (N / 10) ∧ N / (N / 10) ≤ 19 := by
  have hs : 0 < N / 10 := Nat.div_pos hN (by norm_num)
  have h1 : 10 * (N / 10) ≤ N := Nat.mul_div_le N 10
  have h2 : N < 10 * (N / 10) + 10 := by omega
  constructor
  · rw [Nat.le_div_iff_mul_le hs]
    omega
  · have : N / (N / 10) < 20 := by
      rw [Nat.div_lt_iff_lt_mul hs]
      omega
    omega

/-- C26: with `N` selected entries and `progress_step = N / 10` (integer division): if
`N < 10` the step is 0, no line is printed inside the loop and no modulo or division is
evaluated at all; if `N >= 10` a line is printed exactly for the processed counts that are
multiples of the step, every modulo and division evaluated has a divisor greater than 0,
every line carries the percentage `processed * 100 / N` (as long as the product fits
`Long64_t`), and the number of lines printed inside the loop is at least 10 and at most 19. -/
theorem progress_lines_spec (N : Nat) :
    (dead_wires_progress N).processed_entries = N ∧
    (N < 10 → progress_step N = 0 ∧ (dead_wires_progress N).lines = [] ∧
      (dead_wires_progress N).ops = []) ∧
    (10 ≤ N → 0 < progress_step N ∧
      (dead_wires_progress N).lines.map ProgressLine.processed =
        (List.range' 1 N).filter (fun p => decide (p % progress_step N = 0)) ∧
      (∀ op ∈ (dead_wires_progress N).ops, 0 < op.divisor) ∧
      (∀ l ∈ (dead_wires_progress N).lines, l.total = N ∧ 0 < l.total ∧
        (l.processed * 100 ≤ 9223372036854775807 →
          l.percent = some (l.processed * 100 / N))) ∧
      10 ≤ (dead_wires_progress N).lines.length ∧
      (dead_wires_progress N).lines.length ≤ 19) := by
  refine ⟨?_, ?_, ?_⟩
  · unfold dead_wires_progress
    by_cases hs : 0 < progress_step N
    · by_cases hN : 0 < N
      · exact (progressLoop_invariant N _ hN hs N).1
      · have : N = 0 := by omega
        subst this
        rfl
    · have h0 : progress_step N = 0 := by omega
      rw [h0]
      exact (progressLoop_zero_step N N).1
  · intro hN
    have h0 : progress_step N = 0 := by
      unfold progress_step
      omega
    unfold dead_wires_progress
    rw [h0]
    exact ⟨rfl, (progressLoop_zero_step N N).2.2, (progressLoop_zero_step N N).2.1⟩
  · intro hN
    have hs : 0 < progress_step N := Nat.div_pos hN (by norm_num)
    have hpos : 0 < N := by omega
    obtain ⟨_, h2, h3, h4⟩ := progressLoop_invariant N (progress_step N) hpos hs N
    have hlen : (dead_wires_progress N).lines.length = N / progress_step N := by
      unfold dead_wires_progress
      rw [← count_multiples (progress_step N) N, ← h2, List.length_map]
    refine ⟨hs, h2, h3, ?_, ?_, ?_⟩
    · intro l hl
      obtain ⟨ht, hp⟩ := h4 l hl
      refine ⟨ht, by omega, ?_⟩
      intro hfit
      rw [hp, if_pos hfit]
    · rw [hlen]
      exact (progress_line_count N hN).1
    · rw [hlen]
      exact (progress_line_count N hN).2

/-- Witness of `progress_lines_spec`: 5 entries print nothing, 25 entries print 12 lines, the
first at 2 processed entries with 8%. -/
theorem progress_lines_spec_witness :
    (dead_wires_progress 5).lines = [] ∧ (dead_wires_progress 5).ops = [] ∧
    (dead_wires_progress 25).lines.length = 12 ∧
    (dead_wires_progress 25).lines.head? = some (ProgressLine.mk (some 8) 2 25) ∧
    10 ≤ (dead_wires_progress 25).lines.length ∧
    (dead_wires_progress 25).lines.length ≤ 19 :=
  ⟨((progress_lines_spec 5).2.1 (by decide)).2.1, ((progress_lines_spec 5).2.1 (by decide)).2.2,
    by decide, by decide,
    ((progress_lines_spec 25).2.2 (by decide)).2.2.2.2.1,
    ((progress_lines_spec 25).2.2 (by decide)).2.2.2.2.2⟩

/-! ## The boxes of `hit_split_regions_mc` and the labels of `plot_split_regions` -/

theorem get_region_index_of_match (x y z : Flt) (tpc_id : Nat) (k : Nat) (b : TPCRegion)
    (hb : regions[k]? = some b) (hm : regionMatches b y z tpc_id = true) :
    get_region_index x y z tpc_id = (k : Int) := by
  have hmem : b ∈ regions := List.getElem?_mem hb
  rcases get_region_index_cases x y z tpc_id with ⟨_, hnone⟩ | ⟨j, hj8, hj, b2, hb2, hbm2⟩
  · rw [hnone b hmem] at hm
    exact absurd hm (by simp)
  · have hbb : b2 = b :=
      regions_disjoint y z tpc_id b2 (List.getElem?_mem hb2) b hmem hbm2 hm
    subst hbb
    have hk8 : k < 8 := by
      have := (List.getElem?_eq_some.1 hb).1
      simpa [regions] using this
    have he : regions[j]? = regions[k]? := by rw [hb, hb2]
    have hjk : j = k := by
      simp only [regions] at he
      interval_cases j <;> interval_cases k <;>
        first
        | rfl
        | (exfalso; simp at he)
    rw [hj, hjk]

theorem get_region_index_gap (x : Flt) (y z : ℚ) (tpc_id : Nat) (h1 : 16036659 / 65536 ≤ z)
    (h2 : z < 4336845 / 16384) : get_region_index x (Flt.val y) (Flt.val z) tpc_id = -1 := by
  rcases get_region_index_cases x (Flt.val y) (Flt.val z) tpc_id with
    ⟨hneg, _⟩ | ⟨k, _, _, b, hb, hbm⟩
  · exact hneg
  · exfalso
    have hmem : b ∈ regions := List.getElem?_mem hb
    obtain ⟨_, _, _, hz1, hz2⟩ := (regionMatches_val b y z tpc_id).1 hbm
    simp only [regions, List.mem_cons, List.mem_singleton, List.not_mem_nil, or_false] at hmem
    rcases hmem with rfl | rfl | rfl | rfl | rfl | rfl | rfl | rfl <;>
      norm_num at hz1 hz2 <;> linarith

/-- A point inside the range displayed for a region name is classified into the box of that
name when its `z` lies outside `[244.7f, 264.7f)`, and into no box when its `z` lies inside. -/
theorem displayed_range_classification (i : Nat) (info : RegionInfo)
    (hi : PlotSplitRegions.regions[i]? = some info) (x : Flt) (y z : ℚ) (tpc : Nat)
    (hin : inDisplayedRange info tpc y z = true) :
    get_region_index x (Flt.val y) (Flt.val z) tpc =
      if 16036659 / 65536 ≤ z ∧ z < 4336845 / 16384 then -1 else (i : Int) := by
  by_cases hgap : 16036659 / 65536 ≤ z ∧ z < 4336845 / 16384
  · rw [if_pos hgap]
    exact get_region_index_gap x y z tpc hgap.1 hgap.2
  · rw [if_neg hgap]
    have hi8 : i < 8 := by
      have := (List.getElem?_eq_some.1 hi).1
      simpa [PlotSplitRegions.regions] using this
    have hz : z < 16036659 / 65536 ∨ 4336845 / 16384 ≤ z := by
      by_cases h : z < 16036659 / 65536
      · exact Or.inl h
      · exact Or.inr (by
          by_contra h2
          exact hgap ⟨not_lt.1 h, not_le.1 h2⟩)
    interval_cases i <;>
      simp only [PlotSplitRegions.regions, List.getElem?_cons_zero, List.getElem?_cons_succ,
        Option.some.injEq] at hi <;>
      subst hi <;>
      simp only [inDisplayedRange, displayedRange, String.reduceEq, if_true, if_false,
        Bool.and_eq_true, decide_eq_true_eq] at hin <;>
      obtain ⟨⟨⟨⟨ht, hy1⟩, hy2⟩, hz1⟩, hz2⟩ := hin
    · refine get_region_index_of_match x _ _ tpc 0
        (TPCRegion.mk "TPC0_00" (-(3337945 / 16384)) 0
            (-(8388605 / 2 ^ 67)) (16036659 / 65536) 0) rfl ?_
      rw [regionMatches_val]
      refine ⟨ht, ?_, ?_, ?_, ?_⟩ <;> norm_num at * <;> rcases hz with hz | hz <;> linarith
    · refine get_region_index_of_match x _ _ tpc 1
        (TPCRegion.mk "TPC0_01" 0 (3337945 / 16384)
            (-(8388605 / 2 ^ 67)) (16036659 / 65536) 0) rfl ?_
      rw [regionMatches_val]
      refine ⟨ht, ?_, ?_, ?_, ?_⟩ <;> norm_num at * <;> rcases hz with hz | hz <;> linarith
    · refine get_region_index_of_match x _ _ tpc 2
        (TPCRegion.mk "TPC0_10" (-(3337945 / 16384)) 0
            (4336845 / 16384) (16387277 / 32768) 0) rfl ?_
      rw [regionMatches_val]
      refine ⟨ht, ?_, ?_, ?_, ?_⟩ <;> norm_num at * <;> rcases hz with hz | hz <;> linarith
    · refine get_region_index_of_match x _ _ tpc 3
        (TPCRegion.mk "TPC0_11" 0 (3337945 / 16384) (4336845 / 16384) (16387277 / 32768) 0) rfl ?_
      rw [regionMatches_val]
      refine ⟨ht, ?_, ?_, ?_, ?_⟩ <;> norm_num at * <;> rcases hz with hz | hz <;> linarith
    · refine get_region_index_of_match x _ _ tpc 4
        (TPCRegion.mk "TPC1_00" (-(3337945 / 16384)) 0
            (-(8388605 / 2 ^ 67)) (16036659 / 65536) 1) rfl ?_
      rw [regionMatches_val]
      refine ⟨ht, ?_, ?_, ?_, ?_⟩ <;> norm_num at * <;> rcases hz with hz | hz <;> linarith
    · refine get_region_index_of_match x _ _ tpc 5
        (TPCRegion.mk "TPC1_01" 0 (3337945 / 16384)
            (-(8388605 / 2 ^ 67)) (16036659 / 65536) 1) rfl ?_
      rw [regionMatches_val]
      refine ⟨ht, ?_, ?_, ?_, ?_⟩ <;> norm_num at * <;> rcases hz with hz | hz <;> linarith
    · refine get_region_index_of_match x _ _ tpc 6
        (TPCRegion.mk "TPC1_10" (-(3337945 / 16384)) 0
            (4336845 / 16384) (16387277 / 32768) 1) rfl ?_
      rw [regionMatches_val]
      refine ⟨ht, ?_, ?_, ?_, ?_⟩ <;> norm_num at * <;> rcases hz with hz | hz <;> linarith
    · refine get_region_index_of_match x _ _ tpc 7
        (TPCRegion.mk "TPC1_11" 0 (3337945 / 16384) (4336845 / 16384) (16387277 / 32768) 1) rfl ?_
      rw [regionMatches_val]
      refine ⟨ht, ?_, ?_, ?_, ?_⟩ <;> norm_num at * <;> rcases hz with hz | hz <;> linarith

/-- C30 (the claim fails): the two files list the same eight region names in the same order,
but the point `(tpc 0, y = -100, z = 250)` lies inside the range displayed for `TPC0_00`
(`y:[-203.7, 0], z:[0, 250.1]`) and inside `y` in `[-203.7, 203.7)`, `z` in `[0, 500.1)`, and
`get_region_index` puts it in no box: the boxes end at `z = 244.7f` and start again at
`z = 264.7f`, the labels meet at `z = 250.1`. -/
theorem displayed_range_point_in_no_box :
    PlotSplitRegions.regions.map RegionInfo.name = regions.map TPCRegion.name ∧
    PlotSplitRegions.regions.map RegionInfo.tpc_id = regions.map TPCRegion.tpc_id ∧
    (∃ info, PlotSplitRegions.regions[0]? = some info ∧ info.name = "TPC0_00" ∧
      inDisplayedRange info 0 (-100) 250 = true) ∧
    ((-203.7 : ℚ) ≤ -100 ∧ (-100 : ℚ) < 203.7 ∧ (0 : ℚ) ≤ 250 ∧ (250 : ℚ) < 500.1) ∧
    (∀ x : Flt, get_region_index x (Flt.val (-100)) (Flt.val 250) 0 = -1) ∧
    (∀ x : Flt, get_region_index x (Flt.val (-100)) (Flt.val 250) 0 ≠ 0) := by
  refine ⟨by decide, by decide,
    ⟨RegionInfo.mk "TPC0_00" "TPC 0 Region (0,0)" "y:[-203.7, 0], z:[0, 250.1]" 0, rfl, rfl, ?_⟩,
    by norm_num, ?_, ?_⟩
  · simp only [inDisplayedRange, displayedRange, String.reduceEq, if_true,
      Bool.and_eq_true, decide_eq_true_eq]
    norm_num
  · intro x
    exact get_region_index_gap x (-100) 250 0 (by norm_num) (by norm_num)
  · intro x
    rw [get_region_index_gap x (-100) 250 0 (by norm_num) (by norm_num)]
    decide

/-! ## `dead_wires`: the rows of `dead_channels.csv` -/

/-- C21 (the claim fails for planes 1 and 2): the scan runs over the bins of the histogram of
plane 0 and converts the bin number to a wire number with `min_wires0`, also for the
histograms of planes 1 and 2. First entry list: plane 0 has the single wire 0 and plane 1 the
single wire 5, hit in TPC 0 only; wire 5 received no hit with plane 1 and TPC 1, and no row
`(5, 1, 1)` is written. Second entry list: plane 0 has the wires 0 and 2, plane 1 the wires 1
and 2, all hit in TPC 0; the row `(2, 1, 0)` is written although wire 2 received a hit with
plane 1 and TPC 0. -/
theorem dead_rows_use_plane0_bins :
    (dead_wires_vectors [WireEntry.mk [0] [0] [0] [5] [0] [1] [0] [0] [2]]).select 1 1 = [] ∧
    specDeadWires [WireEntry.mk [0] [0] [0] [5] [0] [1] [0] [0] [2]] 1 1 = [5] ∧
    (dead_wires_vectors [WireEntry.mk [0, 2] [0, 0] [0, 0] [1, 2] [0, 0] [1, 1] [0] [0] [2]]
      ).select 1 0 = [2] ∧
    receivedHit [WireEntry.mk [0, 2] [0, 0] [0, 0] [1, 2] [0, 0] [1, 1] [0] [0] [2]] 1 0 2 =
      true ∧
    specDeadWires [WireEntry.mk [0, 2] [0, 0] [0, 0] [1, 2] [0, 0] [1, 1] [0] [0] [2]] 1 0 =
      [] := by
  refine ⟨by decide, by decide, by decide, by decide, by decide⟩

/-! ## `hit_split_regions_mc`: the rows of `process_hits` -/

theorem mem_mapPush (k : Int) (v : RegionHit) :
    ∀ (m : List (Int × List RegionHit)) (e : Int × List RegionHit),
      e ∈ mapPush k v m →
        e ∈ m ∨ (e.1 = k ∧ (e.2 = [v] ∨ ∃ e0 ∈ m, e0.1 = k ∧ e.2 = e0.2 ++ [v])) := by
  intro m
  induction m with
  | nil =>
    intro e he
    simp only [mapPush, List.mem_singleton] at he
    subst he
    exact Or.inr ⟨rfl, Or.inl rfl⟩
  | cons a r ih =>
    intro e he
    simp only [mapPush] at he
    by_cases h1 : k < a.1
    · rw [if_pos h1] at he
      rcases List.mem_cons.1 he with he | he
      · subst he
        exact Or.inr ⟨rfl, Or.inl rfl⟩
      · exact Or.inl he
    · rw [if_neg h1] at he
      by_cases h2 : a.1 < k
      · rw [if_pos h2] at he
        rcases List.mem_cons.1 he with he | he
        · subst he
          exact Or.inl (List.mem_cons_self _ _)
        · rcases ih e he with h | ⟨hk, h | ⟨e0, he0, hk0, hv⟩⟩
          · exact Or.inl (List.mem_cons_of_mem _ h)
          · exact Or.inr ⟨hk, Or.inl h⟩
          · exact Or.inr ⟨hk, Or.inr ⟨e0, List.mem_cons_of_mem _ he0, hk0, hv⟩⟩
      · rw [if_neg h2] at he
        have hak : a.1 = k := by omega
        rcases List.mem_cons.1 he with he | he
        · subst he
          exact Or.inr ⟨hak, Or.inr ⟨a, List.mem_cons_self _ _, hak, rfl⟩⟩
        · exact Or.inl (List.mem_cons_of_mem _ he)

theorem mapPush_invariant (P : Int → RegionHit → Prop) (k : Int) (v : RegionHit) (hv : P k v)
    (m : List (Int × List RegionHit)) (hm : ∀ e ∈ m, ∀ h ∈ e.2, P e.1 h) :
    ∀ e ∈ mapPush k v m, ∀ h ∈ e.2, P e.1 h := by
  intro e he h hh
  rcases mem_mapPush k v m e he with he | ⟨hk, he2 | ⟨e0, he0, hk0, he2⟩⟩
  · exact hm e he h hh
  · rw [he2, List.mem_singleton] at hh
    rw [hk, hh]
    exact hv
  · rw [he2, List.mem_append, List.mem_singleton] at hh
    rcases hh with hh | hh
    · rw [hk, ← hk0]
      exact hm e0 he0 h hh
    · rw [hk, hh]
      exact hv

theorem groupHits_invariant (dead : List ChannelKey) (plane : Int) :
    ∀ (ws : List Nat) (ps : List ℚ) (ts : List Nat) (xs ys zs : List Flt) (os : List Bool)
      (m : List (Int × List RegionHit)),
      (∀ e ∈ m, ∀ h ∈ e.2, keptInRegion dead plane e.1 h) →
      ∀ e ∈ groupHits dead plane ws ps ts xs ys zs os m, ∀ h ∈ e.2,
        keptInRegion dead plane e.1 h := by
  intro ws
  induction ws with
  | nil =>
    intro ps ts xs ys zs os m hm
    simpa only [groupHits] using hm
  | cons w ws ih =>
    intro ps ts xs ys zs os m hm
    rcases ps with _ | ⟨p, ps⟩
    · simpa only [groupHits] using hm
    rcases ts with _ | ⟨t, ts⟩
    · simpa only [groupHits] using hm
    rcases xs with _ | ⟨x, xs⟩
    · simpa only [groupHits] using hm
    rcases ys with _ | ⟨y, ys⟩
    · simpa only [groupHits] using hm
    rcases zs with _ | ⟨z, zs⟩
    · simpa only [groupHits] using hm
    rcases os with _ | ⟨o, os⟩
    · simpa only [groupHits] using hm
    simp only [groupHits]
    by_cases h1 : (!o || decide (p = -1)) = true
    · rw [if_pos h1]
      exact ih ps ts xs ys zs os m hm
    · rw [if_neg h1]
      cases x with
      | nan => exact ih ps ts xs ys zs os m hm
      | val qx =>
      cases y with
      | nan => exact ih ps ts xs ys zs os m hm
      | val qy =>
      cases z with
      | nan => exact ih ps ts xs ys zs os m hm
      | val qz =>
        simp only
        by_cases hd : isDead dead w (toUShort plane) t = true
        · rw [if_pos hd]
          exact ih ps ts xs ys zs os m hm
        · rw [if_neg hd]
          by_cases hi : get_region_index (Flt.val qx) (Flt.val qy) (Flt.val qz) t ≥ 0
          · rw [if_pos hi]
            refine ih ps ts xs ys zs os _ ?_
            refine mapPush_invariant (keptInRegion dead plane) _ _ ?_ m hm
            exact ⟨by simpa using hd, rfl, hi⟩
          · rw [if_neg hi]
            exact ih ps ts xs ys zs os m hm

theorem keptInRegion_tpc (dead : List ChannelKey) (plane : Int) (k : Int) (h : RegionHit)
    (region : TPCRegion) (hk : keptInRegion dead plane k h)
    (hr : regionAt regions k = some region) :
    toUShort region.tpc_id = h.tpc ∧ region.tpc_id = (h.tpc : Int) := by
  obtain ⟨_, hidx, hk0⟩ := hk
  rcases get_region_index_cases (Flt.val h.x) (Flt.val h.y) (Flt.val h.z) h.tpc with
    ⟨hneg, _⟩ | ⟨j, _, hj, b, hb, hbm⟩
  · omega
  · have hkj : k = (j : Int) := by rw [← hidx, hj]
    rw [hkj, regionAt_natCast, hb] at hr
    have hbr : b = region := by simpa using hr
    subst hbr
    obtain ⟨_, _, _, _, htpc, _⟩ := regionMatches_true b _ _ _ hbm
    have hmem : b ∈ regions := List.getElem?_mem hb
    have h01 : b.tpc_id = 0 ∨ b.tpc_id = 1 := by
      simp only [regions, List.mem_cons, List.mem_singleton, List.not_mem_nil, or_false] at hmem
      rcases hmem with rfl | rfl | rfl | rfl | rfl | rfl | rfl | rfl <;> simp
    refine ⟨?_, htpc⟩
    rw [htpc]
    unfold toUShort
    rcases h01 with h0 | h0 <;> rw [htpc] at h0 <;> omega

theorem process_region_some (fuel : Nat) (dead : List ChannelKey) (trk_id : Int)
    (track_length : ℚ) (plane : Int) (region_idx : Int) (hits : List RegionHit)
    (row : RegionRow)
    (h : process_region fuel dead trk_id track_length plane region_idx hits =
      some (some row)) :
    25 ≤ (setOfList wireLt (hits.map RegionHit.wire)).length ∧
    has_large_holes (setOfList wireLt (hits.map RegionHit.wire)) = false ∧
    ∃ region hit_eff, regionAt regions region_idx = some region ∧
      hitEfficiency fuel dead plane region (setOfList wireLt (hits.map RegionHit.wire))
        (std_sort (setOfList wireLt (hits.map RegionHit.wire))) = some hit_eff ∧
      row = RegionRow.mk trk_id plane region.tpc_id track_length hits.length
        (hits.foldl statsStep initStats).min_x (hits.foldl statsStep initStats).max_x
        (hits.foldl statsStep initStats).min_y (hits.foldl statsStep initStats).max_y
        (hits.foldl statsStep initStats).min_z (hits.foldl statsStep initStats).max_z
        (if (hits.foldl statsStep initStats).valid_pitches > 0 then
          (hits.foldl statsStep initStats).sum_pitch /
            ((hits.foldl statsStep initStats).valid_pitches : ℚ) else 0)
        hit_eff (hits.foldl statsStep initStats).anode_tpc0_hits
        (hits.foldl statsStep initStats).cathode_hits
        (hits.foldl statsStep initStats).anode_tpc1_hits
        (hits.foldl statsStep initStats).other_hits := by
  unfold process_region at h
  by_cases h10 : hits.length < 10
  · rw [if_pos h10] at h
    simp at h
  rw [if_neg h10] at h
  simp only at h
  by_cases h25 : (setOfList wireLt (hits.map RegionHit.wire)).length < 25
  · rw [if_pos h25] at h
    simp at h
  rw [if_neg h25] at h
  by_cases hh : has_large_holes (std_sort (setOfList wireLt (hits.map RegionHit.wire))) = true
  · rw [if_pos hh] at h
    simp at h
  rw [if_neg hh] at h
  rw [std_sort_setOfList] at hh
  refine ⟨by omega, by simpa using hh, ?_⟩
  cases hr : regionAt regions region_idx with
  | none =>
    rw [hr] at h
    simp at h
  | some region =>
    rw [hr] at h
    simp only at h
    cases he : hitEfficiency fuel dead plane region
        (setOfList wireLt (hits.map RegionHit.wire))
        (std_sort (setOfList wireLt (hits.map RegionHit.wire))) with
    | none =>
      rw [he] at h
      simp at h
    | some hit_eff =>
      rw [he] at h
      simp only [Option.some.injEq] at h
      exact ⟨region, hit_eff, rfl, he, h.symm⟩

theorem hitEfficiency_some (fuel : Nat) (dead : List ChannelKey) (plane : Int)
    (region : TPCRegion) (ws : List Nat) (eff : ℚ) (hne : ws ≠ [])
    (hlive : ∀ w ∈ ws, isDead dead w (toUShort plane) (toUShort region.tpc_id) = false)
    (h : hitEfficiency fuel dead plane region (setOfList wireLt ws)
      (std_sort (setOfList wireLt ws)) = some eff) :
    ∃ lo hi, lo ∈ ws ∧ hi ∈ ws ∧ (∀ w ∈ ws, lo ≤ w ∧ w ≤ hi) ∧ hi < 65535 ∧
      ws.toFinset.card ≤
        liveInRange dead (toUShort plane) (toUShort region.tpc_id) lo hi ∧
      0 < liveInRange dead (toUShort plane) (toUShort region.tpc_id) lo hi ∧
      eff = (ws.toFinset.card : ℚ) /
        (liveInRange dead (toUShort plane) (toUShort region.tpc_id) lo hi : ℚ) := by
  rw [std_sort_setOfList] at h
  have hsorted := setOfList_sorted ws
  have hmem : ∀ x, x ∈ setOfList wireLt ws ↔ x ∈ ws := fun x =>
    mem_setOfList wireLt wireLt_total x ws
  have hSne : setOfList wireLt ws ≠ [] := by
    obtain ⟨a, ha⟩ := List.exists_mem_of_ne_nil ws hne
    exact List.ne_nil_of_mem ((hmem a).2 ha)
  have hlo : (setOfList wireLt ws).headD 0 ∈ ws := (hmem _).1 (headD_mem _ hSne 0)
  have hhi : (setOfList wireLt ws).getLastD 0 ∈ ws := (hmem _).1 (getLastD_mem _ hSne 0)
  have hrange : ∀ w ∈ ws, (setOfList wireLt ws).headD 0 ≤ w ∧
      w ≤ (setOfList wireLt ws).getLastD 0 := fun w hw =>
    ⟨headD_le _ hsorted 0 w ((hmem w).2 hw), le_getLastD _ hsorted 0 w ((hmem w).2 hw)⟩
  have hlohi := (hrange _ hlo).2
  have hcard : ws.toFinset.card ≤ liveInRange dead (toUShort plane) (toUShort region.tpc_id)
      ((setOfList wireLt ws).headD 0) ((setOfList wireLt ws).getLastD 0) := by
    rw [liveInRange_eq_card]
    apply Finset.card_le_card
    intro w hw
    rw [List.mem_toFinset] at hw
    rw [Finset.mem_filter, Finset.mem_Icc]
    exact ⟨hrange w hw, hlive w hw⟩
  have hpos : 0 < ws.toFinset.card := by
    obtain ⟨a, ha⟩ := List.exists_mem_of_ne_nil ws hne
    exact Finset.card_pos.2 ⟨a, List.mem_toFinset.2 ha⟩
  unfold hitEfficiency at h
  have hemp : (setOfList wireLt ws).isEmpty = false := by
    cases hS : setOfList wireLt ws with
    | nil => exact absurd hS hSne
    | cons a r => rfl
  simp only [hemp, Bool.false_eq_true, if_false] at h
  cases hc : countDead dead (toUShort plane) (toUShort region.tpc_id)
      ((setOfList wireLt ws).getLastD 0) fuel ((setOfList wireLt ws).headD 0) 0 with
  | none =>
    rw [hc] at h
    simp at h
  | some nd =>
    rw [hc] at h
    obtain ⟨hmax, hnd⟩ := countDead_some _ _ _ _ _ _ _ _ hlohi hc
    have hadd := deadInRange_add_live dead (toUShort plane) (toUShort region.tpc_id)
      ((setOfList wireLt ws).getLastD 0) _ ((setOfList wireLt ws).headD 0) rfl
    have hlive_eq : (((setOfList wireLt ws).getLastD 0 : Nat) : Int) -
        (((setOfList wireLt ws).headD 0 : Nat) : Int) + 1 - (nd : Int) =
        ((liveInRange dead (toUShort plane) (toUShort region.tpc_id)
          ((setOfList wireLt ws).headD 0) ((setOfList wireLt ws).getLastD 0) : Nat) : Int) := by
      omega
    simp only [hlive_eq] at h
    have hgt : ((liveInRange dead (toUShort plane) (toUShort region.tpc_id)
        ((setOfList wireLt ws).headD 0) ((setOfList wireLt ws).getLastD 0) : Nat) : Int) > 0 := by
      omega
    rw [if_pos hgt] at h
    refine ⟨_, _, hlo, hhi, hrange, hmax, hcard, by omega, ?_⟩
    simp only [Option.some.injEq] at h
    rw [← h, setOfList_length]
    simp

theorem stats_counts (hits : List RegionHit) : ∀ s : RegionStats,
    (hits.foldl statsStep s).anode_tpc0_hits + (hits.foldl statsStep s).cathode_hits +
      (hits.foldl statsStep s).anode_tpc1_hits + (hits.foldl statsStep s).other_hits =
      s.anode_tpc0_hits + s.cathode_hits + s.anode_tpc1_hits + s.other_hits + hits.length := by
  induction hits with
  | nil => intro s; rfl
  | cons h r ih =>
    intro s
    rw [List.foldl_cons, ih (statsStep s h), List.length_cons]
    simp only [statsStep]
    split_ifs <;> omega

theorem stats_zone_counts (hits : List RegionHit) : ∀ s : RegionStats,
    (hits.foldl statsStep s).anode_tpc0_hits = s.anode_tpc0_hits +
      (hits.filter (fun h => decide (classify_x_region (Flt.val h.x) = "anode_tpc0"))).length ∧
    (hits.foldl statsStep s).cathode_hits = s.cathode_hits +
      (hits.filter (fun h => decide (classify_x_region (Flt.val h.x) = "cathode"))).length ∧
    (hits.foldl statsStep s).anode_tpc1_hits = s.anode_tpc1_hits +
      (hits.filter (fun h => decide (classify_x_region (Flt.val h.x) = "anode_tpc1"))).length ∧
    (hits.foldl statsStep s).other_hits = s.other_hits +
      (hits.filter (fun h => decide (classify_x_region (Flt.val h.x) = "other"))).length := by
  induction hits with
  | nil => intro s; exact ⟨rfl, rfl, rfl, rfl⟩
  | cons h r ih =>
    intro s
    obtain ⟨h1, h2, h3, h4⟩ := ih (statsStep s h)
    rw [List.foldl_cons, h1, h2, h3, h4]
    simp only [statsStep, List.filter_cons]
    have hz : classify_x_region (Flt.val h.x) = "anode_tpc0" ∨
        classify_x_region (Flt.val h.x) = "cathode" ∨
        classify_x_region (Flt.val h.x) = "anode_tpc1" ∨
        classify_x_region (Flt.val h.x) = "other" := by
      rw [classify_x_region_val]
      split_ifs <;> simp
    rcases hz with hz | hz | hz | hz <;> rw [hz] <;> simp <;> omega

theorem stats_monotone (hits : List RegionHit) : ∀ s : RegionStats,
    (hits.foldl statsStep s).min_x ≤ s.min_x ∧ s.max_x ≤ (hits.foldl statsStep s).max_x ∧
    (hits.foldl statsStep s).min_y ≤ s.min_y ∧ s.max_y ≤ (hits.foldl statsStep s).max_y ∧
    (hits.foldl statsStep s).min_z ≤ s.min_z ∧ s.max_z ≤ (hits.foldl statsStep s).max_z := by
  induction hits with
  | nil => intro s; exact ⟨le_refl _, le_refl _, le_refl _, le_refl _, le_refl _, le_refl _⟩
  | cons h r ih =>
    intro s
    obtain ⟨h1, h2, h3, h4, h5, h6⟩ := ih (statsStep s h)
    rw [List.foldl_cons]
    simp only [statsStep] at h1 h2 h3 h4 h5 h6
    exact ⟨le_trans h1 (min_le_left _ _), le_trans (le_max_left _ _) h2,
      le_trans h3 (min_le_left _ _), le_trans (le_max_left _ _) h4,
      le_trans h5 (min_le_left _ _), le_trans (le_max_left _ _) h6⟩

theorem stats_bounds (hits : List RegionHit) : ∀ s : RegionStats, ∀ h ∈ hits,
    (hits.foldl statsStep s).min_x ≤ h.x ∧ h.x ≤ (hits.foldl statsStep s).max_x ∧
    (hits.foldl statsStep s).min_y ≤ h.y ∧ h.y ≤ (hits.foldl statsStep s).max_y ∧
    (hits.foldl statsStep s).min_z ≤ h.z ∧ h.z ≤ (hits.foldl statsStep s).max_z := by
  induction hits with
  | nil =>
    intro s h hh
    simp at hh
  | cons a r ih =>
    intro s h hh
    rw [List.foldl_cons]
    rcases List.mem_cons.1 hh with hh | hh
    · subst hh
      obtain ⟨h1, h2, h3, h4, h5, h6⟩ := stats_monotone r (statsStep s h)
      simp only [statsStep] at h1 h2 h3 h4 h5 h6
      exact ⟨le_trans h1 (min_le_right _ _), le_trans (le_max_right _ _) h2,
        le_trans h3 (min_le_right _ _), le_trans (le_max_right _ _) h4,
        le_trans h5 (min_le_right _ _), le_trans (le_max_right _ _) h6⟩
    · exact ih (statsStep s a) h hh

theorem mem_processRegions (fuel : Nat) (dead : List ChannelKey) (trk_id : Int)
    (track_length : ℚ) (plane : Int) :
    ∀ (groups : List (Int × List RegionHit)) (rows : List (Int × RegionRow))
      (out : Int × RegionRow),
      out ∈ (processRegions fuel dead trk_id track_length plane groups rows).1 →
        out ∈ rows ∨ ∃ e ∈ groups, e.1 = out.1 ∧
          process_region fuel dead trk_id track_length plane e.1 e.2 = some (some out.2) := by
  intro groups
  induction groups with
  | nil =>
    intro rows out h
    exact Or.inl h
  | cons e rest ih =>
    intro rows out h
    simp only [processRegions] at h
    cases hp : process_region fuel dead trk_id track_length plane e.1 e.2 with
    | none =>
      rw [hp] at h
      exact Or.inl h
    | some r =>
      cases r with
      | none =>
        rw [hp] at h
        rcases ih rows out h with h | ⟨e2, he2, h2⟩
        · exact Or.inl h
        · exact Or.inr ⟨e2, List.mem_cons_of_mem _ he2, h2⟩
      | some row =>
        rw [hp] at h
        rcases ih _ out h with h | ⟨e2, he2, h2⟩
        · rcases List.mem_append.1 h with h | h
          · exact Or.inl h
          · rw [List.mem_singleton] at h
            subst h
            exact Or.inr ⟨e, List.mem_cons_self _ _, rfl, hp⟩
        · exact Or.inr ⟨e2, List.mem_cons_of_mem _ he2, h2⟩

/-- Every row written by `process_hits` comes from a group of `region_hits` whose hits are
all kept for that region, and is the row that `process_region` computes for the group. -/
theorem process_hits_row (fuel : Nat) (dead : List ChannelKey) (trk_id : Int)
    (track_length : ℚ) (wires : List Nat) (pitches : List ℚ) (tpcs : List Nat)
    (x_coords y_coords z_coords : List Flt) (ontraj : List Bool) (plane : Int)
    (idx : Int) (row : RegionRow)
    (h : (idx, row) ∈ (process_hits fuel dead trk_id track_length wires pitches tpcs x_coords
      y_coords z_coords ontraj plane).1) :
    ∃ hits, (idx, hits) ∈ groupHits dead plane wires pitches tpcs x_coords y_coords z_coords
        ontraj [] ∧
      (∀ hit ∈ hits, keptInRegion dead plane idx hit) ∧
      process_region fuel dead trk_id track_length plane idx hits = some (some row) := by
  unfold process_hits at h
  by_cases hw : wires.isEmpty = true
  · rw [if_pos hw] at h
    simp at h
  · rw [if_neg hw] at h
    rcases mem_processRegions fuel dead trk_id track_length plane _ _ _ h with
      h | ⟨e, he, hk, hp⟩
    · simp at h
    · simp only at hk hp
      subst hk
      refine ⟨e.2, he, ?_, hp⟩
      exact groupHits_invariant dead plane wires pitches tpcs x_coords y_coords z_coords ontraj
        [] (by simp) e he

/-- The facts about a row computed by `process_region` for a group whose hits are all kept
for the region. -/
theorem process_region_row (fuel : Nat) (dead : List ChannelKey) (trk_id : Int)
    (track_length : ℚ) (plane : Int) (idx : Int) (hits : List RegionHit) (row : RegionRow)
    (hkept : ∀ hit ∈ hits, keptInRegion dead plane idx hit)
    (h : process_region fuel dead trk_id track_length plane idx hits = some (some row)) :
    row.validHits = hits.length ∧
    25 ≤ (hits.map RegionHit.wire).toFinset.card ∧
    (∃ min_wire max_wire, min_wire ∈ hits.map RegionHit.wire ∧
      max_wire ∈ hits.map RegionHit.wire ∧ max_wire < 65535 ∧
      (∀ hit ∈ hits, (hit.tpc : Int) = row.tpc ∧ toUShort row.tpc = hit.tpc ∧
        isDead dead hit.wire (toUShort plane) (toUShort row.tpc) = false ∧
        min_wire ≤ hit.wire ∧ hit.wire ≤ max_wire) ∧
      (hits.map RegionHit.wire).toFinset.card ≤
        liveInRange dead (toUShort plane) (toUShort row.tpc) min_wire max_wire ∧
      row.hitEfficiency = ((hits.map RegionHit.wire).toFinset.card : ℚ) /
        (liveInRange dead (toUShort plane) (toUShort row.tpc) min_wire max_wire : ℚ)) ∧
    row.anode_tpc0_hits = (hits.filter
      (fun h => decide (classify_x_region (Flt.val h.x) = "anode_tpc0"))).length ∧
    row.cathode_hits = (hits.filter
      (fun h => decide (classify_x_region (Flt.val h.x) = "cathode"))).length ∧
    row.anode_tpc1_hits = (hits.filter
      (fun h => decide (classify_x_region (Flt.val h.x) = "anode_tpc1"))).length ∧
    row.other_hits = (hits.filter
      (fun h => decide (classify_x_region (Flt.val h.x) = "other"))).length ∧
    row.anode_tpc0_hits + row.cathode_hits + row.anode_tpc1_hits + row.other_hits =
      row.validHits ∧
    (∀ hit ∈ hits, row.min_x ≤ hit.x ∧ hit.x ≤ row.max_x ∧ row.min_y ≤ hit.y ∧
      hit.y ≤ row.max_y ∧ row.min_z ≤ hit.z ∧ hit.z ≤ row.max_z) := by
  obtain ⟨h25, _, region, hit_eff, hreg, heff, hrow⟩ :=
    process_region_some fuel dead trk_id track_length plane idx hits row h
  rw [setOfList_length] at h25
  have htpc : ∀ hit ∈ hits, toUShort region.tpc_id = hit.tpc ∧
      region.tpc_id = (hit.tpc : Int) := fun hit hh =>
    keptInRegion_tpc dead plane idx hit region (hkept hit hh) hreg
  have hne : hits.map RegionHit.wire ≠ [] := by
    intro hnil
    rw [hnil] at h25
    simp at h25
  have hlive : ∀ w ∈ hits.map RegionHit.wire,
      isDead dead w (toUShort plane) (toUShort region.tpc_id) = false := by
    intro w hw
    obtain ⟨hit, hh, rfl⟩ := List.mem_map.1 hw
    rw [(htpc hit hh).1]
    exact (hkept hit hh).1
  obtain ⟨lo, hi, hlo, hhi, hrange, hmax, hcard, _, heq⟩ :=
    hitEfficiency_some fuel dead plane region (hits.map RegionHit.wire) hit_eff hne hlive heff
  have hz := stats_zone_counts hits initStats
  have hc := stats_counts hits initStats
  have hb := stats_bounds hits initStats
  subst hrow
  simp only [initStats, Nat.zero_add] at hz hc
  refine ⟨rfl, h25, ⟨lo, hi, hlo, hhi, hmax, ?_, hcard, heq⟩, hz.1, hz.2.1, hz.2.2.1,
    hz.2.2.2, hc, hb⟩
  intro hit hh
  exact ⟨(htpc hit hh).2.symm, (htpc hit hh).1, hlive _ (List.mem_map_of_mem _ hh),
    hrange _ (List.mem_map_of_mem _ hh)⟩

/-- C24: every row written by `process_hits` belongs to a group of hits whose distinct wires
number at least 25, are all live for `(plane, region tpc)` and lie in
`[min_wire, max_wire]`; so the number of live wires of that range is at least the number of
distinct wires, hence at least 25, HitEfficiency is the quotient of the two and
`0 < HitEfficiency <= 1`, without a gate on the live wires and without a clamp. -/
theorem split_rows_efficiency_range (fuel : Nat) (dead : List ChannelKey) (trk_id : Int)
    (track_length : ℚ) (wires : List Nat) (pitches : List ℚ) (tpcs : List Nat)
    (x_coords y_coords z_coords : List Flt) (ontraj : List Bool) (plane : Int)
    (idx : Int) (row : RegionRow)
    (h : (idx, row) ∈ (process_hits fuel dead trk_id track_length wires pitches tpcs x_coords
      y_coords z_coords ontraj plane).1) :
    0 < row.hitEfficiency ∧ row.hitEfficiency ≤ 1 ∧
    ∃ hits min_wire max_wire,
      (idx, hits) ∈ groupHits dead plane wires pitches tpcs x_coords y_coords z_coords
        ontraj [] ∧
      (∀ hit ∈ hits, (hit.tpc : Int) = row.tpc ∧
        isDead dead hit.wire (toUShort plane) (toUShort row.tpc) = false ∧
        min_wire ≤ hit.wire ∧ hit.wire ≤ max_wire) ∧
      min_wire ∈ hits.map RegionHit.wire ∧ max_wire ∈ hits.map RegionHit.wire ∧
      25 ≤ (hits.map RegionHit.wire).toFinset.card ∧
      (hits.map RegionHit.wire).toFinset.card ≤
        liveInRange dead (toUShort plane) (toUShort row.tpc) min_wire max_wire ∧
      25 ≤ liveInRange dead (toUShort plane) (toUShort row.tpc) min_wire max_wire ∧
      row.hitEfficiency = ((hits.map RegionHit.wire).toFinset.card : ℚ) /
        (liveInRange dead (toUShort plane) (toUShort row.tpc) min_wire max_wire : ℚ) := by
  obtain ⟨hits, hmem, hkept, hp⟩ := process_hits_row fuel dead trk_id track_length wires
    pitches tpcs x_coords y_coords z_coords ontraj plane idx row h
  obtain ⟨_, h25, ⟨lo, hi, hlo, hhi, _, hall, hcard, heq⟩, _⟩ :=
    process_region_row fuel dead trk_id track_length plane idx hits row hkept hp
  have hlive25 : 25 ≤ liveInRange dead (toUShort plane) (toUShort row.tpc) lo hi :=
    le_trans h25 hcard
  have hlpos : (0 : ℚ) < (liveInRange dead (toUShort plane) (toUShort row.tpc) lo hi : ℚ) := by
    exact_mod_cast (by omega : 0 < liveInRange dead (toUShort plane) (toUShort row.tpc) lo hi)
  have hcpos : (0 : ℚ) < ((hits.map RegionHit.wire).toFinset.card : ℚ) := by
    exact_mod_cast (by omega : 0 < (hits.map RegionHit.wire).toFinset.card)
  refine ⟨?_, ?_, hits, lo, hi, hmem, ?_, hlo, hhi, h25, hcard, hlive25, heq⟩
  · rw [heq]
    exact div_pos hcpos hlpos
  · rw [heq, div_le_one hlpos]
    exact_mod_cast hcard
  · intro hit hh
    obtain ⟨h1, _, h3, h4⟩ := hall hit hh
    exact ⟨h1, h3, h4⟩

/-- C25: in every row written by `process_hits` the four zone counts are the numbers of hits
of the region in each longitudinal zone and add up to ValidHits, the number of hits of the
region; ValidHits is at least 25; and the extrema bound every hit of the region, so
`MinX <= MaxX`, `MinY <= MaxY` and `MinZ <= MaxZ`. -/
theorem split_rows_counts_and_extrema (fuel : Nat) (dead : List ChannelKey) (trk_id : Int)
    (track_length : ℚ) (wires : List Nat) (pitches : List ℚ) (tpcs : List Nat)
    (x_coords y_coords z_coords : List Flt) (ontraj : List Bool) (plane : Int)
    (idx : Int) (row : RegionRow)
    (h : (idx, row) ∈ (process_hits fuel dead trk_id track_length wires pitches tpcs x_coords
      y_coords z_coords ontraj plane).1) :
    row.anode_tpc0_hits + row.cathode_hits + row.anode_tpc1_hits + row.other_hits =
      row.validHits ∧
    25 ≤ row.validHits ∧
    row.min_x ≤ row.max_x ∧ row.min_y ≤ row.max_y ∧ row.min_z ≤ row.max_z ∧
    ∃ hits,
      (idx, hits) ∈ groupHits dead plane wires pitches tpcs x_coords y_coords z_coords
        ontraj [] ∧
      row.validHits = hits.length ∧
      row.anode_tpc0_hits = (hits.filter (fun hit => decide (hitZone
        (SpaceHit.mk (Flt.val hit.x) (Flt.val hit.y) (Flt.val hit.z) hit.tpc) =
          "anode_tpc0"))).length ∧
      row.cathode_hits = (hits.filter (fun hit => decide (hitZone
        (SpaceHit.mk (Flt.val hit.x) (Flt.val hit.y) (Flt.val hit.z) hit.tpc) =
          "cathode"))).length ∧
      row.anode_tpc1_hits = (hits.filter (fun hit => decide (hitZone
        (SpaceHit.mk (Flt.val hit.x) (Flt.val hit.y) (Flt.val hit.z) hit.tpc) =
          "anode_tpc1"))).length ∧
      row.other_hits = (hits.filter (fun hit => decide (hitZone
        (SpaceHit.mk (Flt.val hit.x) (Flt.val hit.y) (Flt.val hit.z) hit.tpc) =
          "other"))).length ∧
      (∀ hit ∈ hits, row.min_x ≤ hit.x ∧ hit.x ≤ row.max_x ∧ row.min_y ≤ hit.y ∧
        hit.y ≤ row.max_y ∧ row.min_z ≤ hit.z ∧ hit.z ≤ row.max_z) := by
  obtain ⟨hits, hmem, hkept, hp⟩ := process_hits_row fuel dead trk_id track_length wires
    pitches tpcs x_coords y_coords z_coords ontraj plane idx row h
  obtain ⟨hv, h25, _, hz1, hz2, hz3, hz4, hsum, hb⟩ :=
    process_region_row fuel dead trk_id track_length plane idx hits row hkept hp
  have hlen : 25 ≤ hits.length := by
    have h1 : (hits.map RegionHit.wire).toFinset.card ≤ (hits.map RegionHit.wire).length :=
      List.toFinset_card_le _
    rw [List.length_map] at h1
    omega
  obtain ⟨a, ha⟩ : ∃ a, a ∈ hits := by
    cases hits with
    | nil => simp at hlen
    | cons a r => exact ⟨a, List.mem_cons_self _ _⟩
  obtain ⟨b1, b2, b3, b4, b5, b6⟩ := hb a ha
  refine ⟨hsum, by omega, le_trans b1 b2, le_trans b3 b4, le_trans b5 b6, hits, hmem, hv,
    hz1, hz2, hz3, hz4, hb⟩

/-- The grouping loop on hits that all have the same pitch, TPC, coordinates and region `k`
and are on trajectory: every hit whose channel is not dead is pushed to the group of `k`. -/
theorem groupHits_uniform (dead : List ChannelKey) (plane : Int) (p : ℚ) (t : Nat)
    (qx qy qz : ℚ) (k : Int) (hp : p ≠ -1)
    (hk : get_region_index (Flt.val qx) (Flt.val qy) (Flt.val qz) t = k) (hk0 : 0 ≤ k) :
    ∀ (ws : List Nat) (m : List (Int × List RegionHit)),
      (∀ w ∈ ws, isDead dead w (toUShort plane) t = false) →
      groupHits dead plane ws (List.replicate ws.length p) (List.replicate ws.length t)
        (List.replicate ws.length (Flt.val qx)) (List.replicate ws.length (Flt.val qy))
        (List.replicate ws.length (Flt.val qz)) (List.replicate ws.length true) m =
      ws.foldl (fun m w => mapPush k (RegionHit.mk w p t qx qy qz) m) m := by
  intro ws
  induction ws with
  | nil =>
    intro m _
    simp [groupHits]
  | cons w r ih =>
    intro m hlive
    have hw : isDead dead w (toUShort plane) t = false := hlive w (List.mem_cons_self _ _)
    have hr : ∀ v ∈ r, isDead dead v (toUShort plane) t = false := fun v hv =>
      hlive v (List.mem_cons_of_mem _ hv)
    simp only [List.length_cons, List.replicate_succ, groupHits, List.foldl_cons]
    rw [if_neg (by simp [hp]), hk]
    simp only [hw, Bool.false_eq_true, if_false, ge_iff_le, hk0, if_true]
    exact ih _ hr

theorem foldl_mapPush_same (k : Int) (f : Nat → RegionHit) :
    ∀ (ws : List Nat) (vs : List RegionHit),
      ws.foldl (fun m w => mapPush k (f w) m) [(k, vs)] = [(k, vs ++ ws.map f)] := by
  intro ws
  induction ws with
  | nil =>
    intro vs
    simp
  | cons w r ih =>
    intro vs
    simp only [List.foldl_cons, mapPush, lt_self_iff_false, if_false, List.map_cons]
    rw [ih]
    simp

/-- The example run of `process_hits`: wire 10 dead for plane 0 and TPC 1, 25 hits on the
wires 1..9 and 11..26 of TPC 1, all at `x = 0`, `y = -100`, `z = 100` with pitch 1. One row is
written, to the file of region 4 (`TPC1_00`): 26 wires expected, 1 dead, 25 live, 25 hit. -/
theorem process_hits_example :
    process_hits 65537 [(10, 0, 1)] 7 60 (List.range' 1 9 ++ List.range' 11 16)
      (List.replicate 25 1) (List.replicate 25 1) (List.replicate 25 (Flt.val 0))
      (List.replicate 25 (Flt.val (-100))) (List.replicate 25 (Flt.val 100))
      (List.replicate 25 true) 0 =
    ([(4, RegionRow.mk 7 0 1 60 25 0 0 (-100) (-100) 100 100 1 1 0 25 0 0)], true) := by
  have hidx : get_region_index (Flt.val 0) (Flt.val (-100)) (Flt.val 100) 1 = 4 := by
    norm_num [get_region_index, get_region_index_in, regions, scanRegions, regionMatches,
      Flt.ge, Flt.lt]
  have hlive : ∀ w ∈ List.range' 1 9 ++ List.range' 11 16,
      isDead [(10, 0, 1)] w (toUShort 0) 1 = false := by decide
  have hlen : (List.range' 1 9 ++ List.range' 11 16).length = 25 := by decide
  have hg := groupHits_uniform [(10, 0, 1)] 0 1 1 0 (-100) 100 4 (by norm_num) hidx
    (by norm_num) (List.range' 1 9 ++ List.range' 11 16) [] hlive
  rw [hlen] at hg
  have hfold : (List.range' 1 9 ++ List.range' 11 16).foldl
      (fun m w => mapPush 4 (RegionHit.mk w 1 1 0 (-100) 100) m) [] =
      [(4, (List.range' 1 9 ++ List.range' 11 16).map
        (fun w => RegionHit.mk w 1 1 0 (-100) 100))] := by
    have h1 : List.range' 1 9 ++ List.range' 11 16 =
        1 :: (List.range' 2 8 ++ List.range' 11 16) := by
      decide
    rw [h1, List.foldl_cons]
    simp only [mapPush]
    rw [foldl_mapPush_same 4 (fun w => RegionHit.mk w 1 1 0 (-100) 100)]
    simp
  have hwires : ((List.range' 1 9 ++ List.range' 11 16).map
      (fun w => RegionHit.mk w 1 1 0 (-100) 100)).map RegionHit.wire =
      List.range' 1 9 ++ List.range' 11 16 := by
    rw [List.map_map]
    exact List.map_id _
  have hset : setOfList wireLt (List.range' 1 9 ++ List.range' 11 16) =
      List.range' 1 9 ++ List.range' 11 16 := by decide
  have hholes : has_large_holes (std_sort (List.range' 1 9 ++ List.range' 11 16)) = false := by
    decide
  have hreg : regionAt regions 4 =
      some (TPCRegion.mk "TPC1_00" (-(3337945 / 16384)) 0
          (-(8388605 / 2 ^ 67)) (16036659 / 65536) 1) := by
    simp [regionAt, regions]
  have hcount : countDead [(10, 0, 1)] (toUShort 0) (toUShort 1) 26 65537 1 0 = some 1 := by
    decide
  have hlast : (std_sort (List.range' 1 9 ++ List.range' 11 16)).getLastD 0 = 26 := by decide
  have hhead : (std_sort (List.range' 1 9 ++ List.range' 11 16)).headD 0 = 1 := by decide
  have hemp : (std_sort (List.range' 1 9 ++ List.range' 11 16)).isEmpty = false := by decide
  have heff : hitEfficiency 65537 [(10, 0, 1)] 0
      (TPCRegion.mk "TPC1_00" (-(3337945 / 16384)) 0 (-(8388605 / 2 ^ 67)) (16036659 / 65536) 1)
      (List.range' 1 9 ++ List.range' 11 16)
      (std_sort (List.range' 1 9 ++ List.range' 11 16)) = some 1 := by
    unfold hitEfficiency
    simp only [hemp, Bool.false_eq_true, if_false, hcount, hlast, hhead, hlen]
    norm_num
  have hstats : ((List.range' 1 9 ++ List.range' 11 16).map
      (fun w => RegionHit.mk w 1 1 0 (-100) 100)).foldl statsStep initStats =
      RegionStats.mk 0 0 (-100) (-100) 100 100 25 25 0 25 0 0 := by
    have hz : classify_x_region (Flt.val 0) = "cathode" := by
      rw [classify_x_region_val]
      norm_num
    have hne : ("cathode" : String) ≠ "anode_tpc0" := by decide
    have hstep : ∀ (s : RegionStats) (w : Nat),
        statsStep s (RegionHit.mk w 1 1 0 (-100) 100) =
          RegionStats.mk (min s.min_x 0) (max s.max_x 0) (min s.min_y (-100))
            (max s.max_y (-100)) (min s.min_z 100) (max s.max_z 100) (s.sum_pitch + 1)
            (s.valid_pitches + 1) s.anode_tpc0_hits (s.cathode_hits + 1) s.anode_tpc1_hits
            s.other_hits := by
      intro s w
      simp [statsStep, hz, hne]
    simp only [List.range', List.cons_append, List.nil_append, List.map_cons, List.map_nil,
      List.foldl_cons, List.foldl_nil, hstep]
    norm_num [initStats, FLT_MAX, min_def, max_def]
  have hwne : (List.range' 1 9 ++ List.range' 11 16).isEmpty = false := by decide
  unfold process_hits
  rw [hwne, hg, hfold]
  simp only [Bool.false_eq_true, if_false, processRegions, process_region, List.length_map, hlen,
    hwires, hset, hholes, hreg, heff, hstats]
  norm_num

/-- Witness of `split_rows_efficiency_range`: the example run writes one row, with
HitEfficiency 1 for 25 hit wires among 25 live wires of the 26 wires of `[1, 26]`. -/
theorem split_rows_efficiency_range_witness :
    (4, RegionRow.mk 7 0 1 60 25 0 0 (-100) (-100) 100 100 1 1 0 25 0 0) ∈
      (process_hits 65537 [(10, 0, 1)] 7 60 (List.range' 1 9 ++ List.range' 11 16)
        (List.replicate 25 1) (List.replicate 25 1) (List.replicate 25 (Flt.val 0))
        (List.replicate 25 (Flt.val (-100))) (List.replicate 25 (Flt.val 100))
        (List.replicate 25 true) 0).1 ∧
    0 < (RegionRow.mk 7 0 1 60 25 0 0 (-100) (-100) 100 100 1 1 0 25 0 0).hitEfficiency ∧
    (RegionRow.mk 7 0 1 60 25 0 0 (-100) (-100) 100 100 1 1 0 25 0 0).hitEfficiency ≤ 1 ∧
    liveInRange [(10, 0, 1)] (toUShort 0) (toUShort 1) 1 26 = 25 :=
  ⟨by rw [process_hits_example]; exact List.mem_singleton.2 rfl,
    (split_rows_efficiency_range 65537 [(10, 0, 1)] 7 60 (List.range' 1 9 ++ List.range' 11 16)
      (List.replicate 25 1) (List.replicate 25 1) (List.replicate 25 (Flt.val 0))
      (List.replicate 25 (Flt.val (-100))) (List.replicate 25 (Flt.val 100))
      (List.replicate 25 true) 0 4
      (RegionRow.mk 7 0 1 60 25 0 0 (-100) (-100) 100 100 1 1 0 25 0 0)
      (by rw [process_hits_example]; exact List.mem_singleton.2 rfl)).1,
    (split_rows_efficiency_range 65537 [(10, 0, 1)] 7 60 (List.range' 1 9 ++ List.range' 11 16)
      (List.replicate 25 1) (List.replicate 25 1) (List.replicate 25 (Flt.val 0))
      (List.replicate 25 (Flt.val (-100))) (List.replicate 25 (Flt.val 100))
      (List.replicate 25 true) 0 4
      (RegionRow.mk 7 0 1 60 25 0 0 (-100) (-100) 100 100 1 1 0 25 0 0)
      (by rw [process_hits_example]; exact List.mem_singleton.2 rfl)).2.1,
    by decide⟩

/-- Witness of `split_rows_counts_and_extrema`: in the row of the example run the 25 hits are
all counted in the cathode zone. -/
theorem split_rows_counts_and_extrema_witness :
    (4, RegionRow.mk 7 0 1 60 25 0 0 (-100) (-100) 100 100 1 1 0 25 0 0) ∈
      (process_hits 65537 [(10, 0, 1)] 7 60 (List.range' 1 9 ++ List.range' 11 16)
        (List.replicate 25 1) (List.replicate 25 1) (List.replicate 25 (Flt.val 0))
        (List.replicate 25 (Flt.val (-100))) (List.replicate 25 (Flt.val 100))
        (List.replicate 25 true) 0).1 ∧
    (RegionRow.mk 7 0 1 60 25 0 0 (-100) (-100) 100 100 1 1 0 25 0 0).anode_tpc0_hits +
      (RegionRow.mk 7 0 1 60 25 0 0 (-100) (-100) 100 100 1 1 0 25 0 0).cathode_hits +
      (RegionRow.mk 7 0 1 60 25 0 0 (-100) (-100) 100 100 1 1 0 25 0 0).anode_tpc1_hits +
      (RegionRow.mk 7 0 1 60 25 0 0 (-100) (-100) 100 100 1 1 0 25 0 0).other_hits =
      (RegionRow.mk 7 0 1 60 25 0 0 (-100) (-100) 100 100 1 1 0 25 0 0).validHits ∧
    25 ≤ (RegionRow.mk 7 0 1 60 25 0 0 (-100) (-100) 100 100 1 1 0 25 0 0).validHits :=
  ⟨by rw [process_hits_example]; exact List.mem_singleton.2 rfl,
    (split_rows_counts_and_extrema 65537 [(10, 0, 1)] 7 60
      (List.range' 1 9 ++ List.range' 11 16)
      (List.replicate 25 1) (List.replicate 25 1) (List.replicate 25 (Flt.val 0))
      (List.replicate 25 (Flt.val (-100))) (List.replicate 25 (Flt.val 100))
      (List.replicate 25 true) 0 4
      (RegionRow.mk 7 0 1 60 25 0 0 (-100) (-100) 100 100 1 1 0 25 0 0)
      (by rw [process_hits_example]; exact List.mem_singleton.2 rfl)).1,
    (split_rows_counts_and_extrema 65537 [(10, 0, 1)] 7 60
      (List.range' 1 9 ++ List.range' 11 16)
      (List.replicate 25 1) (List.replicate 25 1) (List.replicate 25 (Flt.val 0))
      (List.replicate 25 (Flt.val (-100))) (List.replicate 25 (Flt.val 100))
      (List.replicate 25 true) 0 4
      (RegionRow.mk 7 0 1 60 25 0 0 (-100) (-100) 100 100 1 1 0 25 0 0)
      (by rw [process_hits_example]; exact List.mem_singleton.2 rfl)).2.1⟩

/-- With 25 hits on the wires 65511..65535 the counting loop of `process_hits` runs with
`max_wire = 65535`: the lambda writes no row and does not return, whatever the fuel. -/
theorem process_hits_wire_65535 (fuel : Nat) :
    process_hits fuel [] 7 60 (List.range' 65511 25)
      (List.replicate 25 1) (List.replicate 25 0) (List.replicate 25 (Flt.val 0))
      (List.replicate 25 (Flt.val (-100))) (List.replicate 25 (Flt.val 100))
      (List.replicate 25 true) 0 = ([], false) := by
  have hidx : get_region_index (Flt.val 0) (Flt.val (-100)) (Flt.val 100) 0 = 0 := by
    norm_num [get_region_index, get_region_index_in, regions, scanRegions, regionMatches,
      Flt.ge, Flt.lt]
  have hlive : ∀ w ∈ List.range' 65511 25, isDead [] w (toUShort 0) 0 = false :=
    fun w _ => isDead_nil _ _ _
  have hlen : (List.range' 65511 25).length = 25 := by decide
  have hg := groupHits_uniform [] 0 1 0 0 (-100) 100 0 (by norm_num) hidx (by norm_num)
    (List.range' 65511 25) [] hlive
  rw [hlen] at hg
  have hfold : (List.range' 65511 25).foldl
      (fun m w => mapPush 0 (RegionHit.mk w 1 0 0 (-100) 100) m) [] =
      [(0, (List.range' 65511 25).map (fun w => RegionHit.mk w 1 0 0 (-100) 100))] := by
    have h1 : List.range' 65511 25 = 65511 :: List.range' 65512 24 := by decide
    rw [h1, List.foldl_cons]
    simp only [mapPush]
    rw [foldl_mapPush_same 0 (fun w => RegionHit.mk w 1 0 0 (-100) 100)]
    simp
  have hwires : ((List.range' 65511 25).map
      (fun w => RegionHit.mk w 1 0 0 (-100) 100)).map RegionHit.wire =
      List.range' 65511 25 := by
    rw [List.map_map]
    exact List.map_id _
  have hset : setOfList wireLt (List.range' 65511 25) = List.range' 65511 25 := by decide
  have hholes : has_large_holes (std_sort (List.range' 65511 25)) = false := by decide
  have hreg : regionAt regions 0 =
      some (TPCRegion.mk "TPC0_00" (-(3337945 / 16384)) 0
          (-(8388605 / 2 ^ 67)) (16036659 / 65536) 0) := by
    simp [regionAt, regions]
  have hlast : (std_sort (List.range' 65511 25)).getLastD 0 = 65535 := by decide
  have hhead : (std_sort (List.range' 65511 25)).headD 0 = 65511 := by decide
  have hemp : (std_sort (List.range' 65511 25)).isEmpty = false := by decide
  have hcount : countDead [] (toUShort 0) (toUShort 0) 65535 fuel 65511 0 = none :=
    countDead_diverges [] _ _ 65535 (le_refl _) fuel 65511 0 (by norm_num)
  have heff : hitEfficiency fuel [] 0
      (TPCRegion.mk "TPC0_00" (-(3337945 / 16384)) 0 (-(8388605 / 2 ^ 67)) (16036659 / 65536) 0)
      (List.range' 65511 25) (std_sort (List.range' 65511 25)) = none := by
    unfold hitEfficiency
    simp only [hemp, Bool.false_eq_true, if_false, hlast, hhead, hcount]
  have hwne : (List.range' 65511 25).isEmpty = false := by decide
  unfold process_hits
  rw [hwne, hg, hfold]
  simp only [Bool.false_eq_true, if_false, processRegions, process_region, List.length_map, hlen,
    hwires, hset, hholes, hreg, heff]
  norm_num

/-! ## The two estimators on a batch of one TPC -/

theorem valid_columns_eq_validHits (dead : List ChannelKey) (plane : Int) :
    ∀ (wires planes tpcs : List Nat) (ontraj : List Bool) (pitches : List ℚ),
      planes.length = wires.length → (∀ pl ∈ planes, pl = toUShort plane) →
      (∀ p ∈ pitches, p = -1 ∨ 0 < p) →
      valid_wires dead wires planes tpcs ontraj pitches =
        (validHits dead plane wires pitches tpcs ontraj).map ValidHit.wire ∧
      valid_pitches dead wires planes tpcs ontraj pitches =
        (validHits dead plane wires pitches tpcs ontraj).map ValidHit.pitch ∧
      valid_tpcs dead wires planes tpcs ontraj pitches =
        (validHits dead plane wires pitches tpcs ontraj).map ValidHit.tpc := by
  intro wires
  induction wires with
  | nil =>
    intro planes tpcs ontraj pitches _ _ _
    simp [valid_wires, valid_pitches, valid_tpcs, validHits]
  | cons w ws ih =>
    intro planes tpcs ontraj pitches hlen hpl hp
    rcases planes with _ | ⟨pl, pls⟩
    · simp at hlen
    rcases tpcs with _ | ⟨t, ts⟩
    · simp [valid_wires, valid_pitches, valid_tpcs, validHits]
    rcases ontraj with _ | ⟨o, os⟩
    · simp [valid_wires, valid_pitches, valid_tpcs, validHits]
    rcases pitches with _ | ⟨p, ps⟩
    · simp [valid_wires, valid_pitches, valid_tpcs, validHits]
    have hlen2 : pls.length = ws.length := by simpa using hlen
    have hpl0 : pl = toUShort plane := hpl pl (List.mem_cons_self _ _)
    have hp0 : p = -1 ∨ 0 < p := hp p (List.mem_cons_self _ _)
    obtain ⟨h1, h2, h3⟩ := ih pls ts os ps hlen2
      (fun x hx => hpl x (List.mem_cons_of_mem _ hx))
      (fun x hx => hp x (List.mem_cons_of_mem _ hx))
    have hcond : (o && decide (p ≠ -1) && !isDead dead w pl t) =
        (o && decide (p > 0) && !isDead dead w (toUShort plane) t) := by
      rw [← hpl0]
      have : decide (p ≠ -1) = decide (p > 0) := by
        rcases hp0 with hp0 | hp0
        · subst hp0
          simp
        · have hne : p ≠ -1 := by
            intro h
            rw [h] at hp0
            norm_num at hp0
          simp [hne, hp0]
      rw [this]
    simp only [valid_wires, valid_pitches, valid_tpcs, validHits, hcond]
    by_cases hk : (o && decide (p > 0) && !isDead dead w (toUShort plane) t) = true
    · simp only [hk, if_true, List.map_cons, h1, h2, h3, and_self]
    · simp only [hk, Bool.false_eq_true, if_false, h1, h2, h3, and_self]

theorem validHits_wire_sublist (dead : List ChannelKey) (plane : Int) :
    ∀ (wires : List Nat) (pitches : List ℚ) (tpcs : List Nat) (ontraj : List Bool),
      ((validHits dead plane wires pitches tpcs ontraj).map ValidHit.wire).Sublist wires := by
  intro wires
  induction wires with
  | nil =>
    intro pitches tpcs ontraj
    simp [validHits]
  | cons w ws ih =>
    intro pitches tpcs ontraj
    rcases pitches with _ | ⟨p, ps⟩
    · simp [validHits]
    rcases tpcs with _ | ⟨t, ts⟩
    · simp [validHits]
    rcases ontraj with _ | ⟨o, os⟩
    · simp [validHits]
    simp only [validHits]
    by_cases hk : (o && decide (p > 0) && !isDead dead w (toUShort plane) t) = true
    · simp only [hk, if_true, List.map_cons]
      exact (ih ps ts os).cons₂ w
    · simp only [hk, Bool.false_eq_true, if_false]
      exact (ih ps ts os).cons w

theorem validHits_tpc_mem (dead : List ChannelKey) (plane : Int) (wires : List Nat)
    (pitches : List ℚ) (tpcs : List Nat) (ontraj : List Bool) :
    ∀ h ∈ validHits dead plane wires pitches tpcs ontraj, h.tpc ∈ tpcs := by
  intro h hh
  obtain ⟨i, _, _, ht, _⟩ := (mem_validHits_iff dead plane wires pitches tpcs ontraj h).1 hh
  exact List.getElem?_mem ht

theorem foldl_min_eq_headD (ws : List Nat) (hne : ws ≠ []) (hw : ∀ w ∈ ws, w ≤ 65535) :
    ws.foldl min 65535 = (setOfList wireLt ws).headD 0 := by
  have hmem : ∀ x, x ∈ setOfList wireLt ws ↔ x ∈ ws := fun x =>
    mem_setOfList wireLt wireLt_total x ws
  have hSne : setOfList wireLt ws ≠ [] := by
    obtain ⟨a, ha⟩ := List.exists_mem_of_ne_nil ws hne
    exact List.ne_nil_of_mem ((hmem a).2 ha)
  have h1 : (setOfList wireLt ws).headD 0 ∈ ws := (hmem _).1 (headD_mem _ hSne 0)
  have h2 : ws.foldl min 65535 ∈ ws := by
    rcases foldl_min_eq_or_mem ws 65535 with h | h
    · obtain ⟨a, ha⟩ := List.exists_mem_of_ne_nil ws hne
      have h3 := foldl_min_le_mem ws 65535 a ha
      have h4 := hw a ha
      have : a = ws.foldl min 65535 := by omega
      rw [← this]
      exact ha
    · exact h
  have h3 := foldl_min_le_mem ws 65535 _ h1
  have h4 := headD_le _ (setOfList_sorted ws) 0 _ ((hmem _).2 h2)
  omega

theorem foldl_max_eq_getLastD (ws : List Nat) (hne : ws ≠ []) :
    ws.foldl max 0 = (setOfList wireLt ws).getLastD 0 := by
  have hmem : ∀ x, x ∈ setOfList wireLt ws ↔ x ∈ ws := fun x =>
    mem_setOfList wireLt wireLt_total x ws
  have hSne : setOfList wireLt ws ≠ [] := by
    obtain ⟨a, ha⟩ := List.exists_mem_of_ne_nil ws hne
    exact List.ne_nil_of_mem ((hmem a).2 ha)
  have h1 : (setOfList wireLt ws).getLastD 0 ∈ ws := (hmem _).1 (getLastD_mem _ hSne 0)
  have h2 : ws.foldl max 0 ∈ ws := by
    rcases foldl_max_eq_or_mem ws 0 with h | h
    · obtain ⟨a, ha⟩ := List.exists_mem_of_ne_nil ws hne
      have h3 := foldl_max_ge_mem ws 0 a ha
      have : a = ws.foldl max 0 := by omega
      rw [← this]
      exact ha
    · exact h
  have h3 := foldl_max_ge_mem ws 0 _ h1
  have h4 := le_getLastD _ (setOfList_sorted ws) 0 _ ((hmem _).2 h2)
  omega

theorem averagePitch_pos (ps : List ℚ) (hne : ps ≠ []) (hpos : ∀ p ∈ ps, 0 < p) :
    0 < averagePitch ps := by
  have hf : ps.filter (fun p => decide (p > 0)) = ps := by
    rw [List.filter_eq_self]
    intro p hp
    simpa using hpos p hp
  rw [averagePitch_eq, hf]
  have hlen : ps.length ≠ 0 := by
    intro h
    exact hne (List.length_eq_zero.1 h)
  rw [if_neg hlen]
  apply div_pos (list_sum_pos ps hne hpos)
  exact_mod_cast Nat.pos_of_ne_zero hlen

/-- On valid hits of one TPC the loop over the TPC ids runs the counting loop once, over the
range of all valid wires. -/
theorem tpcLoop_single (fuel : Nat) (dead : List ChannelKey) (plane : Nat)
    (valid : List ValidHit) (t0 : Nat) (hne : valid ≠ [])
    (ht : ∀ h ∈ valid, h.tpc = t0) (hw : ∀ h ∈ valid, h.wire ≤ 65535) :
    tpcLoop fuel dead plane valid (setOfList wireLt (valid.map ValidHit.tpc)) (0, []) =
      (countNonDead dead plane t0
        ((setOfList wireLt (valid.map ValidHit.wire)).getLastD 0) fuel
        ((setOfList wireLt (valid.map ValidHit.wire)).headD 0) 0).map
        (fun n => (n, setOfList wireLt (valid.map ValidHit.wire))) := by
  have hmemT : ∀ x, x ∈ setOfList wireLt (valid.map ValidHit.tpc) ↔
      x ∈ valid.map ValidHit.tpc := fun x => mem_setOfList wireLt wireLt_total x _
  have hT : setOfList wireLt (valid.map ValidHit.tpc) = [t0] := by
    apply sorted_const_eq_singleton _ t0 (setOfList_sorted _)
    · obtain ⟨a, ha⟩ := List.exists_mem_of_ne_nil valid hne
      exact List.ne_nil_of_mem ((hmemT a.tpc).2 (List.mem_map_of_mem _ ha))
    · intro x hx
      obtain ⟨h, hh, rfl⟩ := List.mem_map.1 ((hmemT x).1 hx)
      exact ht h hh
  have hW : tpcWires valid t0 = valid.map ValidHit.wire := by
    unfold tpcWires
    congr 1
    rw [List.filter_eq_self]
    intro h hh
    simpa using ht h hh
  have hWne : valid.map ValidHit.wire ≠ [] := by
    intro h
    exact hne (List.map_eq_nil_iff.1 h)
  have hWle : ∀ w ∈ valid.map ValidHit.wire, w ≤ 65535 := by
    intro w hw2
    obtain ⟨h, hh, rfl⟩ := List.mem_map.1 hw2
    exact hw h hh
  have hmin := foldl_min_eq_headD _ hWne hWle
  have hmax := foldl_max_eq_getLastD _ hWne
  have hle : (setOfList wireLt (valid.map ValidHit.wire)).headD 0 ≤
      (setOfList wireLt (valid.map ValidHit.wire)).getLastD 0 := by
    have hmemW : ∀ x, x ∈ setOfList wireLt (valid.map ValidHit.wire) ↔
        x ∈ valid.map ValidHit.wire := fun x => mem_setOfList wireLt wireLt_total x _
    have hSne : setOfList wireLt (valid.map ValidHit.wire) ≠ [] := by
      obtain ⟨a, ha⟩ := List.exists_mem_of_ne_nil _ hWne
      exact List.ne_nil_of_mem ((hmemW a).2 ha)
    exact le_getLastD _ (setOfList_sorted _) 0 _ (headD_mem _ hSne 0)
  rw [hT]
  simp only [tpcLoop, tpcStep, scanTpc_eq, hW, hmin, hmax]
  have hset : (valid.map ValidHit.wire).foldl (fun s w => setInsert wireLt w s) [] =
      setOfList wireLt (valid.map ValidHit.wire) := rfl
  rw [hset, if_pos hle]
  cases countNonDead dead plane t0 ((setOfList wireLt (valid.map ValidHit.wire)).getLastD 0)
    fuel ((setOfList wireLt (valid.map ValidHit.wire)).headD 0) 0 <;> rfl
theorem card_le_liveInRange (dead : List ChannelKey) (plane tpc : Nat) (ws : List Nat)
    (hne : ws ≠ []) (hlive : ∀ w ∈ ws, isDead dead w plane tpc = false) :
    (setOfList wireLt ws).headD 0 ≤ (setOfList wireLt ws).getLastD 0 ∧
    (setOfList wireLt ws).length ≤ liveInRange dead plane tpc
      ((setOfList wireLt ws).headD 0) ((setOfList wireLt ws).getLastD 0) := by
  have hsorted := setOfList_sorted ws
  have hmem : ∀ x, x ∈ setOfList wireLt ws ↔ x ∈ ws := fun x =>
    mem_setOfList wireLt wireLt_total x ws
  have hSne : setOfList wireLt ws ≠ [] := by
    obtain ⟨a, ha⟩ := List.exists_mem_of_ne_nil ws hne
    exact List.ne_nil_of_mem ((hmem a).2 ha)
  refine ⟨le_getLastD _ hsorted 0 _ (headD_mem _ hSne 0), ?_⟩
  rw [setOfList_length, liveInRange_eq_card]
  apply Finset.card_le_card
  intro w hw
  rw [List.mem_toFinset] at hw
  rw [Finset.mem_filter, Finset.mem_Icc]
  exact ⟨⟨headD_le _ hsorted 0 w ((hmem w).2 hw), le_getLastD _ hsorted 0 w ((hmem w).2 hw)⟩,
    hlive w hw⟩

/-- The result of `calculate_plane_efficiency` on a batch whose valid hits lie in one TPC
`t0` and have pairwise distinct wires. -/
theorem viewer_single_tpc (fuel : Nat) (dead : List ChannelKey) (wires : List Nat)
    (pitches : List ℚ) (tpcs : List Nat) (ontraj : List Bool) (plane : Int) (t0 : Nat)
    (ht : ∀ h ∈ validHits dead plane wires pitches tpcs ontraj, h.tpc = t0)
    (hw : ∀ h ∈ validHits dead plane wires pitches tpcs ontraj, h.wire ≤ 65535) :
    calculate_plane_efficiency fuel true dead wires pitches tpcs ontraj plane =
      if (validHits dead plane wires pitches tpcs ontraj).length < 25 then some sentinel
      else if has_large_holes (setOfList wireLt
          ((validHits dead plane wires pitches tpcs ontraj).map ValidHit.wire)) then
        some sentinel
      else
        match countNonDead dead (toUShort plane) t0
          ((setOfList wireLt ((validHits dead plane wires pitches tpcs ontraj).map
            ValidHit.wire)).getLastD 0) fuel
          ((setOfList wireLt ((validHits dead plane wires pitches tpcs ontraj).map
            ValidHit.wire)).headD 0) 0 with
        | none => none
        | some n =>
          if n < 25 then some sentinel
          else some (((setOfList wireLt ((validHits dead plane wires pitches tpcs ontraj).map
              ValidHit.wire)).length : ℚ) / (n : ℚ),
            averagePitch ((validHits dead plane wires pitches tpcs ontraj).map
              ValidHit.pitch)) := by
  unfold calculate_plane_efficiency
  by_cases hemp : wires.isEmpty = true
  · have hnil : wires = [] := List.isEmpty_iff.1 hemp
    subst hnil
    simp [validHits]
  · have hcond : (!true || wires.isEmpty) = false := by simpa using hemp
    rw [hcond]
    simp only [Bool.false_eq_true, if_false]
    generalize hV : validHits dead plane wires pitches tpcs ontraj = V at ht hw ⊢
    by_cases h25 : V.length < 25
    · simp only [h25, if_true]
    · simp only [h25, if_false, std_sort_setOfList]
      by_cases hh : has_large_holes (setOfList wireLt (V.map ValidHit.wire)) = true
      · simp only [hh, if_true]
      · simp only [hh, Bool.false_eq_true, if_false]
        have hne : V ≠ [] := by
          intro h
          rw [h] at h25
          simp at h25
        rw [tpcLoop_single fuel dead (toUShort plane) V t0 hne ht hw]
        cases hc : countNonDead dead (toUShort plane) t0
            ((setOfList wireLt (V.map ValidHit.wire)).getLastD 0) fuel
            ((setOfList wireLt (V.map ValidHit.wire)).headD 0) 0 with
        | none => rfl
        | some n =>
          simp only [Option.map_some']
          by_cases hn : n < 25
          · simp only [hn, if_true]
          · simp only [hn, if_false]
            have hWne : V.map ValidHit.wire ≠ [] := fun h => hne (List.map_eq_nil_iff.1 h)
            have hlive : ∀ w ∈ V.map ValidHit.wire,
                isDead dead w (toUShort plane) t0 = false := by
              intro w hw2
              obtain ⟨h, hh2, rfl⟩ := List.mem_map.1 hw2
              have := validHits_not_dead dead plane wires pitches tpcs ontraj h
                (by rw [hV]; exact hh2)
              rw [ht h hh2] at this
              exact this
            obtain ⟨hle, hcard⟩ := card_le_liveInRange dead (toUShort plane) t0 _ hWne hlive
            obtain ⟨_, hneq⟩ := countNonDead_some _ _ _ _ _ _ _ _ hle hc
            have hpos : 0 < n := by omega
            have hq : ((setOfList wireLt (V.map ValidHit.wire)).length : ℚ) / (n : ℚ) ≤ 1 := by
              rw [div_le_one (by exact_mod_cast hpos)]
              exact_mod_cast (by omega : (setOfList wireLt (V.map ValidHit.wire)).length ≤ n)
            simp only [gt_iff_lt, hpos, if_true, min_eq_left hq]

/-- The result of `hit_analyzer` on one plane of a batch whose valid hits lie in one TPC `t0`
and have pairwise distinct wires, every per-hit plane being the plane index and every pitch
being -1 or positive. -/
theorem analyzer_single_tpc (fuel : Nat) (dead : List ChannelKey) (trk_id : Int)
    (track_length : ℚ) (wires planes tpcs : List Nat) (ontraj : List Bool) (pitches : List ℚ)
    (plane : Int) (t0 : Nat) (hlen : planes.length = wires.length)
    (hpl : ∀ pl ∈ planes, pl = toUShort plane) (hp : ∀ p ∈ pitches, p = -1 ∨ 0 < p)
    (ht : ∀ h ∈ validHits dead plane wires pitches tpcs ontraj, h.tpc = t0)
    (hnd : ((validHits dead plane wires pitches tpcs ontraj).map ValidHit.wire).Nodup) :
    analyzer_plane fuel dead trk_id track_length wires planes tpcs ontraj pitches plane =
      if (validHits dead plane wires pitches tpcs ontraj).length < 25 then some none
      else if has_large_holes (setOfList wireLt
          ((validHits dead plane wires pitches tpcs ontraj).map ValidHit.wire)) then
        some none
      else
        match countNonDead dead (toUShort plane) t0
          ((setOfList wireLt ((validHits dead plane wires pitches tpcs ontraj).map
            ValidHit.wire)).getLastD 0) fuel
          ((setOfList wireLt ((validHits dead plane wires pitches tpcs ontraj).map
            ValidHit.wire)).headD 0) 0 with
        | none => none
        | some n =>
          if n < 25 then some none
          else some (some (EffRow.mk trk_id plane t0 track_length
            (setOfList wireLt ((validHits dead plane wires pitches tpcs ontraj).map
              ValidHit.wire)).length n
            (((setOfList wireLt ((validHits dead plane wires pitches tpcs ontraj).map
              ValidHit.wire)).length : ℚ) / (n : ℚ))
            (averagePitch ((validHits dead plane wires pitches tpcs ontraj).map
              ValidHit.pitch)))) := by
  obtain ⟨h1, h2, h3⟩ := valid_columns_eq_validHits dead plane wires planes tpcs ontraj pitches
    hlen hpl hp
  have hlive0 := validHits_not_dead dead plane wires pitches tpcs ontraj
  have hpos0 := validHits_pitch_pos dead plane wires pitches tpcs ontraj
  unfold analyzer_plane
  rw [h1, h2, h3]
  generalize validHits dead plane wires pitches tpcs ontraj = V at ht hnd hlive0 hpos0 ⊢
  have hSlen : (setOfList wireLt (V.map ValidHit.wire)).length = V.length := by
    rw [setOfList_length, List.toFinset_card_of_nodup hnd, List.length_map]
  unfold calculate_efficiency efficiency_values
  by_cases h25 : V.length < 25
  · simp only [h25, if_true, hSlen]
    by_cases hemp : (V.map ValidHit.wire).isEmpty = true
    · simp only [hemp, if_true]
    · simp only [hemp, Bool.false_eq_true, if_false]
  · have hne : V ≠ [] := by
      intro h
      rw [h] at h25
      simp at h25
    have hWne : V.map ValidHit.wire ≠ [] := fun h => hne (List.map_eq_nil_iff.1 h)
    have hemp : (V.map ValidHit.wire).isEmpty = false := by
      cases hW : V.map ValidHit.wire with
      | nil => exact absurd hW hWne
      | cons a r => rfl
    have hhead : (V.map ValidHit.tpc).headD 0 = t0 := by
      cases V with
      | nil => exact absurd rfl hne
      | cons a r => exact ht a (List.mem_cons_self _ _)
    simp only [h25, if_false, hemp, Bool.false_eq_true, hSlen, std_sort_setOfList, hhead]
    by_cases hh : has_large_holes (setOfList wireLt (V.map ValidHit.wire)) = true
    · simp only [hh, if_true]
    · simp only [hh, Bool.false_eq_true, if_false]
      cases hc : countNonDead dead (toUShort plane) t0
          ((setOfList wireLt (V.map ValidHit.wire)).getLastD 0) fuel
          ((setOfList wireLt (V.map ValidHit.wire)).headD 0) 0 with
      | none => rfl
      | some n =>
        simp only
        by_cases hn : n < 25
        · simp only [hn, if_true]
        · have hpos : 0 < n := by omega
          have hlive : ∀ w ∈ V.map ValidHit.wire,
              isDead dead w (toUShort plane) t0 = false := by
            intro w hw2
            obtain ⟨h, hh2, rfl⟩ := List.mem_map.1 hw2
            have := hlive0 h hh2
            rw [ht h hh2] at this
            exact this
          have hu : (uniqueHitWires dead (toUShort plane) t0 (V.map ValidHit.wire)).length =
              V.length := by
            rw [uniqueHitWires_length_eq_card]
            have hf : (V.map ValidHit.wire).filter
                (fun w => !isDead dead w (toUShort plane) t0) = V.map ValidHit.wire := by
              rw [List.filter_eq_self]
              intro w hw2
              simp [hlive w hw2]
            rw [hf, List.toFinset_card_of_nodup hnd, List.length_map]
          have havg : averagePitch (V.map ValidHit.pitch) > 0 := by
            apply averagePitch_pos
            · exact fun h => hne (List.map_eq_nil_iff.1 h)
            · intro p hp2
              obtain ⟨h, hh2, rfl⟩ := List.mem_map.1 hp2
              exact hpos0 h hh2
          simp only [hn, if_false, gt_iff_lt, hpos, if_true, hu, havg]

/-- C28: on a batch of one TPC the two estimators agree. For every dead-channel set, every
fuel and every batch of 16-bit wires in which the vector of per-hit planes is as long as the
vector of wires (so for every batch of equal-length vectors), all hits carry the TPC id `t0`,
every per-hit plane is the plane index (0, 1 or 2), every pitch is -1 or positive and the
wire numbers are pairwise distinct: `hit_analyzer` (the valid-hit columns followed by
`calculate_efficiency`) writes a row with `(Efficiency, AvgPitch) = (e, p)` exactly when
`calculate_plane_efficiency` of `event_info_viewer`, run with an opened dead-channel file,
returns the pair `(e, p)` and this pair is not the sentinel. -/
theorem estimators_agree_single_tpc (fuel : Nat) (dead : List ChannelKey) (trk_id : Int)
    (track_length : ℚ) (wires planes tpcs : List Nat) (ontraj : List Bool) (pitches : List ℚ)
    (plane : Int) (t0 : Nat) (e p : ℚ)
    (hlenp : planes.length = wires.length) (hplane : 0 ≤ plane ∧ plane ≤ 2) (hpl : ∀ pl ∈ planes, (pl : Int) = plane)
    (htpc : ∀ t ∈ tpcs, t = t0) (hpitch : ∀ q ∈ pitches, q = -1 ∨ 0 < q)
    (hw : ∀ w ∈ wires, w ≤ 65535) (hnodup : wires.Nodup) :
    (∃ row, analyzer_plane fuel dead trk_id track_length wires planes tpcs ontraj pitches
        plane = some (some row) ∧ row.efficiency = e ∧ row.avgPitch = p) ↔
      (calculate_plane_efficiency fuel true dead wires pitches tpcs ontraj plane = some (e, p) ∧
        (e, p) ≠ sentinel) := by
  have hpl2 : ∀ pl ∈ planes, pl = toUShort plane := by
    intro pl hmem
    have := hpl pl hmem
    unfold toUShort
    omega
  have ht : ∀ h ∈ validHits dead plane wires pitches tpcs ontraj, h.tpc = t0 := fun h hh =>
    htpc _ (validHits_tpc_mem dead plane wires pitches tpcs ontraj h hh)
  have hsub := validHits_wire_sublist dead plane wires pitches tpcs ontraj
  have hnd : ((validHits dead plane wires pitches tpcs ontraj).map ValidHit.wire).Nodup :=
    hsub.nodup hnodup
  have hw2 : ∀ h ∈ validHits dead plane wires pitches tpcs ontraj, h.wire ≤ 65535 :=
    fun h hh => hw _ (hsub.subset (List.mem_map_of_mem _ hh))
  rw [analyzer_single_tpc fuel dead trk_id track_length wires planes tpcs ontraj pitches plane
    t0 hlenp hpl2 hpitch ht hnd,
    viewer_single_tpc fuel dead wires pitches tpcs ontraj plane t0 ht hw2]
  have hsent : ∀ a b : ℚ, 0 ≤ a → (a, b) ≠ sentinel := by
    intro a b ha h
    have := congrArg Prod.fst h
    simp only [sentinel] at this
    linarith
  by_cases h25 : (validHits dead plane wires pitches tpcs ontraj).length < 25
  · simp only [h25, if_true]
    constructor
    · rintro ⟨row, hrow, _⟩
      simp at hrow
    · rintro ⟨h1, h2⟩
      rw [Option.some.injEq] at h1
      exact absurd h1.symm h2
  · simp only [h25, if_false]
    by_cases hh : has_large_holes (setOfList wireLt
        ((validHits dead plane wires pitches tpcs ontraj).map ValidHit.wire)) = true
    · simp only [hh, if_true]
      constructor
      · rintro ⟨row, hrow, _⟩
        simp at hrow
      · rintro ⟨h1, h2⟩
        rw [Option.some.injEq] at h1
        exact absurd h1.symm h2
    · simp only [hh, Bool.false_eq_true, if_false]
      cases countNonDead dead (toUShort plane) t0
          ((setOfList wireLt ((validHits dead plane wires pitches tpcs ontraj).map
            ValidHit.wire)).getLastD 0) fuel
          ((setOfList wireLt ((validHits dead plane wires pitches tpcs ontraj).map
            ValidHit.wire)).headD 0) 0 with
      | none =>
        simp only
        constructor
        · rintro ⟨row, hrow, _⟩
          simp at hrow
        · rintro ⟨h1, _⟩
          simp at h1
      | some n =>
        simp only
        by_cases hn : n < 25
        · simp only [hn, if_true]
          constructor
          · rintro ⟨row, hrow, _⟩
            simp at hrow
          · rintro ⟨h1, h2⟩
            rw [Option.some.injEq] at h1
            exact absurd h1.symm h2
        · simp only [hn, if_false]
          constructor
          · rintro ⟨row, hrow, he, hp2⟩
            simp only [Option.some.injEq] at hrow
            subst hrow
            simp only at he hp2
            subst he
            subst hp2
            refine ⟨rfl, hsent _ _ ?_⟩
            positivity
          · rintro ⟨h1, _⟩
            simp only [Option.some.injEq, Prod.mk.injEq] at h1
            exact ⟨_, rfl, h1.1, h1.2⟩
/-- Witness of `estimators_agree_single_tpc`: the end-to-end scenario (dead channel
`(10,0,0)`, 35 hits on the wires 1..35 of TPC 0 on plane 0, pitch 1), on which
`event_info_viewer` returns `(1, 1)`; so `hit_analyzer` writes a row with Efficiency 1 and
AvgPitch 1. -/
theorem estimators_agree_single_tpc_witness :
    calculate_plane_efficiency 65537 true [(10, 0, 0)] (List.range' 1 35) (List.replicate 35 1)
      (List.replicate 35 0) (List.replicate 35 true) 0 = some (1, 1) ∧
    ∃ row, analyzer_plane 65537 [(10, 0, 0)] 7 60 (List.range' 1 35) (List.replicate 35 0)
        (List.replicate 35 0) (List.replicate 35 true) (List.replicate 35 1) 0 =
        some (some row) ∧ row.efficiency = 1 ∧ row.avgPitch = 1 :=
  ⟨plane_efficiency_scenario,
    (estimators_agree_single_tpc 65537 [(10, 0, 0)] 7 60 (List.range' 1 35)
      (List.replicate 35 0) (List.replicate 35 0) (List.replicate 35 true)
      (List.replicate 35 1) 0 0 1 1 (by decide) (by decide) (by decide) (by decide)
      (by intro q hq; rw [List.eq_of_mem_replicate hq]; norm_num) (by decide)
      (by decide)).2 ⟨plane_efficiency_scenario, one_one_ne_sentinel⟩⟩

/-! ## `dead_wires`: the rows of plane 0 -/

theorem addAt_length : ∀ (i : Nat) (cells : List Nat), (addAt i cells).length = cells.length := by
  intro i cells
  induction cells generalizing i with
  | nil => cases i <;> rfl
  | cons c r ih =>
    cases i with
    | zero => rfl
    | succ i => simp [addAt, ih]

theorem addAt_getD_eq_zero : ∀ (cells : List Nat) (i j : Nat), j < cells.length →
    ((addAt i cells).getD j 0 = 0 ↔ cells.getD j 0 = 0 ∧ i ≠ j) := by
  intro cells
  induction cells with
  | nil =>
    intro i j hj
    simp at hj
  | cons c r ih =>
    intro i j hj
    cases i with
    | zero =>
      cases j with
      | zero => simp [addAt]
      | succ j => simp [addAt]
    | succ i =>
      cases j with
      | zero => simp [addAt]
      | succ j =>
        have hj2 : j < r.length := by simpa using hj
        simpa [addAt] using ih i j hj2

theorem getBinContent_inner (h : TH1F) (k : Nat) (hk : k < h.nbins) :
    h.GetBinContent ((k + 1 : Nat) : Int) = h.cells.getD (k + 1) 0 := by
  unfold TH1F.GetBinContent
  have h1 : ¬ (((k + 1 : Nat) : Int) < 0) := by omega
  have h2 : ¬ ((((k + 1 : Nat) : Int)).toNat ≥ h.nbins + 2) := by
    rw [Int.toNat_ofNat]
    omega
  rw [if_neg h1, if_neg h2, Int.toNat_ofNat]

theorem findBin_inner (h : TH1F) (m M w : Nat) (hwf : histFor h m M) (hmw : m ≤ w)
    (hwM : w ≤ M) : h.FindBin (w : Int) = 1 + (w - m) := by
  obtain ⟨hn, hlo, hup, _⟩ := hwf
  unfold TH1F.FindBin
  rw [hlo, hup]
  have h1 : ¬ ((w : Int) < (m : Int)) := by omega
  have h2 : ¬ ¬ ((w : Int) < (M : Int) + 1) := by omega
  rw [if_neg h1, if_neg h2]
  have e1 : ((w : Int) - (m : Int)).toNat = w - m := by omega
  have e2 : ((M : Int) + 1 - (m : Int)).toNat = M + 1 - m := by omega
  rw [e1, e2, hn]
  have hpos : 0 < M + 1 - m := by omega
  rw [Nat.mul_div_cancel_left _ hpos]

theorem fill_zero_iff (h : TH1F) (m M w k : Nat) (hwf : histFor h m M) (hmw : m ≤ w)
    (hwM : w ≤ M) (hk : k < h.nbins) :
    histFor (h.Fill (w : Int)) m M ∧
    ((h.Fill (w : Int)).GetBinContent ((k + 1 : Nat) : Int) = 0 ↔
      h.GetBinContent ((k + 1 : Nat) : Int) = 0 ∧ w ≠ m + k) := by
  have hfb := findBin_inner h m M w hwf hmw hwM
  obtain ⟨hn, hlo, hup, hlen⟩ := hwf
  constructor
  · refine ⟨hn, hlo, hup, ?_⟩
    show (addAt (h.FindBin (w : Int)) h.cells).length = h.nbins + 2
    rw [addAt_length, hlen]
  · have hk2 : k < (h.Fill (w : Int)).nbins := hk
    rw [getBinContent_inner _ k hk2, getBinContent_inner h k hk]
    show (addAt (h.FindBin (w : Int)) h.cells).getD (k + 1) 0 = 0 ↔ _
    rw [addAt_getD_eq_zero h.cells _ (k + 1) (by omega), hfb]
    constructor
    · rintro ⟨h1, h2⟩
      exact ⟨h1, by omega⟩
    · rintro ⟨h1, h2⟩
      exact ⟨h1, by omega⟩

/-- The loop "Process plane P" keeps the bins of both histograms, and a bin of the histogram
of TPC `t` is empty afterwards exactly when it was empty before and no hit of the three
vectors has the wire of the bin, TPC `t` and the plane. -/
theorem fillPlane_zero_iff (plane m M : Nat) :
    ∀ (ws ts pls : List Nat) (hs : TH1F × TH1F),
      histFor hs.1 m M → histFor hs.2 m M → (∀ w ∈ ws, m ≤ w ∧ w ≤ M) →
      histFor (fillPlane plane (m : Int) ((M : Int) + 1) ws ts pls hs).1 m M ∧
      histFor (fillPlane plane (m : Int) ((M : Int) + 1) ws ts pls hs).2 m M ∧
      ∀ k, k < M + 1 - m →
        (((fillPlane plane (m : Int) ((M : Int) + 1) ws ts pls hs).1.GetBinContent
            ((k + 1 : Nat) : Int) = 0 ↔
          hs.1.GetBinContent ((k + 1 : Nat) : Int) = 0 ∧
            (m + k, 0, plane) ∉ hitTriples ws ts pls) ∧
        ((fillPlane plane (m : Int) ((M : Int) + 1) ws ts pls hs).2.GetBinContent
            ((k + 1 : Nat) : Int) = 0 ↔
          hs.2.GetBinContent ((k + 1 : Nat) : Int) = 0 ∧
            (m + k, 1, plane) ∉ hitTriples ws ts pls)) := by
  intro ws
  induction ws with
  | nil =>
    intro ts pls hs h1 h2 _
    simp [fillPlane, hitTriples, h1, h2]
  | cons w ws ih =>
    intro ts pls hs h1 h2 hw
    rcases ts with _ | ⟨t, ts⟩
    · simp [fillPlane, hitTriples, h1, h2]
    rcases pls with _ | ⟨pl, pls⟩
    · simp [fillPlane, hitTriples, h1, h2]
    have hw0 := hw w (List.mem_cons_self _ _)
    have hwr : ∀ x ∈ ws, m ≤ x ∧ x ≤ M := fun x hx => hw x (List.mem_cons_of_mem _ hx)
    have hbound : (w : Int) ≥ (m : Int) ∧ (w : Int) < (M : Int) + 1 := by omega
    simp only [fillPlane, hitTriples, List.mem_cons, Prod.mk.injEq, not_or]
    by_cases hpl : pl = plane
    · by_cases ht0 : t = 0
      · subst ht0
        have hcond : (pl = plane ∧ (w : Int) ≥ (m : Int) ∧ (w : Int) < (M : Int) + 1) :=
          ⟨hpl, hbound⟩
        rw [if_pos hcond]
        simp only [if_true]
        have hfill := fun k hk => fill_zero_iff hs.1 m M w k h1 hw0.1 hw0.2 hk
        have hwf1 : histFor (hs.1.Fill (w : Int)) m M := by
          have hn := h1.1
          exact (fill_zero_iff hs.1 m M w 0 h1 hw0.1 hw0.2 (by omega)).1
        obtain ⟨r1, r2, r3⟩ := ih ts pls (hs.1.Fill (w : Int), hs.2) hwf1 h2 hwr
        refine ⟨r1, r2, ?_⟩
        intro k hk
        obtain ⟨q1, q2⟩ := r3 k hk
        have hk' : k < hs.1.nbins := by rw [h1.1]; exact hk
        constructor
        · rw [q1, (hfill k hk').2]
          constructor
          · rintro ⟨⟨a, b⟩, c⟩
            exact ⟨a, fun hh => b hh.1.symm, c⟩
          · rintro ⟨a, b, c⟩
            refine ⟨⟨a, ?_⟩, c⟩
            intro hh
            exact b ⟨hh.symm, trivial, hpl.symm⟩
        · rw [q2]
          constructor
          · rintro ⟨a, c⟩
            exact ⟨a, fun hh => by simp at hh, c⟩
          · rintro ⟨a, _, c⟩
            exact ⟨a, c⟩
      · by_cases ht1 : t = 1
        · subst ht1
          have hcond : (pl = plane ∧ (w : Int) ≥ (m : Int) ∧ (w : Int) < (M : Int) + 1) :=
            ⟨hpl, hbound⟩
          rw [if_pos hcond]
          simp only [one_ne_zero, if_false, if_true]
          have hfill := fun k hk => fill_zero_iff hs.2 m M w k h2 hw0.1 hw0.2 hk
          have hwf2 : histFor (hs.2.Fill (w : Int)) m M := by
            have hn := h2.1
            exact (fill_zero_iff hs.2 m M w 0 h2 hw0.1 hw0.2 (by omega)).1
          obtain ⟨r1, r2, r3⟩ := ih ts pls (hs.1, hs.2.Fill (w : Int)) h1 hwf2 hwr
          refine ⟨r1, r2, ?_⟩
          intro k hk
          obtain ⟨q1, q2⟩ := r3 k hk
          have hk' : k < hs.2.nbins := by rw [h2.1]; exact hk
          constructor
          · rw [q1]
            constructor
            · rintro ⟨a, c⟩
              exact ⟨a, fun hh => by simp at hh, c⟩
            · rintro ⟨a, _, c⟩
              exact ⟨a, c⟩
          · rw [q2, (hfill k hk').2]
            constructor
            · rintro ⟨⟨a, b⟩, c⟩
              exact ⟨a, fun hh => b hh.1.symm, c⟩
            · rintro ⟨a, b, c⟩
              refine ⟨⟨a, ?_⟩, c⟩
              intro hh
              exact b ⟨hh.symm, trivial, hpl.symm⟩
        · have hcond : (pl = plane ∧ (w : Int) ≥ (m : Int) ∧ (w : Int) < (M : Int) + 1) :=
            ⟨hpl, hbound⟩
          rw [if_pos hcond]
          simp only [ht0, ht1, if_false]
          obtain ⟨r1, r2, r3⟩ := ih ts pls hs h1 h2 hwr
          refine ⟨r1, r2, ?_⟩
          intro k hk
          obtain ⟨q1, q2⟩ := r3 k hk
          constructor
          · rw [q1]
            constructor
            · rintro ⟨a, c⟩
              exact ⟨a, fun hh => ht0 hh.2.1.symm, c⟩
            · rintro ⟨a, _, c⟩
              exact ⟨a, c⟩
          · rw [q2]
            constructor
            · rintro ⟨a, c⟩
              exact ⟨a, fun hh => ht1 hh.2.1.symm, c⟩
            · rintro ⟨a, _, c⟩
              exact ⟨a, c⟩
    · have hcond : ¬ (pl = plane ∧ (w : Int) ≥ (m : Int) ∧ (w : Int) < (M : Int) + 1) :=
        fun hh => hpl hh.1
      rw [if_neg hcond]
      obtain ⟨r1, r2, r3⟩ := ih ts pls hs h1 h2 hwr
      refine ⟨r1, r2, ?_⟩
      intro k hk
      obtain ⟨q1, q2⟩ := r3 k hk
      constructor
      · rw [q1]
        constructor
        · rintro ⟨a, c⟩
          exact ⟨a, fun hh => hpl hh.2.2.symm, c⟩
        · rintro ⟨a, _, c⟩
          exact ⟨a, c⟩
      · rw [q2]
        constructor
        · rintro ⟨a, c⟩
          exact ⟨a, fun hh => hpl hh.2.2.symm, c⟩
        · rintro ⟨a, _, c⟩
          exact ⟨a, c⟩
theorem getD_replicate_zero (n j : Nat) : (List.replicate n (0 : Nat)).getD j 0 = 0 := by
  induction n generalizing j with
  | zero => simp
  | succ n ih => cases j <;> simp [List.replicate_succ, ih]

theorem create_content_zero (nbins xlow xup bin : Int) :
    (TH1F.create nbins xlow xup).GetBinContent bin = 0 := by
  unfold TH1F.GetBinContent TH1F.create
  simp only
  split_ifs <;> exact getD_replicate_zero _ _

theorem fillEntry_plane0 (l : WireLimits) : ∀ (entries : List WireEntry) (hs : WireHists),
    ((entries.foldl (fillEntry l) hs).tpc0_plane0,
      (entries.foldl (fillEntry l) hs).tpc1_plane0) =
    entries.foldl (fun pr e =>
      fillPlane 0 l.min_wires0 l.max_wires0 e.wires0 e.tpcs0 e.planes0 pr)
      (hs.tpc0_plane0, hs.tpc1_plane0) := by
  intro entries
  induction entries with
  | nil => intro hs; rfl
  | cons e r ih =>
    intro hs
    rw [List.foldl_cons, List.foldl_cons, ih (fillEntry l hs e)]
    rfl

theorem fillEntries_zero_iff (m M : Nat) :
    ∀ (entries : List WireEntry) (hs : TH1F × TH1F),
      histFor hs.1 m M → histFor hs.2 m M →
      (∀ e ∈ entries, ∀ w ∈ e.wires0, m ≤ w ∧ w ≤ M) →
      histFor (entries.foldl (fun pr e =>
        fillPlane 0 (m : Int) ((M : Int) + 1) e.wires0 e.tpcs0 e.planes0 pr) hs).1 m M ∧
      histFor (entries.foldl (fun pr e =>
        fillPlane 0 (m : Int) ((M : Int) + 1) e.wires0 e.tpcs0 e.planes0 pr) hs).2 m M ∧
      ∀ k, k < M + 1 - m →
        (((entries.foldl (fun pr e =>
            fillPlane 0 (m : Int) ((M : Int) + 1) e.wires0 e.tpcs0 e.planes0 pr) hs).1
            |>.GetBinContent ((k + 1 : Nat) : Int)) = 0 ↔
          hs.1.GetBinContent ((k + 1 : Nat) : Int) = 0 ∧
            ∀ e ∈ entries, (m + k, 0, 0) ∉ hitTriples e.wires0 e.tpcs0 e.planes0) ∧
        (((entries.foldl (fun pr e =>
            fillPlane 0 (m : Int) ((M : Int) + 1) e.wires0 e.tpcs0 e.planes0 pr) hs).2
            |>.GetBinContent ((k + 1 : Nat) : Int)) = 0 ↔
          hs.2.GetBinContent ((k + 1 : Nat) : Int) = 0 ∧
            ∀ e ∈ entries, (m + k, 1, 0) ∉ hitTriples e.wires0 e.tpcs0 e.planes0) := by
  intro entries
  induction entries with
  | nil =>
    intro hs h1 h2 _
    simp [h1, h2]
  | cons e r ih =>
    intro hs h1 h2 hw
    obtain ⟨f1, f2, f3⟩ := fillPlane_zero_iff 0 m M e.wires0 e.tpcs0 e.planes0 hs h1 h2
      (hw e (List.mem_cons_self _ _))
    obtain ⟨r1, r2, r3⟩ := ih _ f1 f2 (fun x hx => hw x (List.mem_cons_of_mem _ hx))
    rw [List.foldl_cons]
    refine ⟨r1, r2, ?_⟩
    intro k hk
    obtain ⟨q1, q2⟩ := r3 k hk
    obtain ⟨g1, g2⟩ := f3 k hk
    constructor
    · rw [q1, g1]
      simp only [List.mem_cons, forall_eq_or_imp, and_assoc]
    · rw [q2, g2]
      simp only [List.mem_cons, forall_eq_or_imp, and_assoc]

theorem columnMin_le (column : List (List Nat)) : ∀ init,
    column.foldl (fun m v => v.foldl min m) init ≤ init ∧
    ∀ v ∈ column, ∀ w ∈ v, column.foldl (fun m v => v.foldl min m) init ≤ w := by
  induction column with
  | nil =>
    intro init
    simp
  | cons v r ih =>
    intro init
    obtain ⟨h1, h2⟩ := ih (v.foldl min init)
    rw [List.foldl_cons]
    refine ⟨le_trans h1 (foldl_min_le_init v init), ?_⟩
    intro u hu w hw
    rcases List.mem_cons.1 hu with hu | hu
    · subst hu
      exact le_trans h1 (foldl_min_le_mem u init w hw)
    · exact h2 u hu w hw

theorem le_columnMax (column : List (List Nat)) : ∀ init,
    init ≤ column.foldl (fun m v => v.foldl max m) init ∧
    ∀ v ∈ column, ∀ w ∈ v, w ≤ column.foldl (fun m v => v.foldl max m) init := by
  induction column with
  | nil =>
    intro init
    simp
  | cons v r ih =>
    intro init
    obtain ⟨h1, h2⟩ := ih (v.foldl max init)
    rw [List.foldl_cons]
    refine ⟨le_trans (foldl_max_ge_init v init) h1, ?_⟩
    intro u hu w hw
    rcases List.mem_cons.1 hu with hu | hu
    · subst hu
      exact le_trans (foldl_max_ge_mem u init w hw) h1
    · exact h2 u hu w hw

theorem deadScan_plane0 (l : WireLimits) (hs : WireHists) :
    ∀ (is : List Int) (d : DeadVectors),
      (is.foldl (deadStep l hs) d).tpc0_plane0 = d.tpc0_plane0 ++
        (is.filter (fun i => decide (hs.tpc0_plane0.GetBinContent i = 0 ∧
          l.min_wires0 + (i - 1) ≥ l.min_wires0 ∧
          l.min_wires0 + (i - 1) < l.max_wires0))).map (fun i => l.min_wires0 + (i - 1)) ∧
      (is.foldl (deadStep l hs) d).tpc1_plane0 = d.tpc1_plane0 ++
        (is.filter (fun i => decide (hs.tpc1_plane0.GetBinContent i = 0 ∧
          l.min_wires0 + (i - 1) ≥ l.min_wires0 ∧
          l.min_wires0 + (i - 1) < l.max_wires0))).map (fun i => l.min_wires0 + (i - 1)) := by
  intro is
  induction is with
  | nil =>
    intro d
    simp
  | cons i r ih =>
    intro d
    obtain ⟨h1, h2⟩ := ih (deadStep l hs d i)
    rw [List.foldl_cons, h1, h2]
    constructor
    · show (if hs.tpc0_plane0.GetBinContent i = 0 ∧ l.min_wires0 + (i - 1) ≥ l.min_wires0 ∧
          l.min_wires0 + (i - 1) < l.max_wires0 then d.tpc0_plane0 ++ [l.min_wires0 + (i - 1)]
        else d.tpc0_plane0) ++ _ = _
      by_cases hc : hs.tpc0_plane0.GetBinContent i = 0 ∧
          l.min_wires0 + (i - 1) ≥ l.min_wires0 ∧ l.min_wires0 + (i - 1) < l.max_wires0
      · rw [if_pos hc]
        simp only [List.filter_cons, decide_eq_true hc, if_true, List.map_cons,
          List.append_assoc, List.singleton_append]
      · rw [if_neg hc]
        simp only [List.filter_cons, decide_eq_false hc, Bool.false_eq_true, if_false]
    · show (if hs.tpc1_plane0.GetBinContent i = 0 ∧ l.min_wires0 + (i - 1) ≥ l.min_wires0 ∧
          l.min_wires0 + (i - 1) < l.max_wires0 then d.tpc1_plane0 ++ [l.min_wires0 + (i - 1)]
        else d.tpc1_plane0) ++ _ = _
      by_cases hc : hs.tpc1_plane0.GetBinContent i = 0 ∧
          l.min_wires0 + (i - 1) ≥ l.min_wires0 ∧ l.min_wires0 + (i - 1) < l.max_wires0
      · rw [if_pos hc]
        simp only [List.filter_cons, decide_eq_true hc, if_true, List.map_cons,
          List.append_assoc, List.singleton_append]
      · rw [if_neg hc]
        simp only [List.filter_cons, decide_eq_false hc, Bool.false_eq_true, if_false]

theorem filter_map_range_congr {α : Type} (n : Nat) (p q : Nat → Bool) (f g : Nat → α)
    (h : ∀ k, k < n → p k = q k ∧ f k = g k) :
    ((List.range n).filter p).map f = ((List.range n).filter q).map g := by
  induction n with
  | zero => rfl
  | succ n ih =>
    have hn := h n (Nat.lt_succ_self n)
    rw [List.range_succ, List.filter_append, List.filter_append, List.map_append,
      List.map_append, ih (fun k hk => h k (Nat.lt_succ_of_lt hk))]
    congr 1
    simp only [List.filter_cons, List.filter_nil, hn.1]
    cases q n
    · rfl
    · simp [hn.2]

theorem receivedHit_plane0 (entries : List WireEntry) (t w : Nat) :
    receivedHit entries 0 t w = false ↔
      ∀ e ∈ entries, (w, t, 0) ∉ hitTriples e.wires0 e.tpcs0 e.planes0 := by
  unfold receivedHit
  rw [List.any_eq_false]
  constructor
  · intro h e he hmem
    have h2 := h e he
    simp only [WireEntry.column, if_true] at h2
    apply h2
    rw [List.any_eq_true]
    exact ⟨(w, t, 0), hmem, by simp⟩
  · intro h e he
    simp only [WireEntry.column, if_true]
    intro hany
    rw [List.any_eq_true] at hany
    obtain ⟨x, hx, hcond⟩ := hany
    apply h e he
    simp only [Bool.and_eq_true, beq_iff_eq] at hcond
    obtain ⟨⟨c1, c2⟩, c3⟩ := hcond
    have : x = (w, t, 0) := by
      rcases x with ⟨a, b, c⟩
      simp only at c1 c2 c3
      rw [c1, c2, c3]
    rw [← this]
    exact hx

/-- For plane 0 the rows are the ones of the claim: for TPC 0 and for TPC 1 the vector of dead
wires of plane 0 is the ascending list of the wires of the observed range of plane 0 that
received no hit with plane 0 and that TPC. -/
theorem dead_rows_plane0 (entries : List WireEntry) :
    (dead_wires_vectors entries).select 0 0 = specDeadWires entries 0 0 ∧
    (dead_wires_vectors entries).select 0 1 = specDeadWires entries 0 1 := by
  have hcol : (fun e : WireEntry => (e.column 0).1) = WireEntry.wires0 := by
    funext e
    simp [WireEntry.column]
  have hmin := columnMin_le (entries.map WireEntry.wires0) 65535
  have hmax := le_columnMax (entries.map WireEntry.wires0) 0
  have hrange : ∀ e ∈ entries, ∀ w ∈ e.wires0,
      columnMin (entries.map WireEntry.wires0) ≤ w ∧
        w ≤ columnMax (entries.map WireEntry.wires0) := fun e he w hw =>
    ⟨hmin.2 _ (List.mem_map_of_mem _ he) w hw, hmax.2 _ (List.mem_map_of_mem _ he) w hw⟩
  simp only [DeadVectors.select, if_true, one_ne_zero, if_false, specDeadWires, hcol]
  unfold dead_wires_vectors
  simp only
  generalize hm : columnMin (entries.map WireEntry.wires0) = m at hrange
  generalize hM : columnMax (entries.map WireEntry.wires0) = M at hrange
  have hl0 : (wireLimits entries).min_wires0 = (m : Int) := by
    simp only [wireLimits, hm]
  have hl1 : (wireLimits entries).max_wires0 = (M : Int) + 1 := by
    simp only [wireLimits, hM]
  obtain ⟨s0, s1⟩ := deadScan_plane0 (wireLimits entries)
    (entries.foldl (fillEntry (wireLimits entries)) (emptyHists (wireLimits entries)))
    ((List.range' 1 (entries.foldl (fillEntry (wireLimits entries))
      (emptyHists (wireLimits entries))).tpc0_plane0.GetNbinsX).map (fun i : Nat => (i : Int)))
    (DeadVectors.mk [] [] [] [] [] [])
  rw [s0, s1]
  simp only [List.nil_append, hl0, hl1]
  by_cases hle : m ≤ M
  · have hproj := fillEntry_plane0 (wireLimits entries) entries (emptyHists (wireLimits entries))
    rw [hl0, hl1] at hproj
    have hcreate : histFor (TH1F.create ((M : Int) + 1 - (m : Int)) (m : Int) ((M : Int) + 1))
        m M := by
      have hpos : ¬ ((M : Int) + 1 - (m : Int) ≤ 0) := by omega
      have hnat : ((M : Int) + 1 - (m : Int)).toNat = M + 1 - m := by omega
      unfold histFor TH1F.create
      simp only [hpos, if_false, hnat, List.length_replicate, and_self]
    have hempty : ((emptyHists (wireLimits entries)).tpc0_plane0,
        (emptyHists (wireLimits entries)).tpc1_plane0) =
        (TH1F.create ((M : Int) + 1 - (m : Int)) (m : Int) ((M : Int) + 1),
          TH1F.create ((M : Int) + 1 - (m : Int)) (m : Int) ((M : Int) + 1)) := by
      simp only [emptyHists, hl0, hl1]
    rw [hempty] at hproj
    obtain ⟨w1, w2, w3⟩ := fillEntries_zero_iff m M entries
      (TH1F.create ((M : Int) + 1 - (m : Int)) (m : Int) ((M : Int) + 1),
        TH1F.create ((M : Int) + 1 - (m : Int)) (m : Int) ((M : Int) + 1))
      hcreate hcreate hrange
    rw [← hproj] at w1 w2 w3
    simp only at w1 w2 w3
    have hn : (entries.foldl (fillEntry (wireLimits entries))
        (emptyHists (wireLimits entries))).tpc0_plane0.GetNbinsX = M + 1 - m := w1.1
    rw [hn, List.range'_eq_map_range, List.range'_eq_map_range]
    simp only [List.map_map, List.filter_map]
    constructor
    · apply filter_map_range_congr
      intro k hk
      obtain ⟨q1, _⟩ := w3 k hk
      have hq := q1
      rw [show ((k + 1 : Nat) : Int) = ((1 + k : Nat) : Int) by omega] at hq
      constructor
      · simp only [Function.comp]
        have hb : ((m : Int) + (((1 + k : Nat) : Int) - 1) ≥ (m : Int) ∧
            (m : Int) + (((1 + k : Nat) : Int) - 1) < (M : Int) + 1) := by omega
        have hiff : ((entries.foldl (fillEntry (wireLimits entries))
            (emptyHists (wireLimits entries))).tpc0_plane0.GetBinContent
              ((1 + k : Nat) : Int) = 0 ∧
            (m : Int) + (((1 + k : Nat) : Int) - 1) ≥ (m : Int) ∧
            (m : Int) + (((1 + k : Nat) : Int) - 1) < (M : Int) + 1) ↔
            receivedHit entries 0 0 (m + k) = false := by
          rw [hq, receivedHit_plane0]
          constructor
          · rintro ⟨⟨_, hall⟩, _⟩
            exact hall
          · intro hall
            exact ⟨⟨create_content_zero _ _ _ _, hall⟩, hb⟩
        cases hr : receivedHit entries 0 0 (m + k) with
        | false =>
          rw [decide_eq_true (hiff.2 hr)]
          rfl
        | true =>
          rw [decide_eq_false (fun hh => by
            have := hiff.1 hh
            rw [hr] at this
            exact Bool.noConfusion this)]
          rfl
      · simp only [Function.comp]
        omega
    · apply filter_map_range_congr
      intro k hk
      obtain ⟨_, q2⟩ := w3 k hk
      have hq := q2
      rw [show ((k + 1 : Nat) : Int) = ((1 + k : Nat) : Int) by omega] at hq
      constructor
      · simp only [Function.comp]
        have hb : ((m : Int) + (((1 + k : Nat) : Int) - 1) ≥ (m : Int) ∧
            (m : Int) + (((1 + k : Nat) : Int) - 1) < (M : Int) + 1) := by omega
        have hiff : ((entries.foldl (fillEntry (wireLimits entries))
            (emptyHists (wireLimits entries))).tpc1_plane0.GetBinContent
              ((1 + k : Nat) : Int) = 0 ∧
            (m : Int) + (((1 + k : Nat) : Int) - 1) ≥ (m : Int) ∧
            (m : Int) + (((1 + k : Nat) : Int) - 1) < (M : Int) + 1) ↔
            receivedHit entries 0 1 (m + k) = false := by
          rw [hq, receivedHit_plane0]
          constructor
          · rintro ⟨⟨_, hall⟩, _⟩
            exact hall
          · intro hall
            exact ⟨⟨create_content_zero _ _ _ _, hall⟩, hb⟩
        cases hr : receivedHit entries 0 1 (m + k) with
        | false =>
          rw [decide_eq_true (hiff.2 hr)]
          rfl
        | true =>
          rw [decide_eq_false (fun hh => by
            have := hiff.1 hh
            rw [hr] at this
            exact Bool.noConfusion this)]
          rfl
      · simp only [Function.comp]
        omega
  · have hz : M + 1 - m = 0 := by omega
    rw [hz]
    have hnone : ∀ (h : TH1F) (is : List Nat),
        ((is.map (fun i : Nat => (i : Int))).filter (fun i => decide (h.GetBinContent i = 0 ∧
          (m : Int) + (i - 1) ≥ (m : Int) ∧ (m : Int) + (i - 1) < (M : Int) + 1))) = [] ∨
        ∃ i ∈ is, i = 0 := by
      intro h is
      by_cases h0 : ∃ i ∈ is, i = 0
      · exact Or.inr h0
      · left
        rw [List.filter_eq_nil_iff]
        intro i hi
        obtain ⟨j, hj, rfl⟩ := List.mem_map.1 hi
        have hj0 : j ≠ 0 := fun hh => h0 ⟨j, hj, hh⟩
        simp only [decide_eq_true_eq, not_and]
        intro _ _
        omega
    have hno0 : ∀ n, ¬ ∃ i ∈ List.range' 1 n, i = 0 := by
      intro n
      rintro ⟨i, hi, rfl⟩
      rw [List.mem_range'_1] at hi
      omega
    constructor
    · rcases hnone (entries.foldl (fillEntry (wireLimits entries))
          (emptyHists (wireLimits entries))).tpc0_plane0 (List.range' 1
          (entries.foldl (fillEntry (wireLimits entries))
            (emptyHists (wireLimits entries))).tpc0_plane0.GetNbinsX) with h | h
      · rw [h]
        simp
      · exact absurd h (hno0 _)
    · rcases hnone (entries.foldl (fillEntry (wireLimits entries))
          (emptyHists (wireLimits entries))).tpc1_plane0 (List.range' 1
          (entries.foldl (fillEntry (wireLimits entries))
            (emptyHists (wireLimits entries))).tpc0_plane0.GetNbinsX) with h | h
      · rw [h]
        simp
      · exact absurd h (hno0 _)

/-! ## Binary32 rounding: the literals, bounds and exact cases -/

/-- The binary32 values of the `float` literals of `hit_split_regions_mc.C`. -/
theorem float_literal_values :
    binary32 203.732 = 3337945 / 16384 ∧ binary32 5.68434e-14 = 8388605 / 2 ^ 67 ∧
    binary32 244.7 = 16036659 / 65536 ∧ binary32 264.7 = 4336845 / 16384 ∧
    binary32 500.1 = 16387277 / 32768 ∧ binary32 202.2 = 13251379 / 65536 ∧
    binary32 152.2 = 9974579 / 65536 ∧ binary32 50.0 = 50 ∧ binary32 0.0 = 0 ∧
    binary32 1.0 = 1 := by
  refine ⟨by decide!, by decide!, by decide!, by decide!, by decide!, by decide!, by decide!,
    by decide!, by decide!, by decide!⟩

theorem roundHalfEven_ge (num den : Nat) : num / den ≤ roundHalfEven num den := by
  unfold roundHalfEven
  simp only
  split_ifs <;> omega

theorem ulpExpAux_small (fuel q : Nat) (h : q < 16777216) : ulpExpAux fuel q = 0 := by
  cases fuel with
  | zero => rfl
  | succ f => simp only [ulpExpAux, h, if_true]

/-- Above `2^24` the exponent is at least 1 and leaves at least 24 bits. -/
theorem ulpExpAux_spec : ∀ (fuel q : Nat), 16777216 ≤ q → q ≤ fuel →
    1 ≤ ulpExpAux fuel q ∧ 8388608 * 2 ^ ulpExpAux fuel q ≤ q := by
  intro fuel
  induction fuel with
  | zero => intro q h1 h2; omega
  | succ f ih =>
    intro q h1 h2
    have hnot : ¬ q < 16777216 := by omega
    simp only [ulpExpAux, hnot, if_false]
    by_cases hs : q / 2 < 16777216
    · rw [ulpExpAux_small f (q / 2) hs]
      refine ⟨le_refl _, ?_⟩
      norm_num
      omega
    · obtain ⟨_, h4⟩ := ih (q / 2) (by omega) (by omega)
      refine ⟨by omega, ?_⟩
      rw [pow_succ]
      omega

/-- A value of at least `N ≤ 2^24` units rounds to at least `N` units. -/
theorem roundUnits_ge (num den N : Nat) (hden : 0 < den) (hN : N ≤ 16777216)
    (h : N * den ≤ num) : N ≤ roundUnits num den := by
  have hq : N ≤ num / den := (Nat.le_div_iff_mul_le hden).2 h
  unfold roundUnits
  simp only
  by_cases hlt : num / den < 16777216
  · have he : ulpExp (num / den) = 0 := ulpExpAux_small _ _ hlt
    rw [he, pow_zero, Nat.mul_one, Nat.mul_one]
    exact le_trans hq (roundHalfEven_ge num den)
  · obtain ⟨he1, he2⟩ := ulpExpAux_spec (num / den) (num / den) (by omega) (le_refl _)
    have hpos : 0 < 2 ^ ulpExp (num / den) := Nat.two_pow_pos _
    have h1 : 8388608 ≤ num / (den * 2 ^ ulpExp (num / den)) := by
      rw [← Nat.div_div_eq_div_mul]
      exact (Nat.le_div_iff_mul_le hpos).2 he2
    have h2 := roundHalfEven_ge num (den * 2 ^ ulpExp (num / den))
    have h3 : 2 ≤ 2 ^ ulpExp (num / den) := by
      calc 2 = 2 ^ 1 := rfl
        _ ≤ 2 ^ ulpExp (num / den) := Nat.pow_le_pow_right (by decide) he1
    calc N ≤ 8388608 * 2 := by omega
      _ ≤ roundHalfEven num (den * 2 ^ ulpExp (num / den)) * 2 ^ ulpExp (num / den) :=
        Nat.mul_le_mul (le_trans h1 h2) h3

theorem ulpExpAux_le (m : Nat) (hm : m < 16777216) :
    ∀ (t fuel : Nat), ulpExpAux fuel (m * 2 ^ t) ≤ t := by
  intro t
  induction t with
  | zero =>
    intro fuel
    rw [ulpExpAux_small fuel _ (by simpa using hm)]
  | succ t ih =>
    intro fuel
    cases fuel with
    | zero => exact Nat.zero_le _
    | succ f =>
      simp only [ulpExpAux]
      split_ifs with h
      · exact Nat.zero_le _
      · have hhalf : m * 2 ^ (t + 1) / 2 = m * 2 ^ t := by
          rw [pow_succ, ← Nat.mul_assoc, Nat.mul_div_cancel _ (by decide : 0 < 2)]
        rw [hhalf]
        exact Nat.succ_le_succ (ih f)

/-- A multiple `m * 2^t` of a power of two with `m < 2^24` lies on the binary32 grid: rounding
leaves it unchanged. -/
theorem roundHalfEven_pow_exact (m t e : Nat) (he : e ≤ t) :
    roundHalfEven (m * 2 ^ t) (2 ^ e) * 2 ^ e = m * 2 ^ t := by
  obtain ⟨d, hd⟩ := Nat.exists_eq_add_of_le he
  have hpos : 0 < 2 ^ e := Nat.two_pow_pos _
  have hk : m * 2 ^ t = (m * 2 ^ d) * 2 ^ e := by
    rw [hd, pow_add]
    ring
  have hdiv : m * 2 ^ t / 2 ^ e = m * 2 ^ d := by
    rw [hk]
    exact Nat.mul_div_cancel _ hpos
  have hmod : m * 2 ^ t % 2 ^ e = 0 := by
    rw [hk]
    exact Nat.mul_mod_left _ _
  have hr : roundHalfEven (m * 2 ^ t) (2 ^ e) = m * 2 ^ d := by
    unfold roundHalfEven
    simp only [hdiv, hmod, Nat.mul_zero, hpos, if_true]
  rw [hr]
  exact hk.symm

/-- A multiple `m * 2^t` of a power of two with `m < 2^24` lies on the binary32 grid: rounding
leaves it unchanged. -/
theorem roundUnits_exact (m t : Nat) (hm : m < 16777216) :
    roundUnits (m * 2 ^ t) 1 = m * 2 ^ t := by
  unfold roundUnits
  simp only [Nat.div_one, Nat.one_mul]
  exact roundHalfEven_pow_exact m t _ (ulpExpAux_le m hm t _)

theorem roundHalfEven_scale (a b c : Nat) (hc : 0 < c) :
    roundHalfEven (a * c) (b * c) = roundHalfEven a b := by
  unfold roundHalfEven
  simp only
  rw [Nat.mul_div_mul_right a b hc, Nat.mul_mod_mul_right]
  have h1 : 2 * (a % b * c) < b * c ↔ 2 * (a % b) < b := by
    rw [← Nat.mul_assoc]
    exact Nat.mul_lt_mul_right hc
  have h2 : b * c < 2 * (a % b * c) ↔ b < 2 * (a % b) := by
    rw [← Nat.mul_assoc]
    exact Nat.mul_lt_mul_right hc
  simp only [h1, h2]

theorem roundUnits_scale (a b c : Nat) (hc : 0 < c) :
    roundUnits (a * c) (b * c) = roundUnits a b := by
  unfold roundUnits
  simp only
  rw [Nat.mul_div_mul_right a b hc]
  have h : b * c * 2 ^ ulpExp (a / b) = (b * 2 ^ ulpExp (a / b)) * c := by ring
  rw [h, roundHalfEven_scale _ _ _ hc]

theorem natAbs_num_div_den (q : ℚ) (hnn : 0 ≤ q) : ((q.num.natAbs : ℕ) : ℚ) / q.den = q := by
  have h1 : ((q.num.natAbs : ℕ) : ℚ) = ((q.num : ℤ) : ℚ) := by
    rw [Nat.cast_natAbs, abs_of_nonneg (Rat.num_nonneg.2 hnn)]
  rw [h1]
  exact Rat.num_div_den q

/-- The unit count of a non-negative rational `k / 2^149` is `k`. -/
theorem roundUnits_of_units (q : ℚ) (k : Nat) (hq : q = (k : ℚ) / 2 ^ 149) :
    roundUnits (q.num.natAbs * 2 ^ 149) q.den = roundUnits k 1 := by
  have hnn : 0 ≤ q := by
    rw [hq]
    positivity
  have hden : (0 : ℚ) < q.den := by exact_mod_cast q.den_pos
  have hval := natAbs_num_div_den q hnn
  have hcross : q.num.natAbs * 2 ^ 149 = k * q.den := by
    have h2 : ((q.num.natAbs : ℕ) : ℚ) / q.den = (k : ℚ) / 2 ^ 149 := by rw [hval, hq]
    rw [div_eq_div_iff (ne_of_gt hden) (by positivity)] at h2
    exact_mod_cast h2
  rw [hcross]
  have h3 := roundUnits_scale k 1 q.den q.den_pos
  rw [Nat.one_mul] at h3
  exact h3

/-- Every `m * 2^t / 2^149` with `m < 2^24` below `2^128` is a binary32 value. -/
theorem isBinary32_dyadic (m t : Nat) (hm : m < 16777216) (hr : m * 2 ^ t < 2 ^ 277) :
    isBinary32 (((m * 2 ^ t : ℕ) : ℚ) / 2 ^ 149) := by
  have hu := roundUnits_of_units (((m * 2 ^ t : ℕ) : ℚ) / 2 ^ 149) (m * 2 ^ t) rfl
  rw [roundUnits_exact m t hm] at hu
  have hnn : ¬ ((((m * 2 ^ t : ℕ) : ℚ) / 2 ^ 149) < 0) := by
    apply not_lt.2
    positivity
  unfold isBinary32 F32.round binary32
  simp only [hu, hnn, if_false]
  rw [if_neg (by omega)]

/-- A natural number below `2^24` converts to `float` exactly. -/
theorem F32_ofNat_exact (n : Nat) (hn : n < 16777216) : F32.ofNat n = F32.fin n := by
  have h := isBinary32_dyadic n 149 hn (by
    calc n * 2 ^ 149 < 16777216 * 2 ^ 149 := Nat.mul_lt_mul_of_pos_right hn (Nat.two_pow_pos _)
      _ ≤ 2 ^ 277 := by norm_num)
  unfold isBinary32 at h
  have he : (((n * 2 ^ 149 : ℕ) : ℚ) / 2 ^ 149) = (n : ℚ) := by
    rw [Nat.cast_mul, Nat.cast_pow, Nat.cast_ofNat]
    exact mul_div_cancel_right₀ _ (by positivity)
  rw [he] at h
  exact h

/-- A positive binary32 value is at least `2^-149`. -/
theorem isBinary32_pos_ge (p : ℚ) (hb : isBinary32 p) (hp : 0 < p) : 1 / 2 ^ 149 ≤ p := by
  unfold isBinary32 F32.round at hb
  have hnn : ¬ p < 0 := not_lt.2 (le_of_lt hp)
  simp only [hnn, if_false] at hb
  split_ifs at hb with h1
  have hb2 : binary32 p = p := F32.fin.inj hb
  unfold binary32 at hb2
  simp only [hnn, if_false] at hb2
  rw [← hb2] at hp ⊢
  have hk : 0 < roundUnits (p.num.natAbs * 2 ^ 149) p.den := by
    by_contra h0
    have hz : roundUnits (p.num.natAbs * 2 ^ 149) p.den = 0 := by omega
    rw [hz] at hp
    simp at hp
  have hk1 : (1 : ℚ) ≤ (roundUnits (p.num.natAbs * 2 ^ 149) p.den : ℚ) := by exact_mod_cast hk
  exact div_le_div_of_nonneg_right hk1 (by positivity)

/-- A value of at least `N * 2^-149`, `N ≤ 2^24`, rounds to `+inf` or to at least that. -/
theorem F32_round_atLeast (q : ℚ) (N : Nat) (hN : N ≤ 16777216)
    (h : (N : ℚ) / 2 ^ 149 ≤ q) : (F32.round q).atLeast ((N : ℚ) / 2 ^ 149) := by
  have hnn : 0 ≤ q := le_trans (by positivity) h
  have hnl : ¬ q < 0 := not_lt.2 hnn
  have hden : (0 : ℚ) < q.den := by exact_mod_cast q.den_pos
  have hval := natAbs_num_div_den q hnn
  have hcross : N * q.den ≤ q.num.natAbs * 2 ^ 149 := by
    have h2 : (N : ℚ) / 2 ^ 149 ≤ ((q.num.natAbs : ℕ) : ℚ) / q.den := by rw [hval]; exact h
    rw [div_le_div_iff₀ (by positivity) hden] at h2
    exact_mod_cast h2
  have hge := roundUnits_ge (q.num.natAbs * 2 ^ 149) q.den N q.den_pos hN hcross
  unfold F32.round
  by_cases hov : 2 ^ 277 ≤ roundUnits (q.num.natAbs * 2 ^ 149) q.den
  · left
    rw [if_pos hov, if_neg hnl]
  · right
    rw [if_neg hov]
    refine ⟨binary32 q, rfl, ?_⟩
    unfold binary32
    simp only [hnl, if_false]
    have hge1 : (N : ℚ) ≤ (roundUnits (q.num.natAbs * 2 ^ 149) q.den : ℚ) := by exact_mod_cast hge
    exact div_le_div_of_nonneg_right hge1 (by positivity)

theorem F32_add_pinf (p : ℚ) : F32.add F32.pinf (F32.fin p) = F32.pinf := rfl

/-- After `j` additions of positive binary32 values, with `j ≤ 2^24`, the running sum is `+inf`
or at least `j * 2^-149`. -/
theorem sum_float_atLeast : ∀ (ps : List ℚ) (s : F32) (j : Nat),
    (∀ p ∈ ps, 1 / 2 ^ 149 ≤ p) → s.atLeast ((j : ℚ) / 2 ^ 149) → j + ps.length ≤ 16777216 →
    (sum_float s ps).atLeast (((j + ps.length : ℕ) : ℚ) / 2 ^ 149) := by
  intro ps
  induction ps with
  | nil => intro s j _ hs _; simpa [sum_float] using hs
  | cons p r ih =>
    intro s j hp hs hlen
    simp only [List.length_cons] at hlen
    have hstep : (F32.add s (F32.fin p)).atLeast (((j + 1 : ℕ) : ℚ) / 2 ^ 149) := by
      rcases hs with rfl | ⟨a, rfl, ha⟩
      · left; rfl
      · have h1 : F32.add (F32.fin a) (F32.fin p) = F32.round (a + p) := rfl
        rw [h1]
        apply F32_round_atLeast _ _ (by omega)
        have hp1 := hp p (by simp)
        push_cast
        rw [add_div]
        linarith
    have := ih (F32.add s (F32.fin p)) (j + 1) (fun q hq => hp q (List.mem_cons_of_mem _ hq))
      hstep (by omega)
    have hl : j + 1 + r.length = j + (p :: r).length := by simp only [List.length_cons]; omega
    rw [hl] at this
    exact this

/-! ## `event_info_viewer`: the average pitch in binary32 arithmetic -/

theorem pitchAccum_float_foldl (ps : List ℚ) (hpos : ∀ p ∈ ps, 0 < p) :
    ∀ (s : F32) (n : Nat),
      ps.foldl (fun s p => if p > 0 then (F32.add s.1 (F32.fin p), s.2 + 1) else s) (s, n) =
        (sum_float s ps, n + ps.length) := by
  induction ps with
  | nil => intro s n; rfl
  | cons p r ih =>
    intro s n
    have hp : p > 0 := hpos p (by simp)
    simp only [List.foldl_cons, hp, if_true, sum_float, List.length_cons]
    have := ih (fun q hq => hpos q (List.mem_cons_of_mem _ hq)) (F32.add s (F32.fin p)) (n + 1)
    rw [this]
    simp only [sum_float]
    congr 1
    omega

/-- Over positive pitches `avg_pitch` is the binary32 quotient of the running sum by the
converted count. -/
theorem averagePitch_float_eq (ps : List ℚ) (hne : ps ≠ []) (hpos : ∀ p ∈ ps, 0 < p) :
    averagePitch_float ps = F32.div (sum_float (F32.fin 0) ps) (F32.ofNat ps.length) := by
  have hlen : 0 < ps.length := List.length_pos.2 hne
  have hemp : ps.isEmpty = false := by
    cases ps with
    | nil => exact absurd rfl hne
    | cons a r => rfl
  unfold averagePitch_float pitchAccum_float
  rw [pitchAccum_float_foldl ps hpos (F32.fin 0) 0]
  simp only [hemp, Bool.false_eq_true, if_false, Nat.zero_add, gt_iff_lt, hlen, if_true]

/-- When every partial sum is a binary32 value, no addition rounds. -/
theorem sum_float_exact : ∀ (ps : List ℚ) (a : ℚ),
    (∀ k, k ≤ ps.length → isBinary32 (a + (ps.take k).sum)) →
    sum_float (F32.fin a) ps = F32.fin (a + ps.sum) := by
  intro ps
  induction ps with
  | nil => intro a _; simp [sum_float]
  | cons p r ih =>
    intro a h
    have h1 : F32.add (F32.fin a) (F32.fin p) = F32.fin (a + p) := by
      have := h 1 (by simp)
      simp only [List.take_succ_cons, List.take_zero, List.sum_cons, List.sum_nil,
        add_zero] at this
      exact this
    have hstep : sum_float (F32.fin a) (p :: r) = sum_float (F32.fin (a + p)) r := by
      simp only [sum_float, List.foldl_cons, h1]
    rw [hstep, ih (a + p), List.sum_cons, add_assoc]
    intro k hk
    have := h (k + 1) (by simp only [List.length_cons]; omega)
    simp only [List.take_succ_cons, List.sum_cons] at this
    rw [add_assoc]
    exact this

/-- When the partial sums, the count and the mean are binary32 values, `avg_pitch` is the
arithmetic mean. -/
theorem averagePitch_float_exact (ps : List ℚ) (hne : ps ≠ []) (hpos : ∀ p ∈ ps, 0 < p)
    (hsums : ∀ k, k ≤ ps.length → isBinary32 ((ps.take k).sum))
    (hcount : isBinary32 (ps.length : ℚ)) (hmean : isBinary32 (meanOfAll ps)) :
    averagePitch_float ps = F32.fin (meanOfAll ps) := by
  rw [averagePitch_float_eq ps hne hpos]
  have hs := sum_float_exact ps 0 (by simpa using hsums)
  rw [zero_add] at hs
  have hn : F32.ofNat ps.length = F32.fin (ps.length : ℚ) := hcount
  have hlen : (ps.length : ℚ) ≠ 0 := by
    have : 0 < ps.length := List.length_pos.2 hne
    exact_mod_cast Nat.pos_iff_ne_zero.1 this
  rw [hs, hn]
  simp only [F32.div, hlen, if_false]
  exact hmean

/-- With fewer than `2^24` positive binary32 pitches, `avg_pitch` is positive. -/
theorem averagePitch_float_pos (ps : List ℚ) (hne : ps ≠ []) (hpos : ∀ p ∈ ps, 0 < p)
    (hfl : ∀ p ∈ ps, isBinary32 p) (hlen : ps.length < 16777216) :
    (averagePitch_float ps).isPos = true := by
  rw [averagePitch_float_eq ps hne hpos, F32_ofNat_exact ps.length hlen]
  have hn : 0 < ps.length := List.length_pos.2 hne
  have hnq : (0 : ℚ) < (ps.length : ℚ) := by exact_mod_cast hn
  have hsum := sum_float_atLeast ps (F32.fin 0) 0
    (fun p hp => isBinary32_pos_ge p (hfl p hp) (hpos p hp))
    (Or.inr ⟨0, rfl, by simp⟩) (by omega)
  rw [Nat.zero_add] at hsum
  rcases hsum with h | ⟨s, h, hs⟩
  · rw [h]
    simp only [F32.div, not_lt.2 (le_of_lt hnq), if_false, F32.isPos]
  · rw [h]
    simp only [F32.div, ne_of_gt hnq, if_false]
    have hq : ((1 : ℕ) : ℚ) / 2 ^ 149 ≤ s / (ps.length : ℚ) := by
      rw [le_div_iff₀ hnq]
      calc ((1 : ℕ) : ℚ) / 2 ^ 149 * (ps.length : ℚ) = (ps.length : ℚ) / 2 ^ 149 := by
            push_cast
            ring
        _ ≤ s := hs
    rcases F32_round_atLeast _ 1 (by decide) hq with h2 | ⟨t, h2, ht⟩
    · rw [h2]; rfl
    · rw [h2]
      simp only [F32.isPos, decide_eq_true_eq]
      have : (0 : ℚ) < ((1 : ℕ) : ℚ) / 2 ^ 149 := by positivity
      linarith

theorem validHits_pitch_mem (dead : List ChannelKey) (plane : Int) (wires : List Nat) :
    ∀ (pitches : List ℚ) (tpcs : List Nat) (ontraj : List Bool),
      ∀ h ∈ validHits dead plane wires pitches tpcs ontraj, h.pitch ∈ pitches := by
  induction wires with
  | nil => intro pitches tpcs ontraj h hh; simp [validHits] at hh
  | cons w ws ih =>
    intro pitches tpcs ontraj h hh
    cases pitches with
    | nil => simp [validHits] at hh
    | cons p ps =>
      cases tpcs with
      | nil => simp [validHits] at hh
      | cons t ts =>
        cases ontraj with
        | nil => simp [validHits] at hh
        | cons o os =>
          unfold validHits at hh
          split at hh
          · rcases List.mem_cons.1 hh with h1 | h1
            · subst h1
              exact List.mem_cons_self _ _
            · exact List.mem_cons_of_mem _ (ih ps ts os h h1)
          · exact List.mem_cons_of_mem _ (ih ps ts os h hh)

/-- A non-sentinel result of the binary32 lambda carries the binary32 average of at least 25
valid pitches. -/
theorem plane_efficiency_float_avg (fuel : Nat) (has_dead_channels : Bool)
    (dead : List ChannelKey) (wires : List Nat) (pitches : List ℚ) (tpcs : List Nat)
    (ontraj : List Bool) (plane : Int) (r : F32 × F32)
    (h : calculate_plane_efficiency_float fuel has_dead_channels dead wires pitches tpcs ontraj
      plane = some r)
    (hns : r ≠ sentinel_float) :
    25 ≤ (validHits dead plane wires pitches tpcs ontraj).length ∧
    r.2 = averagePitch_float ((validHits dead plane wires pitches tpcs ontraj).map
      ValidHit.pitch) := by
  unfold calculate_plane_efficiency_float at h
  by_cases h1 : (!has_dead_channels || wires.isEmpty) = true
  · rw [if_pos h1] at h
    exact absurd (Option.some.inj h).symm hns
  · rw [if_neg h1] at h
    by_cases h2 : (validHits dead plane wires pitches tpcs ontraj).length < 25
    · simp only [h2, if_true] at h
      exact absurd (Option.some.inj h).symm hns
    · simp only [h2, if_false] at h
      by_cases h3 : has_large_holes (std_sort (setOfList wireLt
          ((validHits dead plane wires pitches tpcs ontraj).map ValidHit.wire))) = true
      · simp only [h3, if_true] at h
        exact absurd (Option.some.inj h).symm hns
      · simp only [h3, if_false] at h
        cases hl : tpcLoop fuel dead (toUShort plane)
            (validHits dead plane wires pitches tpcs ontraj)
            (setOfList wireLt ((validHits dead plane wires pitches tpcs ontraj).map
              ValidHit.tpc)) (0, []) with
        | none =>
          rw [hl] at h
          simp at h
        | some st =>
          simp only [hl] at h
          by_cases h4 : st.1 < 25
          · simp only [h4, if_true] at h
            exact absurd (Option.some.inj h).symm hns
          · simp only [h4, if_false] at h
            have hr := (Option.some.inj h).symm
            refine ⟨by omega, ?_⟩
            rw [hr]

/-- C9, as stated, fails: 25 valid hits on the wires 1..25, each with pitch `0.1f =
13421773/2^27`. The arithmetic mean of the valid pitches is `0.1f`, and the lambda returns the
average `3355443/2^25` (0.099999994), the next binary32 value below, because every
`sum_pitch += p` rounds. With 25 pitches `3e38f` the sum overflows and the average is `+inf`. -/
theorem average_pitch_not_exact_mean :
    binary32 0.1 = 13421773 / 134217728 ∧
    calculate_plane_efficiency_float 65537 true [] (List.range' 1 25)
      (List.replicate 25 (13421773 / 134217728)) (List.replicate 25 0) (List.replicate 25 true)
      0 = some (F32.fin 1, F32.fin (3355443 / 33554432)) ∧
    meanOfPositive ((validHits [] 0 (List.range' 1 25) (List.replicate 25 (13421773 / 134217728))
      (List.replicate 25 0) (List.replicate 25 true)).map ValidHit.pitch) =
        13421773 / 134217728 ∧
    F32.fin (3355443 / 33554432) ≠ F32.fin (13421773 / 134217728) ∧
    calculate_plane_efficiency_float 65537 true [] (List.range' 1 25)
      (List.replicate 25 (binary32 3e38)) (List.replicate 25 0) (List.replicate 25 true)
      0 = some (F32.fin 1, F32.pinf) := by
  refine ⟨by decide!, by decide!, by decide!, by decide!, by decide!⟩

/-- C9, amended: whenever `calculate_plane_efficiency` returns a non-sentinel pair, every valid
hit has `pitch > 0` and there are at least 25 of them; `average_pitch` is the binary32 quotient of
the running binary32 sum of the valid pitches by their number; it is the arithmetic mean of the
(strictly positive) valid pitches whenever the partial sums, the count and the mean are binary32
values; and with binary32 pitches and fewer than `2^24` valid hits it is strictly positive. -/
theorem average_pitch_float_mean (fuel : Nat) (has_dead_channels : Bool)
    (dead : List ChannelKey) (wires : List Nat) (pitches : List ℚ) (tpcs : List Nat)
    (ontraj : List Bool) (plane : Int) (r : F32 × F32)
    (h : calculate_plane_efficiency_float fuel has_dead_channels dead wires pitches tpcs ontraj
      plane = some r)
    (hns : r ≠ sentinel_float) :
    (∀ hit ∈ validHits dead plane wires pitches tpcs ontraj, 0 < hit.pitch) ∧
    25 ≤ (validHits dead plane wires pitches tpcs ontraj).length ∧
    r.2 = F32.div
      (sum_float (F32.fin 0) ((validHits dead plane wires pitches tpcs ontraj).map ValidHit.pitch))
      (F32.ofNat (validHits dead plane wires pitches tpcs ontraj).length) ∧
    ((∀ k, k ≤ (validHits dead plane wires pitches tpcs ontraj).length → isBinary32
        ((((validHits dead plane wires pitches tpcs ontraj).map ValidHit.pitch).take k).sum)) →
      isBinary32 ((validHits dead plane wires pitches tpcs ontraj).length : ℚ) →
      isBinary32 (meanOfAll
        ((validHits dead plane wires pitches tpcs ontraj).map ValidHit.pitch)) →
      r.2 = F32.fin (meanOfPositive
          ((validHits dead plane wires pitches tpcs ontraj).map ValidHit.pitch)) ∧
        r.2 = F32.fin (meanOfAll
          ((validHits dead plane wires pitches tpcs ontraj).map ValidHit.pitch))) ∧
    ((∀ p ∈ pitches, isBinary32 p) →
      (validHits dead plane wires pitches tpcs ontraj).length < 16777216 →
      r.2.isPos = true) := by
  obtain ⟨hlen, hr⟩ := plane_efficiency_float_avg fuel has_dead_channels dead wires pitches tpcs
    ontraj plane r h hns
  have hall : ∀ p ∈ (validHits dead plane wires pitches tpcs ontraj).map ValidHit.pitch,
      0 < p := by
    intro p hp
    obtain ⟨hit, hhit, rfl⟩ := List.mem_map.1 hp
    exact validHits_pitch_pos dead plane wires pitches tpcs ontraj hit hhit
  have hne : (validHits dead plane wires pitches tpcs ontraj).map ValidHit.pitch ≠ [] := by
    intro he
    have hl := congrArg List.length he
    simp only [List.length_map, List.length_nil] at hl
    omega
  have hfilter : ((validHits dead plane wires pitches tpcs ontraj).map ValidHit.pitch).filter
      (fun p => decide (p > 0)) =
      (validHits dead plane wires pitches tpcs ontraj).map ValidHit.pitch := by
    rw [List.filter_eq_self]
    intro p hp
    simpa using hall p hp
  have hmeans : meanOfPositive ((validHits dead plane wires pitches tpcs ontraj).map
      ValidHit.pitch) = meanOfAll ((validHits dead plane wires pitches tpcs ontraj).map
      ValidHit.pitch) := by
    unfold meanOfPositive meanOfAll
    rw [hfilter, if_neg hne]
  refine ⟨validHits_pitch_pos dead plane wires pitches tpcs ontraj, hlen, ?_, ?_, ?_⟩
  · rw [hr, averagePitch_float_eq _ hne hall, List.length_map]
  · intro hsums hcount hmean
    have hex := averagePitch_float_exact _ hne hall
      (by simpa only [List.length_map] using hsums)
      (by simpa only [List.length_map] using hcount) hmean
    rw [hmeans, hr, hex]
    exact ⟨rfl, rfl⟩
  · intro hfl hlt
    rw [hr]
    apply averagePitch_float_pos _ hne hall
    · intro p hp
      obtain ⟨hit, hhit, rfl⟩ := List.mem_map.1 hp
      exact hfl _ (validHits_pitch_mem dead plane wires pitches tpcs ontraj hit hhit)
    · simpa only [List.length_map] using hlt

theorem plane_efficiency_float_scenario :
    calculate_plane_efficiency_float 65537 true [(10, 0, 0)] (List.range' 1 35)
      (List.replicate 35 1) (List.replicate 35 0) (List.replicate 35 true) 0 =
      some (F32.fin 1, F32.fin 1) := by decide!

/-- Witness of `average_pitch_float_mean`: 35 hits with pitch 1 on the wires 1..35, wire 10
dead. The 34 valid pitches sum without rounding, and the average is their mean, 1. -/
theorem average_pitch_float_mean_witness :
    calculate_plane_efficiency_float 65537 true [(10, 0, 0)] (List.range' 1 35)
      (List.replicate 35 1) (List.replicate 35 0) (List.replicate 35 true) 0 =
      some (F32.fin 1, F32.fin 1) ∧
    (F32.fin 1, F32.fin 1) ≠ sentinel_float ∧
    (F32.fin 1, F32.fin 1).2 = F32.fin (meanOfPositive ((validHits [(10, 0, 0)] 0
      (List.range' 1 35) (List.replicate 35 1) (List.replicate 35 0)
      (List.replicate 35 true)).map ValidHit.pitch)) ∧
    (F32.fin 1, F32.fin 1).2.isPos = true :=
  ⟨plane_efficiency_float_scenario, by decide!,
    ((average_pitch_float_mean 65537 true [(10, 0, 0)] (List.range' 1 35) (List.replicate 35 1)
      (List.replicate 35 0) (List.replicate 35 true) 0 (F32.fin 1, F32.fin 1)
      plane_efficiency_float_scenario (by decide!)).2.2.2.1 (by decide!) (by decide!)
      (by decide!)).1,
    (average_pitch_float_mean 65537 true [(10, 0, 0)] (List.range' 1 35) (List.replicate 35 1)
      (List.replicate 35 0) (List.replicate 35 true) 0 (F32.fin 1, F32.fin 1)
      plane_efficiency_float_scenario (by decide!)).2.2.2.2 (by decide!) (by decide!)⟩

/-! ## The efficiency CSV with the text of the floats -/

theorem mem_stripZeros (c : Char) (ds : List Char) (h : c ∈ stripZeros ds) : c ∈ ds := by
  unfold stripZeros at h
  exact List.mem_reverse.1 ((List.dropWhile_sublist _).subset (List.mem_reverse.1 h))

theorem padDigits_chars (width n : Nat) : ∀ c ∈ padDigits width n, c.toNat ≠ 44 := by
  intro c hc
  unfold padDigits at hc
  rcases List.mem_append.1 hc with h | h
  · rw [List.eq_of_mem_replicate h]
    decide
  · exact (printNat_chars n c h).1

theorem fractionText_chars (ds : List Char) (hds : ∀ c ∈ ds, c.toNat ≠ 44) :
    ∀ c ∈ fractionText ds, c.toNat ≠ 44 := by
  intro c hc
  unfold fractionText at hc
  split_ifs at hc with h
  · simp at hc
  · rcases List.mem_cons.1 hc with h1 | h1
    · rw [h1]
      decide
    · exact hds c (mem_stripZeros c ds h1)

theorem printPositive_chars (num den : Nat) : ∀ c ∈ printPositive num den, c.toNat ≠ 44 := by
  intro c hc
  unfold printPositive at hc
  simp only at hc
  split_ifs at hc with h1 h2 h3 h4 h5 h6 h7 <;>
    simp only [List.mem_append, List.mem_cons] at hc
  all_goals
    first
    | (rcases hc with h | h
       · exact padDigits_chars _ _ c (List.mem_of_mem_take h)
       · exact fractionText_chars _ (fun d hd => padDigits_chars _ _ d (List.mem_of_mem_drop hd))
           c h)
    | (rcases hc with h | h
       · rw [h]; decide
       · refine fractionText_chars _ ?_ c h
         intro d hd
         rcases List.mem_append.1 hd with h8 | h8
         · rw [List.eq_of_mem_replicate h8]; decide
         · exact padDigits_chars _ _ d h8)
    | (rcases hc with (h | h) | h | h | h
       · exact padDigits_chars _ _ c (List.mem_of_mem_take h)
       · exact fractionText_chars _ (fun d hd => padDigits_chars _ _ d (List.mem_of_mem_drop hd))
           c h
       · rw [h]; decide
       · rw [h]; decide
       · exact padDigits_chars _ _ c h)

/-- The text written for a `float` contains no comma. -/
theorem ostream_float_chars (q : ℚ) : ∀ c ∈ ostream_float q, c.toNat ≠ 44 := by
  intro c hc
  unfold ostream_float at hc
  split_ifs at hc with h1 h2
  · rw [List.mem_singleton.1 hc]
    decide
  · rcases List.mem_cons.1 hc with h | h
    · rw [h]; decide
    · exact printPositive_chars _ _ c h
  · exact printPositive_chars _ _ c hc

/-- The loader of `hit_plotter` on a written row: the plane is read back, and the row is
accepted exactly when `std::stof` accepts the texts written for `efficiency` and `avg_pitch`. -/
theorem plotter_reads_written_row (row : EffRow)
    (hplane : -2147483648 ≤ row.plane ∧ row.plane ≤ 2147483647) :
    stoi ((plotterFields (csvRow ostream_float row)).getD 1 []) = some row.plane ∧
    (∀ e p, stof (ostream_float row.efficiency) = some e →
      stof (ostream_float row.avgPitch) = some p →
      plotterParseRow stof (csvRow ostream_float row) = some (row.plane, e, p)) ∧
    (plotterParseRow stof (csvRow ostream_float row) = none ↔
      stof (ostream_float row.efficiency) = none ∨ stof (ostream_float row.avgPitch) = none) := by
  have hf := plotterFields_csvRow ostream_float row ostream_float_chars
  have hs := stoi_printInt row.plane hplane.1 hplane.2
  refine ⟨?_, ?_, ?_⟩
  · rw [hf]
    exact hs
  · intro e p he hp
    unfold plotterParseRow
    simp only [hf, List.getD_cons_succ, List.getD_cons_zero, hs, he, hp]
  · unfold plotterParseRow
    simp only [hf, List.getD_cons_succ, List.getD_cons_zero, hs]
    cases he : stof (ostream_float row.efficiency) with
    | none => simp
    | some e =>
      cases hp : stof (ostream_float row.avgPitch) with
      | none => simp
      | some p => simp

/-- C18, as stated, fails: a track with 25 hits on the wires 1..25, each with pitch
`1e-40f = 71362 * 2^-149`, a subnormal `float`. `hit_analyzer` computes `avg_pitch = 1e-40f`
(the binary32 sums are exact) and writes the row `7,0,0,100,25,25,1,9.99995e-41`. In the loader
of `hit_plotter`, `std::stof` throws `out_of_range` on `9.99995e-41`, so the row is rejected
with the warning and no triple is read back. The same track with pitch 0.5 is read back. -/
theorem written_row_rejected_by_loader :
    binary32 1e-40 = 71362 / 2 ^ 149 ∧
    calculate_efficiency 65537 [] 7 100 (List.range' 1 25)
      (List.replicate 25 (71362 / 2 ^ 149)) (List.replicate 25 0) 0 =
      some (some (EffRow.mk 7 0 0 100 25 25 1 (71362 / 2 ^ 149))) ∧
    averagePitch_float (List.replicate 25 (71362 / 2 ^ 149)) = F32.fin (71362 / 2 ^ 149) ∧
    csvRow ostream_float (EffRow.mk 7 0 0 100 25 25 1 (71362 / 2 ^ 149)) =
      String.toList "7,0,0,100,25,25,1,9.99995e-41" ∧
    stof (String.toList "9.99995e-41") = none ∧
    plotterParseRow stof (csvRow ostream_float (EffRow.mk 7 0 0 100 25 25 1 (71362 / 2 ^ 149))) =
      none ∧
    calculate_efficiency 65537 [] 7 100 (List.range' 1 25)
      (List.replicate 25 (1 / 2)) (List.replicate 25 0) 0 =
      some (some (EffRow.mk 7 0 0 100 25 25 1 (1 / 2))) ∧
    csvRow ostream_float (EffRow.mk 7 0 0 100 25 25 1 (1 / 2)) =
      String.toList "7,0,0,100,25,25,1,0.5" ∧
    plotterParseRow stof (csvRow ostream_float (EffRow.mk 7 0 0 100 25 25 1 (1 / 2))) =
      some (0, F32.fin 1, F32.fin (1 / 2)) := by
  refine ⟨by decide!, by decide!, by decide!, by decide!, by decide!, by decide!, by decide!,
    by decide!, by decide!⟩

/-! ## The two embeddings of `calculate_plane_efficiency` pass the same gates -/

theorem F32_round_nonneg (q : ℚ) (h : 0 ≤ q) : (F32.round q).atLeast 0 := by
  have h0 := F32_round_atLeast q 0 (by decide) (by simpa using h)
  simpa using h0

theorem sum_float_nonneg : ∀ (ps : List ℚ) (s : F32), (∀ p ∈ ps, 0 < p) → s.atLeast 0 →
    (sum_float s ps).atLeast 0 := by
  intro ps
  induction ps with
  | nil => intro s _ hs; simpa [sum_float] using hs
  | cons p r ih =>
    intro s hp hs
    have hstep : (F32.add s (F32.fin p)).atLeast 0 := by
      rcases hs with rfl | ⟨a, rfl, ha⟩
      · left; rfl
      · have h1 : F32.add (F32.fin a) (F32.fin p) = F32.round (a + p) := rfl
        rw [h1]
        exact F32_round_nonneg _ (by linarith [hp p (by simp)])
    exact ih (F32.add s (F32.fin p)) (fun q hq => hp q (List.mem_cons_of_mem _ hq)) hstep

/-- The binary32 average of positive pitches is never the sentinel value -1. -/
theorem averagePitch_float_ne_neg_one (ps : List ℚ) (hne : ps ≠ []) (hpos : ∀ p ∈ ps, 0 < p) :
    averagePitch_float ps ≠ F32.fin (-1) := by
  rw [averagePitch_float_eq ps hne hpos]
  have hs := sum_float_nonneg ps (F32.fin 0) hpos (Or.inr ⟨0, rfl, le_refl _⟩)
  have hn : (F32.ofNat ps.length).atLeast 0 := F32_round_nonneg _ (by positivity)
  rcases hs with h1 | ⟨s, h1, hs0⟩ <;> rcases hn with h2 | ⟨n, h2, hn0⟩ <;> rw [h1, h2]
  · simp [F32.div]
  · simp only [F32.div]
    split_ifs <;> simp
  · simp only [F32.div]
    intro h
    have := F32.fin.inj h
    norm_num at this
  · simp only [F32.div]
    split_ifs with h3 h4 h5
    · simp
    · simp
    · simp
    · rcases F32_round_nonneg (s / n) (div_nonneg hs0 hn0) with h6 | ⟨t, h6, ht⟩
      · rw [h6]; simp
      · rw [h6]
        intro h
        have := F32.fin.inj h
        linarith

/-- The binary32 embedding and the exact embedding of the lambda fail to return on the same
inputs and return the sentinel pair on the same inputs. -/
theorem plane_efficiency_float_gates (fuel : Nat) (has_dead_channels : Bool)
    (dead : List ChannelKey) (wires : List Nat) (pitches : List ℚ) (tpcs : List Nat)
    (ontraj : List Bool) (plane : Int) :
    (calculate_plane_efficiency_float fuel has_dead_channels dead wires pitches tpcs ontraj
        plane = none ↔
      calculate_plane_efficiency fuel has_dead_channels dead wires pitches tpcs ontraj
        plane = none) ∧
    (calculate_plane_efficiency_float fuel has_dead_channels dead wires pitches tpcs ontraj
        plane = some sentinel_float ↔
      calculate_plane_efficiency fuel has_dead_channels dead wires pitches tpcs ontraj
        plane = some sentinel) := by
  unfold calculate_plane_efficiency_float calculate_plane_efficiency
  by_cases h1 : (!has_dead_channels || wires.isEmpty) = true
  · simp only [h1, if_true]
    simp
  · simp only [h1, if_false]
    by_cases h2 : (validHits dead plane wires pitches tpcs ontraj).length < 25
    · simp only [h2, if_true]
      simp
    · simp only [h2, if_false]
      by_cases h3 : has_large_holes (std_sort (setOfList wireLt
          ((validHits dead plane wires pitches tpcs ontraj).map ValidHit.wire))) = true
      · simp only [h3, if_true]
        simp
      · simp only [h3, if_false]
        cases hl : tpcLoop fuel dead (toUShort plane)
            (validHits dead plane wires pitches tpcs ontraj)
            (setOfList wireLt ((validHits dead plane wires pitches tpcs ontraj).map
              ValidHit.tpc)) (0, []) with
        | none => simp
        | some st =>
          simp only
          by_cases h4 : st.1 < 25
          · simp only [h4, if_true]
            simp
          · simp only [h4, if_false]
            have hall : ∀ p ∈ (validHits dead plane wires pitches tpcs ontraj).map
                ValidHit.pitch, 0 < p := by
              intro p hp
              obtain ⟨hit, hhit, rfl⟩ := List.mem_map.1 hp
              exact validHits_pitch_pos dead plane wires pitches tpcs ontraj hit hhit
            have hne : (validHits dead plane wires pitches tpcs ontraj).map ValidHit.pitch ≠
                [] := by
              intro he
              have hlen := congrArg List.length he
              simp only [List.length_map, List.length_nil] at hlen
              omega
            have hf := averagePitch_float_ne_neg_one _ hne hall
            have he := averagePitch_pos _ hne hall
            refine ⟨by simp, ?_⟩
            constructor
            · intro h
              have h5 := congrArg Prod.snd (Option.some.inj h)
              simp only [sentinel_float] at h5
              exact absurd h5 hf
            · intro h
              have h5 := congrArg Prod.snd (Option.some.inj h)
              simp only [sentinel] at h5
              linarith

/-! ## Runs of digits -/

theorem digitsValue_foldl (ds : List Char) : ∀ acc : Nat,
    ds.foldl (fun acc c => 10 * acc + (c.toNat - 48)) acc =
      acc * 10 ^ ds.length + digitsValue ds := by
  induction ds with
  | nil => intro acc; simp [digitsValue]
  | cons c r ih =>
    intro acc
    have h0 := ih (10 * 0 + (c.toNat - 48))
    have h1 := ih (10 * acc + (c.toNat - 48))
    simp only [digitsValue, List.foldl_cons, List.length_cons] at h0 h1 ⊢
    rw [h1, h0]
    ring

theorem digitsValue_append (a b : List Char) :
    digitsValue (a ++ b) = digitsValue a * 10 ^ b.length + digitsValue b := by
  unfold digitsValue
  rw [List.foldl_append, digitsValue_foldl b]
  rfl

theorem digitsValue_zeros (k : Nat) : digitsValue (List.replicate k (Char.ofNat 48)) = 0 := by
  induction k with
  | zero => rfl
  | succ k ih =>
    rw [List.replicate_succ]
    have h := digitsValue_append [Char.ofNat 48] (List.replicate k (Char.ofNat 48))
    simp only [List.singleton_append] at h
    rw [h, ih]
    have h1 : digitsValue [Char.ofNat 48] = 0 := by decide
    rw [h1]
    simp

theorem char_eq_zero_of_toNat (c : Char) (h : c.toNat = 48) : c = Char.ofNat 48 := by
  apply Char.ext
  apply UInt32.ext
  exact h

/-- A run of characters is its part without trailing zeros followed by zeros. -/
theorem stripZeros_spec (ds : List Char) :
    ∃ k : Nat, ds = stripZeros ds ++ List.replicate k (Char.ofNat 48) := by
  unfold stripZeros
  have key : ∀ l : List Char, ∃ k : Nat,
      l = List.replicate k (Char.ofNat 48) ++ l.dropWhile (fun c => c.toNat == 48) := by
    intro l
    induction l with
    | nil => exact ⟨0, rfl⟩
    | cons c r ih =>
      by_cases hc : c.toNat = 48
      · obtain ⟨k, hk⟩ := ih
        refine ⟨k + 1, ?_⟩
        rw [List.dropWhile_cons]
        simp only [hc, beq_self_eq_true, if_true]
        rw [List.replicate_succ, List.cons_append, ← hk, char_eq_zero_of_toNat c hc]
      · refine ⟨0, ?_⟩
        rw [List.dropWhile_cons]
        simp [hc]
  obtain ⟨k, hk⟩ := key ds.reverse
  refine ⟨k, ?_⟩
  have h2 := congrArg List.reverse hk
  rw [List.reverse_reverse, List.reverse_append, List.reverse_replicate] at h2
  exact h2

theorem stripZeros_digits (ds : List Char) (h : ∀ c ∈ ds, isdigit c = true) :
    ∀ c ∈ stripZeros ds, isdigit c = true :=
  fun c hc => h c (mem_stripZeros c ds hc)

/-! ## Reading a text made of digits, a fraction and an exponent -/

theorem takeWhile_digits_append (ds rest : List Char) (hds : ∀ c ∈ ds, isdigit c = true)
    (hrest : ∀ c r, rest = c :: r → isdigit c = false) :
    (ds ++ rest).takeWhile isdigit = ds ∧ (ds ++ rest).dropWhile isdigit = rest := by
  induction ds with
  | nil =>
    cases rest with
    | nil => exact ⟨rfl, rfl⟩
    | cons c r =>
      have hc := hrest c r rfl
      simp only [List.nil_append, List.takeWhile_cons, List.dropWhile_cons, hc]
      exact ⟨rfl, rfl⟩
  | cons a t ih =>
    have ha := hds a (by simp)
    obtain ⟨h1, h2⟩ := ih (fun c hc => hds c (List.mem_cons_of_mem _ hc))
    simp only [List.cons_append, List.takeWhile_cons, List.dropWhile_cons, ha, if_true, h1, h2]
    exact ⟨trivial, trivial⟩

theorem ofNat_46_toNat : (Char.ofNat 46).toNat = 46 := by decide

/-- The fraction written by `fractionText` is read back as its digits without the trailing
zeros, up to a text that starts with neither a digit nor a decimal point. -/
theorem read_fractionText (F rest : List Char) (hF : ∀ c ∈ F, isdigit c = true)
    (hrest : ∀ c r, rest = c :: r → isdigit c = false ∧ c.toNat ≠ 46) :
    fractionDigits isdigit (fractionText F ++ rest) = stripZeros F ∧
    afterFraction isdigit (fractionText F ++ rest) = rest := by
  unfold fractionText
  by_cases he : (stripZeros F).isEmpty = true
  · rw [if_pos he]
    have hnil : stripZeros F = [] := List.isEmpty_iff.1 he
    rw [hnil, List.nil_append]
    cases rest with
    | nil => exact ⟨rfl, rfl⟩
    | cons c r =>
      have hc := (hrest c r rfl).2
      simp only [fractionDigits, afterFraction, hc, if_false]
      exact ⟨trivial, trivial⟩
  · rw [if_neg he]
    obtain ⟨h1, h2⟩ := takeWhile_digits_append (stripZeros F) rest (stripZeros_digits F hF)
      (fun c r h => (hrest c r h).1)
    simp only [List.cons_append, fractionDigits, afterFraction, ofNat_46_toNat, if_true, h1, h2]
    exact ⟨trivial, trivial⟩

/-- The reading of a decimal constant made of a non-empty run of digits, a fraction written by
`fractionText` and a text `expText` that holds the exponent. -/
theorem stofDecimal_text (negative : Bool) (ip F expText : List Char) (hne : ip ≠ [])
    (hip : ∀ c ∈ ip, isdigit c = true) (hF : ∀ c ∈ F, isdigit c = true)
    (hexp : ∀ c r, expText = c :: r → isdigit c = false ∧ c.toNat ≠ 46) :
    stofDecimal negative (ip ++ (fractionText F ++ expText)) =
      stofValue negative
        (scaled (digitsValue (ip ++ stripZeros F)) 10
          (exponentPart 101 expText - ((stripZeros F).length : Int))).1
        (scaled (digitsValue (ip ++ stripZeros F)) 10
          (exponentPart 101 expText - ((stripZeros F).length : Int))).2 := by
  have hstop : ∀ c r, fractionText F ++ expText = c :: r → isdigit c = false := by
    intro c r h
    unfold fractionText at h
    split_ifs at h with h1
    · rw [List.nil_append] at h
      exact (hexp c r h).1
    · simp only [List.cons_append, List.cons.injEq] at h
      rw [← h.1]
      decide
  obtain ⟨h1, h2⟩ := takeWhile_digits_append ip (fractionText F ++ expText) hip hstop
  obtain ⟨h3, h4⟩ := read_fractionText F expText hF hexp
  have hemp : ip.isEmpty = false := by
    cases ip with
    | nil => exact absurd rfl hne
    | cons a r => rfl
  unfold stofDecimal
  simp only [h1, h2, h3, h4, hemp, Bool.false_and, Bool.false_eq_true, if_false]

theorem isdigit_range (c : Char) (h : isdigit c = true) : 48 ≤ c.toNat ∧ c.toNat ≤ 57 := by
  unfold isdigit at h
  simpa only [Bool.and_eq_true, decide_eq_true_eq] using h

theorem lowerCode_digit (c : Char) (h : isdigit c = true) : lowerCode c = c.toNat := by
  have hr := isdigit_range c h
  unfold lowerCode
  rw [if_neg (by omega)]

/-- On a text that starts with a digit and whose second character is not `x`, `std::stof` reads
a decimal constant. -/
theorem stof_digit_head (c : Char) (r : List Char) (hc : isdigit c = true)
    (hx : ∀ d e, r = d :: e → lowerCode d ≠ 120) :
    stof (c :: r) = stofDecimal false (c :: r) := by
  have hr := isdigit_range c hc
  have hsp : (c :: r).dropWhile isspace = c :: r := by
    rw [List.dropWhile_cons, isdigit_not_space c hc]
    simp
  have hsign : stripSign (c :: r) = (false, c :: r) := by
    simp only [stripSign]
    rw [if_neg (by omega), if_neg (by omega)]
  have hlow := lowerCode_digit c hc
  have hinf : ¬ ((c :: r).take 3).map lowerCode = [105, 110, 102] := by
    intro h
    simp only [List.take_succ_cons, List.map_cons, List.cons.injEq] at h
    omega
  have hnan : ¬ ((c :: r).take 3).map lowerCode = [110, 97, 110] := by
    intro h
    simp only [List.take_succ_cons, List.map_cons, List.cons.injEq] at h
    omega
  have hhex : stofHex false (c :: r) = none := by
    cases r with
    | nil => rfl
    | cons d e =>
      have hd := hx d e rfl
      simp only [stofHex]
      rw [if_neg (by
        intro h
        exact hd h.2)]
  unfold stof
  simp only [hsp, hsign, hinf, hnan, if_false, hhex]

theorem padDigits_digits (width n : Nat) : ∀ c ∈ padDigits width n, isdigit c = true := by
  intro c hc
  unfold padDigits at hc
  rcases List.mem_append.1 hc with h | h
  · rw [List.eq_of_mem_replicate h]
    decide
  · exact (printNat_spec n).2.1 c h

theorem padDigits_value (width n : Nat) : digitsValue (padDigits width n) = n := by
  unfold padDigits
  rw [digitsValue_append, digitsValue_zeros, (printNat_spec n).2.2]
  simp

theorem padDigits_ne_nil (width n : Nat) : padDigits width n ≠ [] := by
  unfold padDigits
  intro h
  exact (printNat_spec n).1 (List.append_eq_nil.1 h).2

/-- The exponent written after `e` is read back. -/
theorem exponentPart_text (X : Int) :
    exponentPart 101 (Char.ofNat 101 ::
      (if X < 0 then Char.ofNat 45 else Char.ofNat 43) :: padDigits 2 X.natAbs) = X := by
  have h101 : lowerCode (Char.ofNat 101) = 101 := by decide
  have htw : (padDigits 2 X.natAbs).takeWhile isdigit = padDigits 2 X.natAbs :=
    takeWhile_eq_self_of_all _ _ (padDigits_digits 2 X.natAbs)
  have hemp : (padDigits 2 X.natAbs).isEmpty = false := by
    cases h : padDigits 2 X.natAbs with
    | nil => exact absurd h (padDigits_ne_nil 2 X.natAbs)
    | cons a r => rfl
  by_cases hX : X < 0
  · have hs : stripSign (Char.ofNat 45 :: padDigits 2 X.natAbs) =
        (true, padDigits 2 X.natAbs) := by
      simp only [stripSign]
      rw [if_pos (by decide)]
    simp only [exponentPart, h101, if_true, hX, hs, htw, hemp, Bool.false_eq_true, if_false,
      padDigits_value]
    omega
  · have hs : stripSign (Char.ofNat 43 :: padDigits 2 X.natAbs) =
        (false, padDigits 2 X.natAbs) := by
      simp only [stripSign]
      rw [if_neg (by decide), if_pos (by decide)]
    simp only [exponentPart, h101, if_true, hX, if_false, hs, htw, hemp, Bool.false_eq_true,
      padDigits_value]
    omega

theorem decDigitsAux_length : ∀ (fuel n : Nat) (acc : List Char) (k : Nat), n < fuel →
    10 ^ k ≤ n → n < 10 ^ (k + 1) →
    (decDigitsAux fuel n acc).length = k + 1 + acc.length := by
  intro fuel
  induction fuel with
  | zero => intro n acc k h; omega
  | succ f ih =>
    intro n acc k h h1 h2
    unfold decDigitsAux
    by_cases h10 : n < 10
    · rw [if_pos h10]
      have hk : k = 0 := by
        by_contra hk
        have : 10 ^ 1 ≤ 10 ^ k := Nat.pow_le_pow_right (by decide) (by omega)
        omega
      simp only [List.length_cons, hk]
      omega
    · rw [if_neg h10]
      have hk : 1 ≤ k := by
        by_contra hk
        have hk0 : k = 0 := by omega
        rw [hk0] at h2
        omega
      obtain ⟨j, rfl⟩ := Nat.exists_eq_add_of_le hk
      have hj1 : 10 ^ j ≤ n / 10 := by
        rw [Nat.le_div_iff_mul_le (by decide)]
        calc 10 ^ j * 10 = 10 ^ (1 + j) := by rw [pow_add]; ring
          _ ≤ n := h1
      have hj2 : n / 10 < 10 ^ (j + 1) := by
        rw [Nat.div_lt_iff_lt_mul (by decide)]
        calc n < 10 ^ (1 + j + 1) := h2
          _ = 10 ^ (j + 1) * 10 := by rw [pow_succ]; congr 2; omega
      rw [ih (n / 10) _ j (by omega) hj1 hj2]
      simp only [List.length_cons]
      omega

/-- A number of six digits is written on six places. -/
theorem padDigits_six (D : Nat) (h1 : 100000 ≤ D) (h2 : D < 1000000) :
    padDigits 6 D = printNat D ∧ (printNat D).length = 6 := by
  have hl : (printNat D).length = 6 := by
    unfold printNat
    rw [decDigitsAux_length (D + 1) D [] 5 (by omega) (by norm_num; exact h1)
      (by norm_num; exact h2)]
    rfl
  refine ⟨?_, hl⟩
  unfold padDigits
  rw [hl]
  rfl

/-! ## The value read by `std::stof` depends on the ratio only -/

theorem roundHalfEven_congr (a b a2 b2 : Nat) (hb : 0 < b) (hb2 : 0 < b2)
    (h : a * b2 = a2 * b) : roundHalfEven a b = roundHalfEven a2 b2 := by
  rw [← roundHalfEven_scale a b b2 hb2, ← roundHalfEven_scale a2 b2 b hb, h, Nat.mul_comm b b2]

theorem roundUnits_congr (a b a2 b2 : Nat) (hb : 0 < b) (hb2 : 0 < b2)
    (h : a * b2 = a2 * b) : roundUnits a b = roundUnits a2 b2 := by
  rw [← roundUnits_scale a b b2 hb2, ← roundUnits_scale a2 b2 b hb, h, Nat.mul_comm b b2]

theorem mod_eq_zero_congr (a b a2 b2 : Nat) (hb : 0 < b) (hb2 : 0 < b2)
    (h : a * b2 = a2 * b) : a % b = 0 ↔ a2 % b2 = 0 := by
  have key : ∀ (x y x2 y2 : Nat), 0 < y → x * y2 = x2 * y → x % y = 0 → x2 % y2 = 0 := by
    intro x y x2 y2 hy hxy hx
    obtain ⟨t, ht⟩ := Nat.dvd_of_mod_eq_zero hx
    apply Nat.mod_eq_zero_of_dvd
    refine ⟨t, ?_⟩
    have h1 : y * (t * y2) = y * x2 := by
      calc y * (t * y2) = (y * t) * y2 := by ring
        _ = x * y2 := by rw [ht]
        _ = x2 * y := hxy
        _ = y * x2 := Nat.mul_comm _ _
    have h2 := Nat.eq_of_mul_eq_mul_left hy h1
    rw [← h2]
    ring
  constructor
  · exact key a b a2 b2 hb h
  · exact key a2 b2 a b hb2 h.symm

/-- Two fractions with the same value are read as the same `float`. -/
theorem stofValue_congr (negative : Bool) (a b a2 b2 : Nat) (hb : 0 < b) (hb2 : 0 < b2)
    (h : a * b2 = a2 * b) : stofValue negative a b = stofValue negative a2 b2 := by
  have h1 : a * 2 ^ 149 * b2 = a2 * 2 ^ 149 * b := by
    calc a * 2 ^ 149 * b2 = (a * b2) * 2 ^ 149 := by ring
      _ = (a2 * b) * 2 ^ 149 := by rw [h]
      _ = a2 * 2 ^ 149 * b := by ring
  have h2 : 2 * (a * 2 ^ 149) * b2 = 2 * (a2 * 2 ^ 149) * b := by
    calc 2 * (a * 2 ^ 149) * b2 = 2 * (a * 2 ^ 149 * b2) := by ring
      _ = 2 * (a2 * 2 ^ 149 * b) := by rw [h1]
      _ = 2 * (a2 * 2 ^ 149) * b := by ring
  unfold stofValue
  simp only
  rw [roundUnits_congr _ _ _ _ hb hb2 h1, roundHalfEven_congr _ _ _ _ hb hb2 h2]
  have h3 := mod_eq_zero_congr _ _ _ _ hb hb2 h1
  simp only [ne_eq, h3]

theorem stofValue_congr_rat (negative : Bool) (a b a2 b2 : Nat) (hb : 0 < b) (hb2 : 0 < b2)
    (h : (a : ℚ) / b = (a2 : ℚ) / b2) : stofValue negative a b = stofValue negative a2 b2 := by
  apply stofValue_congr negative a b a2 b2 hb hb2
  have hbq : (b : ℚ) ≠ 0 := by exact_mod_cast (Nat.pos_iff_ne_zero.1 hb)
  have hb2q : (b2 : ℚ) ≠ 0 := by exact_mod_cast (Nat.pos_iff_ne_zero.1 hb2)
  rw [div_eq_div_iff hbq hb2q] at h
  exact_mod_cast h

theorem scaled_pos (m : Nat) (e : Int) : 0 < (scaled m 10 e).2 := by
  unfold scaled
  split_ifs
  · exact Nat.one_pos
  · exact pow_pos (by decide) _

theorem scaled_val (m : Nat) (e : Int) :
    ((scaled m 10 e).1 : ℚ) / ((scaled m 10 e).2 : ℚ) = (m : ℚ) * (10 : ℚ) ^ e := by
  unfold scaled
  split_ifs with h
  · obtain ⟨n, rfl⟩ := Int.eq_ofNat_of_zero_le h
    simp
  · have hneg : 0 ≤ -e := by omega
    obtain ⟨n, hn⟩ := Int.eq_ofNat_of_zero_le hneg
    have he : e = -(n : Int) := by omega
    rw [he]
    simp only [neg_neg, Int.toNat_ofNat, Nat.cast_pow, Nat.cast_ofNat, zpow_neg, zpow_natCast]
    rw [div_eq_mul_inv]

theorem two_roundHalfEven_le (a c : Nat) :
    2 * roundHalfEven a c * c ≤ 2 * a + c := by
  have hdm := Nat.div_add_mod a c
  have e1 : 2 * (a / c) * c = 2 * (c * (a / c)) := by ring
  have e2 : 2 * (a / c + 1) * c = 2 * (c * (a / c)) + 2 * c := by ring
  unfold roundHalfEven
  simp only
  split_ifs with h1 h2 h3
  · rw [e1]; omega
  · rw [e2]; omega
  · rw [e1]; omega
  · rw [e2]; omega

/-- The rounding to binary32 exceeds the value by at most `2^-24` of it (and half a unit). -/
theorem roundUnits_upper (a b : Nat) (hb : 0 < b) :
    16777216 * (roundUnits a b * b) ≤ 16777217 * a + 16777216 * b := by
  unfold roundUnits
  simp only
  have h := two_roundHalfEven_le a (b * 2 ^ ulpExp (a / b))
  have hq : a / b * b ≤ a := Nat.div_mul_le_self a b
  have e1 : 2 * roundHalfEven a (b * 2 ^ ulpExp (a / b)) * (b * 2 ^ ulpExp (a / b)) =
      2 * (roundHalfEven a (b * 2 ^ ulpExp (a / b)) * 2 ^ ulpExp (a / b) * b) := by ring
  rw [e1] at h
  by_cases hlt : a / b < 16777216
  · have he : ulpExp (a / b) = 0 := ulpExpAux_small _ _ hlt
    rw [he] at h ⊢
    simp only [pow_zero, Nat.mul_one] at h ⊢
    omega
  · obtain ⟨_, he2⟩ := ulpExpAux_spec (a / b) (a / b) (by omega) (le_refl _)
    have h3 : 8388608 * (b * 2 ^ ulpExp (a / b)) ≤ a := by
      calc 8388608 * (b * 2 ^ ulpExp (a / b)) = (8388608 * 2 ^ ulpExp (a / b)) * b := by ring
        _ ≤ a / b * b := Nat.mul_le_mul_right b he2
        _ ≤ a := hq
    have he3 : 8388608 * 2 ^ ulpExpAux (a / b) (a / b) = 8388608 * 2 ^ ulpExp (a / b) := rfl
    omega

theorem binary32_of_ratio (a b : Nat) (hb : 0 < b) :
    binary32 ((a : ℚ) / b) = (roundUnits (a * 2 ^ 149) b : ℚ) / 2 ^ 149 := by
  have hbq : (0 : ℚ) < (b : ℚ) := by exact_mod_cast hb
  have hnn : (0 : ℚ) ≤ (a : ℚ) / b := by positivity
  have hval := natAbs_num_div_den ((a : ℚ) / b) hnn
  have hden : (0 : ℚ) < (((a : ℚ) / b).den : ℚ) := by exact_mod_cast ((a : ℚ) / b).den_pos
  have hcross : ((a : ℚ) / b).num.natAbs * b = a * ((a : ℚ) / b).den := by
    rw [div_eq_div_iff (ne_of_gt hden) (ne_of_gt hbq)] at hval
    exact_mod_cast hval
  have hr : roundUnits (((a : ℚ) / b).num.natAbs * 2 ^ 149) ((a : ℚ) / b).den =
      roundUnits (a * 2 ^ 149) b := by
    apply roundUnits_congr _ _ _ _ ((a : ℚ) / b).den_pos hb
    calc ((a : ℚ) / b).num.natAbs * 2 ^ 149 * b = (((a : ℚ) / b).num.natAbs * b) * 2 ^ 149 := by
          ring
      _ = (a * ((a : ℚ) / b).den) * 2 ^ 149 := by rw [hcross]
      _ = a * 2 ^ 149 * ((a : ℚ) / b).den := by ring
  unfold binary32
  simp only [hr, not_lt.2 hnn, if_false]

/-- A decimal constant between `2^-126` and `3.40282e38` is read as the nearest `float`:
`strtof` reports no `ERANGE`. -/
theorem stofValue_accept (a b : Nat) (hb : 0 < b) (hlo : b ≤ a * 2 ^ 126)
    (hhi : a ≤ 340282 * 10 ^ 33 * b) :
    stofValue false a b = some (F32.fin (binary32 ((a : ℚ) / b))) := by
  have hup := roundUnits_upper (a * 2 ^ 149) b hb
  have hno : ¬ 2 ^ 277 ≤ roundUnits (a * 2 ^ 149) b := by
    intro h
    have h1 : 16777216 * (2 ^ 277 * b) ≤ 16777216 * (roundUnits (a * 2 ^ 149) b * b) :=
      Nat.mul_le_mul_left _ (Nat.mul_le_mul_right b h)
    have h2 : a * 2 ^ 149 ≤ 340282 * 10 ^ 33 * b * 2 ^ 149 := Nat.mul_le_mul_right _ hhi
    have h3 : 16777216 * (2 ^ 277 * b) ≤
        16777217 * (340282 * 10 ^ 33 * b * 2 ^ 149) + 16777216 * b := by
      calc 16777216 * (2 ^ 277 * b) ≤ 16777217 * (a * 2 ^ 149) + 16777216 * b :=
            le_trans h1 hup
        _ ≤ 16777217 * (340282 * 10 ^ 33 * b * 2 ^ 149) + 16777216 * b :=
            Nat.add_le_add_right (Nat.mul_le_mul_left _ h2) _
    have h4 : 16777217 * (340282 * 10 ^ 33 * b * 2 ^ 149) + 16777216 * b =
        (16777217 * (340282 * 10 ^ 33 * 2 ^ 149) + 16777216) * b := by ring
    have h5 : 16777216 * (2 ^ 277 * b) = (16777216 * 2 ^ 277) * b := by ring
    rw [h4, h5] at h3
    have h6 := Nat.le_of_mul_le_mul_right h3 hb
    norm_num at h6
  have hnt : ¬ roundHalfEven (2 * (a * 2 ^ 149)) b < 16777216 := by
    apply not_lt.2
    refine le_trans ?_ (roundHalfEven_ge _ _)
    rw [Nat.le_div_iff_mul_le hb]
    calc 16777216 * b ≤ 16777216 * (a * 2 ^ 126) := Nat.mul_le_mul_left _ hlo
      _ = 2 * (a * 2 ^ 149) := by
        rw [show (2 : ℕ) ^ 149 = 2 ^ 126 * 8388608 by norm_num]
        ring
  unfold stofValue
  simp only [hno, hnt, if_false, false_and, Bool.false_eq_true]
  rw [binary32_of_ratio a b hb]

/-! ## The decimal exponent and the six digits -/

theorem antitone_down (p : Nat → Bool) (hp : ∀ i, p (i + 1) = true → p i = true) :
    ∀ n, p n = true → ∀ i, i ≤ n → p i = true := by
  intro n
  induction n with
  | zero =>
    intro h i hi
    have : i = 0 := by omega
    rw [this]
    exact h
  | succ n ih =>
    intro h i hi
    by_cases he : i = n + 1
    · rw [he]
      exact h
    · exact ih (hp n h) i (by omega)

/-- For a predicate that can only switch from true to false, the number of true values below
`n` is the position of the switch. -/
theorem filter_count_antitone (p : Nat → Bool) (hp : ∀ i, p (i + 1) = true → p i = true) :
    ∀ n, ((List.range n).filter p).length ≤ n ∧
      (∀ i, i < ((List.range n).filter p).length → p i = true) ∧
      (((List.range n).filter p).length < n → p ((List.range n).filter p).length = false) := by
  intro n
  induction n with
  | zero => simp
  | succ n ih =>
    obtain ⟨h1, h2, h3⟩ := ih
    rw [List.range_succ, List.filter_append]
    by_cases hn : p n = true
    · have hall := antitone_down p hp n hn
      have hk : ((List.range n).filter p).length = n := by
        by_contra hne
        have hlt : ((List.range n).filter p).length < n := by omega
        have := h3 hlt
        rw [hall _ (by omega)] at this
        exact absurd this (by simp)
      simp only [List.filter_cons, hn, if_true, List.filter_nil, List.length_append,
        List.length_singleton, hk]
      refine ⟨le_refl _, ?_, ?_⟩
      · intro i hi
        exact hall i (by omega)
      · intro h
        omega
    · have hn2 : p n = false := by
        cases h : p n with
        | false => rfl
        | true => exact absurd h hn
      simp only [List.filter_cons, hn2, Bool.false_eq_true, if_false, List.filter_nil,
        List.length_append, List.length_nil, Nat.add_zero]
      refine ⟨by omega, h2, ?_⟩
      intro h
      by_cases hlt : ((List.range n).filter p).length < n
      · exact h3 hlt
      · have : ((List.range n).filter p).length = n := by omega
        rw [this]
        exact hn2

/-- The decimal exponent of a value between `10^-45` and `10^44`. -/
theorem decExponent_spec (num den : Nat) (h0 : den ≤ num * 10 ^ 45)
    (h89 : num * 10 ^ 45 < den * 10 ^ 89) :
    ∃ k : Nat, 1 ≤ k ∧ k ≤ 89 ∧ decExponent num den = (k : Int) - 46 ∧
      den * 10 ^ (k - 1) ≤ num * 10 ^ 45 ∧ num * 10 ^ 45 < den * 10 ^ k := by
  have hp : ∀ i, (fun i => decide (den * 10 ^ i ≤ num * 10 ^ 45)) (i + 1) = true →
      (fun i => decide (den * 10 ^ i ≤ num * 10 ^ 45)) i = true := by
    intro i h
    simp only [decide_eq_true_eq] at h ⊢
    refine le_trans ?_ h
    apply Nat.mul_le_mul_left
    exact Nat.pow_le_pow_right (by decide) (by omega)
  obtain ⟨h1, h2, h3⟩ := filter_count_antitone
    (fun i => decide (den * 10 ^ i ≤ num * 10 ^ 45)) hp 90
  refine ⟨((List.range 90).filter (fun i => decide (den * 10 ^ i ≤ num * 10 ^ 45))).length,
    ?_, ?_, rfl, ?_, ?_⟩
  · by_contra hk
    have hz : ((List.range 90).filter
        (fun i => decide (den * 10 ^ i ≤ num * 10 ^ 45))).length = 0 := by omega
    have := h3 (by omega)
    rw [hz] at this
    simp only [pow_zero, Nat.mul_one, decide_eq_false_iff_not] at this
    exact this h0
  · by_contra hk
    have := h2 89 (by omega)
    simp only [decide_eq_true_eq] at this
    omega
  · have hk1 : 1 ≤ ((List.range 90).filter
        (fun i => decide (den * 10 ^ i ≤ num * 10 ^ 45))).length := by
      by_contra hk
      have hz : ((List.range 90).filter
          (fun i => decide (den * 10 ^ i ≤ num * 10 ^ 45))).length = 0 := by omega
      have := h3 (by omega)
      rw [hz] at this
      simp only [pow_zero, Nat.mul_one, decide_eq_false_iff_not] at this
      exact this h0
    have := h2 (((List.range 90).filter
      (fun i => decide (den * 10 ^ i ≤ num * 10 ^ 45))).length - 1) (by omega)
    simpa only [decide_eq_true_eq] using this
  · have hk89 : ((List.range 90).filter
        (fun i => decide (den * 10 ^ i ≤ num * 10 ^ 45))).length < 90 := by
      by_contra hk
      have := h2 89 (by omega)
      simp only [decide_eq_true_eq] at this
      omega
    have := h3 hk89
    simpa only [decide_eq_false_iff_not, not_le] using this

theorem two_roundHalfEven_ge (a c : Nat) (hc : 0 < c) :
    2 * a ≤ 2 * roundHalfEven a c * c + c := by
  have hdm := Nat.div_add_mod a c
  have hr := Nat.mod_lt a hc
  have e1 : 2 * (a / c) * c = 2 * (c * (a / c)) := by ring
  have e2 : 2 * (a / c + 1) * c = 2 * (c * (a / c)) + 2 * c := by ring
  unfold roundHalfEven
  simp only
  split_ifs with h1 h2 h3
  · rw [e1]; omega
  · rw [e2]; omega
  · rw [e1]; omega
  · rw [e2]; omega

/-- The rounded integer is within one half of the fraction. -/
theorem roundHalfEven_near (A B : Nat) (hB : 0 < B) :
    (roundHalfEven A B : ℚ) ≤ (A : ℚ) / B + 1 / 2 ∧
    (A : ℚ) / B - 1 / 2 ≤ (roundHalfEven A B : ℚ) := by
  have hBq : (0 : ℚ) < (B : ℚ) := by exact_mod_cast hB
  have h1 : (2 * roundHalfEven A B * B : ℚ) ≤ 2 * A + B := by
    exact_mod_cast two_roundHalfEven_le A B
  have h2 : (2 * A : ℚ) ≤ 2 * roundHalfEven A B * B + B := by
    exact_mod_cast two_roundHalfEven_ge A B hB
  constructor
  · rw [div_add_div _ _ (ne_of_gt hBq) (by norm_num), le_div_iff₀ (by positivity)]
    nlinarith
  · rw [div_sub_div _ _ (ne_of_gt hBq) (by norm_num), div_le_iff₀ (by positivity)]
    nlinarith

theorem roundHalfEven_ge_half (A B N : Nat) (hB : 0 < B)
    (h : (N : ℚ) - 1 / 2 < (A : ℚ) / B) : N ≤ roundHalfEven A B := by
  have h1 := (roundHalfEven_near A B hB).2
  have h2 : ((N : ℚ) - 1 : ℚ) < (roundHalfEven A B : ℚ) := by linarith
  have h3 : ((N : ℤ) - 1 : ℤ) < (roundHalfEven A B : ℤ) := by exact_mod_cast h2
  omega

theorem roundHalfEven_le_half (A B N : Nat) (hB : 0 < B)
    (h : (A : ℚ) / B < (N : ℚ) + 1 / 2) : roundHalfEven A B ≤ N := by
  have h1 := (roundHalfEven_near A B hB).1
  have h2 : (roundHalfEven A B : ℚ) < (N : ℚ) + 1 := by linarith
  have h3 : (roundHalfEven A B : ℤ) < (N : ℤ) + 1 := by exact_mod_cast h2
  omega

/-- The six digits are the rounding of the value scaled by `10^(5-X)`. -/
theorem sixDigits_ratio (num den : Nat) (hden : 0 < den) (X : Int) :
    ∃ A B : Nat, 0 < B ∧ sixDigits num den X = roundHalfEven A B ∧
      (A : ℚ) / B = (num : ℚ) / den * (10 : ℚ) ^ (5 - X) := by
  have hdq : (den : ℚ) ≠ 0 := by exact_mod_cast (Nat.pos_iff_ne_zero.1 hden)
  unfold sixDigits
  by_cases hX : X ≤ 5
  · rw [if_pos hX]
    obtain ⟨n, hn⟩ := Int.eq_ofNat_of_zero_le (show 0 ≤ 5 - X by omega)
    refine ⟨num * 10 ^ (5 - X).toNat, den, hden, rfl, ?_⟩
    rw [hn]
    simp only [Int.toNat_ofNat, Nat.cast_mul, Nat.cast_pow, Nat.cast_ofNat, zpow_natCast]
    field_simp
  · rw [if_neg hX]
    obtain ⟨n, hn⟩ := Int.eq_ofNat_of_zero_le (show 0 ≤ X - 5 by omega)
    refine ⟨num, den * 10 ^ (X - 5).toNat, Nat.mul_pos hden (pow_pos (by decide) _), rfl, ?_⟩
    have h5 : 5 - X = -(n : Int) := by omega
    rw [hn, h5]
    simp only [Int.toNat_ofNat, Nat.cast_mul, Nat.cast_pow, Nat.cast_ofNat, zpow_neg,
      zpow_natCast]
    field_simp

theorem scaled_range (v : ℚ) (X : Int) (h1 : (10 : ℚ) ^ X ≤ v) (h2 : v < (10 : ℚ) ^ (X + 1)) :
    (100000 : ℚ) ≤ v * (10 : ℚ) ^ (5 - X) ∧ v * (10 : ℚ) ^ (5 - X) < 1000000 := by
  have hpos : (0 : ℚ) < (10 : ℚ) ^ (5 - X) := zpow_pos (by norm_num) _
  have e1 : (10 : ℚ) ^ X * (10 : ℚ) ^ (5 - X) = 100000 := by
    rw [← zpow_add₀ (by norm_num : (10 : ℚ) ≠ 0)]
    have : X + (5 - X) = 5 := by omega
    rw [this]
    norm_num
  have e2 : (10 : ℚ) ^ (X + 1) * (10 : ℚ) ^ (5 - X) = 1000000 := by
    rw [← zpow_add₀ (by norm_num : (10 : ℚ) ≠ 0)]
    have : X + 1 + (5 - X) = 6 := by omega
    rw [this]
    norm_num
  constructor
  · rw [← e1]
    exact mul_le_mul_of_nonneg_right h1 (le_of_lt hpos)
  · rw [← e2]
    exact mul_lt_mul_of_pos_right h2 hpos

/-- The decimal exponent brackets the value. -/
theorem decExponent_bracket (num den : Nat) (hden : 0 < den) (h0 : den ≤ num * 10 ^ 45)
    (h89 : num * 10 ^ 45 < den * 10 ^ 89) :
    -45 ≤ decExponent num den ∧ decExponent num den ≤ 43 ∧
    (10 : ℚ) ^ decExponent num den ≤ (num : ℚ) / den ∧
    (num : ℚ) / den < (10 : ℚ) ^ (decExponent num den + 1) := by
  obtain ⟨k, hk1, hk89, hX, hlo, hhi⟩ := decExponent_spec num den h0 h89
  have hdq : (0 : ℚ) < (den : ℚ) := by exact_mod_cast hden
  obtain ⟨j, rfl⟩ := Nat.exists_eq_add_of_le hk1
  have hloq : (den : ℚ) * 10 ^ j ≤ (num : ℚ) * 10 ^ 45 := by
    have := hlo
    simp only [Nat.add_sub_cancel_left] at this
    exact_mod_cast this
  have hhiq : (num : ℚ) * 10 ^ 45 < (den : ℚ) * 10 ^ (1 + j) := by exact_mod_cast hhi
  have hXj : decExponent num den = (j : Int) - 45 := by
    rw [hX]
    push_cast
    omega
  have hz1 : (10 : ℚ) ^ ((j : Int) - 45) = (10 : ℚ) ^ j / 10 ^ 45 := by
    rw [zpow_sub₀ (by norm_num : (10 : ℚ) ≠ 0), zpow_natCast]
    norm_num
  have hz2 : (10 : ℚ) ^ ((j : Int) - 45 + 1) = (10 : ℚ) ^ (1 + j) / 10 ^ 45 := by
    have : (j : Int) - 45 + 1 = ((1 + j : ℕ) : Int) - 45 := by
      push_cast
      omega
    rw [this, zpow_sub₀ (by norm_num : (10 : ℚ) ≠ 0), zpow_natCast]
    norm_num
  refine ⟨by omega, by omega, ?_, ?_⟩
  · rw [hXj, hz1, div_le_div_iff₀ (by positivity) hdq]
    linarith
  · rw [hXj, hz2, div_lt_div_iff₀ hdq (by positivity)]
    linarith

/-- The six digits at the decimal exponent lie between `10^5` and `10^6`. -/
theorem sixDigits_range (num den : Nat) (hden : 0 < den) (h0 : den ≤ num * 10 ^ 45)
    (h89 : num * 10 ^ 45 < den * 10 ^ 89) :
    100000 ≤ sixDigits num den (decExponent num den) ∧
    sixDigits num den (decExponent num den) ≤ 1000000 := by
  obtain ⟨_, _, hlo, hhi⟩ := decExponent_bracket num den hden h0 h89
  obtain ⟨hr1, hr2⟩ := scaled_range _ _ hlo hhi
  obtain ⟨A, B, hB, hD, hAB⟩ := sixDigits_ratio num den hden (decExponent num den)
  rw [hD]
  constructor
  · apply roundHalfEven_ge_half A B 100000 hB
    rw [hAB]
    push_cast
    linarith
  · apply roundHalfEven_le_half A B 1000000 hB
    rw [hAB]
    push_cast
    linarith

/-- The exponent and the digits that are written: six significant digits, which denote the
decimal `writtenDecimal`. -/
theorem written_digits (num den : Nat) (hden : 0 < den) (h0 : den ≤ num * 10 ^ 45)
    (h89 : num * 10 ^ 45 < den * 10 ^ 89) :
    100000 ≤ sixDigits num den (writtenExponent num den) ∧
    sixDigits num den (writtenExponent num den) < 1000000 ∧
    -45 ≤ writtenExponent num den ∧ writtenExponent num den ≤ 44 ∧
    (sixDigits num den (writtenExponent num den) : ℚ) *
        (10 : ℚ) ^ (writtenExponent num den - 5) =
      (sixDigits num den (decExponent num den) : ℚ) * (10 : ℚ) ^ (decExponent num den - 5) := by
  obtain ⟨hX1, hX2, hlo, hhi⟩ := decExponent_bracket num den hden h0 h89
  obtain ⟨hD1, hD2⟩ := sixDigits_range num den hden h0 h89
  unfold writtenExponent
  by_cases hc : 1000000 ≤ sixDigits num den (decExponent num den)
  · rw [if_pos hc]
    have hD0 : sixDigits num den (decExponent num den) = 1000000 := by omega
    obtain ⟨hr1, hr2⟩ := scaled_range _ _ hlo hhi
    obtain ⟨A, B, hB, hD, hAB⟩ := sixDigits_ratio num den hden (decExponent num den)
    obtain ⟨A2, B2, hB2, hE, hAB2⟩ := sixDigits_ratio num den hden (decExponent num den + 1)
    have hnear := (roundHalfEven_near A B hB).1
    rw [← hD, hD0, hAB] at hnear
    have hten : (10 : ℚ) ^ (5 - (decExponent num den + 1)) =
        (10 : ℚ) ^ (5 - decExponent num den) / 10 := by
      have : 5 - (decExponent num den + 1) = 5 - decExponent num den - 1 := by omega
      rw [this, zpow_sub₀ (by norm_num : (10 : ℚ) ≠ 0)]
      norm_num
    have hy : (A2 : ℚ) / B2 = (num : ℚ) / den * (10 : ℚ) ^ (5 - decExponent num den) / 10 := by
      rw [hAB2, hten]
      ring
    have hDval : sixDigits num den (decExponent num den + 1) = 100000 := by
      rw [hE]
      apply le_antisymm
      · apply roundHalfEven_le_half A2 B2 100000 hB2
        rw [hy]
        push_cast at hnear ⊢
        linarith
      · apply roundHalfEven_ge_half A2 B2 100000 hB2
        rw [hy]
        push_cast at hnear ⊢
        linarith
    rw [hDval, hD0]
    refine ⟨le_refl _, by norm_num, by omega, by omega, ?_⟩
    have h2 : (10 : ℚ) ^ (decExponent num den + 1 - 5) =
        (10 : ℚ) ^ (decExponent num den - 5) * 10 := by
      have : decExponent num den + 1 - 5 = decExponent num den - 5 + 1 := by omega
      rw [this, zpow_add₀ (by norm_num : (10 : ℚ) ≠ 0)]
      norm_num
    rw [h2]
    push_cast
    ring
  · rw [if_neg hc]
    exact ⟨hD1, by omega, hX1, by omega, rfl⟩

/-! ## Reading back the text written for a `float` -/

theorem fractionText_plain (ds : List Char) (hds : ∀ c ∈ ds, lowerCode c ≠ 120) :
    ∀ c ∈ fractionText ds, lowerCode c ≠ 120 := by
  intro c hc
  unfold fractionText at hc
  split_ifs at hc with h
  · simp at hc
  · rcases List.mem_cons.1 hc with h1 | h1
    · rw [h1]
      decide
    · exact hds c (mem_stripZeros c ds h1)

theorem digit_plain (c : Char) (h : isdigit c = true) : lowerCode c ≠ 120 := by
  rw [lowerCode_digit c h]
  have := isdigit_range c h
  omega

/-- The reading of a text made of digits, a fraction and an exponent, in which no character
is an `x`. -/
theorem stof_digits_text (ip F expText : List Char) (hne : ip ≠ [])
    (hip : ∀ c ∈ ip, isdigit c = true) (hF : ∀ c ∈ F, isdigit c = true)
    (hexp : ∀ c r, expText = c :: r → isdigit c = false ∧ c.toNat ≠ 46)
    (hplain : ∀ c ∈ expText, lowerCode c ≠ 120) :
    stof (ip ++ (fractionText F ++ expText)) =
      stofValue false
        (scaled (digitsValue (ip ++ F)) 10 (exponentPart 101 expText - (F.length : Int))).1
        (scaled (digitsValue (ip ++ F)) 10 (exponentPart 101 expText - (F.length : Int))).2 := by
  have hall : ∀ c ∈ ip ++ (fractionText F ++ expText), lowerCode c ≠ 120 := by
    intro c hc
    rcases List.mem_append.1 hc with h | h
    · exact digit_plain c (hip c h)
    · rcases List.mem_append.1 h with h2 | h2
      · exact fractionText_plain F (fun d hd => digit_plain d (hF d hd)) c h2
      · exact hplain c h2
  have htext := stofDecimal_text false ip F expText hne hip hF hexp
  cases hi : ip with
  | nil => exact absurd hi hne
  | cons c t =>
    rw [hi] at htext hall hip
    have hhead := stof_digit_head c (t ++ (fractionText F ++ expText)) (hip c (by simp))
      (fun d e h => hall d (by
        rw [List.cons_append, h]
        simp))
    rw [List.cons_append, hhead, ← List.cons_append, htext]
    obtain ⟨k, hk⟩ := stripZeros_spec F
    have hlen : F.length = (stripZeros F).length + k := by
      conv_lhs => rw [hk]
      simp
    have hv : digitsValue (c :: t ++ F) = digitsValue (c :: t ++ stripZeros F) * 10 ^ k := by
      conv_lhs => rw [hk]
      rw [← List.append_assoc, digitsValue_append, digitsValue_zeros, List.length_replicate]
      simp
    apply stofValue_congr_rat false _ _ _ _ (scaled_pos _ _) (scaled_pos _ _)
    rw [scaled_val, scaled_val, hv, hlen]
    push_cast
    have hz : (10 : ℚ) ^ (exponentPart 101 expText - ((stripZeros F).length : Int)) =
        (10 : ℚ) ^ k *
          (10 : ℚ) ^ (exponentPart 101 expText - (((stripZeros F).length : Int) + (k : Int))) := by
      rw [← zpow_natCast, ← zpow_add₀ (by norm_num : (10 : ℚ) ≠ 0)]
      congr 1
      omega
    rw [hz]
    ring

theorem exponentPart_nil : exponentPart 101 [] = 0 := rfl

theorem printPositive_shape (num den : Nat) :
    printPositive num den =
      if -4 ≤ writtenExponent num den ∧ writtenExponent num den < 6 then
        if 0 ≤ writtenExponent num den then
          (padDigits 6 (sixDigits num den (writtenExponent num den))).take
              ((writtenExponent num den).toNat + 1) ++
            fractionText ((padDigits 6 (sixDigits num den (writtenExponent num den))).drop
              ((writtenExponent num den).toNat + 1))
        else
          Char.ofNat 48 :: fractionText
            (List.replicate ((-(writtenExponent num den)).toNat - 1) (Char.ofNat 48) ++
              padDigits 6 (sixDigits num den (writtenExponent num den)))
      else
        (padDigits 6 (sixDigits num den (writtenExponent num den))).take 1 ++
          fractionText ((padDigits 6 (sixDigits num den (writtenExponent num den))).drop 1) ++
          (Char.ofNat 101 ::
            (if writtenExponent num den < 0 then Char.ofNat 45 else Char.ofNat 43) ::
            padDigits 2 (writtenExponent num den).natAbs) := rfl

/-- The text written for a positive value between `10^-45` and `10^44` is read by `std::stof`
as the decimal constant made of the six written digits and the written exponent. -/
theorem stof_printPositive (num den : Nat) (hden : 0 < den) (h0 : den ≤ num * 10 ^ 45)
    (h89 : num * 10 ^ 45 < den * 10 ^ 89) :
    stof (printPositive num den) =
      stofValue false
        (scaled (sixDigits num den (writtenExponent num den)) 10
          (writtenExponent num den - 5)).1
        (scaled (sixDigits num den (writtenExponent num den)) 10
          (writtenExponent num den - 5)).2 := by
  obtain ⟨hD1, hD2, hX1, hX2, _⟩ := written_digits num den hden h0 h89
  rw [printPositive_shape]
  generalize writtenExponent num den = X at *
  generalize sixDigits num den X = D at *
  obtain ⟨hpad, hlen⟩ := padDigits_six D hD1 hD2
  obtain ⟨_, hdig, hval⟩ := printNat_spec D
  rw [hpad]
  have hzero : isdigit (Char.ofNat 48) = true := by decide
  by_cases hfix : -4 ≤ X ∧ X < 6
  · rw [if_pos hfix]
    by_cases hnn : 0 ≤ X
    · rw [if_pos hnn]
      obtain ⟨n, rfl⟩ := Int.eq_ofNat_of_zero_le hnn
      have hn : n ≤ 5 := by omega
      have htake : (printNat D).take (n + 1) ≠ [] := by
        intro h
        have := congrArg List.length h
        rw [List.length_take, hlen] at this
        simp at this
      have h := stof_digits_text ((printNat D).take (n + 1)) ((printNat D).drop (n + 1)) []
        htake (fun c hc => hdig c (List.mem_of_mem_take hc))
        (fun c hc => hdig c (List.mem_of_mem_drop hc))
        (fun c r h => by simp at h) (fun c hc => by simp at hc)
      rw [List.append_nil, List.take_append_drop, hval, exponentPart_nil, List.length_drop,
        hlen] at h
      rw [Int.toNat_ofNat, h]
      have he : (0 : Int) - ((6 - (n + 1) : ℕ) : Int) = (n : Int) - 5 := by omega
      rw [he]
    · rw [if_neg hnn]
      have h := stof_digits_text [Char.ofNat 48]
        (List.replicate ((-X).toNat - 1) (Char.ofNat 48) ++ printNat D) []
        (by simp)
        (fun c hc => by
          rw [List.mem_singleton.1 hc]
          exact hzero)
        (fun c hc => by
          rcases List.mem_append.1 hc with h1 | h1
          · rw [List.eq_of_mem_replicate h1]
            exact hzero
          · exact hdig c h1)
        (fun c r h => by simp at h) (fun c hc => by simp at hc)
      have hv : digitsValue ([Char.ofNat 48] ++
          (List.replicate ((-X).toNat - 1) (Char.ofNat 48) ++ printNat D)) = D := by
        have e : [Char.ofNat 48] ++
            (List.replicate ((-X).toNat - 1) (Char.ofNat 48) ++ printNat D) =
            List.replicate ((-X).toNat - 1 + 1) (Char.ofNat 48) ++ printNat D := by
          rw [List.replicate_succ]
          rfl
        rw [e, digitsValue_append, digitsValue_zeros, hval]
        simp
      rw [List.append_nil, hv, exponentPart_nil, List.length_append, List.length_replicate,
        hlen] at h
      rw [← List.singleton_append, h]
      have he : (0 : Int) - (((-X).toNat - 1 + 6 : ℕ) : Int) = X - 5 := by omega
      rw [he]
  · rw [if_neg hfix]
    have htake : (printNat D).take 1 ≠ [] := by
      intro h
      have := congrArg List.length h
      rw [List.length_take, hlen] at this
      simp at this
    have h := stof_digits_text ((printNat D).take 1) ((printNat D).drop 1)
      (Char.ofNat 101 :: (if X < 0 then Char.ofNat 45 else Char.ofNat 43) ::
        padDigits 2 X.natAbs)
      htake (fun c hc => hdig c (List.mem_of_mem_take hc))
      (fun c hc => hdig c (List.mem_of_mem_drop hc))
      (fun c r h => by
        simp only [List.cons.injEq] at h
        rw [← h.1]
        decide)
      (fun c hc => by
        rcases List.mem_cons.1 hc with h1 | h1
        · rw [h1]; decide
        · rcases List.mem_cons.1 h1 with h2 | h2
          · rw [h2]
            split_ifs <;> decide
          · exact digit_plain c (padDigits_digits 2 X.natAbs c h2))
    rw [List.take_append_drop, hval, exponentPart_text, List.length_drop, hlen] at h
    rw [List.append_assoc, h]
    rfl

/-- A six-digit decimal `D * 10^(X-5)` nearest to a value `v` of decimal exponent `X`: when `v`
lies above `1.175495e-38` and below `2^128`, the decimal is at least `2^-126`, at most
`3.40282e38`, and within 5 millionths of `v`. -/
theorem six_digit_decimal_bounds (X : Int) (D : Nat) (v : ℚ)
    (hblo : (10 : ℚ) ^ X ≤ v) (hbhi : v < (10 : ℚ) ^ (X + 1))
    (hD1 : 100000 ≤ D) (hD2 : D ≤ 1000000)
    (hn1 : (D : ℚ) ≤ v * (10 : ℚ) ^ (5 - X) + 1 / 2)
    (hn2 : v * (10 : ℚ) ^ (5 - X) - 1 / 2 ≤ (D : ℚ))
    (hlo : (1175495 : ℚ) / 10 ^ 44 < v) (hhi : v < 2 ^ 128) :
    (1 : ℚ) / 2 ^ 126 ≤ (D : ℚ) * (10 : ℚ) ^ (X - 5) ∧
    (D : ℚ) * (10 : ℚ) ^ (X - 5) ≤ 340282 * 10 ^ 33 ∧
    |(D : ℚ) * (10 : ℚ) ^ (X - 5) - v| ≤ v * (5 / 10 ^ 6) := by
  have h10 : (1 : ℚ) < 10 := by norm_num
  have hne : (10 : ℚ) ≠ 0 := by norm_num
  have hp : (0 : ℚ) < (10 : ℚ) ^ (X - 5) := zpow_pos (by norm_num) _
  have hinv : (10 : ℚ) ^ (5 - X) * (10 : ℚ) ^ (X - 5) = 1 := by
    rw [← zpow_add₀ hne]
    have : 5 - X + (X - 5) = 0 := by omega
    rw [this, zpow_zero]
  have hX5 : (10 : ℚ) ^ X = 100000 * (10 : ℚ) ^ (X - 5) := by
    rw [zpow_sub₀ hne]
    norm_num
    ring
  have hX6 : (10 : ℚ) ^ (X + 1) = 1000000 * (10 : ℚ) ^ (X - 5) := by
    rw [zpow_add₀ hne, zpow_one, hX5]
    ring
  have hD1q : (100000 : ℚ) ≤ (D : ℚ) := by exact_mod_cast hD1
  have hD2q : (D : ℚ) ≤ 1000000 := by exact_mod_cast hD2
  have hge : (10 : ℚ) ^ X ≤ (D : ℚ) * (10 : ℚ) ^ (X - 5) := by
    rw [hX5]
    exact mul_le_mul_of_nonneg_right hD1q (le_of_lt hp)
  have hle : (D : ℚ) * (10 : ℚ) ^ (X - 5) ≤ (10 : ℚ) ^ (X + 1) := by
    rw [hX6]
    exact mul_le_mul_of_nonneg_right hD2q (le_of_lt hp)
  refine ⟨?_, ?_, ?_⟩
  · by_cases hc : -37 ≤ X
    · have h1 : (10 : ℚ) ^ (-37 : Int) ≤ (10 : ℚ) ^ X := zpow_le_zpow_right₀ (le_of_lt h10) hc
      have h3 : (1 : ℚ) / 2 ^ 126 ≤ (10 : ℚ) ^ (-37 : Int) := by norm_num
      exact le_trans h3 (le_trans h1 hge)
    · have hX38 : X = -38 := by
        by_contra hx
        have hle2 : X + 1 ≤ -38 := by omega
        have h1 : (10 : ℚ) ^ (X + 1) ≤ (10 : ℚ) ^ (-38 : Int) :=
          zpow_le_zpow_right₀ (le_of_lt h10) hle2
        have h2 : (10 : ℚ) ^ (-38 : Int) < 1175495 / 10 ^ 44 := by norm_num
        exact absurd (lt_of_lt_of_le (lt_trans hlo hbhi) h1) (not_lt.2 (le_of_lt h2))
      subst hX38
      have e1 : (10 : ℚ) ^ ((5 : Int) - (-38)) = 10 ^ 43 := by norm_num
      have e2 : (10 : ℚ) ^ ((-38 : Int) - 5) = 1 / 10 ^ 43 := by norm_num
      rw [e1] at hn2
      rw [e2]
      have hy : (117549 : ℚ) + 1 / 2 < v * 10 ^ 43 := by
        have h := mul_lt_mul_of_pos_right hlo (by positivity : (0 : ℚ) < 10 ^ 43)
        have e3 : (1175495 : ℚ) / 10 ^ 44 * 10 ^ 43 = 117549 + 1 / 2 := by norm_num
        rw [e3] at h
        exact h
      have hD3 : ((117549 : ℤ) : ℚ) < ((D : ℤ) : ℚ) := by
        push_cast
        linarith
      have hD4 : (117549 : ℤ) < (D : ℤ) := by exact_mod_cast hD3
      have hD5 : (117550 : ℚ) ≤ (D : ℚ) := by
        have : (117550 : ℤ) ≤ (D : ℤ) := by omega
        exact_mod_cast this
      have h4 : (1 : ℚ) / 2 ^ 126 ≤ 117550 * (1 / 10 ^ 43) := by norm_num
      have h5 : (117550 : ℚ) * (1 / 10 ^ 43) ≤ (D : ℚ) * (1 / 10 ^ 43) :=
        mul_le_mul_of_nonneg_right hD5 (by positivity)
      exact le_trans h4 h5
  · by_cases hc : X ≤ 37
    · have h1 : (10 : ℚ) ^ (X + 1) ≤ (10 : ℚ) ^ (38 : Int) :=
        zpow_le_zpow_right₀ (le_of_lt h10) (by omega)
      have h3 : (10 : ℚ) ^ (38 : Int) ≤ 340282 * 10 ^ 33 := by norm_num
      exact le_trans hle (le_trans h1 h3)
    · have hX38 : X = 38 := by
        by_contra hx
        have hle2 : (39 : Int) ≤ X := by omega
        have h1 : (10 : ℚ) ^ (39 : Int) ≤ (10 : ℚ) ^ X :=
          zpow_le_zpow_right₀ (le_of_lt h10) hle2
        have h2 : (2 : ℚ) ^ 128 < (10 : ℚ) ^ (39 : Int) := by norm_num
        exact absurd (lt_of_le_of_lt (le_trans h1 hblo) hhi) (not_lt.2 (le_of_lt h2))
      subst hX38
      have e1 : (10 : ℚ) ^ ((5 : Int) - 38) = 1 / 10 ^ 33 := by norm_num
      have e2 : (10 : ℚ) ^ ((38 : Int) - 5) = 10 ^ 33 := by norm_num
      rw [e1] at hn1
      rw [e2]
      have hy : v * (1 / 10 ^ 33) < 2 ^ 128 * (1 / 10 ^ 33) :=
        mul_lt_mul_of_pos_right hhi (by positivity)
      have h2 : (2 : ℚ) ^ 128 * (1 / 10 ^ 33) < 340282 + 1 / 2 := by norm_num
      have hD3 : ((D : ℤ) : ℚ) < ((340282 : ℤ) + 1 : ℚ) := by
        push_cast
        linarith
      have hD4 : (D : ℤ) < 340282 + 1 := by exact_mod_cast hD3
      have hD5 : (D : ℚ) ≤ 340282 := by
        have : (D : ℤ) ≤ 340282 := by omega
        exact_mod_cast this
      exact mul_le_mul_of_nonneg_right hD5 (by positivity)
  · have hv : v = v * (10 : ℚ) ^ (5 - X) * (10 : ℚ) ^ (X - 5) := by
      rw [mul_assoc, hinv, mul_one]
    have hdiff : (D : ℚ) * (10 : ℚ) ^ (X - 5) - v =
        ((D : ℚ) - v * (10 : ℚ) ^ (5 - X)) * (10 : ℚ) ^ (X - 5) := by
      conv_lhs => rw [hv]
      ring
    rw [hdiff, abs_mul, abs_of_pos hp]
    have habs : |(D : ℚ) - v * (10 : ℚ) ^ (5 - X)| ≤ 1 / 2 := by
      rw [abs_le]
      constructor <;> linarith
    have hstep : |(D : ℚ) - v * (10 : ℚ) ^ (5 - X)| * (10 : ℚ) ^ (X - 5) ≤
        1 / 2 * (10 : ℚ) ^ (X - 5) := mul_le_mul_of_nonneg_right habs (le_of_lt hp)
    have hfin : 1 / 2 * (10 : ℚ) ^ (X - 5) ≤ v * (5 / 10 ^ 6) := by
      have h6 : (10 : ℚ) ^ X * (5 / 10 ^ 6) ≤ v * (5 / 10 ^ 6) :=
        mul_le_mul_of_nonneg_right hblo (by norm_num)
      rw [hX5] at h6
      have h7 : 100000 * (10 : ℚ) ^ (X - 5) * (5 / 10 ^ 6) = 1 / 2 * (10 : ℚ) ^ (X - 5) := by
        ring
      rw [h7] at h6
      exact h6
    exact le_trans hstep hfin

/-- The decimal written for a value above `1.175495e-38` and below `2^128`: it lies between
`2^-126` and `3.40282e38`, and it differs from the value by at most 5 millionths of it. -/
theorem written_value_bounds (num den : Nat) (hden : 0 < den)
    (hlo : (1175495 : ℚ) / 10 ^ 44 < (num : ℚ) / den) (hhi : (num : ℚ) / den < 2 ^ 128) :
    den ≤ num * 10 ^ 45 ∧ num * 10 ^ 45 < den * 10 ^ 89 ∧
    (1 : ℚ) / 2 ^ 126 ≤ (sixDigits num den (decExponent num den) : ℚ) *
      (10 : ℚ) ^ (decExponent num den - 5) ∧
    (sixDigits num den (decExponent num den) : ℚ) * (10 : ℚ) ^ (decExponent num den - 5) ≤
      340282 * 10 ^ 33 ∧
    |(sixDigits num den (decExponent num den) : ℚ) * (10 : ℚ) ^ (decExponent num den - 5) -
      (num : ℚ) / den| ≤ (num : ℚ) / den * (5 / 10 ^ 6) := by
  have hdq : (0 : ℚ) < (den : ℚ) := by exact_mod_cast hden
  have h0 : den ≤ num * 10 ^ 45 := by
    have h1 : (1 : ℚ) / 10 ^ 45 ≤ (num : ℚ) / den := le_trans (by norm_num) (le_of_lt hlo)
    rw [div_le_div_iff₀ (by positivity) hdq] at h1
    have h2 : (den : ℚ) ≤ (num : ℚ) * 10 ^ 45 := by linarith
    exact_mod_cast h2
  have h89 : num * 10 ^ 45 < den * 10 ^ 89 := by
    have h1 : (num : ℚ) / den < 10 ^ 44 := lt_trans hhi (by norm_num)
    rw [div_lt_iff₀ hdq] at h1
    have h2 : (num : ℚ) * 10 ^ 45 < (den : ℚ) * 10 ^ 89 := by
      have e : (den : ℚ) * 10 ^ 89 = (10 ^ 44 * den) * 10 ^ 45 := by ring
      rw [e]
      exact mul_lt_mul_of_pos_right h1 (by positivity)
    exact_mod_cast h2
  obtain ⟨hX1, hX2, hblo, hbhi⟩ := decExponent_bracket num den hden h0 h89
  obtain ⟨hD1, hD2⟩ := sixDigits_range num den hden h0 h89
  obtain ⟨A, B, hB, hD, hAB⟩ := sixDigits_ratio num den hden (decExponent num den)
  obtain ⟨hn1, hn2⟩ := roundHalfEven_near A B hB
  rw [← hD, hAB] at hn1 hn2
  exact ⟨h0, h89, six_digit_decimal_bounds _ _ _ hblo hbhi hD1 hD2 hn1 hn2 hlo hhi⟩

/-- Rounding to binary32 of a value of at least `2^23` units moves it by at most the fraction
`2^-24` of the value. -/
theorem roundUnits_near (n d : Nat) (hd : 0 < d) (h : 8388608 * d ≤ n) :
    16777216 * (roundUnits n d * d) ≤ 16777217 * n ∧
    16777215 * n ≤ 16777216 * (roundUnits n d * d) := by
  have hc : 8388608 * (d * 2 ^ ulpExp (n / d)) ≤ n := by
    by_cases hs : n / d < 16777216
    · have he : ulpExp (n / d) = 0 := ulpExpAux_small _ _ hs
      rw [he]
      simpa using h
    · obtain ⟨_, h2⟩ := ulpExpAux_spec (n / d) (n / d) (by omega) (le_refl _)
      have h3 : 8388608 * 2 ^ ulpExp (n / d) * d ≤ n / d * d := Nat.mul_le_mul_right d h2
      have h4 : n / d * d ≤ n := Nat.div_mul_le_self n d
      have e : 8388608 * (d * 2 ^ ulpExp (n / d)) = 8388608 * 2 ^ ulpExp (n / d) * d := by ring
      omega
  have hle := two_roundHalfEven_le n (d * 2 ^ ulpExp (n / d))
  have hge := two_roundHalfEven_ge n (d * 2 ^ ulpExp (n / d))
    (Nat.mul_pos hd (Nat.two_pow_pos _))
  have hP : roundUnits n d * d =
      roundHalfEven n (d * 2 ^ ulpExp (n / d)) * (d * 2 ^ ulpExp (n / d)) := by
    unfold roundUnits
    ring
  have e2 : 2 * roundHalfEven n (d * 2 ^ ulpExp (n / d)) * (d * 2 ^ ulpExp (n / d)) =
      2 * (roundHalfEven n (d * 2 ^ ulpExp (n / d)) * (d * 2 ^ ulpExp (n / d))) := by ring
  rw [e2] at hle hge
  rw [hP]
  generalize roundHalfEven n (d * 2 ^ ulpExp (n / d)) * (d * 2 ^ ulpExp (n / d)) = P at *
  generalize d * 2 ^ ulpExp (n / d) = c at *
  constructor <;> omega

/-- Rounding to binary32 of a value of at least `2^-126` moves it by at most the fraction
`2^-24` of the value. -/
theorem binary32_near (a b : Nat) (hb : 0 < b) (h : b ≤ a * 2 ^ 126) :
    |binary32 ((a : ℚ) / b) - (a : ℚ) / b| ≤ (a : ℚ) / b / 2 ^ 24 := by
  have h23 : 8388608 * b ≤ a * 2 ^ 149 := by
    have e : a * 2 ^ 149 = 8388608 * (a * 2 ^ 126) := by
      have : (2 : Nat) ^ 149 = 8388608 * 2 ^ 126 := by norm_num
      rw [this]
      ring
    rw [e]
    exact Nat.mul_le_mul_left _ h
  obtain ⟨h1, h2⟩ := roundUnits_near (a * 2 ^ 149) b hb h23
  rw [binary32_of_ratio a b hb]
  have hbq : (0 : ℚ) < (b : ℚ) := by exact_mod_cast hb
  have hy : (a : ℚ) = (a : ℚ) / b * b := by
    rw [div_mul_cancel₀]
    exact ne_of_gt hbq
  have h1q : (16777216 : ℚ) * ((roundUnits (a * 2 ^ 149) b : ℚ) * b) ≤
      16777217 * ((a : ℚ) * 2 ^ 149) := by exact_mod_cast h1
  have h2q : (16777215 : ℚ) * ((a : ℚ) * 2 ^ 149) ≤
      16777216 * ((roundUnits (a * 2 ^ 149) b : ℚ) * b) := by exact_mod_cast h2
  generalize (roundUnits (a * 2 ^ 149) b : ℚ) = R at *
  generalize (a : ℚ) / b = y at *
  rw [hy] at h1q h2q
  have h1r : 16777216 * R ≤ 16777217 * (y * 2 ^ 149) := by
    have : 16777216 * R * b ≤ 16777217 * (y * 2 ^ 149) * b := by linarith
    exact le_of_mul_le_mul_right this hbq
  have h2r : 16777215 * (y * 2 ^ 149) ≤ 16777216 * R := by
    have : 16777215 * (y * 2 ^ 149) * b ≤ 16777216 * R * b := by linarith
    exact le_of_mul_le_mul_right this hbq
  have hT : (0 : ℚ) < 2 ^ 149 := by positivity
  have hR : R = R / 2 ^ 149 * 2 ^ 149 := by
    rw [div_mul_cancel₀]
    exact ne_of_gt hT
  generalize R / 2 ^ 149 = r at *
  rw [hR] at h1r h2r
  have h1s : 16777216 * r ≤ 16777217 * y := by
    have : 16777216 * r * 2 ^ 149 ≤ 16777217 * y * 2 ^ 149 := by linarith
    exact le_of_mul_le_mul_right this hT
  have h2s : 16777215 * y ≤ 16777216 * r := by
    have : 16777215 * y * 2 ^ 149 ≤ 16777216 * r * 2 ^ 149 := by linarith
    exact le_of_mul_le_mul_right this hT
  rw [abs_le]
  constructor
  · have e : y / 2 ^ 24 = y / 16777216 := by norm_num
    rw [e]
    linarith
  · have e : y / 2 ^ 24 = y / 16777216 := by norm_num
    rw [e]
    linarith

/-- The text written for a `float` above `1.175495e-38` is read back by `std::stof` without an
exception, as the binary32 value nearest to the six-digit decimal that was written; the decimal
is within 5 millionths of the value, the value read back within 6 millionths. -/
theorem stof_ostream_float (v : ℚ) (hlo : (1175495 : ℚ) / 10 ^ 44 < v) (hhi : v < 2 ^ 128) :
    stof (ostream_float v) = some (F32.fin (binary32 (writtenDecimal v))) ∧
    |writtenDecimal v - v| ≤ v * (5 / 10 ^ 6) ∧
    |binary32 (writtenDecimal v) - v| ≤ v * (6 / 10 ^ 6) := by
  have hpos : 0 < v := lt_trans (by norm_num) hlo
  have hv : ((v.num.natAbs : ℕ) : ℚ) / v.den = v := natAbs_num_div_den v (le_of_lt hpos)
  have hden : 0 < v.den := v.den_pos
  have hlo2 : (1175495 : ℚ) / 10 ^ 44 < ((v.num.natAbs : ℕ) : ℚ) / v.den := by rw [hv]; exact hlo
  have hhi2 : ((v.num.natAbs : ℕ) : ℚ) / v.den < 2 ^ 128 := by rw [hv]; exact hhi
  obtain ⟨h0, h89, hb1, hb2, hb3⟩ := written_value_bounds v.num.natAbs v.den hden hlo2 hhi2
  obtain ⟨_, _, _, _, hw⟩ := written_digits v.num.natAbs v.den hden h0 h89
  have hprint : ostream_float v = printPositive v.num.natAbs v.den := by
    unfold ostream_float
    rw [if_neg (ne_of_gt hpos), if_neg (not_lt.2 (le_of_lt hpos))]
  have hdec : writtenDecimal v =
      (sixDigits v.num.natAbs v.den (writtenExponent v.num.natAbs v.den) : ℚ) *
        (10 : ℚ) ^ (writtenExponent v.num.natAbs v.den - 5) := by
    unfold writtenDecimal
    rw [if_neg (ne_of_gt hpos)]
    simp only [if_neg (not_lt.2 (le_of_lt hpos))]
  have hsv := scaled_val (sixDigits v.num.natAbs v.den (writtenExponent v.num.natAbs v.den))
    (writtenExponent v.num.natAbs v.den - 5)
  have hsp := scaled_pos (sixDigits v.num.natAbs v.den (writtenExponent v.num.natAbs v.den))
    (writtenExponent v.num.natAbs v.den - 5)
  have hstof := stof_printPositive v.num.natAbs v.den hden h0 h89
  rw [← hw, ← hsv] at hb1 hb2 hb3
  rw [← hsv] at hdec
  rw [hv] at hb3
  generalize (scaled (sixDigits v.num.natAbs v.den (writtenExponent v.num.natAbs v.den)) 10
    (writtenExponent v.num.natAbs v.den - 5)).1 = a at *
  generalize (scaled (sixDigits v.num.natAbs v.den (writtenExponent v.num.natAbs v.den)) 10
    (writtenExponent v.num.natAbs v.den - 5)).2 = b at *
  have hbq : (0 : ℚ) < (b : ℚ) := by exact_mod_cast hsp
  have ha1 : b ≤ a * 2 ^ 126 := by
    rw [div_le_div_iff₀ (by positivity) hbq] at hb1
    have : (b : ℚ) ≤ (a : ℚ) * 2 ^ 126 := by linarith
    exact_mod_cast this
  have ha2 : a ≤ 340282 * 10 ^ 33 * b := by
    rw [div_le_iff₀ hbq] at hb2
    exact_mod_cast hb2
  have hnear := binary32_near a b hsp ha1
  rw [hprint, hstof, stofValue_accept a b hsp ha1 ha2, hdec]
  refine ⟨rfl, hb3, ?_⟩
  have htri := abs_sub_le (binary32 ((a : ℚ) / b)) ((a : ℚ) / b) v
  have hd : (a : ℚ) / b ≤ v + v * (5 / 10 ^ 6) := by
    have := (abs_le.1 hb3).2
    linarith
  have e : (a : ℚ) / b / 2 ^ 24 = (a : ℚ) / b * (1 / 16777216) := by norm_num [div_eq_mul_inv]
  rw [e] at hnear
  generalize (a : ℚ) / b = dd at *
  have h6 : dd * (1 / 16777216) + v * (5 / 10 ^ 6) ≤ v * (6 / 10 ^ 6) := by
    norm_num at hd ⊢
    linarith
  linarith

/-- The text `0` written for the value 0 is read back as 0. -/
theorem stof_ostream_float_zero :
    stof (ostream_float 0) = some (F32.fin (binary32 (writtenDecimal 0))) ∧
    writtenDecimal 0 = 0 ∧ binary32 (writtenDecimal 0) = 0 := by
  refine ⟨by decide!, by decide!, by decide!⟩

/-- The text written for a `float` that is 0 or lies above `1.175495e-38` is read back by
`std::stof` without an exception. -/
theorem stof_written_float (v : ℚ)
    (h : v = 0 ∨ ((1175495 : ℚ) / 10 ^ 44 < v ∧ v < 2 ^ 128)) :
    stof (ostream_float v) = some (F32.fin (binary32 (writtenDecimal v))) ∧
    |writtenDecimal v - v| ≤ v * (5 / 10 ^ 6) ∧
    |binary32 (writtenDecimal v) - v| ≤ v * (6 / 10 ^ 6) := by
  rcases h with h | h
  · subst h
    obtain ⟨h1, h2, h3⟩ := stof_ostream_float_zero
    refine ⟨h1, ?_, ?_⟩
    · rw [h2]
      simp
    · rw [h3]
      simp
  · exact stof_ostream_float v h.1 h.2

/-- Text of a few `float` values and its reading: `0.1f` is written `0.1` and read back as
`0.1f`; `1/3` rounded to binary32 is written `0.333333` and read back as the binary32 value
nearest to 0.333333, another `float`; the smallest normal `float`, `2^-126`, is written
`1.17549e-38`, on which `std::stof` throws. -/
theorem written_float_examples :
    ostream_float (13421773 / 134217728) = String.toList "0.1" ∧
    stof (String.toList "0.1") = some (F32.fin (13421773 / 134217728)) ∧
    binary32 (1 / 3) = 11184811 / 33554432 ∧
    ostream_float (11184811 / 33554432) = String.toList "0.333333" ∧
    writtenDecimal (11184811 / 33554432) = 333333 / 1000000 ∧
    stof (String.toList "0.333333") = some (F32.fin (11184799 / 33554432)) ∧
    ostream_float (1 / 2 ^ 126) = String.toList "1.17549e-38" ∧
    stof (String.toList "1.17549e-38") = none := by
  refine ⟨by decide!, by decide!, by decide!, by decide!, by decide!, by decide!, by decide!,
    by decide!⟩

/-- C18 (amended): for every row written to the efficiency CSV whose `efficiency` and
`avg_pitch` are each 0 or a finite value above `1.175495e-38`, the loader of `hit_plotter` finds
the text of `plane` in the 2nd field, of `efficiency` in the 7th and of `avg_pitch` in the 8th,
and parses the row without a warning: it yields the plane that was written, and for `efficiency`
and `avg_pitch` the binary32 values nearest to the six-digit decimals that were written. Each
decimal is within 5 millionths of the value written, each value read back within 6 millionths
of it. -/
theorem efficiency_csv_round_trip (row : EffRow)
    (hplane : -2147483648 ≤ row.plane ∧ row.plane ≤ 2147483647)
    (heff : row.efficiency = 0 ∨
      ((1175495 : ℚ) / 10 ^ 44 < row.efficiency ∧ row.efficiency < 2 ^ 128))
    (hpitch : row.avgPitch = 0 ∨
      ((1175495 : ℚ) / 10 ^ 44 < row.avgPitch ∧ row.avgPitch < 2 ^ 128)) :
    (plotterFields (csvRow ostream_float row)).getD 1 [] = printInt row.plane ∧
    (plotterFields (csvRow ostream_float row)).getD 6 [] = ostream_float row.efficiency ∧
    (plotterFields (csvRow ostream_float row)).getD 7 [] = ostream_float row.avgPitch ∧
    plotterParseRow stof (csvRow ostream_float row) =
      some (row.plane, F32.fin (binary32 (writtenDecimal row.efficiency)),
        F32.fin (binary32 (writtenDecimal row.avgPitch))) ∧
    |writtenDecimal row.efficiency - row.efficiency| ≤ row.efficiency * (5 / 10 ^ 6) ∧
    |binary32 (writtenDecimal row.efficiency) - row.efficiency| ≤
      row.efficiency * (6 / 10 ^ 6) ∧
    |writtenDecimal row.avgPitch - row.avgPitch| ≤ row.avgPitch * (5 / 10 ^ 6) ∧
    |binary32 (writtenDecimal row.avgPitch) - row.avgPitch| ≤ row.avgPitch * (6 / 10 ^ 6) := by
  have hf := plotterFields_csvRow ostream_float row ostream_float_chars
  have hs := stoi_printInt row.plane hplane.1 hplane.2
  obtain ⟨he1, he2, he3⟩ := stof_written_float row.efficiency heff
  obtain ⟨hp1, hp2, hp3⟩ := stof_written_float row.avgPitch hpitch
  refine ⟨?_, ?_, ?_, ?_, he2, he3, hp2, hp3⟩
  · rw [hf]
    rfl
  · rw [hf]
    rfl
  · rw [hf]
    rfl
  · unfold plotterParseRow
    simp only [hf, List.getD_cons_succ, List.getD_cons_zero, hs, he1, hp1]

/-- The row `7,0,0,100,25,25,1,0.5`, written for a track with 25 hits of pitch 0.5, is read
back as plane 0, efficiency 1 and pitch 0.5. -/
theorem efficiency_csv_round_trip_witness :
    (-2147483648 ≤ (EffRow.mk 7 0 0 100 25 25 1 (1 / 2)).plane ∧
      (EffRow.mk 7 0 0 100 25 25 1 (1 / 2)).plane ≤ 2147483647) ∧
    ((1175495 : ℚ) / 10 ^ 44 < (EffRow.mk 7 0 0 100 25 25 1 (1 / 2)).efficiency ∧
      (EffRow.mk 7 0 0 100 25 25 1 (1 / 2)).efficiency < 2 ^ 128) ∧
    ((1175495 : ℚ) / 10 ^ 44 < (EffRow.mk 7 0 0 100 25 25 1 (1 / 2)).avgPitch ∧
      (EffRow.mk 7 0 0 100 25 25 1 (1 / 2)).avgPitch < 2 ^ 128) ∧
    binary32 (writtenDecimal 1) = 1 ∧ binary32 (writtenDecimal (1 / 2)) = 1 / 2 ∧
    plotterParseRow stof (csvRow ostream_float (EffRow.mk 7 0 0 100 25 25 1 (1 / 2))) =
      some ((EffRow.mk 7 0 0 100 25 25 1 (1 / 2)).plane,
        F32.fin (binary32 (writtenDecimal (EffRow.mk 7 0 0 100 25 25 1 (1 / 2)).efficiency)),
        F32.fin (binary32 (writtenDecimal (EffRow.mk 7 0 0 100 25 25 1 (1 / 2)).avgPitch))) :=
  ⟨⟨by decide, by decide⟩, ⟨by norm_num, by norm_num⟩, ⟨by norm_num, by norm_num⟩,
    by decide!, by decide!,
    (efficiency_csv_round_trip (EffRow.mk 7 0 0 100 25 25 1 (1 / 2))
      ⟨by decide, by decide⟩ (Or.inr ⟨by norm_num, by norm_num⟩)
      (Or.inr ⟨by norm_num, by norm_num⟩)).2.2.2.1⟩

end HitAnalyzer
